import Mathlib

/-!
# Binary tree nodes, traversals and the plain binary search tree

A shallow embedding of `tree/binnode.go` and `tree/bst.go`.

Go pointers `*BinNode` are addresses into an explicit heap (a list of node
records); `nil` is `none`.  Every Go loop and every recursive Go function is
modelled with a fuel argument: running out of fuel is reported as
`Fault.outOfFuel`, dereferencing `nil` as `Fault.nilDeref`.  A visitor callback
`(key, value) -> ()` is modelled by the list of pairs it is called with, in
call order.
-/

namespace tree

/-- Ways in which a run of the modelled code can fail to return normally. -/
inductive Fault where
  | nilDeref
  | dangling
  | outOfFuel
  deriving DecidableEq, Repr

/-- The type `rbColor` of `binnode.go`: a Go `int`; `0` is the zero value. -/
abbrev rbColor := Int

/-- The constant `Red` (`iota = 1`). -/
def Red : rbColor := 1

/-- The constant `Black` (`iota = 2`). -/
def Black : rbColor := 2

/-- The struct `BinNode`; the three link fields are addresses into the heap. -/
structure BinNode (K V : Type) where
  key : K
  color : rbColor
  height : Int
  value : V
  parent : Option Nat
  lc : Option Nat
  rc : Option Nat
  deriving DecidableEq, Repr

/-- The heap: the node stored at address `a` is the `a`-th entry. -/
abbrev Heap (K V : Type) := List (BinNode K V)

variable {K V : Type}

/-- Reading through a pointer (`e.field` in Go): faults on `nil`. -/
def deref (h : Heap K V) : Option Nat → Except Fault (BinNode K V)
  | none => .error .nilDeref
  | some a =>
    match h[a]? with
    | none => .error .dangling
    | some n => .ok n

/-- Writing through a pointer (`e.field = ...` in Go): faults on `nil`. -/
def store (h : Heap K V) (p : Option Nat) (f : BinNode K V → BinNode K V) :
    Except Fault (Heap K V) :=
  match p with
  | none => .error .nilDeref
  | some a =>
    match h[a]? with
    | none => .error .dangling
    | some n => .ok (h.set a (f n))

/-- The pair handed to the visitor at a node. -/
def kv (n : BinNode K V) : K × V := (n.key, n.value)

/-! ## Recursive traversals -/

/-- The method `dfsPre`. -/
def dfsPre : Nat → Heap K V → Option Nat → Except Fault (List (K × V))
  | 0, _, _ => .error .outOfFuel
  | _ + 1, _, none => .ok []
  | f + 1, h, some a =>
    match deref h (some a) with
    | .error e => .error e
    | .ok n =>
      match dfsPre f h n.lc with
      | .error e => .error e
      | .ok l =>
        match dfsPre f h n.rc with
        | .error e => .error e
        | .ok r => .ok (kv n :: l ++ r)

/-- The method `dfsIn`. -/
def dfsIn : Nat → Heap K V → Option Nat → Except Fault (List (K × V))
  | 0, _, _ => .error .outOfFuel
  | _ + 1, _, none => .ok []
  | f + 1, h, some a =>
    match deref h (some a) with
    | .error e => .error e
    | .ok n =>
      match dfsIn f h n.lc with
      | .error e => .error e
      | .ok l =>
        match dfsIn f h n.rc with
        | .error e => .error e
        | .ok r => .ok (l ++ kv n :: r)

/-- The method `dfsPost`. -/
def dfsPost : Nat → Heap K V → Option Nat → Except Fault (List (K × V))
  | 0, _, _ => .error .outOfFuel
  | _ + 1, _, none => .ok []
  | f + 1, h, some a =>
    match deref h (some a) with
    | .error e => .error e
    | .ok n =>
      match dfsPost f h n.lc with
      | .error e => .error e
      | .ok l =>
        match dfsPost f h n.rc with
        | .error e => .error e
        | .ok r => .ok (l ++ r ++ [kv n])

/-! ## Explicit-stack traversals

Modelled from the spec: the external LIFO stack (package `stack`: push, pop,
peek-top, is-empty) is a list of pointers whose head is the top; the external
FIFO queue (package `queue`) is a list whose head is the front. -/

/-- The closure `goLeftAndVisit` of `stackPre1`. -/
def goLeftAndVisit : Nat → Heap K V → Option Nat → List (Option Nat) → List (K × V) →
    Except Fault (List (Option Nat) × List (K × V))
  | 0, _, _, _, _ => .error .outOfFuel
  | _ + 1, _, none, stk, out => .ok (stk, out)
  | f + 1, h, some a, stk, out =>
    match deref h (some a) with
    | .error e => .error e
    | .ok n =>
      goLeftAndVisit f h n.lc (if n.rc ≠ none then n.rc :: stk else stk) (out ++ [kv n])

/-- The outer loop of `stackPre1`. -/
def stackPre1Loop (inner : Nat) : Nat → Heap K V → Option Nat → List (Option Nat) →
    List (K × V) → Except Fault (List (K × V))
  | 0, _, _, _, _ => .error .outOfFuel
  | f + 1, h, e, stk, out =>
    match goLeftAndVisit inner h e stk out with
    | .error err => .error err
    | .ok (stk1, out1) =>
      match stk1 with
      | [] => .ok out1
      | p :: stk2 => stackPre1Loop inner f h p stk2 out1

/-- The method `stackPre1`. -/
def stackPre1 (fuel : Nat) (h : Heap K V) (e : Option Nat) : Except Fault (List (K × V)) :=
  stackPre1Loop fuel fuel h e [] []

/-- The loop of `stackPre2`. -/
def stackPre2Loop : Nat → Heap K V → List (Option Nat) → List (K × V) →
    Except Fault (List (K × V))
  | 0, _, _, _ => .error .outOfFuel
  | _ + 1, _, [], out => .ok out
  | f + 1, h, e :: stk, out =>
    match deref h e with
    | .error err => .error err
    | .ok n =>
      let stk1 := if n.rc ≠ none then n.rc :: stk else stk
      let stk2 := if n.lc ≠ none then n.lc :: stk1 else stk1
      stackPre2Loop f h stk2 (out ++ [kv n])

/-- The method `stackPre2`: the receiver is pushed unconditionally. -/
def stackPre2 (fuel : Nat) (h : Heap K V) (e : Option Nat) : Except Fault (List (K × V)) :=
  stackPre2Loop fuel h [e] []

/-- The method `travelPre`. -/
def travelPre (fuel : Nat) (h : Heap K V) (e : Option Nat) : Except Fault (List (K × V)) :=
  stackPre1 fuel h e

/-- The closure `goLeft` of `stackIn1`. -/
def goLeftIn : Nat → Heap K V → Option Nat → List (Option Nat) →
    Except Fault (List (Option Nat))
  | 0, _, _, _ => .error .outOfFuel
  | _ + 1, _, none, stk => .ok stk
  | f + 1, h, some a, stk =>
    match deref h (some a) with
    | .error e => .error e
    | .ok n => goLeftIn f h n.lc (some a :: stk)

/-- The outer loop of `stackIn1`. -/
def stackIn1Loop (inner : Nat) : Nat → Heap K V → Option Nat → List (Option Nat) →
    List (K × V) → Except Fault (List (K × V))
  | 0, _, _, _, _ => .error .outOfFuel
  | f + 1, h, e, stk, out =>
    match goLeftIn inner h e stk with
    | .error err => .error err
    | .ok stk1 =>
      match stk1 with
      | [] => .ok out
      | p :: stk2 =>
        match deref h p with
        | .error err => .error err
        | .ok n => stackIn1Loop inner f h n.rc stk2 (out ++ [kv n])

/-- The method `stackIn1`. -/
def stackIn1 (fuel : Nat) (h : Heap K V) (e : Option Nat) : Except Fault (List (K × V)) :=
  stackIn1Loop fuel fuel h e [] []

/-- The loop of `stackIn2`. -/
def stackIn2Loop : Nat → Heap K V → Option Nat → List (Option Nat) → List (K × V) →
    Except Fault (List (K × V))
  | 0, _, _, _, _ => .error .outOfFuel
  | f + 1, h, some a, stk, out =>
    match deref h (some a) with
    | .error err => .error err
    | .ok n => stackIn2Loop f h n.lc (some a :: stk) out
  | _ + 1, _, none, [], out => .ok out
  | f + 1, h, none, p :: stk, out =>
    match deref h p with
    | .error err => .error err
    | .ok n => stackIn2Loop f h n.rc stk (out ++ [kv n])

/-- The method `stackIn2`. -/
def stackIn2 (fuel : Nat) (h : Heap K V) (e : Option Nat) : Except Fault (List (K × V)) :=
  stackIn2Loop fuel h e [] []

/-- The method `travelIn`. -/
def travelIn (fuel : Nat) (h : Heap K V) (e : Option Nat) : Except Fault (List (K × V)) :=
  stackIn2 fuel h e

/-- The closure `goLeft` of `stackPost`. -/
def goLeftPost : Nat → Heap K V → Option Nat → List (Option Nat) →
    Except Fault (List (Option Nat))
  | 0, _, _, _ => .error .outOfFuel
  | _ + 1, _, none, stk => .ok stk
  | f + 1, h, some a, stk =>
    match deref h (some a) with
    | .error e => .error e
    | .ok n =>
      goLeftPost f h n.lc (if n.rc ≠ none then n.rc :: some a :: stk else some a :: stk)

/-- The main loop of `stackPost`. -/
def stackPostLoop (inner : Nat) : Nat → Heap K V → List (Option Nat) → List (K × V) →
    Except Fault (List (K × V))
  | 0, _, _, _ => .error .outOfFuel
  | _ + 1, _, [], out => .ok out
  | f + 1, h, e :: stk, out =>
    match deref h e with
    | .error err => .error err
    | .ok n =>
      match stk with
      | [] => stackPostLoop inner f h [] (out ++ [kv n])
      | top :: rest =>
        if n.parent ≠ top then
          match goLeftPost inner h top rest with
          | .error err => .error err
          | .ok stk1 => stackPostLoop inner f h stk1 (out ++ [kv n])
        else stackPostLoop inner f h (top :: rest) (out ++ [kv n])

/-- The method `stackPost`. -/
def stackPost (fuel : Nat) (h : Heap K V) (e : Option Nat) : Except Fault (List (K × V)) :=
  match goLeftPost fuel h e [] with
  | .error err => .error err
  | .ok stk => stackPostLoop fuel fuel h stk []

/-- The loop of `travelLevel`; `que` is the queue, front first. -/
def travelLevelLoop : Nat → Heap K V → List (Option Nat) → List (K × V) →
    Except Fault (List (K × V))
  | 0, _, _, _ => .error .outOfFuel
  | _ + 1, _, [], out => .ok out
  | f + 1, h, none :: que, out => travelLevelLoop f h que out
  | f + 1, h, some a :: que, out =>
    match deref h (some a) with
    | .error err => .error err
    | .ok n => travelLevelLoop f h (que ++ [n.lc, n.rc]) (out ++ [kv n])

/-- The method `travelLevel`. -/
def travelLevel (fuel : Nat) (h : Heap K V) (e : Option Nat) : Except Fault (List (K × V)) :=
  travelLevelLoop fuel h [e] []

/-! ## Morris traversals -/

/-- The loop of `lTreePred`: `x` is the node whose predecessor is sought. -/
def lTreePredLoop : Nat → Heap K V → Option Nat → Option Nat → Except Fault (Option Nat)
  | 0, _, _, _ => .error .outOfFuel
  | f + 1, h, x, pred =>
    match deref h pred with
    | .error e => .error e
    | .ok p =>
      if p.rc ≠ none ∧ p.rc ≠ x then lTreePredLoop f h x p.rc else .ok pred

/-- The function `lTreePred`. -/
def lTreePred (fuel : Nat) (h : Heap K V) (x : Option Nat) : Except Fault (Option Nat) :=
  match deref h x with
  | .error e => .error e
  | .ok n => lTreePredLoop fuel h x n.lc

/-- The loop of `morrisIn`; returns the final heap and the visit sequence. -/
def morrisInLoop (inner : Nat) : Nat → Heap K V → Option Nat → List (K × V) →
    Except Fault (Heap K V × List (K × V))
  | 0, _, _, _ => .error .outOfFuel
  | _ + 1, h, none, out => .ok (h, out)
  | f + 1, h, some a, out =>
    match deref h (some a) with
    | .error e => .error e
    | .ok n =>
      if n.lc = none then morrisInLoop inner f h n.rc (out ++ [kv n])
      else
        match lTreePred inner h (some a) with
        | .error e => .error e
        | .ok pred =>
          match deref h pred with
          | .error e => .error e
          | .ok p =>
            if p.rc = none then
              match store h pred (fun q => { q with rc := some a }) with
              | .error e => .error e
              | .ok h1 =>
                match deref h1 (some a) with
                | .error e => .error e
                | .ok n1 => morrisInLoop inner f h1 n1.lc out
            else
              match store h pred (fun q => { q with rc := none }) with
              | .error e => .error e
              | .ok h1 =>
                match deref h1 (some a) with
                | .error e => .error e
                | .ok n1 => morrisInLoop inner f h1 n1.rc (out ++ [kv n])

/-- The method `morrisIn`. -/
def morrisIn (fuel : Nat) (h : Heap K V) (e : Option Nat) :
    Except Fault (Heap K V × List (K × V)) :=
  morrisInLoop fuel fuel h e []

/-- The loop of `morrisPre`. -/
def morrisPreLoop (inner : Nat) : Nat → Heap K V → Option Nat → List (K × V) →
    Except Fault (Heap K V × List (K × V))
  | 0, _, _, _ => .error .outOfFuel
  | _ + 1, h, none, out => .ok (h, out)
  | f + 1, h, some a, out =>
    match deref h (some a) with
    | .error e => .error e
    | .ok n =>
      if n.lc = none then morrisPreLoop inner f h n.rc (out ++ [kv n])
      else
        match lTreePred inner h (some a) with
        | .error e => .error e
        | .ok pred =>
          match deref h pred with
          | .error e => .error e
          | .ok p =>
            if p.rc = none then
              match store h pred (fun q => { q with rc := some a }) with
              | .error e => .error e
              | .ok h1 =>
                match deref h1 (some a) with
                | .error e => .error e
                | .ok n1 => morrisPreLoop inner f h1 n1.lc (out ++ [kv n])
            else
              match store h pred (fun q => { q with rc := none }) with
              | .error e => .error e
              | .ok h1 =>
                match deref h1 (some a) with
                | .error e => .error e
                | .ok n1 => morrisPreLoop inner f h1 n1.rc out

/-- The method `morrisPre`. -/
def morrisPre (fuel : Nat) (h : Heap K V) (e : Option Nat) :
    Except Fault (Heap K V × List (K × V)) :=
  morrisPreLoop fuel fuel h e []

/-- The closure `reverseVisit` of `morrisPost`: climbs parent links from `p` to `x`. -/
def reverseVisit : Nat → Heap K V → Option Nat → Option Nat → List (K × V) →
    Except Fault (List (K × V))
  | 0, _, _, _, _ => .error .outOfFuel
  | f + 1, h, p, x, out =>
    match deref h p with
    | .error e => .error e
    | .ok n =>
      if p ≠ x then reverseVisit f h n.parent x (out ++ [kv n])
      else .ok (out ++ [kv n])

/-- The loop of `morrisPost`; returns the heap, the node at which the loop broke and the
visit sequence so far. -/
def morrisPostLoop (inner : Nat) : Nat → Heap K V → Option Nat → List (K × V) →
    Except Fault (Heap K V × Option Nat × List (K × V))
  | 0, _, _, _ => .error .outOfFuel
  | f + 1, h, e, out =>
    match deref h e with
    | .error err => .error err
    | .ok n =>
      if n.lc ≠ none then
        match lTreePred inner h e with
        | .error err => .error err
        | .ok pred =>
          match deref h pred with
          | .error err => .error err
          | .ok p =>
            if p.rc = none then
              match store h pred (fun q => { q with rc := e }) with
              | .error err => .error err
              | .ok h1 =>
                match deref h1 e with
                | .error err => .error err
                | .ok n1 => morrisPostLoop inner f h1 n1.lc out
            else
              match store h pred (fun q => { q with rc := none }) with
              | .error err => .error err
              | .ok h1 =>
                match deref h1 e with
                | .error err => .error err
                | .ok n1 =>
                  match reverseVisit inner h1 pred n1.lc out with
                  | .error err => .error err
                  | .ok out1 =>
                    if n1.rc = none then .ok (h1, e, out1)
                    else morrisPostLoop inner f h1 n1.rc out1
      else if n.rc = none then .ok (h, e, out)
      else morrisPostLoop inner f h n.rc out

/-- The method `morrisPost`. -/
def morrisPost (fuel : Nat) (h : Heap K V) (e : Option Nat) :
    Except Fault (Heap K V × List (K × V)) :=
  match morrisPostLoop fuel fuel h e [] with
  | .error err => .error err
  | .ok (h1, e1, out) =>
    match reverseVisit fuel h1 e1 e out with
    | .error err => .error err
    | .ok out1 => .ok (h1, out1)

/-- The method `travelPost`. -/
def travelPost (fuel : Nat) (h : Heap K V) (e : Option Nat) :
    Except Fault (Heap K V × List (K × V)) :=
  morrisPost fuel h e

/-! ## Node queries and rotations -/

/-- The method `isRoot`. -/
def isRoot (h : Heap K V) (e : Option Nat) : Except Fault Bool :=
  match deref h e with
  | .error err => .error err
  | .ok n => .ok (n.parent == none)

/-- The method `isLc`. -/
def isLc (h : Heap K V) (e : Option Nat) : Except Fault Bool :=
  match deref h e with
  | .error err => .error err
  | .ok n =>
    if n.parent = none then .ok false
    else
      match deref h n.parent with
      | .error err => .error err
      | .ok p => .ok (p.lc == e)

/-- The method `isRc`. -/
def isRc (h : Heap K V) (e : Option Nat) : Except Fault Bool :=
  match deref h e with
  | .error err => .error err
  | .ok n =>
    if n.parent = none then .ok false
    else
      match deref h n.parent with
      | .error err => .error err
      | .ok p => .ok (p.rc == e)

/-- A Go value of type `**BinNode`: the place a pointer is stored in, either the `root`
field of a `Bst` or a child field of the node at an address. -/
inductive Slot where
  | root
  | lc (a : Nat)
  | rc (a : Nat)
  deriving DecidableEq, Repr

/-- The method `fromParent`: the slot of the parent, `lc` if `e.isLc()` and `rc` otherwise. -/
def fromParent (h : Heap K V) (e : Option Nat) : Except Fault Slot :=
  match isLc h e with
  | .error err => .error err
  | .ok b =>
    match deref h e with
    | .error err => .error err
    | .ok n =>
      match n.parent with
      | none => .error .nilDeref
      | some pa => .ok (if b then .lc pa else .rc pa)

/-- Assignment through a slot that lies inside a node. -/
def storeSlot (h : Heap K V) (x : Slot) (p : Option Nat) : Except Fault (Heap K V) :=
  match x with
  | .root => .error .nilDeref
  | .lc a => store h (some a) (fun q => { q with lc := p })
  | .rc a => store h (some a) (fun q => { q with rc := p })

/-- The method `getHeight`. -/
def getHeight (h : Heap K V) : Option Nat → Except Fault Int
  | none => .ok (-1)
  | some a =>
    match deref h (some a) with
    | .error err => .error err
    | .ok n => .ok n.height

/-- The method `updateHeight`. -/
def updateHeight (h : Heap K V) (e : Option Nat) : Except Fault (Heap K V) :=
  match deref h e with
  | .error err => .error err
  | .ok n =>
    match getHeight h n.lc with
    | .error err => .error err
    | .ok hl =>
      match getHeight h n.rc with
      | .error err => .error err
      | .ok rh =>
        let m := if hl < rh then rh else hl
        if n.color = Red then store h e (fun q => { q with height := m })
        else store h e (fun q => { q with height := m + 1 })

/-- The statement `if e.parent != nil { *e.fromParent() = c }` of the rotations. -/
def relinkFromParent (h : Heap K V) (e c : Option Nat) : Except Fault (Heap K V) :=
  match deref h e with
  | .error err => .error err
  | .ok n =>
    if n.parent ≠ none then
      match fromParent h e with
      | .error err => .error err
      | .ok x => storeSlot h x c
    else .ok h

/-- The statement `if c != nil { c.parent = e }` of the rotations and of `connect34`. -/
def adopt (h : Heap K V) (c e : Option Nat) : Except Fault (Heap K V) :=
  if c ≠ none then store h c (fun q => { q with parent := e }) else .ok h

/-- The method `rightRotate`; returns the heap and the returned pointer. -/
def rightRotate (h : Heap K V) (e : Option Nat) : Except Fault (Heap K V × Option Nat) :=
  match e with
  | none => .ok (h, none)
  | some _ =>
    match deref h e with
    | .error err => .error err
    | .ok n =>
      if n.lc = none then .ok (h, none)
      else
        let lc := n.lc
        match store h lc (fun q => { q with parent := n.parent }) with
        | .error err => .error err
        | .ok h1 =>
          match relinkFromParent h1 e lc with
          | .error err => .error err
          | .ok h2 =>
            match store h2 e (fun q => { q with parent := lc }) with
            | .error err => .error err
            | .ok h3 =>
              match deref h3 lc with
              | .error err => .error err
              | .ok l3 =>
                match store h3 e (fun q => { q with lc := l3.rc }) with
                | .error err => .error err
                | .ok h4 =>
                  match deref h4 e with
                  | .error err => .error err
                  | .ok n4 =>
                    match adopt h4 n4.lc e with
                    | .error err => .error err
                    | .ok h5 =>
                      match store h5 lc (fun q => { q with rc := e }) with
                      | .error err => .error err
                      | .ok h6 =>
                        match updateHeight h6 e with
                        | .error err => .error err
                        | .ok h7 =>
                          match updateHeight h7 lc with
                          | .error err => .error err
                          | .ok h8 => .ok (h8, lc)

/-- The method `leftRotate`; returns the heap and the returned pointer. -/
def leftRotate (h : Heap K V) (e : Option Nat) : Except Fault (Heap K V × Option Nat) :=
  match e with
  | none => .ok (h, none)
  | some _ =>
    match deref h e with
    | .error err => .error err
    | .ok n =>
      if n.rc = none then .ok (h, none)
      else
        let rc := n.rc
        match store h rc (fun q => { q with parent := n.parent }) with
        | .error err => .error err
        | .ok h1 =>
          match relinkFromParent h1 e rc with
          | .error err => .error err
          | .ok h2 =>
            match store h2 e (fun q => { q with parent := rc }) with
            | .error err => .error err
            | .ok h3 =>
              match deref h3 rc with
              | .error err => .error err
              | .ok r3 =>
                match store h3 e (fun q => { q with rc := r3.lc }) with
                | .error err => .error err
                | .ok h4 =>
                  match deref h4 e with
                  | .error err => .error err
                  | .ok n4 =>
                    match adopt h4 n4.rc e with
                    | .error err => .error err
                    | .ok h5 =>
                      match store h5 rc (fun q => { q with lc := e }) with
                      | .error err => .error err
                      | .ok h6 =>
                        match updateHeight h6 e with
                        | .error err => .error err
                        | .ok h7 =>
                          match updateHeight h7 rc with
                          | .error err => .error err
                          | .ok h8 => .ok (h8, rc)

/-- The first loop of `successor`: descend along left children. -/
def leftmostLoop : Nat → Heap K V → Option Nat → Except Fault (Option Nat)
  | 0, _, _ => .error .outOfFuel
  | f + 1, h, e =>
    match deref h e with
    | .error err => .error err
    | .ok n => if n.lc ≠ none then leftmostLoop f h n.lc else .ok e

/-- The second loop of `successor`: climb while the node is a right child. -/
def climbRcLoop : Nat → Heap K V → Option Nat → Except Fault (Option Nat)
  | 0, _, _ => .error .outOfFuel
  | _ + 1, _, none => .ok none
  | f + 1, h, some a =>
    match isRc h (some a) with
    | .error err => .error err
    | .ok b =>
      if b then
        match deref h (some a) with
        | .error err => .error err
        | .ok n => climbRcLoop f h n.parent
      else .ok (some a)

/-- The method `successor`. -/
def successor (fuel : Nat) (h : Heap K V) (e : Option Nat) : Except Fault (Option Nat) :=
  match deref h e with
  | .error err => .error err
  | .ok n =>
    if n.rc ≠ none then leftmostLoop fuel h n.rc
    else
      match climbRcLoop fuel h e with
      | .error err => .error err
      | .ok none => .ok none
      | .ok (some a) =>
        match deref h (some a) with
        | .error err => .error err
        | .ok m => .ok m.parent

/-! ## The binary search tree of `bst.go`

`bst.go` addresses the key of a node as `Data` and calls `succ()`; these are the field
`key` and the method `successor` of `binnode.go`.  The payload `value` is not used by the
tree, so its nodes carry `Unit`.  Keys are values of `types.Sortable`: `Less` is `<` of a
linear order and Go `==` is equality. -/

/-- The struct `Bst`, with the heap holding its nodes. -/
structure Bst (K : Type) where
  heap : Heap K Unit
  hot : Option Nat
  root : Option Nat
  size : Int
  deriving DecidableEq, Repr

/-- The function `NewBst`. -/
def NewBst : Bst K := { heap := [], hot := none, root := none, size := 0 }

/-- The method `Size`. -/
def Bst.Size (t : Bst K) : Int := t.size

/-- The method `Empty`. -/
def Bst.Empty (t : Bst K) : Bool := decide (t.size ≤ 0)

/-- Reading a slot, `*x`. -/
def Bst.readSlot (t : Bst K) : Slot → Except Fault (Option Nat)
  | .root => .ok t.root
  | .lc a =>
    match deref t.heap (some a) with
    | .error err => .error err
    | .ok n => .ok n.lc
  | .rc a =>
    match deref t.heap (some a) with
    | .error err => .error err
    | .ok n => .ok n.rc

/-- Writing a slot, `*x = p`. -/
def Bst.writeSlot (t : Bst K) (x : Slot) (p : Option Nat) : Except Fault (Bst K) :=
  match x with
  | .root => .ok { t with root := p }
  | .lc a =>
    match store t.heap (some a) (fun q => { q with lc := p }) with
    | .error err => .error err
    | .ok h1 => .ok { t with heap := h1 }
  | .rc a =>
    match store t.heap (some a) (fun q => { q with rc := p }) with
    | .error err => .error err
    | .ok h1 => .ok { t with heap := h1 }

/-- The function `equal`: an absent node matches every key. -/
def equal [DecidableEq K] (h : Heap K Unit) (x : Option Nat) (v : K) : Except Fault Bool :=
  match x with
  | none => .ok true
  | some a =>
    match deref h (some a) with
    | .error err => .error err
    | .ok n => .ok (decide (n.key = v))

/-- The loop of `searchAt`. -/
def searchAtLoop [LinearOrder K] : Nat → Bst K → Slot → K → Except Fault (Bst K × Slot)
  | 0, _, _, _ => .error .outOfFuel
  | f + 1, t, x, v =>
    match t.readSlot x with
    | .error err => .error err
    | .ok px =>
      match equal t.heap px v with
      | .error err => .error err
      | .ok true => .ok (t, x)
      | .ok false =>
        match px, deref t.heap px with
        | _, .error err => .error err
        | none, .ok _ => .error .nilDeref
        | some a, .ok n =>
          searchAtLoop f { t with hot := px } (if v < n.key then .lc a else .rc a) v

/-- The method `searchAt`. -/
def Bst.searchAt [LinearOrder K] (fuel : Nat) (t : Bst K) (x : Slot) (v : K) :
    Except Fault (Bst K × Slot) :=
  match t.readSlot x with
  | .error err => .error err
  | .ok none => searchAtLoop fuel { t with hot := none } x v
  | .ok (some a) =>
    match deref t.heap (some a) with
    | .error err => .error err
    | .ok n => searchAtLoop fuel { t with hot := n.parent } x v

/-- The method `Search`. -/
def Bst.Search [LinearOrder K] (fuel : Nat) (t : Bst K) (v : K) :
    Except Fault (Bst K × Option Nat) :=
  match t.searchAt fuel .root v with
  | .error err => .error err
  | .ok (t1, x) =>
    match t1.readSlot x with
    | .error err => .error err
    | .ok p => .ok (t1, p)

/-- The composite literal `&BinNode{Data: v, parent: hot}`: all other fields are zero. -/
def freshNode (v : K) (hot : Option Nat) : BinNode K Unit :=
  { key := v, color := 0, height := 0, value := (), parent := hot, lc := none, rc := none }

/-- The method `Insert`; a new node is allocated at the first unused address. -/
def Bst.Insert [LinearOrder K] (fuel : Nat) (t : Bst K) (v : K) :
    Except Fault (Bst K × Option Nat) :=
  match t.searchAt fuel .root v with
  | .error err => .error err
  | .ok (t1, x) =>
    match t1.readSlot x with
    | .error err => .error err
    | .ok (some a) => .ok (t1, some a)
    | .ok none =>
      let t2 : Bst K := { t1 with size := t1.size + 1 }
      let a := t2.heap.length
      let t3 : Bst K := { t2 with heap := t2.heap ++ [freshNode v t2.hot] }
      match t3.writeSlot x (some a) with
      | .error err => .error err
      | .ok t4 => .ok (t4, some a)

/-- The three-way branch of `removeAt` on the node `n` found at `px = *x`: returns the tree,
the physically excised node `w` and the replacement `succ`. -/
def Bst.unlink (fuel : Nat) (t : Bst K) (x : Slot) (px : Option Nat) (n : BinNode K Unit) :
    Except Fault (Bst K × Option Nat × Option Nat) :=
  if n.lc = none then
    match t.writeSlot x n.rc with
    | .error err => .error err
    | .ok t1 =>
      match t1.readSlot x with
      | .error err => .error err
      | .ok s => .ok (t1, px, s)
  else if n.rc = none then
    match t.writeSlot x n.lc with
    | .error err => .error err
    | .ok t1 =>
      match t1.readSlot x with
      | .error err => .error err
      | .ok s => .ok (t1, px, s)
  else
    match successor fuel t.heap px with
    | .error err => .error err
    | .ok w =>
      match deref t.heap w with
      | .error err => .error err
      | .ok nw =>
        match store t.heap w (fun q => { q with key := n.key }) with
        | .error err => .error err
        | .ok h1 =>
          match store h1 px (fun q => { q with key := nw.key }) with
          | .error err => .error err
          | .ok h2 =>
            match deref h2 w with
            | .error err => .error err
            | .ok nw2 =>
              let p := nw2.parent
              match (if p = px then store h2 p (fun q => { q with rc := nw2.rc })
                     else store h2 p (fun q => { q with lc := nw2.rc })
                     : Except Fault (Heap K Unit)) with
              | .error err => .error err
              | .ok h3 =>
                match deref h3 w with
                | .error err => .error err
                | .ok nw3 => .ok ({ t with heap := h3 }, w, nw3.rc)

/-- The method `removeAt`; returns the tree and the returned pointer `succ`. -/
def Bst.removeAt (fuel : Nat) (t : Bst K) (x : Slot) : Except Fault (Bst K × Option Nat) :=
  match t.readSlot x with
  | .error err => .error err
  | .ok px =>
    match deref t.heap px with
    | .error err => .error err
    | .ok n =>
      match Bst.unlink fuel t x px n with
      | .error err => .error err
      | .ok (t1, w, s) =>
        match deref t1.heap w with
        | .error err => .error err
        | .ok nw =>
          let t2 : Bst K := { t1 with hot := nw.parent }
          if s ≠ none then
            match store t2.heap s (fun q => { q with parent := t2.hot }) with
            | .error err => .error err
            | .ok h4 => .ok ({ t2 with heap := h4 }, s)
          else .ok (t2, s)

/-- The method `Remove`. -/
def Bst.Remove [LinearOrder K] (fuel : Nat) (t : Bst K) (v : K) :
    Except Fault (Bst K × Bool) :=
  match t.searchAt fuel .root v with
  | .error err => .error err
  | .ok (t1, x) =>
    match t1.readSlot x with
    | .error err => .error err
    | .ok none => .ok (t1, false)
    | .ok (some _) =>
      match Bst.removeAt fuel { t1 with size := t1.size - 1 } x with
      | .error err => .error err
      | .ok (t2, _) => .ok (t2, true)

/-! ## Abstract trees and the heaps that hold them -/

/-- Decidable equality of results, so that closed runs can be compared by evaluation. -/
instance instDecidableEqExcept {ε α : Type} [DecidableEq ε] [DecidableEq α] :
    DecidableEq (Except ε α) := fun x y =>
  match x, y with
  | .ok a, .ok b =>
    if hab : a = b then isTrue (by rw [hab]) else isFalse (fun e => hab (by injection e))
  | .error a, .error b =>
    if hab : a = b then isTrue (by rw [hab]) else isFalse (fun e => hab (by injection e))
  | .ok _, .error _ => isFalse (fun e => by cases e)
  | .error _, .ok _ => isFalse (fun e => by cases e)

/-- A finite binary tree: each node records its address and the pair stored there. -/
inductive Shape (K V : Type) where
  | nil : Shape K V
  | node (l : Shape K V) (a : Nat) (k : K) (v : V) (r : Shape K V) : Shape K V
  deriving DecidableEq, Repr

namespace Shape

/-- Number of nodes. -/
def size : Shape K V → Nat
  | nil => 0
  | node l _ _ _ r => l.size + 1 + r.size

/-- Address of the root, `none` for the empty tree. -/
def root : Shape K V → Option Nat
  | nil => none
  | node _ a _ _ _ => some a

/-- Addresses of the nodes, in in-order. -/
def addrs : Shape K V → List Nat
  | nil => []
  | node l a _ _ r => l.addrs ++ a :: r.addrs

/-- Pre-order sequence: node, left subtree, right subtree. -/
def pre : Shape K V → List (K × V)
  | nil => []
  | node l _ k v r => (k, v) :: l.pre ++ r.pre

/-- In-order sequence: left subtree, node, right subtree. -/
def ino : Shape K V → List (K × V)
  | nil => []
  | node l _ k v r => l.ino ++ (k, v) :: r.ino

/-- Post-order sequence: left subtree, right subtree, node. -/
def post : Shape K V → List (K × V)
  | nil => []
  | node l _ k v r => l.post ++ r.post ++ [(k, v)]

/-- Keys in in-order. -/
def keys (t : Shape K V) : List K := t.ino.map Prod.fst

/-- Address of the last node of the right spine. -/
def rightmost : Shape K V → Option Nat
  | nil => none
  | node _ a _ _ nil => some a
  | node _ _ _ _ r => r.rightmost

/-- The pairs of the right spine, bottom-up. -/
def revSpine : Shape K V → List (K × V)
  | nil => []
  | node _ _ k v r => r.revSpine ++ [(k, v)]

/-- What the loop of `morrisPost` emits for a subtree: everything but its right spine. -/
def postBody : Shape K V → List (K × V)
  | nil => []
  | node l _ _ _ r => l.postBody ++ l.revSpine ++ r.postBody

/-- Iterations of a Morris loop spent inside a subtree. -/
def morrisSteps : Shape K V → Nat
  | nil => 0
  | node nil _ _ _ r => 1 + r.morrisSteps
  | node l _ _ _ r => 2 + l.morrisSteps + r.morrisSteps

end Shape

/-- The heap `h` holds the tree `t` at pointer `p`: child links follow the shape, absent
children are `nil`, and keys and values are the recorded ones. -/
def Owns (h : Heap K V) : Option Nat → Shape K V → Prop
  | p, .nil => p = none
  | p, .node l a k v r =>
    p = some a ∧ ∃ n, h[a]? = some n ∧ n.key = k ∧ n.value = v ∧ Owns h n.lc l ∧ Owns h n.rc r

/-- As `Owns`, but the right link of the last node of the right spine holds `ret` (a thread
installed by a Morris walk) instead of `nil`. -/
def Threaded (h : Heap K V) (ret : Option Nat) : Option Nat → Shape K V → Prop
  | p, .nil => p = ret
  | p, .node l a k v r =>
    p = some a ∧ ∃ n, h[a]? = some n ∧ n.key = k ∧ n.value = v ∧ Owns h n.lc l ∧
      Threaded h ret n.rc r

/-- Every node of `t` has its parent link set to its parent in `t`; the root's is `par`. -/
def Parented (h : Heap K V) : Option Nat → Shape K V → Prop
  | _, .nil => True
  | par, .node l a _ _ r =>
    (∃ n, h[a]? = some n ∧ n.parent = par) ∧ Parented h (some a) l ∧ Parented h (some a) r

/-- Parent links are consistent below the root of `t` (the root's own parent is free). -/
def ParentsBelow (h : Heap K V) : Shape K V → Prop
  | .nil => True
  | .node l a _ _ r => Parented h (some a) l ∧ Parented h (some a) r

/-- A well-formed binary tree rooted at `e`: links follow a finite shape in which no node
occurs twice, and parent links below the root are consistent with child links. -/
structure WellFormed (h : Heap K V) (e : Option Nat) (t : Shape K V) : Prop where
  owns : Owns h e t
  nodup : t.addrs.Nodup
  parents : ParentsBelow h t

namespace Shape

/-- Addresses of the left spine, deepest first: what `goLeft` of `stackIn1` pushes. -/
def leftSpine : Shape K V → List (Option Nat)
  | nil => []
  | node l a _ _ _ => l.leftSpine ++ [some a]

/-- Pairs of the left spine, top-down: what `goLeftAndVisit` visits. -/
def leftSpineKV : Shape K V → List (K × V)
  | nil => []
  | node l _ k v _ => (k, v) :: l.leftSpineKV

/-- Present right children of the left spine, deepest first: what `goLeftAndVisit` pushes. -/
def pendingRight : Shape K V → List (Option Nat)
  | nil => []
  | node l _ _ _ r => l.pendingRight ++ (if r.root ≠ none then [r.root] else [])

/-- Iterations of the outer loop of `stackPre1` spent on a subtree after the first. -/
def pre1Steps : Shape K V → Nat
  | nil => 0
  | node l _ _ _ r => l.pre1Steps + (if r.root ≠ none then 1 + r.pre1Steps else 0)

end Shape

/-- Number of nodes on the right spine. -/
def Shape.spineLen : Shape K V → Nat
  | .nil => 0
  | .node _ _ _ _ r => r.spineLen + 1

/-! ## Abstract search trees -/

namespace Shape

/-- The search-tree order: keys of the left subtree are below the key of the node, keys of
the right subtree are above it. -/
def Ordered [LinearOrder K] : Shape K V → Prop
  | nil => True
  | node l _ k _ r => (∀ x ∈ l.keys, x < k) ∧ (∀ x ∈ r.keys, k < x) ∧ l.Ordered ∧ r.Ordered

/-- The nodes examined by a search for `x`, from the root down. -/
def path [LinearOrder K] (x : K) : Shape K V → List Nat
  | nil => []
  | node l a k _ r => a :: (if k = x then [] else if x < k then l.path x else r.path x)

/-- The node a search for `x` ends at, `none` if it falls off the tree. -/
def find [LinearOrder K] (x : K) : Shape K V → Option Nat
  | nil => none
  | node l a k _ r => if k = x then some a else if x < k then l.find x else r.find x

/-- The slot a search for `x` ends at and the value of `hot` there, when the search enters
the tree through slot `s` with `hot = hot0`. -/
def searchSlot [LinearOrder K] (x : K) : Slot → Option Nat → Shape K V → Slot × Option Nat
  | s, hot0, nil => (s, hot0)
  | s, hot0, node l a k _ r =>
    if k = x then (s, hot0)
    else if x < k then searchSlot x (.lc a) (some a) l
    else searchSlot x (.rc a) (some a) r

/-- The tree with a new leaf at address `a` holding `x`, at the place a search for `x` leaves
the tree; unchanged if `x` is found. -/
def insertAt [LinearOrder K] (x : K) (val : V) (a : Nat) : Shape K V → Shape K V
  | nil => node nil a x val nil
  | node l b k v r =>
    if k = x then node l b k v r
    else if x < k then node (l.insertAt x val a) b k v r
    else node l b k v (r.insertAt x val a)

/-- Address, key and value of the first node in in-order. -/
def leftmost : Shape K V → Option (Nat × K × V)
  | nil => none
  | node nil a k v _ => some (a, k, v)
  | node l _ _ _ _ => l.leftmost

/-- The tree without its first node in in-order: that node's right subtree takes its place. -/
def removeMin : Shape K V → Shape K V
  | nil => nil
  | node nil _ _ _ r => r
  | node l a k v r => node l.removeMin a k v r

/-- The tree after its root is removed as `removeAt` does it: a missing child is replaced by
the other one; with both children the root keeps its address and takes the pair of its
in-order successor, which is removed from the right subtree. -/
def removeRoot : Shape K V → Shape K V
  | nil => nil
  | node nil _ _ _ r => r
  | node l _ _ _ nil => l
  | node l a k v r =>
    match r.leftmost with
    | none => node l a k v r
    | some (_, k1, v1) => node l a k1 v1 r.removeMin

/-- The tree after the node a search for `x` ends at is removed. -/
def remove [LinearOrder K] (x : K) : Shape K V → Shape K V
  | nil => nil
  | node l a k v r =>
    if k = x then (node l a k v r).removeRoot
    else if x < k then node (l.remove x) a k v r
    else node l a k v (r.remove x)

end Shape

/-- The invariant of a `Bst` whose nodes form the tree `T`: links follow `T`, no node occurs
twice, parent links are consistent and the root has none, keys are in search-tree order,
and `size` counts the nodes. -/
structure Bst.Inv [LinearOrder K] (t : Bst K) (T : Shape K Unit) : Prop where
  owns : Owns t.heap t.root T
  nodup : T.addrs.Nodup
  parents : Parented t.heap none T
  ordered : T.Ordered
  size_eq : t.size = T.size

/-- A call of one of the two mutating methods of `Bst`. -/
inductive Op (K : Type) where
  | insert (v : K)
  | remove (v : K)
  deriving DecidableEq, Repr

/-- One call on a tree. -/
def Bst.apply [LinearOrder K] (fuel : Nat) (t : Bst K) : Op K → Except Fault (Bst K)
  | .insert v =>
    match t.Insert fuel v with
    | .error err => .error err
    | .ok (t1, _) => .ok t1
  | .remove v =>
    match t.Remove fuel v with
    | .error err => .error err
    | .ok (t1, _) => .ok t1

/-- A sequence of calls, first to last. -/
def Bst.run [LinearOrder K] (fuel : Nat) : List (Op K) → Bst K → Except Fault (Bst K)
  | [], t => .ok t
  | op :: ops, t =>
    match t.apply fuel op with
    | .error err => .error err
    | .ok t1 => Bst.run fuel ops t1

/-- The trees reachable from `NewBst()` by calls of `Insert` and `Remove`; the fuel is
enough for every call of the sequence to return. -/
def Bst.Reachable [LinearOrder K] (t : Bst K) : Prop :=
  ∃ (ops : List (Op K)) (fuel : Nat), ops.length < fuel ∧ Bst.run fuel ops NewBst = .ok t

/-! ## Trees with a hole -/

/-- One step from a subtree to its parent: the parent node and the sibling subtree. -/
inductive Frame (K V : Type) where
  | left (a : Nat) (k : K) (v : V) (r : Shape K V) : Frame K V
  | right (l : Shape K V) (a : Nat) (k : K) (v : V) : Frame K V

namespace Frame

/-- The parent node with `s` put in the place of the hole. -/
def plug : Frame K V → Shape K V → Shape K V
  | left a k v r, s => .node s a k v r
  | right l a k v, s => .node l a k v s

/-- Address of the parent node. -/
def addr : Frame K V → Nat
  | left a _ _ _ => a
  | right _ a _ _ => a

/-- Addresses of the parent node and of the sibling subtree. -/
def addrs : Frame K V → List Nat
  | left a _ _ r => a :: r.addrs
  | right l a _ _ => a :: l.addrs

/-- The child slot of the parent node in which the hole sits. -/
def slot : Frame K V → Slot
  | left a _ _ _ => .lc a
  | right _ a _ _ => .rc a

end Frame

/-- A tree with a hole: the frames from the hole up to the root, innermost first. -/
abbrev Ctx (K V : Type) := List (Frame K V)

/-- The tree obtained by putting `s` in the hole. -/
def Ctx.fill : Ctx K V → Shape K V → Shape K V
  | [], s => s
  | f :: c, s => Ctx.fill c (f.plug s)

/-- Addresses of all nodes outside the hole. -/
def Ctx.addrs : Ctx K V → List Nat
  | [] => []
  | f :: c => f.addrs ++ Ctx.addrs c

/-- The slot holding the pointer to the hole, `x` when the hole is the whole tree. -/
def Ctx.slot (x : Slot) : Ctx K V → Slot
  | [] => x
  | f :: _ => f.slot

/-- The parent of the root of the hole, `par` when the hole is the whole tree. -/
def Ctx.parent (par : Option Nat) : Ctx K V → Option Nat
  | [] => par
  | f :: _ => some f.addr

/-- The data a heap holds for the links of a node: everything but parent, colour, height. -/
def linksOf (n : BinNode K V) : K × V × Option Nat × Option Nat := (n.key, n.value, n.lc, n.rc)

/-- The heap with the record at an allocated address changed by `f`. -/
def update (h : Heap K V) (a : Nat) (f : BinNode K V → BinNode K V) : Heap K V :=
  match h[a]? with
  | none => h
  | some n => h.set a (f n)

/-- The node whose field a slot is, `none` for the `root` field of the tree. -/
def Slot.holder : Slot → Option Nat
  | .root => none
  | .lc c => some c
  | .rc c => some c

/-- The tree after `*x = p`, for a slot that can be written. -/
def Bst.setSlot (t : Bst K) (x : Slot) (p : Option Nat) : Bst K :=
  match x with
  | .root => { t with root := p }
  | .lc c => { t with heap := update t.heap c (fun q => { q with lc := p }) }
  | .rc c => { t with heap := update t.heap c (fun q => { q with rc := p }) }

/-- The heap after `if succ != nil { succ.parent = hot }`. -/
def reparent (h : Heap K V) (s hot : Option Nat) : Heap K V :=
  match s with
  | none => h
  | some b => update h b (fun q => { q with parent := hot })

/-- The heap after the two-children branch of `removeAt` at node `a` (record `n`) with
successor `w` (record `nw`) whose parent is `q`: keys exchanged, `w` spliced out of `q`, and
the right child of `w` given the parent `q`. -/
def spliced (h : Heap K V) (a w q : Nat) (n nw : BinNode K V) : Heap K V :=
  reparent
    (update (update (update h w (fun m => { m with key := n.key }))
      a (fun m => { m with key := nw.key }))
      q (fun m => if q = a then { m with rc := nw.rc } else { m with lc := nw.rc }))
    nw.rc (some q)

/-- The links a holder of slot `x` has after the slot is set to `p1`. -/
def Slot.relink (x : Slot) (p1 : Option Nat) (nc : BinNode K V) :
    K × V × Option Nat × Option Nat :=
  match x with
  | .root => linksOf nc
  | .lc _ => (nc.key, nc.value, p1, nc.rc)
  | .rc _ => (nc.key, nc.value, nc.lc, p1)

/-- The effect of an operation that replaces the subtree `S` held in slot `x` of `t` by the
subtree `S1`: the slot holds `S1` in the new tree `t1`, parent links in `S1` are consistent
with the parent `par` of the slot, and outside `S` nothing changes but the slot itself. -/
def Bst.Replaced (t t1 : Bst K) (x : Slot) (S S1 : Shape K Unit) (par : Option Nat) : Prop :=
  ∃ p1, t1.readSlot x = .ok p1 ∧ Owns t1.heap p1 S1 ∧ Parented t1.heap par S1 ∧
    t1.size = t.size ∧ (x ≠ .root → t1.root = t.root) ∧ t1.heap.length = t.heap.length ∧
    (∀ y, y ∉ S.addrs → x.holder ≠ some y → t1.heap[y]? = t.heap[y]?) ∧
    (∀ c nc, x.holder = some c → t.heap[c]? = some nc →
      (t1.heap[c]?).map linksOf = some (x.relink p1 nc) ∧
      (t1.heap[c]?).map (·.parent) = some nc.parent)

/-! ## The heap after a rotation -/

/-- The value `getHeight` returns on a pointer that is `nil` or allocated. -/
def heightOf (h : Heap K V) : Option Nat → Int
  | none => -1
  | some a =>
    match h[a]? with
    | none => -1
    | some n => n.height

/-- The height `updateHeight` stores, from the colour and the heights of the children. -/
def newHeight (c : rbColor) (hl hr : Int) : Int :=
  if c = Red then (if hl < hr then hr else hl) else (if hl < hr then hr else hl) + 1

/-- The heap after `updateHeight` on the node at `a`. -/
def heightUpdated (h : Heap K V) (a : Nat) : Heap K V :=
  update h a (fun m =>
    { m with height := newHeight m.color (heightOf h m.lc) (heightOf h m.rc) })

/-- The heap after `if e.parent != nil { *e.fromParent() = b }` for the node `e` at `a` with
parent pointer `par`. -/
def relinkParent (h : Heap K V) (par : Option Nat) (a : Nat) (b : Option Nat) : Heap K V :=
  match par with
  | none => h
  | some pa =>
    if (h[pa]?).map (·.lc) = some (some a) then update h pa (fun m => { m with lc := b })
    else update h pa (fun m => { m with rc := b })

/-- The heap after `rightRotate` on the node at `a` (record `n`) whose left child is at `b`
(record `nb`). -/
def rotHeapR (h : Heap K V) (a b : Nat) (n nb : BinNode K V) : Heap K V :=
  heightUpdated (heightUpdated
    (update (reparent
      (update (update
        (relinkParent (update h b (fun m => { m with parent := n.parent })) n.parent a (some b))
        a (fun m => { m with parent := some b }))
        a (fun m => { m with lc := nb.rc }))
      nb.rc (some a))
      b (fun m => { m with rc := some a }))
    a) b

/-- The heap after `leftRotate` on the node at `a` (record `n`) whose right child is at `b`
(record `nb`). -/
def rotHeapL (h : Heap K V) (a b : Nat) (n nb : BinNode K V) : Heap K V :=
  heightUpdated (heightUpdated
    (update (reparent
      (update (update
        (relinkParent (update h b (fun m => { m with parent := n.parent })) n.parent a (some b))
        a (fun m => { m with parent := some b }))
        a (fun m => { m with rc := nb.lc }))
      nb.lc (some a))
      b (fun m => { m with lc := some a }))
    a) b

/-- The single right rotation at the root of a tree. -/
def Shape.rotR : Shape K V → Shape K V
  | .node (.node ll b kb vb lr) a k v r => .node ll b kb vb (.node lr a k v r)
  | t => t

/-- The single left rotation at the root of a tree. -/
def Shape.rotL : Shape K V → Shape K V
  | .node l a k v (.node rl b kb vb rr) => .node (.node l a k v rl) b kb vb rr
  | t => t

/-! ## Colours, heights above a node, `precursor`, `connect34`, `size` -/

/-- The method `isBlack`. -/
def isBlack (h : Heap K V) (e : Option Nat) : Except Fault Bool :=
  match e with
  | none => .ok true
  | some _ =>
    match deref h e with
    | .error err => .error err
    | .ok n => .ok (decide (n.color = Black))

/-- The method `isRed`. -/
def isRed (h : Heap K V) (e : Option Nat) : Except Fault Bool :=
  match isBlack h e with
  | .error err => .error err
  | .ok b => .ok (!b)

/-- The method `updateHeightAbove`. -/
def updateHeightAbove : Nat → Heap K V → Option Nat → Except Fault (Heap K V)
  | 0, _, _ => .error .outOfFuel
  | _ + 1, h, none => .ok h
  | f + 1, h, some a =>
    match getHeight h (some a) with
    | .error err => .error err
    | .ok h0 =>
      match updateHeight h (some a) with
      | .error err => .error err
      | .ok h1 =>
        match getHeight h1 (some a) with
        | .error err => .error err
        | .ok h2 =>
          if h0 = h2 then .ok h1
          else
            match deref h1 (some a) with
            | .error err => .error err
            | .ok n => updateHeightAbove f h1 n.parent

/-- The first loop of `precursor`: descend along right children. -/
def rightmostLoop : Nat → Heap K V → Option Nat → Except Fault (Option Nat)
  | 0, _, _ => .error .outOfFuel
  | f + 1, h, e =>
    match deref h e with
    | .error err => .error err
    | .ok n => if n.rc ≠ none then rightmostLoop f h n.rc else .ok e

/-- The second loop of `precursor`: climb while the node is a left child. -/
def climbLcLoop : Nat → Heap K V → Option Nat → Except Fault (Option Nat)
  | 0, _, _ => .error .outOfFuel
  | _ + 1, _, none => .ok none
  | f + 1, h, some a =>
    match isLc h (some a) with
    | .error err => .error err
    | .ok b =>
      if b then
        match deref h (some a) with
        | .error err => .error err
        | .ok n => climbLcLoop f h n.parent
      else .ok (some a)

/-- The method `precursor`. -/
def precursor (fuel : Nat) (h : Heap K V) (e : Option Nat) : Except Fault (Option Nat) :=
  match deref h e with
  | .error err => .error err
  | .ok n =>
    if n.lc ≠ none then rightmostLoop fuel h n.lc
    else
      match climbLcLoop fuel h e with
      | .error err => .error err
      | .ok none => .ok none
      | .ok (some a) =>
        match deref h (some a) with
        | .error err => .error err
        | .ok m => .ok m.parent

/-- The statements `x.lc = t; if x.lc != nil { x.lc.parent = x }` of `connect34`. -/
def attachLc (h : Heap K V) (x t : Option Nat) : Except Fault (Heap K V) :=
  match store h x (fun q => { q with lc := t }) with
  | .error err => .error err
  | .ok h1 =>
    match deref h1 x with
    | .error err => .error err
    | .ok n => adopt h1 n.lc x

/-- The statements `x.rc = t; if x.rc != nil { x.rc.parent = x }` of `connect34`. -/
def attachRc (h : Heap K V) (x t : Option Nat) : Except Fault (Heap K V) :=
  match store h x (fun q => { q with rc := t }) with
  | .error err => .error err
  | .ok h1 =>
    match deref h1 x with
    | .error err => .error err
    | .ok n => adopt h1 n.rc x

/-- The function `connect34`; returns the heap and the returned pointer. -/
def connect34 (h : Heap K V) (a b c t0 t1 t2 t3 : Option Nat) :
    Except Fault (Heap K V × Option Nat) :=
  match attachLc h a t0 with
  | .error err => .error err
  | .ok h1 =>
    match attachRc h1 a t1 with
    | .error err => .error err
    | .ok h2 =>
      match updateHeight h2 a with
      | .error err => .error err
      | .ok h3 =>
        match attachLc h3 c t2 with
        | .error err => .error err
        | .ok h4 =>
          match attachRc h4 c t3 with
          | .error err => .error err
          | .ok h5 =>
            match updateHeight h5 c with
            | .error err => .error err
            | .ok h6 =>
              match store h6 b (fun q => { q with lc := a }) with
              | .error err => .error err
              | .ok h7 =>
                match store h7 a (fun q => { q with parent := b }) with
                | .error err => .error err
                | .ok h8 =>
                  match store h8 b (fun q => { q with rc := c }) with
                  | .error err => .error err
                  | .ok h9 =>
                    match store h9 c (fun q => { q with parent := b }) with
                    | .error err => .error err
                    | .ok h10 =>
                      match updateHeight h10 b with
                      | .error err => .error err
                      | .ok h11 => .ok (h11, b)

/-- The method `size` of `BinNode`. -/
def size : Nat → Heap K V → Option Nat → Except Fault Int
  | 0, _, _ => .error .outOfFuel
  | _ + 1, _, none => .ok 0
  | f + 1, h, some a =>
    match deref h (some a) with
    | .error err => .error err
    | .ok n =>
      match size f h n.lc with
      | .error err => .error err
      | .ok sl =>
        match size f h n.rc with
        | .error err => .error err
        | .ok sr => .ok (1 + sl + sr)

/-! ## Helpers for the statements about heights and in-order neighbours -/

/-- The height formula in the words of the specification: the larger of the two child
heights for a red node, one more for a black node. -/
def specHeight (red : Bool) (hl hr : Int) : Int :=
  if red then max hl hr else max hl hr + 1

/-- What `rightRotate` at the node `a` (record `n`) with left child `b` (record `nb`) has
done when it has turned the heap `h` into `h1`: `b` has the former parent of `a` and `a`
as right child, `a` has parent `b` and the former right child of `b` as left child, both
heights are the formula over the new children, the former parent of `a` refers to `b` where
it referred to `a`, the subtree root that changed sides has parent `a`, and no other record
has changed. -/
def RightRotated (h h1 : Heap K V) (a b : Nat) (n nb : BinNode K V) : Prop :=
  h1[b]? = some { nb with
    parent := n.parent, rc := some a,
    height := newHeight nb.color (heightOf h1 nb.lc) (heightOf h1 (some a)) } ∧
  h1[a]? = some { n with
    parent := some b, lc := nb.rc,
    height := newHeight n.color (heightOf h1 nb.rc) (heightOf h1 n.rc) } ∧
  (∀ pa npa, n.parent = some pa → h[pa]? = some npa →
    h1[pa]? = some (if npa.lc = some a then { npa with lc := some b }
      else { npa with rc := some b })) ∧
  (∀ c nc, nb.rc = some c → h[c]? = some nc → h1[c]? = some { nc with parent := some a }) ∧
  (∀ y, y ≠ a → y ≠ b → n.parent ≠ some y → nb.rc ≠ some y → h1[y]? = h[y]?)

/-- What `leftRotate` at the node `a` (record `n`) with right child `b` (record `nb`) has
done when it has turned the heap `h` into `h1`: the mirror image of `RightRotated`. -/
def LeftRotated (h h1 : Heap K V) (a b : Nat) (n nb : BinNode K V) : Prop :=
  h1[b]? = some { nb with
    parent := n.parent, lc := some a,
    height := newHeight nb.color (heightOf h1 (some a)) (heightOf h1 nb.rc) } ∧
  h1[a]? = some { n with
    parent := some b, rc := nb.lc,
    height := newHeight n.color (heightOf h1 n.lc) (heightOf h1 nb.lc) } ∧
  (∀ pa npa, n.parent = some pa → h[pa]? = some npa →
    h1[pa]? = some (if npa.lc = some a then { npa with lc := some b }
      else { npa with rc := some b })) ∧
  (∀ c nc, nb.lc = some c → h[c]? = some nc → h1[c]? = some { nc with parent := some a }) ∧
  (∀ y, y ≠ a → y ≠ b → n.parent ≠ some y → nb.lc ≠ some y → h1[y]? = h[y]?)

/-- The heap after the statements `x.lc = t0; if x.lc != nil { x.lc.parent = x }; x.rc = t1;
if x.rc != nil { x.rc.parent = x }; x.updateHeight()` of `connect34`. -/
def attachStage (h : Heap K V) (x : Nat) (t0 t1 : Option Nat) : Heap K V :=
  heightUpdated
    (reparent (update
      (reparent (update h x (fun m => { m with lc := t0 })) t0 (some x))
      x (fun m => { m with rc := t1 })) t1 (some x))
    x

/-- The heap after `connect34(a, b, c, t0, t1, t2, t3)`. -/
def connect34Heap (h : Heap K V) (a b c : Nat) (t0 t1 t2 t3 : Option Nat) : Heap K V :=
  heightUpdated
    (update (update (update (update
      (attachStage (attachStage h a t0 t1) c t2 t3)
      b (fun m => { m with lc := some a }))
      a (fun m => { m with parent := some b }))
      b (fun m => { m with rc := some c }))
      c (fun m => { m with parent := some b }))
    b

/-- The records of a heap `hX` got from `h` by joining the nodes `a`, `b`, `c` (records `na`,
`nb`, `nc` in `h`) and the subtrees at `t0`, `t1`, `t2`, `t3` in the "3 + 4" way: `a` has the
children `t0`, `t1`, `c` has the children `t2`, `t3`, `b` has the children `a`, `c` and the
parent link `bpar`, the three heights are recomputed in the order `a`, `c`, `b`, present
subtree roots have their new parent, and every other record is the one of `h`; nothing is
said of the record of the node `skip`, if there is one. -/
def Joined34 (h hX : Heap K V) (a b c : Nat) (na nb nc : BinNode K V)
    (t0 t1 t2 t3 bpar skip : Option Nat) : Prop :=
  hX[a]? = some { na with
    lc := t0, rc := t1, parent := some b,
    height := newHeight na.color (heightOf h t0) (heightOf h t1) } ∧
  hX[c]? = some { nc with
    lc := t2, rc := t3, parent := some b,
    height := newHeight nc.color (heightOf h t2) (heightOf h t3) } ∧
  hX[b]? = some { nb with
    lc := some a, rc := some c, parent := bpar,
    height := newHeight nb.color (newHeight na.color (heightOf h t0) (heightOf h t1))
      (newHeight nc.color (heightOf h t2) (heightOf h t3)) } ∧
  (∀ y m, t0 = some y ∨ t1 = some y → h[y]? = some m →
    hX[y]? = some { m with parent := some a }) ∧
  (∀ y m, t2 = some y ∨ t3 = some y → h[y]? = some m →
    hX[y]? = some { m with parent := some c }) ∧
  (∀ y, y ≠ a → y ≠ b → y ≠ c → t0 ≠ some y → t1 ≠ some y → t2 ≠ some y → t3 ≠ some y →
    skip ≠ some y → hX[y]? = h[y]?)

/-- The heap `hR` is the heap `hC` with the local root `b` linked to the parent `par` in the
place of `g`, which is what `connect34` leaves to its caller: `b` has the parent link `par`,
the node `par`, if there is one, refers to `b` in its left link if that link referred to
`g` and in its right link otherwise, and no other record differs. -/
def LinkedToParent (hC hR : Heap K V) (g b : Nat) (par : Option Nat) : Prop :=
  hR[b]? = (hC[b]?).map (fun m => { m with parent := par }) ∧
  (∀ pa, par = some pa → hR[pa]? = (hC[pa]?).map (fun m =>
    if m.lc = some g then { m with lc := some b } else { m with rc := some b })) ∧
  (∀ y, y ≠ b → par ≠ some y → hR[y]? = hC[y]?)

/-- The heaps `hR` (after rotations) and `hC` (after `connect34`) hold the same subtree at
the local root `b`: the join of the nodes `a`, `b`, `c` with the subtrees that the heap `h`
held at `t0`, `t1`, `t2`, `t3`, with the keys and values the nodes had in `h` and the same
cached height at every node; and the two heaps differ only in that in `hR` the local root
is linked to the parent `par` in the place of `g`. -/
def SameSubtree (h hR hC : Heap K V) (a b c g : Nat) (na nb nc : BinNode K V)
    (t0 t1 t2 t3 par : Option Nat) : Prop :=
  ∃ T0 T1 T2 T3 : Shape K V,
    Owns h t0 T0 ∧ Owns h t1 T1 ∧ Owns h t2 T2 ∧ Owns h t3 T3 ∧
    Owns hR (some b) (.node (.node T0 a na.key na.value T1) b nb.key nb.value
      (.node T2 c nc.key nc.value T3)) ∧
    Owns hC (some b) (.node (.node T0 a na.key na.value T1) b nb.key nb.value
      (.node T2 c nc.key nc.value T3)) ∧
    (∀ y ∈ (Shape.node (.node T0 a na.key na.value T1) b nb.key nb.value
        (.node T2 c nc.key nc.value T3)).addrs,
      heightOf hR (some y) = heightOf hC (some y)) ∧
    LinkedToParent hC hR g b par

/-- A record with its cached height erased: two records that agree after this differ at most
in their height. -/
def eraseHeight (n : BinNode K V) : BinNode K V := { n with height := 0 }

/-- The cached height of the node at `y` is what `updateHeight` would store there. -/
def HeightOK (h : Heap K V) (y : Nat) : Prop :=
  ∃ n, h[y]? = some n ∧ n.height = newHeight n.color (heightOf h n.lc) (heightOf h n.rc)

/-- The cached height of the node at `y` satisfies the formula of the specification, with
red and black as `isRed` reports them. -/
def SpecHeightOK (h : Heap K V) (y : Nat) : Prop :=
  ∃ n red, h[y]? = some n ∧ isRed h (some y) = .ok red ∧
    n.height = specHeight red (heightOf h n.lc) (heightOf h n.rc)

/-- Addresses of the nodes of a tree with a hole that come before the hole in in-order. -/
def Ctx.before : Ctx K V → List Nat
  | [] => []
  | .left _ _ _ _ :: c => Ctx.before c
  | .right l a _ _ :: c => Ctx.before c ++ (l.addrs ++ [a])

/-- Addresses of the nodes of a tree with a hole that come after the hole in in-order. -/
def Ctx.after : Ctx K V → List Nat
  | [] => []
  | .left a _ _ r :: c => a :: r.addrs ++ Ctx.after c
  | .right _ _ _ _ :: c => Ctx.after c

/-! ## Example trees -/

/-- A node of a `Bst` over `Nat` as `Insert` leaves it once its children are linked. -/
def demoNode (key : Nat) (parent lc rc : Option Nat) : BinNode Nat Unit :=
  { key := key, color := 0, height := 0, value := (), parent := parent, lc := lc, rc := rc }

/-- The calls `Insert(5)`, `Insert(3)`, `Insert(8)`, `Insert(1)`, `Insert(4)`, `Insert(7)`,
`Insert(9)`. -/
def demoOps : List (Op Nat) :=
  [.insert 5, .insert 3, .insert 8, .insert 1, .insert 4, .insert 7, .insert 9]

/-- The tree the calls `demoOps` build from `NewBst()`: nodes in order of allocation. -/
def demoBst : Bst Nat :=
  { heap := [demoNode 5 none (some 1) (some 2), demoNode 3 (some 0) (some 3) (some 4),
      demoNode 8 (some 0) (some 5) (some 6), demoNode 1 (some 1) none none,
      demoNode 4 (some 1) none none, demoNode 7 (some 2) none none,
      demoNode 9 (some 2) none none],
    hot := some 2, root := some 0, size := 7 }

/-- The shape of `demoBst`. -/
def demoShape : Shape Nat Unit :=
  .node (.node (.node .nil 3 1 () .nil) 1 3 () (.node .nil 4 4 () .nil)) 0 5 ()
    (.node (.node .nil 5 7 () .nil) 2 8 () (.node .nil 6 9 () .nil))

/-- Three nodes `A` (key 10, address 0), `C` (key 30, address 1) and `D` (key 20,
address 2): `C` is the right child of `A`, `D` the left child of `C`. -/
def skewHeap : Heap Nat Unit :=
  [demoNode 10 none none (some 1), demoNode 30 (some 0) (some 2) none,
    demoNode 20 (some 1) none none]

/-- The shape of `skewHeap`. -/
def skewShape : Shape Nat Unit :=
  .node .nil 0 10 () (.node (.node .nil 2 20 () .nil) 1 30 () .nil)

/-- A tree of one node holding key 1. -/
def oneHeap : Heap Nat Unit := [demoNode 1 none none none]

/-- The shape of `oneHeap`. -/
def oneShape : Shape Nat Unit := .node .nil 0 1 () .nil

/-- A node as `newBinNode` colours it (`Black`), with a cached height and its links. -/
def blackNode (key : Nat) (height : Int) (parent lc rc : Option Nat) : BinNode Nat Unit :=
  { key := key, color := Black, height := height, value := (), parent := parent, lc := lc,
    rc := rc }

/-- Four black nodes whose cached heights are consistent: the root (key 4, address 0) has
the children 1 (key 2) and 2 (key 6), and node 1 has the left child 3 (key 1). -/
def tallHeap : Heap Nat Unit :=
  [blackNode 4 2 none (some 1) (some 2), blackNode 2 1 (some 0) (some 3) none,
    blackNode 6 0 (some 0) none none, blackNode 1 0 (some 1) none none]

/-- The shape of `tallHeap` and of `staleHeap`. -/
def tallShape : Shape Nat Unit :=
  .node (.node (.node .nil 3 1 () .nil) 1 2 () .nil) 0 4 () (.node .nil 2 6 () .nil)

/-- The nodes of `tallHeap` just after the leaf 3 was attached to node 1: the cached
heights of node 1 and of the root are those of the tree without the leaf. -/
def staleHeap : Heap Nat Unit :=
  [blackNode 4 1 none (some 1) (some 2), blackNode 2 0 (some 0) (some 3) none,
    blackNode 6 0 (some 0) none none, blackNode 1 0 (some 1) none none]

/-- Five black nodes with consistent heights: the root 0 (key 50) has the left child 1 (key
30), which has the left child 2 (key 10), whose children are 3 (key 5) and 4 (key 20). -/
def kneeHeap : Heap Nat Unit :=
  [blackNode 50 3 none (some 1) none, blackNode 30 2 (some 0) (some 2) none,
    blackNode 10 1 (some 1) (some 3) (some 4), blackNode 5 0 (some 2) none none,
    blackNode 20 0 (some 2) none none]

/-- The shape of `kneeHeap`. -/
def kneeShape : Shape Nat Unit :=
  .node (.node (.node (.node .nil 3 5 () .nil) 2 10 () (.node .nil 4 20 () .nil)) 1 30 () .nil)
    0 50 () .nil

/-- The mirror image of `kneeHeap`: the root 0 (key 10) has the right child 1 (key 30),
which has the right child 2 (key 50), whose children are 4 (key 40) and 3 (key 60). -/
def elbowHeap : Heap Nat Unit :=
  [blackNode 10 3 none none (some 1), blackNode 30 2 (some 0) none (some 2),
    blackNode 50 1 (some 1) (some 4) (some 3), blackNode 60 0 (some 2) none none,
    blackNode 40 0 (some 2) none none]

/-- The shape of `elbowHeap`. -/
def elbowShape : Shape Nat Unit :=
  .node .nil 0 10 () (.node .nil 1 30 ()
    (.node (.node .nil 4 40 () .nil) 2 50 () (.node .nil 3 60 () .nil)))

end tree

/-!
# The vector of `vector/vector.go`

A `Vector` is its slice `elem`: the list of elements and the capacity of the backing
array.  Ranks are Go `int`s, modelled by `Int`; no arithmetic on them can overflow, since
a rank that is used lies between `-1` and the length of a slice, and `lo + hi` in the
binary search is below twice that length.  A Go result pair `(value, error)` is a
`Checked` value; a run-time panic (index or slice bound out of range) is a `Fault`.
Elements are values of `types.Sortable`: `Less` is `<` of a linear order and Go `==` is
equality.
-/

namespace vector

variable {α : Type}

/-- Ways in which a run of the modelled code can fail to return normally. -/
inductive Fault where
  | indexOutOfRange
  | sliceOutOfRange
  | outOfFuel
  deriving DecidableEq, Repr

/-- A Go result pair `(value, error)`: the value with a `nil` error, or a non-`nil` error. -/
inductive Checked (α : Type) where
  | value (x : α)
  | failure
  deriving DecidableEq, Repr

/-- The constant `lowCapacity`. -/
def lowCapacity : Int := 3

/-- The struct `Vector`: the elements of the slice `elem` and its capacity. -/
structure Vector (α : Type) where
  elem : List α
  cap : Int
  deriving DecidableEq, Repr

/-- The index expression `s[r]` on a slice with elements `xs`. -/
def index (xs : List α) (r : Int) : Except Fault α :=
  if 0 ≤ r then
    match xs[r.toNat]? with
    | some x => .ok x
    | none => .error .indexOutOfRange
  else .error .indexOutOfRange

/-- The method `Size`. -/
def Vector.Size (vec : Vector α) : Int := vec.elem.length

/-- The method `Empty`. -/
def Vector.Empty (vec : Vector α) : Bool := decide (vec.Size ≤ 0)

/-- The method `Capacity`. -/
def Vector.Capacity (vec : Vector α) : Int := vec.cap

/-- The method `validRank`. -/
def Vector.validRank (vec : Vector α) (r : Int) : Bool := decide (0 ≤ r) && decide (r < vec.Size)

/-- The method `Front`. -/
def Vector.Front (vec : Vector α) : Except Fault (Checked α) :=
  if vec.Empty then .ok .failure
  else
    match index vec.elem 0 with
    | .error err => .error err
    | .ok x => .ok (.value x)

/-- The method `Back`. -/
def Vector.Back (vec : Vector α) : Except Fault (Checked α) :=
  if vec.Empty then .ok .failure
  else
    match index vec.elem (vec.Size - 1) with
    | .error err => .error err
    | .ok x => .ok (.value x)

/-- The method `At`. -/
def Vector.At (vec : Vector α) (r : Int) : Except Fault (Checked α) :=
  if !vec.validRank r then .ok .failure
  else
    match index vec.elem r with
    | .error err => .error err
    | .ok x => .ok (.value x)

/-- The method `shrink`: the elements are copied to an array of half the capacity. -/
def Vector.shrink (vec : Vector α) : Except Fault (Vector α) :=
  if vec.Size * 4 > vec.Capacity ∨ vec.Capacity < lowCapacity * 2 then .ok vec
  else
    let cap := vec.Capacity / 2
    if vec.Size ≤ cap then .ok { elem := vec.elem, cap := cap }
    else .error .sliceOutOfRange

/-- The method `RemoveRange`; `append(vec.elem[:lo], vec.elem[hi:]...)` keeps the capacity. -/
def Vector.RemoveRange (vec : Vector α) (lo hi : Int) : Except Fault (Vector α) :=
  if lo ≥ hi ∨ !vec.validRank lo then .ok vec
  else if hi > vec.Size then .error .sliceOutOfRange
  else Vector.shrink { elem := vec.elem.take lo.toNat ++ vec.elem.drop hi.toNat, cap := vec.cap }

/-- The method `Remove`; returns the vector and the result pair. -/
def Vector.Remove (vec : Vector α) (r : Int) : Except Fault (Vector α × Checked α) :=
  if !vec.validRank r then .ok (vec, .failure)
  else
    match index vec.elem r with
    | .error err => .error err
    | .ok e =>
      match vec.RemoveRange r (r + 1) with
      | .error err => .error err
      | .ok vec1 => .ok (vec1, .value e)

/-- The method `Pop`. -/
def Vector.Pop (vec : Vector α) : Except Fault (Vector α × Checked α) :=
  vec.Remove (vec.Size - 1)

/-- The loop of `Deduplicate`: `i` is the loop variable and `set` holds the keys of the
map. -/
def deduplicateLoop [DecidableEq α] : Nat → Vector α → Int → List α → Except Fault (Vector α)
  | 0, _, _, _ => .error .outOfFuel
  | f + 1, vec, i, set =>
    if i < vec.Size then
      match index vec.elem i with
      | .error err => .error err
      | .ok x =>
        if x ∈ set then
          match vec.Remove i with
          | .error err => .error err
          | .ok (vec1, _) => deduplicateLoop f vec1 (i + 1) set
        else deduplicateLoop f vec (i + 1) (x :: set)
    else .ok vec

/-- The method `Deduplicate`; returns the vector and the returned number. -/
def Vector.Deduplicate [DecidableEq α] (fuel : Nat) (vec : Vector α) :
    Except Fault (Vector α × Int) :=
  let oldSize := vec.Size
  match deduplicateLoop fuel vec 0 [] with
  | .error err => .error err
  | .ok vec1 => .ok (vec1, oldSize - vec1.Size)

/-- The method `binarySearchV2`; `>> 1` on a Go `int` is division by two rounding down. -/
def Vector.binarySearchV2 [LinearOrder α] : Nat → Vector α → α → Int → Int → Except Fault Int
  | 0, _, _, _, _ => .error .outOfFuel
  | f + 1, vec, v, lo, hi =>
    if lo < hi then
      let mid := (lo + hi) / 2
      match index vec.elem mid with
      | .error err => .error err
      | .ok x =>
        if v < x then Vector.binarySearchV2 f vec v lo mid
        else Vector.binarySearchV2 f vec v (mid + 1) hi
    else .ok (lo - 1)

/-- The method `SearchRange`. -/
def Vector.SearchRange [LinearOrder α] (fuel : Nat) (vec : Vector α) (v : α) (lo hi : Int) :
    Except Fault Int :=
  vec.binarySearchV2 fuel v lo hi

/-- The method `Search`. -/
def Vector.Search [LinearOrder α] (fuel : Nat) (vec : Vector α) (v : α) : Except Fault Int :=
  vec.SearchRange fuel v 0 vec.Size

end vector

namespace tree

variable {K V : Type}


/-! # Heaps: reading, writing and framing -/

theorem deref_of_get {h : Heap K V} {a : Nat} {n : BinNode K V} (hn : h[a]? = some n) :
    deref h (some a) = .ok n := by
  simp [deref, hn]

theorem store_of_get {h : Heap K V} {a : Nat} {n : BinNode K V} (hn : h[a]? = some n)
    (f : BinNode K V → BinNode K V) : store h (some a) f = .ok (h.set a (f n)) := by
  simp [store, hn]

theorem get_set_self {h : Heap K V} {a : Nat} {n m : BinNode K V} (hn : h[a]? = some n) :
    (h.set a m)[a]? = some m := by
  have hlt : a < h.length := by
    by_contra hge
    rw [List.getElem?_eq_none (by omega)] at hn
    cases hn
  simp [List.getElem?_set_self hlt]

theorem get_set_other {h : Heap K V} {a b : Nat} (m : BinNode K V) (hab : a ≠ b) :
    (h.set a m)[b]? = h[b]? := by
  simp [List.getElem?_set_ne hab]

theorem set_get_same {h : Heap K V} {a : Nat} {n : BinNode K V} (hn : h[a]? = some n) :
    h.set a n = h := by
  apply List.ext_getElem?
  intro i
  by_cases hi : a = i
  · subst hi
    rw [get_set_self hn, hn]
  · rw [get_set_other _ hi]

theorem Owns.frame {h h1 : Heap K V} : ∀ {t : Shape K V} {p : Option Nat},
    Owns h p t → (∀ a ∈ t.addrs, h1[a]? = h[a]?) → Owns h1 p t
  | .nil, _, ho, _ => ho
  | .node l a k v r, p, ho, hfr => by
    obtain ⟨hp, n, hn, hk, hv, hl, hr⟩ := ho
    refine ⟨hp, n, ?_, hk, hv, ?_, ?_⟩
    · rw [hfr a (by simp [Shape.addrs])]
      exact hn
    · exact Owns.frame hl (fun b hb => hfr b (by simp [Shape.addrs, hb]))
    · exact Owns.frame hr (fun b hb => hfr b (by simp [Shape.addrs, hb]))

theorem Threaded.frame_thr {h h1 : Heap K V} {ret : Option Nat} : ∀ {t : Shape K V}
    {p : Option Nat}, Threaded h ret p t → (∀ a ∈ t.addrs, h1[a]? = h[a]?) →
    Threaded h1 ret p t
  | .nil, _, ho, _ => ho
  | .node l a k v r, p, ho, hfr => by
    obtain ⟨hp, n, hn, hk, hv, hl, hr⟩ := ho
    refine ⟨hp, n, ?_, hk, hv, ?_, ?_⟩
    · rw [hfr a (by simp [Shape.addrs])]
      exact hn
    · exact Owns.frame hl (fun b hb => hfr b (by simp [Shape.addrs, hb]))
    · exact Threaded.frame_thr hr (fun b hb => hfr b (by simp [Shape.addrs, hb]))

theorem Parented.frame_par {h h1 : Heap K V} : ∀ {t : Shape K V} {par : Option Nat},
    Parented h par t → (∀ a ∈ t.addrs, (h1[a]?).map (·.parent) = (h[a]?).map (·.parent)) →
    Parented h1 par t
  | .nil, _, _, _ => trivial
  | .node l a k v r, par, ho, hfr => by
    obtain ⟨⟨n, hn, hpar⟩, hl, hr⟩ := ho
    refine ⟨?_, ?_, ?_⟩
    · have h1a := hfr a (by simp [Shape.addrs])
      rw [hn] at h1a
      cases hh : h1[a]? with
      | none => rw [hh] at h1a; cases h1a
      | some m =>
        rw [hh] at h1a
        simp only [Option.map_some', Option.some.injEq] at h1a
        exact ⟨m, rfl, h1a.trans hpar⟩
    · exact Parented.frame_par hl (fun b hb => hfr b (by simp [Shape.addrs, hb]))
    · exact Parented.frame_par hr (fun b hb => hfr b (by simp [Shape.addrs, hb]))

theorem owns_iff_threaded {h : Heap K V} : ∀ {t : Shape K V} {p : Option Nat},
    Owns h p t ↔ Threaded h none p t
  | .nil, _ => Iff.rfl
  | .node l a k v r, p => by
    simp only [Owns, Threaded]
    constructor
    · rintro ⟨hp, n, hn, hk, hv, hl, hr⟩
      exact ⟨hp, n, hn, hk, hv, hl, owns_iff_threaded.mp hr⟩
    · rintro ⟨hp, n, hn, hk, hv, hl, hr⟩
      exact ⟨hp, n, hn, hk, hv, hl, owns_iff_threaded.mpr hr⟩

theorem Owns.root_eq {h : Heap K V} : ∀ {t : Shape K V} {p : Option Nat},
    Owns h p t → p = t.root
  | .nil, _, ho => ho
  | .node _ _ _ _ _, _, ho => ho.1

theorem Shape.size_eq_length_addrs : ∀ t : Shape K V, t.addrs.length = t.size
  | .nil => rfl
  | .node l a k v r => by
    simp [Shape.addrs, Shape.size, Shape.size_eq_length_addrs l, Shape.size_eq_length_addrs r]
    omega

theorem Shape.ino_length : ∀ t : Shape K V, t.ino.length = t.size
  | .nil => rfl
  | .node l a k v r => by
    simp [Shape.ino, Shape.size, Shape.ino_length l, Shape.ino_length r]
    omega

/-! # The recursive traversals compute the sequences of the shape -/

theorem dfsPre_owns {h : Heap K V} : ∀ (t : Shape K V) (p : Option Nat) (f : Nat),
    Owns h p t → t.size < f → dfsPre f h p = .ok t.pre
  | .nil, p, f, ho, hf => by
    cases f with
    | zero => omega
    | succ f => cases ho; rfl
  | .node l a k v r, p, f, ho, hf => by
    obtain ⟨hp, n, hn, hk, hv, hl, hr⟩ := ho
    cases f with
    | zero => omega
    | succ f =>
      simp only [Shape.size] at hf
      subst hp
      simp only [dfsPre, deref_of_get hn, dfsPre_owns l n.lc f hl (by omega),
        dfsPre_owns r n.rc f hr (by omega), Shape.pre, kv, hk, hv]

theorem dfsIn_owns {h : Heap K V} : ∀ (t : Shape K V) (p : Option Nat) (f : Nat),
    Owns h p t → t.size < f → dfsIn f h p = .ok t.ino
  | .nil, p, f, ho, hf => by
    cases f with
    | zero => omega
    | succ f => cases ho; rfl
  | .node l a k v r, p, f, ho, hf => by
    obtain ⟨hp, n, hn, hk, hv, hl, hr⟩ := ho
    cases f with
    | zero => omega
    | succ f =>
      simp only [Shape.size] at hf
      subst hp
      simp only [dfsIn, deref_of_get hn, dfsIn_owns l n.lc f hl (by omega),
        dfsIn_owns r n.rc f hr (by omega), Shape.ino, kv, hk, hv]

theorem dfsPost_owns {h : Heap K V} : ∀ (t : Shape K V) (p : Option Nat) (f : Nat),
    Owns h p t → t.size < f → dfsPost f h p = .ok t.post
  | .nil, p, f, ho, hf => by
    cases f with
    | zero => omega
    | succ f => cases ho; rfl
  | .node l a k v r, p, f, ho, hf => by
    obtain ⟨hp, n, hn, hk, hv, hl, hr⟩ := ho
    cases f with
    | zero => omega
    | succ f =>
      simp only [Shape.size] at hf
      subst hp
      simp only [dfsPost, deref_of_get hn, dfsPost_owns l n.lc f hl (by omega),
        dfsPost_owns r n.rc f hr (by omega), Shape.post, kv, hk, hv]

/-! # The explicit-stack traversals -/

theorem stackIn2Loop_owns {h : Heap K V} : ∀ (t : Shape K V) (p : Option Nat)
    (k : Nat) (stk : List (Option Nat)) (out : List (K × V)), Owns h p t →
    stackIn2Loop (2 * t.size + k) h p stk out = stackIn2Loop k h none stk (out ++ t.ino)
  | .nil, p, k, stk, out, ho => by
    cases ho
    simp [Shape.size, Shape.ino]
  | .node l a kk v r, p, k, stk, out, ho => by
    obtain ⟨hp, n, hn, hk, hv, hl, hr⟩ := ho
    subst hp
    have e1 : 2 * (Shape.node l a kk v r).size + k
        = (2 * l.size + ((2 * r.size + k) + 1)) + 1 := by
      simp only [Shape.size]; omega
    rw [e1, stackIn2Loop, deref_of_get hn]
    simp only
    rw [stackIn2Loop_owns l n.lc _ _ _ hl, stackIn2Loop, deref_of_get hn]
    simp only
    rw [stackIn2Loop_owns r n.rc _ _ _ hr]
    simp [Shape.ino, kv, hk, hv]

theorem stackIn2_owns {h : Heap K V} {t : Shape K V} {p : Option Nat} (ho : Owns h p t)
    {fuel : Nat} (hf : 2 * t.size < fuel) : stackIn2 fuel h p = .ok t.ino := by
  obtain ⟨k, rfl⟩ : ∃ k, fuel = 2 * t.size + (k + 1) := ⟨fuel - 2 * t.size - 1, by omega⟩
  rw [stackIn2, stackIn2Loop_owns t p _ _ _ ho, stackIn2Loop]
  simp

theorem goLeftIn_owns {h : Heap K V} : ∀ (t : Shape K V) (p : Option Nat) (f : Nat)
    (stk : List (Option Nat)), Owns h p t → t.size < f →
    goLeftIn f h p stk = .ok (t.leftSpine ++ stk)
  | .nil, p, f, stk, ho, hf => by
    cases ho
    cases f with
    | zero => omega
    | succ f => simp [goLeftIn, Shape.leftSpine]
  | .node l a kk v r, p, f, stk, ho, hf => by
    obtain ⟨hp, n, hn, hk, hv, hl, hr⟩ := ho
    subst hp
    cases f with
    | zero => omega
    | succ f =>
      simp only [Shape.size] at hf
      rw [goLeftIn, deref_of_get hn]
      simp only
      rw [goLeftIn_owns l n.lc f _ hl (by omega)]
      simp [Shape.leftSpine]

theorem stackIn1Loop_owns {h : Heap K V} {N : Nat} : ∀ (t : Shape K V) (p : Option Nat)
    (k : Nat) (stk : List (Option Nat)) (out : List (K × V)), Owns h p t → t.size < N →
    stackIn1Loop N (t.size + (k + 1)) h p stk out
      = stackIn1Loop N (k + 1) h none stk (out ++ t.ino)
  | .nil, p, k, stk, out, ho, _ => by
    cases ho
    simp [Shape.size, Shape.ino]
  | .node l a kk v r, p, k, stk, out, ho, hi => by
    have ho' := ho
    obtain ⟨hp, n, hn, hk, hv, hl, hr⟩ := ho
    subst hp
    simp only [Shape.size] at hi
    have e1 : (Shape.node l a kk v r).size + (k + 1)
        = (l.size + ((r.size + (k + 1)) + 1)) := by
      simp only [Shape.size]; omega
    have step : stackIn1Loop N (l.size + ((r.size + (k + 1)) + 1)) h (some a) stk out
        = stackIn1Loop N (l.size + ((r.size + (k + 1)) + 1)) h n.lc (some a :: stk) out := by
      have e2 : l.size + ((r.size + (k + 1)) + 1) = (l.size + (r.size + (k + 1))) + 1 := by omega
      rw [e2, stackIn1Loop, stackIn1Loop, goLeftIn_owns _ _ _ _ ho' (by simp only [Shape.size]; omega),
        goLeftIn_owns _ _ _ _ hl (by omega)]
      simp [Shape.leftSpine]
    rw [e1, step, stackIn1Loop_owns l n.lc _ _ _ hl (by omega), stackIn1Loop]
    have hg : goLeftIn N h none (some a :: stk) = .ok (some a :: stk) := by
      cases N with
      | zero => omega
      | succ i => rfl
    rw [hg]
    simp only
    rw [deref_of_get hn]
    simp only
    rw [stackIn1Loop_owns r n.rc _ _ _ hr (by omega)]
    simp [Shape.ino, kv, hk, hv]

theorem stackIn1_owns {h : Heap K V} {t : Shape K V} {p : Option Nat} (ho : Owns h p t)
    {fuel : Nat} (hf : t.size < fuel) : stackIn1 fuel h p = .ok t.ino := by
  obtain ⟨k, hk⟩ : ∃ k, fuel = t.size + (k + 1) := ⟨fuel - t.size - 1, by omega⟩
  have h1 := stackIn1Loop_owns (N := fuel) t p k [] [] ho hf
  rw [stackIn1]
  conv_lhs => arg 2; rw [hk]
  rw [h1, stackIn1Loop]
  have hg : goLeftIn fuel h none [] = .ok [] := by
    cases fuel with
    | zero => omega
    | succ i => rfl
  rw [hg]
  simp

theorem goLeftAndVisit_owns {h : Heap K V} : ∀ (t : Shape K V) (p : Option Nat) (f : Nat)
    (stk : List (Option Nat)) (out : List (K × V)), Owns h p t → t.size < f →
    goLeftAndVisit f h p stk out = .ok (t.pendingRight ++ stk, out ++ t.leftSpineKV)
  | .nil, p, f, stk, out, ho, hf => by
    cases ho
    cases f with
    | zero => omega
    | succ f => simp [goLeftAndVisit, Shape.pendingRight, Shape.leftSpineKV]
  | .node l a kk v r, p, f, stk, out, ho, hf => by
    obtain ⟨hp, n, hn, hk, hv, hl, hr⟩ := ho
    subst hp
    cases f with
    | zero => omega
    | succ f =>
      simp only [Shape.size] at hf
      rw [goLeftAndVisit, deref_of_get hn]
      simp only
      rw [goLeftAndVisit_owns l n.lc f _ _ hl (by omega)]
      have hroot := hr.root_eq
      by_cases hrc : n.rc = none <;>
        simp [Shape.pendingRight, Shape.leftSpineKV, hrc, kv, hk, hv, ← hroot]

theorem Shape.pre1Steps_le : ∀ t : Shape K V, t.pre1Steps ≤ t.size
  | .nil => Nat.le_refl _
  | .node l a k v r => by
    have hl := Shape.pre1Steps_le l
    have hr := Shape.pre1Steps_le r
    simp only [Shape.pre1Steps, Shape.size]
    split <;> omega

theorem stackPre1Loop_owns {h : Heap K V} {N : Nat} : ∀ (t : Shape K V) (p : Option Nat)
    (k : Nat) (stk : List (Option Nat)) (out : List (K × V)), Owns h p t → t.size < N →
    stackPre1Loop N (t.pre1Steps + (k + 1)) h p stk out
      = (match stk with
         | [] => .ok (out ++ t.pre)
         | q :: stk2 => stackPre1Loop N k h q stk2 (out ++ t.pre))
  | .nil, p, k, stk, out, ho, hi => by
    cases ho
    have hg : goLeftAndVisit N h none stk out = .ok (stk, out) := by
      cases N with
      | zero => simp [Shape.size] at hi
      | succ i => rfl
    have e0 : (Shape.nil : Shape K V).pre1Steps + (k + 1) = k + 1 := by
      simp [Shape.pre1Steps]
    rw [e0, stackPre1Loop, hg]
    cases stk <;> simp [Shape.pre]
  | .node l a kk v r, p, k, stk, out, ho, hi => by
    have ho' := ho
    obtain ⟨hp, n, hn, hk, hv, hl, hr⟩ := ho
    subst hp
    simp only [Shape.size] at hi
    have hroot := hr.root_eq
    have step : ∀ F, stackPre1Loop N (F + 1) h (some a) stk out
        = stackPre1Loop N (F + 1) h n.lc (if n.rc ≠ none then n.rc :: stk else stk)
            (out ++ [kv n]) := by
      intro F
      rw [stackPre1Loop, stackPre1Loop,
        goLeftAndVisit_owns _ _ _ _ _ ho' (by simp only [Shape.size]; omega),
        goLeftAndVisit_owns _ _ _ _ _ hl (by omega)]
      by_cases hrc : n.rc = none <;>
        simp [Shape.pendingRight, Shape.leftSpineKV, ← hroot, kv, hk, hv, hrc]
    by_cases hrc : n.rc = none
    · have hr0 : r = .nil := by
        cases r with
        | nil => rfl
        | node _ _ _ _ _ => rw [hrc] at hr; cases hr.1
      subst hr0
      have e1 : (Shape.node l a kk v .nil).pre1Steps + (k + 1) = (l.pre1Steps + k) + 1 := by
        simp [Shape.pre1Steps, Shape.root]; omega
      rw [e1, step]
      have e2 : (l.pre1Steps + k) + 1 = l.pre1Steps + (k + 1) := by omega
      rw [e2, stackPre1Loop_owns l n.lc k _ _ hl (by omega)]
      simp [hrc, Shape.pre, kv, hk, hv]
    · have hr1 : r.root ≠ none := by rw [← hroot]; exact hrc
      have e1 : (Shape.node l a kk v r).pre1Steps + (k + 1)
          = (l.pre1Steps + (r.pre1Steps + (k + 1))) + 1 := by
        simp [Shape.pre1Steps, hr1]; omega
      rw [e1, step]
      have e2 : (l.pre1Steps + (r.pre1Steps + (k + 1))) + 1
          = l.pre1Steps + ((r.pre1Steps + (k + 1)) + 1) := by omega
      rw [e2, stackPre1Loop_owns l n.lc _ _ _ hl (by omega)]
      simp only [hrc, ne_eq, not_false_eq_true, if_true]
      rw [stackPre1Loop_owns r n.rc k _ _ hr (by omega)]
      simp [Shape.pre, kv, hk, hv]

theorem stackPre1_owns {h : Heap K V} {t : Shape K V} {p : Option Nat} (ho : Owns h p t)
    {fuel : Nat} (hf : t.size < fuel) : stackPre1 fuel h p = .ok t.pre := by
  have hle := Shape.pre1Steps_le t
  obtain ⟨k, hk⟩ : ∃ k, fuel = t.pre1Steps + (k + 1) := ⟨fuel - t.pre1Steps - 1, by omega⟩
  have h1 := stackPre1Loop_owns (N := fuel) t p k [] [] ho hf
  rw [stackPre1]
  conv_lhs => arg 2; rw [hk]
  rw [h1]
  simp

theorem stackPre2Loop_owns {h : Heap K V} : ∀ (t : Shape K V) (p : Option Nat)
    (k : Nat) (stk : List (Option Nat)) (out : List (K × V)), Owns h p t →
    stackPre2Loop (t.size + k) h (if p ≠ none then p :: stk else stk) out
      = stackPre2Loop k h stk (out ++ t.pre)
  | .nil, p, k, stk, out, ho => by
    cases ho
    simp [Shape.size, Shape.pre]
  | .node l a kk v r, p, k, stk, out, ho => by
    obtain ⟨hp, n, hn, hk, hv, hl, hr⟩ := ho
    subst hp
    have e1 : (Shape.node l a kk v r).size + k = (l.size + (r.size + k)) + 1 := by
      simp only [Shape.size]; omega
    rw [e1]
    simp only [ne_eq, not_false_eq_true, if_true, reduceCtorEq]
    rw [stackPre2Loop, deref_of_get hn]
    simp only
    rw [stackPre2Loop_owns l n.lc _ _ _ hl, stackPre2Loop_owns r n.rc _ _ _ hr]
    simp [Shape.pre, kv, hk, hv]

theorem stackPre2_owns {h : Heap K V} {t : Shape K V} {a : Nat} (ho : Owns h (some a) t)
    {fuel : Nat} (hf : t.size < fuel) : stackPre2 fuel h (some a) = .ok t.pre := by
  obtain ⟨k, rfl⟩ : ∃ k, fuel = t.size + (k + 1) := ⟨fuel - t.size - 1, by omega⟩
  have h1 := stackPre2Loop_owns t (some a) (k + 1) [] [] ho
  simp only [ne_eq, not_false_eq_true, if_true, reduceCtorEq] at h1
  rw [stackPre2, h1, stackPre2Loop]
  simp


/-! # Threads: the right spine of a subtree and the predecessor search -/

theorem Shape.mem_addrs_node {l r : Shape K V} {a x : Nat} {k : K} {v : V} :
    x ∈ (Shape.node l a k v r).addrs ↔ x ∈ l.addrs ∨ x = a ∨ x ∈ r.addrs := by
  simp [Shape.addrs]

theorem Shape.nodup_node {l r : Shape K V} {a : Nat} {k : K} {v : V}
    (hnd : (Shape.node l a k v r).addrs.Nodup) :
    l.addrs.Nodup ∧ r.addrs.Nodup ∧ a ∉ l.addrs ∧ a ∉ r.addrs ∧
      (∀ x, x ∈ l.addrs → x ∉ r.addrs) := by
  simp only [Shape.addrs] at hnd
  rw [List.nodup_append] at hnd
  obtain ⟨h1, h2, h3⟩ := hnd
  rw [List.nodup_cons] at h2
  refine ⟨h1, h2.2, ?_, h2.1, ?_⟩
  · intro ha
    exact h3 ha (List.mem_cons_self _ _)
  · intro x hx hx'
    exact h3 hx (List.mem_cons_of_mem _ hx')

theorem Threaded.rightmost_get {h : Heap K V} {ret : Option Nat} : ∀ {t : Shape K V}
    {p : Option Nat}, Threaded h ret p t → t ≠ .nil →
    ∃ m nm, t.rightmost = some m ∧ h[m]? = some nm ∧ nm.rc = ret ∧ m ∈ t.addrs
  | .nil, _, _, hne => absurd rfl hne
  | .node l a k v .nil, p, ht, _ => by
    obtain ⟨_, n, hn, _, _, _, hr⟩ := ht
    exact ⟨a, n, rfl, hn, hr, by simp [Shape.addrs]⟩
  | .node l a k v (.node rl b kb vb rr), p, ht, _ => by
    obtain ⟨_, n, hn, _, _, _, hr⟩ := ht
    obtain ⟨m, nm, h1, h2, h3, h4⟩ := Threaded.rightmost_get hr (by simp)
    refine ⟨m, nm, ?_, h2, h3, ?_⟩
    · simpa [Shape.rightmost] using h1
    · exact Shape.mem_addrs_node.mpr (Or.inr (Or.inr h4))

theorem lTreePredLoop_threaded {h : Heap K V} {ret x : Option Nat} : ∀ (t : Shape K V)
    (p : Option Nat) (f : Nat), Threaded h ret p t → t ≠ .nil → (ret = none ∨ ret = x) →
    (∀ a ∈ t.addrs, some a ≠ x) → t.size ≤ f → lTreePredLoop f h x p = .ok t.rightmost
  | .nil, _, _, _, hne, _, _, _ => absurd rfl hne
  | .node l a k v .nil, p, f, ht, _, hret, hx, hf => by
    obtain ⟨hp, n, hn, _, _, _, hr⟩ := ht
    subst hp
    cases f with
    | zero => simp [Shape.size] at hf
    | succ f =>
      rw [lTreePredLoop, deref_of_get hn]
      dsimp only
      have hr' : n.rc = ret := hr
      have hc : ¬ (n.rc ≠ none ∧ n.rc ≠ x) := by
        rw [hr']
        rcases hret with h0 | h0 <;> simp [h0]
      rw [if_neg hc]
      rfl
  | .node l a k v (.node rl b kb vb rr), p, f, ht, _, hret, hx, hf => by
    obtain ⟨hp, n, hn, _, _, _, hr⟩ := ht
    subst hp
    cases f with
    | zero => simp [Shape.size] at hf
    | succ f =>
      rw [lTreePredLoop, deref_of_get hn]
      dsimp only
      have hb : n.rc = some b := hr.1
      have hbx : some b ≠ x :=
        hx b (Shape.mem_addrs_node.mpr (Or.inr (Or.inr (Shape.mem_addrs_node.mpr (Or.inr (Or.inl rfl))))))
      have hc : n.rc ≠ none ∧ n.rc ≠ x := by rw [hb]; exact ⟨by simp, hbx⟩
      rw [if_pos hc]
      rw [lTreePredLoop_threaded (.node rl b kb vb rr) n.rc f hr (by simp) hret
        (fun c hc => hx c (Shape.mem_addrs_node.mpr (Or.inr (Or.inr hc))))
        (by simp only [Shape.size] at hf ⊢; omega)]
      simp [Shape.rightmost]

theorem Threaded.rethread {h : Heap K V} {ret x : Option Nat} : ∀ {t : Shape K V}
    {p : Option Nat} {m : Nat} {nm : BinNode K V}, Threaded h ret p t → t.addrs.Nodup →
    t.rightmost = some m → h[m]? = some nm →
    Threaded (h.set m { nm with rc := x }) x p t
  | .nil, _, _, _, _, _, hm, _ => by cases hm
  | .node l a k v .nil, p, m, nm, ht, hnd, hm, hnm => by
    obtain ⟨hp, n, hn, hk, hv, hl, hr⟩ := ht
    obtain ⟨_, _, hal, _, _⟩ := Shape.nodup_node hnd
    simp only [Shape.rightmost, Option.some.injEq] at hm
    subst hm
    have e : nm = n := by
      rw [hn] at hnm
      exact (Option.some.inj hnm).symm
    rw [e]
    refine ⟨hp, { n with rc := x }, get_set_self hn, hk, hv, ?_, rfl⟩
    exact Owns.frame hl (fun b hb => get_set_other _ (fun e => hal (e ▸ hb)))
  | .node l a k v (.node rl b kb vb rr), p, m, nm, ht, hnd, hm, hnm => by
    obtain ⟨hp, n, hn, hk, hv, hl, hr⟩ := ht
    obtain ⟨_, hrnd, hal, har, hlr⟩ := Shape.nodup_node hnd
    have hm' : (Shape.node rl b kb vb rr).rightmost = some m := by
      simpa [Shape.rightmost] using hm
    obtain ⟨m', _, hm1, _, _, hm4⟩ := Threaded.rightmost_get hr (by simp)
    rw [hm'] at hm1
    cases hm1
    have hma : m ≠ a := fun e => har (e ▸ hm4)
    refine ⟨hp, n, ?_, hk, hv, ?_, Threaded.rethread hr hrnd hm' hnm⟩
    · rw [get_set_other _ hma]; exact hn
    · exact Owns.frame hl (fun c hc => get_set_other _ (fun e => hlr c hc (e ▸ hm4)))

theorem set_rc_restore {h : Heap K V} {m : Nat} {nm : BinNode K V} (hnm : h[m]? = some nm)
    (x : Option Nat) :
    (h.set m { nm with rc := x }).set m { ({ nm with rc := x } : BinNode K V) with rc := nm.rc }
      = h := by
  rw [List.set_set]
  exact set_get_same hnm

theorem Shape.morrisSteps_le : ∀ t : Shape K V, t.morrisSteps ≤ 2 * t.size
  | .nil => Nat.le_refl _
  | .node .nil a k v r => by
    have hr := Shape.morrisSteps_le r
    simp only [Shape.morrisSteps, Shape.size]
    omega
  | .node (.node ll b kb vb lr) a k v r => by
    have hl := Shape.morrisSteps_le (.node ll b kb vb lr)
    have hr := Shape.morrisSteps_le r
    simp only [Shape.morrisSteps, Shape.size] at hl ⊢
    omega

/-! # Morris in-order -/

theorem morrisInLoop_threaded {N : Nat} : ∀ (t : Shape K V) (h : Heap K V)
    (ret p : Option Nat) (k : Nat) (out : List (K × V)), Threaded h ret p t →
    t.addrs.Nodup → (∀ u, ret = some u → u ∉ t.addrs) → t.size ≤ N →
    morrisInLoop N (t.morrisSteps + k) h p out = morrisInLoop N k h ret (out ++ t.ino)
  | .nil, h, ret, p, k, out, ht, _, _, _ => by
    cases ht
    simp [Shape.morrisSteps, Shape.ino]
  | .node .nil a kk v r, h, ret, p, k, out, ht, hnd, hret, hi => by
    obtain ⟨hp, n, hn, hk, hv, hl, hr⟩ := ht
    subst hp
    obtain ⟨_, hrnd, _, har, _⟩ := Shape.nodup_node hnd
    have hlc : n.lc = none := hl
    have e1 : (Shape.node .nil a kk v r).morrisSteps + k = (r.morrisSteps + k) + 1 := by
      simp only [Shape.morrisSteps]; omega
    rw [e1, morrisInLoop, deref_of_get hn]
    dsimp only
    rw [if_pos hlc, morrisInLoop_threaded r h ret n.rc k _ hr hrnd
      (fun u hu hm => hret u hu (Shape.mem_addrs_node.mpr (Or.inr (Or.inr hm))))
      (by simp only [Shape.size] at hi; omega)]
    simp [Shape.ino, kv, hk, hv]
  | .node (.node ll b kb vb lr) a kk v r, h, ret, p, k, out, ht, hnd, hret, hi => by
    obtain ⟨hp, n, hn, hk, hv, hl, hr⟩ := ht
    subst hp
    obtain ⟨hlnd, hrnd, hal, har, hlr⟩ := Shape.nodup_node hnd
    have hlth := owns_iff_threaded.mp hl
    have hlc : n.lc = some b := hl.1
    have hlne : ¬ n.lc = none := by rw [hlc]; simp
    have hsz : (Shape.node ll b kb vb lr).size ≤ N ∧ r.size ≤ N := by
      simp only [Shape.size] at hi ⊢; omega
    obtain ⟨m, nm, hm1, hm2, hm3, hm4⟩ := Threaded.rightmost_get hlth (by simp)
    have hma : m ≠ a := fun e => hal (e ▸ hm4)
    have hpred : lTreePred N h (some a) = .ok (some m) := by
      rw [lTreePred, deref_of_get hn]
      dsimp only
      rw [lTreePredLoop_threaded _ n.lc N hlth (by simp) (Or.inl rfl)
        (fun c hc e => hal (by cases e; exact hc)) hsz.1, hm1]
    have hth := Threaded.rethread (x := some a) hlth hlnd hm1 hm2
    have hn1 : (h.set m { nm with rc := some a })[a]? = some n := by
      rw [get_set_other _ hma]; exact hn
    have hm1' : (h.set m { nm with rc := some a })[m]? = some { nm with rc := some a } :=
      get_set_self hm2
    have hpred1 : lTreePred N (h.set m { nm with rc := some a }) (some a) = .ok (some m) := by
      rw [lTreePred, deref_of_get hn1]
      dsimp only
      rw [lTreePredLoop_threaded _ n.lc N hth (by simp) (Or.inr rfl)
        (fun c hc e => hal (by cases e; exact hc)) hsz.1, hm1]
    have hrestore := set_rc_restore hm2 (some a)
    rw [hm3] at hrestore
    have e1 : (Shape.node (.node ll b kb vb lr) a kk v r).morrisSteps + k
        = ((Shape.node ll b kb vb lr).morrisSteps + ((r.morrisSteps + k) + 1)) + 1 := by
      simp only [Shape.morrisSteps]; omega
    rw [e1, morrisInLoop, deref_of_get hn]
    dsimp only
    rw [if_neg hlne, hpred]
    dsimp only
    rw [deref_of_get hm2]
    dsimp only
    rw [if_pos hm3, store_of_get hm2]
    dsimp only
    rw [deref_of_get hn1]
    dsimp only
    rw [morrisInLoop_threaded _ _ (some a) n.lc _ _ hth hlnd
      (fun u hu => by cases hu; exact hal) hsz.1]
    rw [morrisInLoop, deref_of_get hn1]
    dsimp only
    rw [if_neg hlne, hpred1]
    dsimp only
    rw [deref_of_get hm1']
    dsimp only
    rw [if_neg (by simp), store_of_get hm1']
    dsimp only
    rw [hrestore, deref_of_get hn]
    dsimp only
    rw [morrisInLoop_threaded r h ret n.rc k _ hr hrnd
      (fun u hu hm => hret u hu (Shape.mem_addrs_node.mpr (Or.inr (Or.inr hm)))) hsz.2]
    simp [Shape.ino, kv, hk, hv]

theorem morrisIn_owns {h : Heap K V} {t : Shape K V} {p : Option Nat} (ho : Owns h p t)
    (hnd : t.addrs.Nodup) {fuel : Nat} (hf : 2 * t.size < fuel) :
    morrisIn fuel h p = .ok (h, t.ino) := by
  have hle := Shape.morrisSteps_le t
  obtain ⟨k, hk⟩ : ∃ k, fuel = t.morrisSteps + (k + 1) := ⟨fuel - t.morrisSteps - 1, by omega⟩
  have h1 := morrisInLoop_threaded (N := fuel) t h none p (k + 1) [] (owns_iff_threaded.mp ho)
    hnd (fun u hu => by cases hu) (by omega)
  rw [morrisIn]
  conv_lhs => arg 2; rw [hk]
  rw [h1, morrisInLoop]
  simp

/-! # Morris pre-order -/

theorem morrisPreLoop_threaded {N : Nat} : ∀ (t : Shape K V) (h : Heap K V)
    (ret p : Option Nat) (k : Nat) (out : List (K × V)), Threaded h ret p t →
    t.addrs.Nodup → (∀ u, ret = some u → u ∉ t.addrs) → t.size ≤ N →
    morrisPreLoop N (t.morrisSteps + k) h p out = morrisPreLoop N k h ret (out ++ t.pre)
  | .nil, h, ret, p, k, out, ht, _, _, _ => by
    cases ht
    simp [Shape.morrisSteps, Shape.pre]
  | .node .nil a kk v r, h, ret, p, k, out, ht, hnd, hret, hi => by
    obtain ⟨hp, n, hn, hk, hv, hl, hr⟩ := ht
    subst hp
    obtain ⟨_, hrnd, _, har, _⟩ := Shape.nodup_node hnd
    have hlc : n.lc = none := hl
    have e1 : (Shape.node .nil a kk v r).morrisSteps + k = (r.morrisSteps + k) + 1 := by
      simp only [Shape.morrisSteps]; omega
    rw [e1, morrisPreLoop, deref_of_get hn]
    dsimp only
    rw [if_pos hlc, morrisPreLoop_threaded r h ret n.rc k _ hr hrnd
      (fun u hu hm => hret u hu (Shape.mem_addrs_node.mpr (Or.inr (Or.inr hm))))
      (by simp only [Shape.size] at hi; omega)]
    simp [Shape.pre, kv, hk, hv]
  | .node (.node ll b kb vb lr) a kk v r, h, ret, p, k, out, ht, hnd, hret, hi => by
    obtain ⟨hp, n, hn, hk, hv, hl, hr⟩ := ht
    subst hp
    obtain ⟨hlnd, hrnd, hal, har, hlr⟩ := Shape.nodup_node hnd
    have hlth := owns_iff_threaded.mp hl
    have hlc : n.lc = some b := hl.1
    have hlne : ¬ n.lc = none := by rw [hlc]; simp
    have hsz : (Shape.node ll b kb vb lr).size ≤ N ∧ r.size ≤ N := by
      simp only [Shape.size] at hi ⊢; omega
    obtain ⟨m, nm, hm1, hm2, hm3, hm4⟩ := Threaded.rightmost_get hlth (by simp)
    have hma : m ≠ a := fun e => hal (e ▸ hm4)
    have hpred : lTreePred N h (some a) = .ok (some m) := by
      rw [lTreePred, deref_of_get hn]
      dsimp only
      rw [lTreePredLoop_threaded _ n.lc N hlth (by simp) (Or.inl rfl)
        (fun c hc e => hal (by cases e; exact hc)) hsz.1, hm1]
    have hth := Threaded.rethread (x := some a) hlth hlnd hm1 hm2
    have hn1 : (h.set m { nm with rc := some a })[a]? = some n := by
      rw [get_set_other _ hma]; exact hn
    have hm1' : (h.set m { nm with rc := some a })[m]? = some { nm with rc := some a } :=
      get_set_self hm2
    have hpred1 : lTreePred N (h.set m { nm with rc := some a }) (some a) = .ok (some m) := by
      rw [lTreePred, deref_of_get hn1]
      dsimp only
      rw [lTreePredLoop_threaded _ n.lc N hth (by simp) (Or.inr rfl)
        (fun c hc e => hal (by cases e; exact hc)) hsz.1, hm1]
    have hrestore := set_rc_restore hm2 (some a)
    rw [hm3] at hrestore
    have e1 : (Shape.node (.node ll b kb vb lr) a kk v r).morrisSteps + k
        = ((Shape.node ll b kb vb lr).morrisSteps + ((r.morrisSteps + k) + 1)) + 1 := by
      simp only [Shape.morrisSteps]; omega
    rw [e1, morrisPreLoop, deref_of_get hn]
    dsimp only
    rw [if_neg hlne, hpred]
    dsimp only
    rw [deref_of_get hm2]
    dsimp only
    rw [if_pos hm3, store_of_get hm2]
    dsimp only
    rw [deref_of_get hn1]
    dsimp only
    rw [morrisPreLoop_threaded _ _ (some a) n.lc _ _ hth hlnd
      (fun u hu => by cases hu; exact hal) hsz.1]
    rw [morrisPreLoop, deref_of_get hn1]
    dsimp only
    rw [if_neg hlne, hpred1]
    dsimp only
    rw [deref_of_get hm1']
    dsimp only
    rw [if_neg (by simp), store_of_get hm1']
    dsimp only
    rw [hrestore, deref_of_get hn]
    dsimp only
    rw [morrisPreLoop_threaded r h ret n.rc k _ hr hrnd
      (fun u hu hm => hret u hu (Shape.mem_addrs_node.mpr (Or.inr (Or.inr hm)))) hsz.2]
    simp [Shape.pre, kv, hk, hv]

theorem morrisPre_owns {h : Heap K V} {t : Shape K V} {p : Option Nat} (ho : Owns h p t)
    (hnd : t.addrs.Nodup) {fuel : Nat} (hf : 2 * t.size < fuel) :
    morrisPre fuel h p = .ok (h, t.pre) := by
  have hle := Shape.morrisSteps_le t
  obtain ⟨k, hk⟩ : ∃ k, fuel = t.morrisSteps + (k + 1) := ⟨fuel - t.morrisSteps - 1, by omega⟩
  have h1 := morrisPreLoop_threaded (N := fuel) t h none p (k + 1) [] (owns_iff_threaded.mp ho)
    hnd (fun u hu => by cases hu) (by omega)
  rw [morrisPre]
  conv_lhs => arg 2; rw [hk]
  rw [h1, morrisPreLoop]
  simp


/-! # Morris post-order -/

theorem Shape.post_eq_body_spine : ∀ t : Shape K V, t.post = t.postBody ++ t.revSpine
  | .nil => rfl
  | .node l a k v r => by
    simp [Shape.post, Shape.postBody, Shape.revSpine, Shape.post_eq_body_spine l,
      Shape.post_eq_body_spine r]

theorem Shape.spineLen_le : ∀ t : Shape K V, t.spineLen ≤ t.size
  | .nil => Nat.le_refl _
  | .node l a k v r => by
    have := Shape.spineLen_le r
    simp only [Shape.spineLen, Shape.size]
    omega

theorem Parented.below {h : Heap K V} : ∀ {t : Shape K V} {par : Option Nat},
    Parented h par t → ParentsBelow h t
  | .nil, _, _ => trivial
  | .node _ _ _ _ _, _, hp => ⟨hp.2.1, hp.2.2⟩

theorem get_set_rc_parent {h : Heap K V} {m : Nat} {nm : BinNode K V} (hnm : h[m]? = some nm)
    (x : Option Nat) (c : Nat) :
    ((h.set m { nm with rc := x })[c]?).map (·.parent) = (h[c]?).map (·.parent) := by
  by_cases hc : m = c
  · subst hc
    rw [get_set_self hnm, hnm]
    rfl
  · rw [get_set_other _ hc]

theorem ParentsBelow.frame_below {h h1 : Heap K V} {t : Shape K V} (hp : ParentsBelow h t)
    (hfr : ∀ a ∈ t.addrs, (h1[a]?).map (·.parent) = (h[a]?).map (·.parent)) :
    ParentsBelow h1 t := by
  cases t with
  | nil => trivial
  | node l a k v r =>
    exact ⟨Parented.frame_par hp.1 (fun b hb => hfr b (Shape.mem_addrs_node.mpr (Or.inl hb))),
      Parented.frame_par hp.2 (fun b hb => hfr b (Shape.mem_addrs_node.mpr (Or.inr (Or.inr hb))))⟩

theorem reverseVisit_climb {h : Heap K V} {ret x : Option Nat} : ∀ (r : Shape K V)
    (p par : Option Nat) (k : Nat) (out : List (K × V)), Threaded h ret p r →
    Parented h par r → r ≠ .nil → (∀ c ∈ r.addrs, some c ≠ x) →
    reverseVisit (r.spineLen + k) h r.rightmost x out
      = reverseVisit k h par x (out ++ r.revSpine)
  | .nil, _, _, _, _, _, _, hne, _ => absurd rfl hne
  | .node rl c kc vc .nil, p, par, k, out, ht, hpar, _, hx => by
    obtain ⟨_, n, hn, hk, hv, _, _⟩ := ht
    obtain ⟨⟨n', hn', hp'⟩, _, _⟩ := hpar
    rw [hn] at hn'
    cases hn'
    have hcx : some c ≠ x := hx c (Shape.mem_addrs_node.mpr (Or.inr (Or.inl rfl)))
    have e1 : (Shape.node rl c kc vc (.nil : Shape K V)).spineLen + k = k + 1 := by
      simp only [Shape.spineLen]; omega
    rw [e1, Shape.rightmost, reverseVisit, deref_of_get hn]
    dsimp only
    rw [if_pos hcx, hp']
    simp [Shape.revSpine, kv, hk, hv]
  | .node rl c kc vc (.node l2 d kd vd r2), p, par, k, out, ht, hpar, _, hx => by
    obtain ⟨_, n, hn, hk, hv, _, hr⟩ := ht
    obtain ⟨⟨n', hn', hp'⟩, _, hpr⟩ := hpar
    rw [hn] at hn'
    cases hn'
    have hcx : some c ≠ x := hx c (Shape.mem_addrs_node.mpr (Or.inr (Or.inl rfl)))
    have e1 : (Shape.node rl c kc vc (.node l2 d kd vd r2)).spineLen + k
        = (Shape.node l2 d kd vd r2).spineLen + (k + 1) := by
      simp only [Shape.spineLen]; omega
    have e2 : (Shape.node rl c kc vc (.node l2 d kd vd r2)).rightmost
        = (Shape.node l2 d kd vd r2).rightmost := by
      simp [Shape.rightmost]
    rw [e1, e2, reverseVisit_climb (.node l2 d kd vd r2) n.rc (some c) (k + 1) out hr hpr
      (by simp) (fun c' hc' => hx c' (Shape.mem_addrs_node.mpr (Or.inr (Or.inr hc')))),
      reverseVisit, deref_of_get hn]
    dsimp only
    rw [if_pos hcx, hp']
    simp [Shape.revSpine, kv, hk, hv]

theorem reverseVisit_spine {h : Heap K V} {ret : Option Nat} {l : Shape K V} {a : Nat} {k : K}
    {v : V} {r : Shape K V} {p : Option Nat} (ht : Threaded h ret p (.node l a k v r))
    (hpar : ParentsBelow h (.node l a k v r)) (hnd : (Shape.node l a k v r).addrs.Nodup)
    {f : Nat} (hf : (Shape.node l a k v r).size ≤ f) (out : List (K × V)) :
    reverseVisit f h (Shape.node l a k v r).rightmost (some a) out
      = .ok (out ++ (Shape.node l a k v r).revSpine) := by
  have hle := Shape.spineLen_le (Shape.node l a k v r)
  obtain ⟨_, n, hn, hk, hv, _, hr⟩ := ht
  obtain ⟨_, _, _, har, _⟩ := Shape.nodup_node hnd
  cases r with
  | nil =>
    obtain ⟨j, rfl⟩ : ∃ j, f = j + 1 := ⟨f - 1, by simp only [Shape.size] at hf; omega⟩
    rw [Shape.rightmost, reverseVisit, deref_of_get hn]
    simp [Shape.revSpine, kv, hk, hv]
  | node l2 d kd vd r2 =>
    obtain ⟨j, hj⟩ : ∃ j, f = (Shape.node l2 d kd vd r2).spineLen + (j + 1) :=
      ⟨f - (Shape.node l2 d kd vd r2).spineLen - 1, by
        simp only [Shape.spineLen] at hle ⊢; omega⟩
    have e2 : (Shape.node l a k v (.node l2 d kd vd r2)).rightmost
        = (Shape.node l2 d kd vd r2).rightmost := by
      simp [Shape.rightmost]
    rw [hj, e2, reverseVisit_climb (.node l2 d kd vd r2) n.rc (some a) (j + 1) out hr hpar.2
      (by simp) (fun c hc e => har (by cases e; exact hc)), reverseVisit, deref_of_get hn]
    simp [Shape.revSpine, kv, hk, hv]

theorem morrisPost_tail {N : Nat} {h : Heap K V} {ret : Option Nat} {l r : Shape K V}
    {a : Nat} {j : K} {v : V} {n : BinNode K V} (k : Nat) (out : List (K × V))
    (hr : Threaded h ret n.rc r)
    (ihr : r ≠ .nil →
      (ret = none → morrisPostLoop N (r.morrisSteps + k) h n.rc out
        = .ok (h, r.rightmost, out ++ r.postBody)) ∧
      (∀ u, ret = some u → morrisPostLoop N (r.morrisSteps + k) h n.rc out
        = morrisPostLoop N k h (some u) (out ++ r.postBody))) :
    (ret = none →
      (if n.rc = none then (.ok (h, some a, out) : Except Fault _)
        else morrisPostLoop N (r.morrisSteps + k) h n.rc out)
        = .ok (h, (Shape.node l a j v r).rightmost, out ++ r.postBody)) ∧
    (∀ u, ret = some u →
      (if n.rc = none then (.ok (h, some a, out) : Except Fault _)
        else morrisPostLoop N (r.morrisSteps + k) h n.rc out)
        = morrisPostLoop N k h (some u) (out ++ r.postBody)) := by
  cases r with
  | nil =>
    have hrc : n.rc = ret := hr
    constructor
    · intro h0
      rw [if_pos (hrc.trans h0)]
      simp [Shape.rightmost, Shape.postBody]
    · intro u hu
      rw [if_neg (by rw [hrc, hu]; simp), hrc, hu]
      simp [Shape.morrisSteps, Shape.postBody]
  | node rl c kc vc rr =>
    have hrc : n.rc = some c := hr.1
    have e2 : (Shape.node l a j v (.node rl c kc vc rr)).rightmost
        = (Shape.node rl c kc vc rr).rightmost := by
      simp [Shape.rightmost]
    obtain ⟨ih1, ih2⟩ := ihr (by simp)
    constructor
    · intro h0
      rw [if_neg (by rw [hrc]; simp), e2]
      exact ih1 h0
    · intro u hu
      rw [if_neg (by rw [hrc]; simp)]
      exact ih2 u hu

theorem morrisPostLoop_threaded {N : Nat} : ∀ (t : Shape K V) (h : Heap K V)
    (ret p : Option Nat) (k : Nat) (out : List (K × V)), Threaded h ret p t → t ≠ .nil →
    t.addrs.Nodup → ParentsBelow h t → (∀ u, ret = some u → u ∉ t.addrs) → t.size ≤ N →
    (ret = none → morrisPostLoop N (t.morrisSteps + k) h p out
      = .ok (h, t.rightmost, out ++ t.postBody)) ∧
    (∀ u, ret = some u → morrisPostLoop N (t.morrisSteps + k) h p out
      = morrisPostLoop N k h (some u) (out ++ t.postBody))
  | .nil, _, _, _, _, _, _, hne, _, _, _, _ => absurd rfl hne
  | .node .nil a kk v r, h, ret, p, k, out, ht, _, hnd, hpar, hret, hi => by
    obtain ⟨hp, n, hn, hk, hv, hl, hr⟩ := ht
    subst hp
    obtain ⟨_, hrnd, _, har, _⟩ := Shape.nodup_node hnd
    have hlc : n.lc = none := hl
    have hrs : r.size ≤ N := by
      simp only [Shape.size] at hi; omega
    have ihr := fun hne => morrisPostLoop_threaded r h ret n.rc k out hr hne hrnd
      (Parented.below hpar.2)
      (fun u hu hm => hret u hu (Shape.mem_addrs_node.mpr (Or.inr (Or.inr hm)))) hrs
    have e1 : (Shape.node .nil a kk v r).morrisSteps + k = (r.morrisSteps + k) + 1 := by
      simp only [Shape.morrisSteps]; omega
    have left : morrisPostLoop N ((Shape.node .nil a kk v r).morrisSteps + k) h (some a) out
        = (if n.rc = none then (.ok (h, some a, out) : Except Fault _)
            else morrisPostLoop N (r.morrisSteps + k) h n.rc out) := by
      rw [e1, morrisPostLoop, deref_of_get hn]
      dsimp only
      rw [if_neg (not_not.mpr hlc)]
    rw [left]
    have := morrisPost_tail (l := .nil) (a := a) (j := kk) (v := v) k out hr ihr
    simpa [Shape.postBody, Shape.revSpine] using this
  | .node (.node ll b kb vb lr) a kk v r, h, ret, p, k, out, ht, _, hnd, hpar, hret, hi => by
    obtain ⟨hp, n, hn, hk, hv, hl, hr⟩ := ht
    subst hp
    obtain ⟨hlnd, hrnd, hal, har, hlr⟩ := Shape.nodup_node hnd
    have hlth := owns_iff_threaded.mp hl
    have hlc : n.lc = some b := hl.1
    have hlne : n.lc ≠ none := by rw [hlc]; simp
    have hsz : (Shape.node ll b kb vb lr).size ≤ N ∧ r.size ≤ N := by
      simp only [Shape.size] at hi ⊢; omega
    obtain ⟨m, nm, hm1, hm2, hm3, hm4⟩ := Threaded.rightmost_get hlth (by simp)
    have hma : m ≠ a := fun e => hal (e ▸ hm4)
    have hpred : lTreePred N h (some a) = .ok (some m) := by
      rw [lTreePred, deref_of_get hn]
      dsimp only
      rw [lTreePredLoop_threaded _ n.lc N hlth (by simp) (Or.inl rfl)
        (fun c hc e => hal (by cases e; exact hc)) hsz.1, hm1]
    have hth := Threaded.rethread (x := some a) hlth hlnd hm1 hm2
    have hn1 : (h.set m { nm with rc := some a })[a]? = some n := by
      rw [get_set_other _ hma]; exact hn
    have hm1' : (h.set m { nm with rc := some a })[m]? = some { nm with rc := some a } :=
      get_set_self hm2
    have hpred1 : lTreePred N (h.set m { nm with rc := some a }) (some a) = .ok (some m) := by
      rw [lTreePred, deref_of_get hn1]
      dsimp only
      rw [lTreePredLoop_threaded _ n.lc N hth (by simp) (Or.inr rfl)
        (fun c hc e => hal (by cases e; exact hc)) hsz.1, hm1]
    have hrestore := set_rc_restore hm2 (some a)
    rw [hm3] at hrestore
    have hparl : ParentsBelow (h.set m { nm with rc := some a }) (Shape.node ll b kb vb lr) :=
      ParentsBelow.frame_below (Parented.below hpar.1) (fun c _ => get_set_rc_parent hm2 _ c)
    have ihl := (morrisPostLoop_threaded (Shape.node ll b kb vb lr) _ (some a) n.lc
      ((r.morrisSteps + k) + 1) out hth (by simp) hlnd hparl
      (fun u hu => by cases hu; exact hal) hsz.1).2 a rfl
    have ihr := fun hne => morrisPostLoop_threaded r h ret n.rc k
      (out ++ (Shape.node ll b kb vb lr).postBody ++ (Shape.node ll b kb vb lr).revSpine)
      hr hne hrnd (Parented.below hpar.2)
      (fun u hu hm => hret u hu (Shape.mem_addrs_node.mpr (Or.inr (Or.inr hm)))) hsz.2
    have hrv := reverseVisit_spine hlth (Parented.below hpar.1) hlnd hsz.1
      (out ++ (Shape.node ll b kb vb lr).postBody)
    rw [hm1] at hrv
    have e1 : (Shape.node (.node ll b kb vb lr) a kk v r).morrisSteps + k
        = ((Shape.node ll b kb vb lr).morrisSteps + ((r.morrisSteps + k) + 1)) + 1 := by
      simp only [Shape.morrisSteps]; omega
    have left : morrisPostLoop N
          ((Shape.node (.node ll b kb vb lr) a kk v r).morrisSteps + k) h (some a) out
        = (if n.rc = none then (.ok (h, some a,
              out ++ (Shape.node ll b kb vb lr).postBody ++ (Shape.node ll b kb vb lr).revSpine)
              : Except Fault _)
            else morrisPostLoop N (r.morrisSteps + k) h n.rc
              (out ++ (Shape.node ll b kb vb lr).postBody
                ++ (Shape.node ll b kb vb lr).revSpine)) := by
      rw [e1, morrisPostLoop, deref_of_get hn]
      dsimp only
      rw [if_pos hlne, hpred]
      dsimp only
      rw [deref_of_get hm2]
      dsimp only
      rw [if_pos hm3, store_of_get hm2]
      dsimp only
      rw [deref_of_get hn1]
      dsimp only
      rw [ihl, morrisPostLoop, deref_of_get hn1]
      dsimp only
      rw [if_pos hlne, hpred1]
      dsimp only
      rw [deref_of_get hm1']
      dsimp only
      rw [if_neg (by simp), store_of_get hm1']
      dsimp only
      rw [hrestore, deref_of_get hn]
      dsimp only
      rw [hlc, hrv]
    rw [left]
    have := morrisPost_tail (l := .node ll b kb vb lr) (a := a) (j := kk) (v := v) k
      (out ++ (Shape.node ll b kb vb lr).postBody ++ (Shape.node ll b kb vb lr).revSpine) hr ihr
    simpa [Shape.postBody] using this

theorem morrisPost_wellFormed {h : Heap K V} {t : Shape K V} {a : Nat}
    (hw : WellFormed h (some a) t) {fuel : Nat} (hf : 2 * t.size < fuel) :
    morrisPost fuel h (some a) = .ok (h, t.post) := by
  obtain ⟨ho, hnd, hpar⟩ := hw
  have hle := Shape.morrisSteps_le t
  cases t with
  | nil => cases ho
  | node l b kk v r =>
    have hb : a = b := by
      have := ho.1
      simpa using this
    subst hb
    obtain ⟨k, hk⟩ : ∃ k, fuel = (Shape.node l a kk v r).morrisSteps + k :=
      ⟨fuel - (Shape.node l a kk v r).morrisSteps, by omega⟩
    have h1 := (morrisPostLoop_threaded (N := fuel) _ h none (some a) k []
      (owns_iff_threaded.mp ho) (by simp) hnd hpar (fun u hu => by cases hu) (by omega)).1 rfl
    have h2 := reverseVisit_spine (owns_iff_threaded.mp ho) hpar hnd (f := fuel) (by omega)
      ([] ++ (Shape.node l a kk v r).postBody)
    rw [← hk] at h1
    rw [morrisPost, h1]
    dsimp only
    rw [h2]
    simp [Shape.post_eq_body_spine]


/-! # Searching a binary search tree -/

theorem Bst.hot_self (t : Bst K) : ({ t with hot := t.hot } : Bst K) = t := rfl

theorem Owns.get_of_mem {h : Heap K V} : ∀ {T : Shape K V} {p : Option Nat}, Owns h p T →
    ∀ c ∈ T.addrs, ∃ n, h[c]? = some n
  | .nil, _, _, c, hc => by simp [Shape.addrs] at hc
  | .node l a k v r, _, ho, c, hc => by
    obtain ⟨_, n, hn, _, _, hl, hr⟩ := ho
    rcases Shape.mem_addrs_node.mp hc with h1 | h1 | h1
    · exact hl.get_of_mem c h1
    · exact ⟨n, h1 ▸ hn⟩
    · exact hr.get_of_mem c h1

theorem lt_length_of_get {h : Heap K V} {c : Nat} {n : BinNode K V} (hn : h[c]? = some n) :
    c < h.length := by
  by_contra hge
  rw [List.getElem?_eq_none (by omega)] at hn
  cases hn

theorem Owns.lt_length {h : Heap K V} {T : Shape K V} {p : Option Nat} (ho : Owns h p T)
    (c : Nat) (hc : c ∈ T.addrs) : c < h.length := by
  obtain ⟨n, hn⟩ := ho.get_of_mem c hc
  exact lt_length_of_get hn

theorem Shape.keys_node {l r : Shape K V} {a : Nat} {k : K} {v : V} :
    (Shape.node l a k v r).keys = l.keys ++ k :: r.keys := by
  simp [Shape.keys, Shape.ino]

theorem Shape.keys_nil : (Shape.nil : Shape K V).keys = [] := rfl

section search
variable [LinearOrder K]

/-- The loop of `searchAt` ends at the slot and with the `hot` computed by `searchSlot`. -/
theorem searchAtLoop_owns (v : K) : ∀ (T : Shape K Unit) (t : Bst K) (x : Slot)
    (p : Option Nat) (f : Nat), t.readSlot x = .ok p → Owns t.heap p T → T.size < f →
    searchAtLoop f t x v
      = .ok ({ t with hot := (T.searchSlot v x t.hot).2 }, (T.searchSlot v x t.hot).1)
  | .nil, t, x, p, f, hx, ho, hf => by
    cases ho
    cases f with
    | zero => omega
    | succ f =>
      rw [searchAtLoop, hx]
      simp [equal, Shape.searchSlot]
  | .node l a k u r, t, x, p, f, hx, ho, hf => by
    obtain ⟨hp, n, hn, hk, _, hl, hr⟩ := ho
    subst hp
    cases f with
    | zero => omega
    | succ f =>
      simp only [Shape.size] at hf
      rw [searchAtLoop, hx]
      dsimp only
      rw [equal, deref_of_get hn]
      dsimp only
      by_cases hkv : k = v
      · have hd : decide (n.key = v) = true := by simp [hk, hkv]
        rw [hd]
        simp [Shape.searchSlot, hkv]
      · have hd : decide (n.key = v) = false := by simp [hk, hkv]
        rw [hd]
        dsimp only
        by_cases hlt : v < k
        · have := searchAtLoop_owns v l { t with hot := some a } (.lc a) n.lc f
            (by simp [Bst.readSlot, deref_of_get hn]) hl (by omega)
          rw [hk, if_pos hlt, this]
          simp [Shape.searchSlot, hkv, hlt]
        · have := searchAtLoop_owns v r { t with hot := some a } (.rc a) n.rc f
            (by simp [Bst.readSlot, deref_of_get hn]) hr (by omega)
          rw [hk, if_neg hlt, this]
          simp [Shape.searchSlot, hkv, hlt]

/-- The slot a search ends at holds the node `find` names. -/
theorem readSlot_searchSlot (v : K) : ∀ (T : Shape K Unit) (t : Bst K) (x : Slot)
    (p hot0 : Option Nat), t.readSlot x = .ok p → Owns t.heap p T →
    t.readSlot (T.searchSlot v x hot0).1 = .ok (T.find v)
  | .nil, t, x, p, hot0, hx, ho => by
    cases ho
    simpa [Shape.searchSlot, Shape.find] using hx
  | .node l a k u r, t, x, p, hot0, hx, ho => by
    obtain ⟨hp, n, hn, hk, _, hl, hr⟩ := ho
    subst hp
    by_cases hkv : k = v
    · simpa [Shape.searchSlot, Shape.find, hkv] using hx
    · by_cases hlt : v < k
      · have := readSlot_searchSlot v l t (.lc a) n.lc (some a)
          (by simp [Bst.readSlot, deref_of_get hn]) hl
        simpa [Shape.searchSlot, Shape.find, hkv, hlt] using this
      · have := readSlot_searchSlot v r t (.rc a) n.rc (some a)
          (by simp [Bst.readSlot, deref_of_get hn]) hr
        simpa [Shape.searchSlot, Shape.find, hkv, hlt] using this

theorem Shape.find_mem (v : K) : ∀ (T : Shape K V) (a : Nat), T.find v = some a →
    a ∈ T.addrs
  | .nil, a, hf => by simp [Shape.find] at hf
  | .node l b k u r, a, hf => by
    rw [Shape.mem_addrs_node]
    by_cases hkv : k = v
    · simp [Shape.find, hkv] at hf
      exact Or.inr (Or.inl hf.symm)
    · by_cases hlt : v < k
      · simp [Shape.find, hkv, hlt] at hf
        exact Or.inl (Shape.find_mem v l a hf)
      · simp [Shape.find, hkv, hlt] at hf
        exact Or.inr (Or.inr (Shape.find_mem v r a hf))

/-- The node a search ends at holds the key searched for. -/
theorem Owns.find_key {h : Heap K V} (v : K) : ∀ (T : Shape K V) (p : Option Nat) (a : Nat),
    Owns h p T → T.find v = some a → ∃ n, h[a]? = some n ∧ n.key = v
  | .nil, _, a, _, hf => by simp [Shape.find] at hf
  | .node l b k u r, _, a, ho, hf => by
    obtain ⟨_, n, hn, hk, _, hl, hr⟩ := ho
    by_cases hkv : k = v
    · simp [Shape.find, hkv] at hf
      subst hf
      exact ⟨n, hn, hk.trans hkv⟩
    · by_cases hlt : v < k
      · simp [Shape.find, hkv, hlt] at hf
        exact Owns.find_key v l _ a hl hf
      · simp [Shape.find, hkv, hlt] at hf
        exact Owns.find_key v r _ a hr hf

/-- In a search tree the search succeeds exactly on the keys of the tree. -/
theorem Shape.find_eq_none_iff (v : K) : ∀ (T : Shape K V), T.Ordered →
    (T.find v = none ↔ v ∉ T.keys)
  | .nil, _ => by simp [Shape.find, Shape.keys_nil]
  | .node l b k u r, ho => by
    obtain ⟨h1, h2, h3, h4⟩ := ho
    rw [Shape.keys_node]
    by_cases hkv : k = v
    · simp [Shape.find, hkv]
    · by_cases hlt : v < k
      · have := Shape.find_eq_none_iff v l h3
        simp only [Shape.find, hkv, hlt, if_true, if_false, this, List.mem_append,
          List.mem_cons, not_or]
        constructor
        · intro hl
          exact ⟨hl, fun e => hkv e.symm, fun hr => absurd (h2 v hr) (not_lt.mpr hlt.le)⟩
        · intro hl
          exact hl.1
      · have := Shape.find_eq_none_iff v r h4
        simp only [Shape.find, hkv, hlt, if_false, this, List.mem_append,
          List.mem_cons, not_or]
        constructor
        · intro hr
          exact ⟨fun hl => hlt (h1 v hl), fun e => hkv e.symm, hr⟩
        · intro hr
          exact hr.2.2

/-- When the search succeeds, `hot` ends as the parent link of the node found. -/
theorem searchSlot_hot_found {h : Heap K V} (v : K) : ∀ (T : Shape K V) (x : Slot)
    (hot0 : Option Nat) (a : Nat), Parented h hot0 T → T.find v = some a →
    ∃ n, h[a]? = some n ∧ (T.searchSlot v x hot0).2 = n.parent
  | .nil, _, _, a, _, hf => by simp [Shape.find] at hf
  | .node l b k u r, x, hot0, a, hp, hf => by
    obtain ⟨⟨n, hn, hpar⟩, hl, hr⟩ := hp
    by_cases hkv : k = v
    · simp [Shape.find, hkv] at hf
      subst hf
      exact ⟨n, hn, by simp [Shape.searchSlot, hkv, hpar]⟩
    · by_cases hlt : v < k
      · simp [Shape.find, hkv, hlt] at hf
        obtain ⟨m, hm, he⟩ := searchSlot_hot_found v l (.lc b) (some b) a hl hf
        exact ⟨m, hm, by simpa [Shape.searchSlot, hkv, hlt] using he⟩
      · simp [Shape.find, hkv, hlt] at hf
        obtain ⟨m, hm, he⟩ := searchSlot_hot_found v r (.rc b) (some b) a hr hf
        exact ⟨m, hm, by simpa [Shape.searchSlot, hkv, hlt] using he⟩

/-- When the search fails, `hot` ends as the last node of the search path. -/
theorem searchSlot_hot_missing (v : K) : ∀ (T : Shape K V) (x : Slot) (hot0 : Option Nat),
    T.find v = none →
    (T.searchSlot v x hot0).2 = (match (T.path v).getLast? with
      | none => hot0
      | some c => some c)
  | .nil, _, _, _ => by simp [Shape.searchSlot, Shape.path]
  | .node l b k u r, x, hot0, hf => by
    by_cases hkv : k = v
    · simp [Shape.find, hkv] at hf
    · by_cases hlt : v < k
      · simp [Shape.find, hkv, hlt] at hf
        have := searchSlot_hot_missing v l (.lc b) (some b) hf
        simp only [Shape.searchSlot, hkv, hlt, if_true, if_false, this, Shape.path,
          List.getLast?_cons]
        cases (l.path v).getLast? <;> simp
      · simp [Shape.find, hkv, hlt] at hf
        have := searchSlot_hot_missing v r (.rc b) (some b) hf
        simp only [Shape.searchSlot, hkv, hlt, if_false, this, Shape.path,
          List.getLast?_cons]
        cases (r.path v).getLast? <;> simp

end search


/-! # Insertion -/

theorem Shape.nodup_of_parts {l r : Shape K V} {a : Nat} {k : K} {v : V}
    (hl : l.addrs.Nodup) (hr : r.addrs.Nodup) (hal : a ∉ l.addrs) (har : a ∉ r.addrs)
    (hlr : ∀ x, x ∈ l.addrs → x ∉ r.addrs) : (Shape.node l a k v r).addrs.Nodup := by
  simp only [Shape.addrs]
  rw [List.nodup_append]
  refine ⟨hl, List.nodup_cons.mpr ⟨har, hr⟩, ?_⟩
  intro x hx hx'
  rcases List.mem_cons.mp hx' with e | e
  · exact hal (e ▸ hx)
  · exact hlr x hx e

theorem get_append_set_self {h : Heap K V} {b : Nat} (f m : BinNode K V) (hb : b < h.length) :
    ((h ++ [f]).set b m)[b]? = some m := by
  rw [List.getElem?_set_self (by simp; omega)]

theorem get_append_set_new {h : Heap K V} {b : Nat} (f m : BinNode K V) (hb : b < h.length) :
    ((h ++ [f]).set b m)[h.length]? = some f := by
  rw [List.getElem?_set_ne (by omega)]
  simp

theorem get_append_set_other {h : Heap K V} {b c : Nat} (f m : BinNode K V)
    (hc : c < h.length) (hcb : b ≠ c) : ((h ++ [f]).set b m)[c]? = h[c]? := by
  rw [List.getElem?_set_ne hcb, List.getElem?_append_left hc]

theorem Parented.frame_eq {h h1 : Heap K V} {t : Shape K V} {par : Option Nat}
    (hp : Parented h par t) (hfr : ∀ a ∈ t.addrs, h1[a]? = h[a]?) : Parented h1 par t :=
  Parented.frame_par hp (fun a ha => by rw [hfr a ha])

theorem writeSlot_of_storeSlot {t : Bst K} {x : Slot} {p : Option Nat} {h1 : Heap K Unit}
    (hs : storeSlot t.heap x p = .ok h1) : t.writeSlot x p = .ok { t with heap := h1 } := by
  cases x with
  | root => simp [storeSlot] at hs
  | lc a =>
    simp only [storeSlot] at hs
    simp [Bst.writeSlot, hs]
  | rc a =>
    simp only [storeSlot] at hs
    simp [Bst.writeSlot, hs]

section insert
variable [LinearOrder K]

theorem Shape.mem_keys_insertAt (v : K) (u : V) (a : Nat) : ∀ (T : Shape K V) (x : K),
    T.find v = none → (x ∈ (T.insertAt v u a).keys ↔ x = v ∨ x ∈ T.keys)
  | .nil, x, _ => by simp [Shape.insertAt, Shape.keys, Shape.ino]
  | .node l b k w r, x, hf => by
    by_cases hkv : k = v
    · simp [Shape.find, hkv] at hf
    · by_cases hlt : v < k
      · simp only [Shape.find, hkv, hlt, if_true, if_false] at hf
        have := Shape.mem_keys_insertAt v u a l x hf
        simp only [Shape.insertAt, hkv, hlt, if_true, if_false, Shape.keys_node,
          List.mem_append, List.mem_cons, this]
        tauto
      · simp only [Shape.find, hkv, hlt, if_false] at hf
        have := Shape.mem_keys_insertAt v u a r x hf
        simp only [Shape.insertAt, hkv, hlt, if_false, Shape.keys_node,
          List.mem_append, List.mem_cons, this]
        tauto

theorem Shape.ordered_insertAt (v : K) (u : V) (a : Nat) : ∀ (T : Shape K V),
    T.Ordered → T.find v = none → (T.insertAt v u a).Ordered
  | .nil, _, _ => by simp [Shape.insertAt, Shape.Ordered, Shape.keys_nil]
  | .node l b k w r, ho, hf => by
    obtain ⟨h1, h2, h3, h4⟩ := ho
    by_cases hkv : k = v
    · simp [Shape.find, hkv] at hf
    · by_cases hlt : v < k
      · simp only [Shape.find, hkv, hlt, if_true, if_false] at hf
        simp only [Shape.insertAt, hkv, hlt, if_true, if_false, Shape.Ordered]
        refine ⟨?_, h2, Shape.ordered_insertAt v u a l h3 hf, h4⟩
        intro x hx
        rcases (Shape.mem_keys_insertAt v u a l x hf).mp hx with e | e
        · rw [e]; exact hlt
        · exact h1 x e
      · simp only [Shape.find, hkv, hlt, if_false] at hf
        simp only [Shape.insertAt, hkv, hlt, if_false, Shape.Ordered]
        refine ⟨h1, ?_, h3, Shape.ordered_insertAt v u a r h4 hf⟩
        intro x hx
        rcases (Shape.mem_keys_insertAt v u a r x hf).mp hx with e | e
        · rw [e]; exact lt_of_le_of_ne (not_lt.mp hlt) hkv
        · exact h2 x e

theorem Shape.mem_addrs_insertAt (v : K) (u : V) (a : Nat) : ∀ (T : Shape K V) (c : Nat),
    T.find v = none → (c ∈ (T.insertAt v u a).addrs ↔ c = a ∨ c ∈ T.addrs)
  | .nil, c, _ => by simp [Shape.insertAt, Shape.addrs]
  | .node l b k w r, c, hf => by
    by_cases hkv : k = v
    · simp [Shape.find, hkv] at hf
    · by_cases hlt : v < k
      · simp only [Shape.find, hkv, hlt, if_true, if_false] at hf
        have := Shape.mem_addrs_insertAt v u a l c hf
        simp only [Shape.insertAt, hkv, hlt, if_true, if_false, Shape.mem_addrs_node, this]
        tauto
      · simp only [Shape.find, hkv, hlt, if_false] at hf
        have := Shape.mem_addrs_insertAt v u a r c hf
        simp only [Shape.insertAt, hkv, hlt, if_false, Shape.mem_addrs_node, this]
        tauto

theorem Shape.nodup_insertAt (v : K) (u : V) (a : Nat) : ∀ (T : Shape K V),
    T.addrs.Nodup → a ∉ T.addrs → T.find v = none → (T.insertAt v u a).addrs.Nodup
  | .nil, _, _, _ => by simp [Shape.insertAt, Shape.addrs]
  | .node l b k w r, hnd, ha, hf => by
    obtain ⟨hl, hr, hbl, hbr, hlr⟩ := Shape.nodup_node hnd
    have hab : a ≠ b := fun e => ha (Shape.mem_addrs_node.mpr (Or.inr (Or.inl e)))
    have hal : a ∉ l.addrs := fun e => ha (Shape.mem_addrs_node.mpr (Or.inl e))
    have har : a ∉ r.addrs := fun e => ha (Shape.mem_addrs_node.mpr (Or.inr (Or.inr e)))
    by_cases hkv : k = v
    · simp [Shape.find, hkv] at hf
    · by_cases hlt : v < k
      · simp only [Shape.find, hkv, hlt, if_true, if_false] at hf
        simp only [Shape.insertAt, hkv, hlt, if_true, if_false]
        refine Shape.nodup_of_parts (Shape.nodup_insertAt v u a l hl hal hf) hr ?_ hbr ?_
        · intro hb
          rcases (Shape.mem_addrs_insertAt v u a l b hf).mp hb with e | e
          · exact hab e.symm
          · exact hbl e
        · intro x hx
          rcases (Shape.mem_addrs_insertAt v u a l x hf).mp hx with e | e
          · rw [e]; exact har
          · exact hlr x e
      · simp only [Shape.find, hkv, hlt, if_false] at hf
        simp only [Shape.insertAt, hkv, hlt, if_false]
        refine Shape.nodup_of_parts hl (Shape.nodup_insertAt v u a r hr har hf) hbl ?_ ?_
        · intro hb
          rcases (Shape.mem_addrs_insertAt v u a r b hf).mp hb with e | e
          · exact hab e.symm
          · exact hbr e
        · intro x hx hx'
          rcases (Shape.mem_addrs_insertAt v u a r x hf).mp hx' with e | e
          · exact hal (e ▸ hx)
          · exact hlr x hx e

theorem Shape.size_insertAt (v : K) (u : V) (a : Nat) : ∀ (T : Shape K V),
    T.find v = none → (T.insertAt v u a).size = T.size + 1
  | .nil, _ => by simp [Shape.insertAt, Shape.size]
  | .node l b k w r, hf => by
    by_cases hkv : k = v
    · simp [Shape.find, hkv] at hf
    · by_cases hlt : v < k
      · simp only [Shape.find, hkv, hlt, if_true, if_false] at hf
        simp only [Shape.insertAt, hkv, hlt, if_true, if_false, Shape.size,
          Shape.size_insertAt v u a l hf]
        omega
      · simp only [Shape.find, hkv, hlt, if_false] at hf
        simp only [Shape.insertAt, hkv, hlt, if_false, Shape.size,
          Shape.size_insertAt v u a r hf]
        omega

theorem Shape.find_insertAt (v : K) (u : V) (a : Nat) : ∀ (T : Shape K V),
    T.find v = none → (T.insertAt v u a).find v = some a
  | .nil, _ => by simp [Shape.insertAt, Shape.find]
  | .node l b k w r, hf => by
    by_cases hkv : k = v
    · simp [Shape.find, hkv] at hf
    · by_cases hlt : v < k
      · simp only [Shape.find, hkv, hlt, if_true, if_false] at hf
        simp [Shape.insertAt, hkv, hlt, Shape.find, Shape.find_insertAt v u a l hf]
      · simp only [Shape.find, hkv, hlt, if_false] at hf
        simp [Shape.insertAt, hkv, hlt, Shape.find, Shape.find_insertAt v u a r hf]

/-- Writing the address of a fresh leaf into the slot the failed search ended at turns the
heap into one that holds the tree with the leaf inserted. -/
theorem insert_owns (v : K) : ∀ (T : Shape K Unit) (h : Heap K Unit) (p : Option Nat)
    (x : Slot) (hot0 : Option Nat), T ≠ .nil → Owns h p T → Parented h hot0 T →
    T.addrs.Nodup → T.find v = none →
    ∃ h1, storeSlot (h ++ [freshNode v (T.searchSlot v x hot0).2])
        (T.searchSlot v x hot0).1 (some h.length) = .ok h1 ∧
      Owns h1 p (T.insertAt v () h.length) ∧ Parented h1 hot0 (T.insertAt v () h.length) ∧
      (∀ c, c < h.length → c ∉ T.addrs → h1[c]? = h[c]?) ∧ h1.length = h.length + 1 ∧
      h1[h.length]? = some (freshNode v (T.searchSlot v x hot0).2) ∧
      (∀ t : Bst K, t.heap = h1 →
        t.readSlot (T.searchSlot v x hot0).1 = .ok (some h.length))
  | .nil, _, _, _, _, hne, _, _, _, _ => absurd rfl hne
  | .node l b k w r, h, p, x, hot0, _, ho, hpa, hnd, hf => by
    obtain ⟨hp, n, hn, hk, _, hl, hr⟩ := ho
    obtain ⟨⟨n', hn', hpar⟩, hpl, hpr⟩ := hpa
    rw [hn] at hn'
    cases hn'
    obtain ⟨hlnd, hrnd, hbl, hbr, hlr⟩ := Shape.nodup_node hnd
    have hb : b < h.length := lt_length_of_get hn
    have hkv : ¬ k = v := by
      intro e
      simp [Shape.find, e] at hf
    by_cases hlt : v < k
    · simp only [Shape.find, hkv, hlt, if_true, if_false] at hf
      simp only [Shape.searchSlot, Shape.insertAt, hkv, hlt, if_true, if_false]
      cases l with
      | nil =>
        have hlc : n.lc = none := hl
        refine ⟨(h ++ [freshNode v (some b)]).set b { n with lc := some h.length }, ?_, ?_, ?_,
          ?_, by simp, get_append_set_new _ _ hb, ?_⟩
        · simp only [Shape.searchSlot, storeSlot]
          rw [store_of_get (by rw [List.getElem?_append_left hb]; exact hn)]
        · refine ⟨hp, _, get_append_set_self _ _ hb, hk, rfl, ?_, ?_⟩
          · exact ⟨rfl, _, get_append_set_new _ _ hb, rfl, rfl, rfl, rfl⟩
          · exact Owns.frame hr (fun c hc => get_append_set_other _ _ (hr.lt_length c hc)
              (fun e => hbr (e ▸ hc)))
        · refine ⟨⟨_, get_append_set_self _ _ hb, hpar⟩, ?_, ?_⟩
          · exact ⟨⟨_, get_append_set_new _ _ hb, rfl⟩, trivial, trivial⟩
          · exact Parented.frame_eq hpr (fun c hc => get_append_set_other _ _
              (hr.lt_length c hc) (fun e => hbr (e ▸ hc)))
        · intro c hc hcT
          exact get_append_set_other _ _ hc
            (fun e => hcT (Shape.mem_addrs_node.mpr (Or.inr (Or.inl e.symm))))
        · intro t ht
          simp only [Shape.searchSlot, Bst.readSlot, ht]
          rw [deref_of_get (get_append_set_self _ _ hb)]
      | node ll b2 k2 w2 lr =>
        obtain ⟨h1, hs, ho1, hp1, hfr, hlen, hnew, hrd⟩ := insert_owns v (.node ll b2 k2 w2 lr) h n.lc
          (.lc b) (some b) (by simp) hl hpl hlnd hf
        have hb1 : h1[b]? = some n := by rw [hfr b hb hbl]; exact hn
        refine ⟨h1, hs, ?_, ?_, ?_, hlen, hnew, hrd⟩
        · exact ⟨hp, n, hb1, hk, rfl, ho1, Owns.frame hr (fun c hc =>
            hfr c (hr.lt_length c hc) (fun e => hlr c e hc))⟩
        · exact ⟨⟨n, hb1, hpar⟩, hp1, Parented.frame_eq hpr (fun c hc =>
            hfr c (hr.lt_length c hc) (fun e => hlr c e hc))⟩
        · intro c hc hcT
          exact hfr c hc (fun e => hcT (Shape.mem_addrs_node.mpr (Or.inl e)))
    · simp only [Shape.find, hkv, hlt, if_false] at hf
      simp only [Shape.searchSlot, Shape.insertAt, hkv, hlt, if_false]
      cases r with
      | nil =>
        have hrc : n.rc = none := hr
        refine ⟨(h ++ [freshNode v (some b)]).set b { n with rc := some h.length }, ?_, ?_, ?_,
          ?_, by simp, get_append_set_new _ _ hb, ?_⟩
        · simp only [Shape.searchSlot, storeSlot]
          rw [store_of_get (by rw [List.getElem?_append_left hb]; exact hn)]
        · refine ⟨hp, _, get_append_set_self _ _ hb, hk, rfl, ?_, ?_⟩
          · exact Owns.frame hl (fun c hc => get_append_set_other _ _ (hl.lt_length c hc)
              (fun e => hbl (e ▸ hc)))
          · exact ⟨rfl, _, get_append_set_new _ _ hb, rfl, rfl, rfl, rfl⟩
        · refine ⟨⟨_, get_append_set_self _ _ hb, hpar⟩, ?_, ?_⟩
          · exact Parented.frame_eq hpl (fun c hc => get_append_set_other _ _
              (hl.lt_length c hc) (fun e => hbl (e ▸ hc)))
          · exact ⟨⟨_, get_append_set_new _ _ hb, rfl⟩, trivial, trivial⟩
        · intro c hc hcT
          exact get_append_set_other _ _ hc
            (fun e => hcT (Shape.mem_addrs_node.mpr (Or.inr (Or.inl e.symm))))
        · intro t ht
          simp only [Shape.searchSlot, Bst.readSlot, ht]
          rw [deref_of_get (get_append_set_self _ _ hb)]
      | node rl b2 k2 w2 rr =>
        obtain ⟨h1, hs, ho1, hp1, hfr, hlen, hnew, hrd⟩ := insert_owns v (.node rl b2 k2 w2 rr) h n.rc
          (.rc b) (some b) (by simp) hr hpr hrnd hf
        have hb1 : h1[b]? = some n := by rw [hfr b hb hbr]; exact hn
        refine ⟨h1, hs, ?_, ?_, ?_, hlen, hnew, hrd⟩
        · exact ⟨hp, n, hb1, hk, rfl, Owns.frame hl (fun c hc =>
            hfr c (hl.lt_length c hc) (fun e => hlr c hc e)), ho1⟩
        · exact ⟨⟨n, hb1, hpar⟩, Parented.frame_eq hpl (fun c hc =>
            hfr c (hl.lt_length c hc) (fun e => hlr c hc e)), hp1⟩
        · intro c hc hcT
          exact hfr c hc (fun e => hcT (Shape.mem_addrs_node.mpr (Or.inr (Or.inr e))))

/-- On a heap holding `T` with consistent parent links, `searchAt` from the root returns what
`searchSlot` computes. -/
theorem Bst.searchAt_owns {t : Bst K} {T : Shape K Unit} (ho : Owns t.heap t.root T)
    (hpar : Parented t.heap none T) (v : K) {fuel : Nat} (hf : T.size < fuel) :
    t.searchAt fuel .root v = .ok ({ t with hot := (T.searchSlot v .root none).2 },
      (T.searchSlot v .root none).1) := by
  have hloop := searchAtLoop_owns v T { t with hot := none } .root t.root fuel rfl ho hf
  cases T with
  | nil =>
    have hr : t.root = none := ho
    simp only [Bst.searchAt, Bst.readSlot, hr] at hloop ⊢
    exact hloop
  | node l a k w r =>
    obtain ⟨hp, n, hn, -⟩ := ho
    obtain ⟨⟨n', hn', hpar⟩, -⟩ := hpar
    rw [hn] at hn'
    cases hn'
    simp only [Bst.searchAt, Bst.readSlot, hp, deref_of_get hn, hpar] at hloop ⊢
    exact hloop

/-- Under the invariant `searchAt` from the root returns what `searchSlot` computes. -/
theorem Bst.searchAt_inv {t : Bst K} {T : Shape K Unit} (hinv : t.Inv T) (v : K) {fuel : Nat}
    (hf : T.size < fuel) :
    t.searchAt fuel .root v = .ok ({ t with hot := (T.searchSlot v .root none).2 },
      (T.searchSlot v .root none).1) :=
  Bst.searchAt_owns hinv.owns hinv.parents v hf

/-- The method `Search` on a heap holding `T`: the node found by `find`, and only `hot`
changes. -/
theorem Bst.Search_owns {t : Bst K} {T : Shape K Unit} (ho : Owns t.heap t.root T)
    (hpar : Parented t.heap none T) (v : K) {fuel : Nat} (hf : T.size < fuel) :
    t.Search fuel v = .ok ({ t with hot := (T.searchSlot v .root none).2 }, T.find v) := by
  have hrd := readSlot_searchSlot v T { t with hot := (T.searchSlot v .root none).2 } .root
    t.root none rfl ho
  rw [Bst.Search, Bst.searchAt_owns ho hpar v hf]
  dsimp only
  rw [hrd]

/-- `Search` under the invariant: the node found by `find`, and only `hot` changes. -/
theorem Bst.Search_inv {t : Bst K} {T : Shape K Unit} (hinv : t.Inv T) (v : K) {fuel : Nat}
    (hf : T.size < fuel) :
    t.Search fuel v = .ok ({ t with hot := (T.searchSlot v .root none).2 }, T.find v) :=
  Bst.Search_owns hinv.owns hinv.parents v hf

/-- `Insert` of a key that is present returns its node and changes only `hot`. -/
theorem Bst.Insert_present {t : Bst K} {T : Shape K Unit} (hinv : t.Inv T) (v : K) {a : Nat}
    (hfind : T.find v = some a) {fuel : Nat} (hf : T.size < fuel) :
    t.Insert fuel v = .ok ({ t with hot := (T.searchSlot v .root none).2 }, some a) := by
  have hrd := readSlot_searchSlot v T { t with hot := (T.searchSlot v .root none).2 } .root
    t.root none rfl hinv.owns
  rw [Bst.Insert, Bst.searchAt_inv hinv v hf]
  dsimp only
  rw [hrd, hfind]

/-- `Insert` of a key that is absent allocates one node and keeps the invariant. -/
theorem Bst.Insert_absent {t : Bst K} {T : Shape K Unit} (hinv : t.Inv T) (v : K)
    (hfind : T.find v = none) {fuel : Nat} (hf : T.size < fuel) :
    ∃ t1 : Bst K, t.Insert fuel v = .ok (t1, some t.heap.length) ∧
      t1.Inv (T.insertAt v () t.heap.length) ∧ t1.size = t.size + 1 ∧
      t1.hot = (T.searchSlot v .root none).2 ∧
      t1.heap[t.heap.length]? = some (freshNode v t1.hot) ∧
      t1.readSlot (T.searchSlot v .root none).1 = .ok (some t.heap.length) ∧
      t1.heap.length = t.heap.length + 1 ∧
      (∀ c, c < t.heap.length → c ∉ T.addrs → t1.heap[c]? = t.heap[c]?) := by
  have hrd := readSlot_searchSlot v T { t with hot := (T.searchSlot v .root none).2 } .root
    t.root none rfl hinv.owns
  have hfresh : t.heap.length ∉ T.addrs := fun hm =>
    absurd (hinv.owns.lt_length _ hm) (lt_irrefl _)
  have hinv1 : (T.insertAt v () t.heap.length).Ordered ∧
      (T.insertAt v () t.heap.length).addrs.Nodup ∧
      (t.size + 1 : Int) = ((T.insertAt v () t.heap.length).size : Int) := by
    refine ⟨Shape.ordered_insertAt v () _ T hinv.ordered hfind,
      Shape.nodup_insertAt v () _ T hinv.nodup hfresh hfind, ?_⟩
    rw [Shape.size_insertAt v () _ T hfind, hinv.size_eq]
    push_cast
    rfl
  rw [Bst.Insert, Bst.searchAt_inv hinv v hf]
  dsimp only
  rw [hrd, hfind]
  dsimp only
  cases T with
  | nil =>
    have hr : t.root = none := hinv.owns
    refine ⟨_, rfl, ⟨?_, hinv1.2.1, ?_, hinv1.1, hinv1.2.2⟩, rfl, rfl, ?_, rfl, ?_, ?_⟩
    · exact ⟨rfl, _, List.getElem?_concat_length _ _, rfl, rfl, rfl, rfl⟩
    · exact ⟨⟨_, List.getElem?_concat_length _ _, rfl⟩, trivial, trivial⟩
    · exact List.getElem?_concat_length _ _
    · simp [Bst.writeSlot]
    · intro c hc _
      exact List.getElem?_append_left hc
  | node l b k w r =>
    obtain ⟨h1, hs, ho1, hp1, hfr, hlen, hnew, hrd1⟩ := insert_owns v (.node l b k w r) t.heap t.root
      .root none (by simp) hinv.owns hinv.parents hinv.nodup hfind
    have hw := writeSlot_of_storeSlot (t := { t with
      hot := ((Shape.node l b k w r).searchSlot v .root none).2, size := t.size + 1,
      heap := t.heap ++ [freshNode v ((Shape.node l b k w r).searchSlot v .root none).2] })
      hs
    rw [hw]
    exact ⟨_, rfl, ⟨ho1, hinv1.2.1, hp1, hinv1.1, hinv1.2.2⟩, rfl, rfl, hnew, hrd1 _ rfl,
      hlen, hfr⟩

end insert


/-! # Trees with a hole: replacing a subtree in the heap -/

theorem Ctx.fill_append : ∀ (c1 c2 : Ctx K V) (s : Shape K V),
    Ctx.fill (c1 ++ c2) s = Ctx.fill c2 (Ctx.fill c1 s)
  | [], _, _ => rfl
  | f :: c1, c2, s => by
    simp only [List.cons_append, Ctx.fill]
    exact Ctx.fill_append c1 c2 (f.plug s)

theorem Ctx.addrs_append : ∀ (c1 c2 : Ctx K V),
    Ctx.addrs (c1 ++ c2) = Ctx.addrs c1 ++ Ctx.addrs c2
  | [], _ => rfl
  | f :: c1, c2 => by
    show f.addrs ++ Ctx.addrs (c1 ++ c2) = (f.addrs ++ Ctx.addrs c1) ++ Ctx.addrs c2
    rw [Ctx.addrs_append c1 c2, List.append_assoc]

theorem Frame.plug_addrs_perm (f : Frame K V) (s : Shape K V) :
    (f.plug s).addrs.Perm (s.addrs ++ f.addrs) := by
  cases f with
  | left a k v r => simp only [Frame.plug, Shape.addrs, Frame.addrs]; exact List.Perm.refl _
  | right l a k v =>
    simp only [Frame.plug, Shape.addrs, Frame.addrs]
    have h1 : (l.addrs ++ a :: s.addrs).Perm (a :: (l.addrs ++ s.addrs)) :=
      List.perm_middle
    have h2 : (s.addrs ++ a :: l.addrs).Perm (a :: (s.addrs ++ l.addrs)) :=
      List.perm_middle
    exact h1.trans ((List.Perm.cons a List.perm_append_comm).trans h2.symm)

theorem Ctx.fill_addrs_perm : ∀ (c : Ctx K V) (s : Shape K V),
    (Ctx.fill c s).addrs.Perm (s.addrs ++ Ctx.addrs c)
  | [], s => by simp [Ctx.fill, Ctx.addrs]
  | f :: c, s => by
    simp only [Ctx.fill, Ctx.addrs]
    refine (Ctx.fill_addrs_perm c (f.plug s)).trans ?_
    rw [← List.append_assoc]
    exact List.Perm.append_right _ (Frame.plug_addrs_perm f s)

theorem Ctx.mem_fill_addrs {c : Ctx K V} {s : Shape K V} {x : Nat} :
    x ∈ (Ctx.fill c s).addrs ↔ x ∈ s.addrs ∨ x ∈ Ctx.addrs c := by
  rw [(Ctx.fill_addrs_perm c s).mem_iff, List.mem_append]

theorem Ctx.nodup_fill {c : Ctx K V} {s : Shape K V} (hnd : (Ctx.fill c s).addrs.Nodup) :
    s.addrs.Nodup ∧ (Ctx.addrs c).Nodup ∧ (∀ x, x ∈ s.addrs → x ∉ Ctx.addrs c) := by
  have h1 := (Ctx.fill_addrs_perm c s).nodup_iff.mp hnd
  rw [List.nodup_append] at h1
  exact ⟨h1.1, h1.2.1, fun x hx hx' => h1.2.2 hx hx'⟩

theorem Ctx.nodup_fill_of {c : Ctx K V} {s s1 : Shape K V}
    (hnd : (Ctx.fill c s).addrs.Nodup) (h1 : s1.addrs.Nodup)
    (hsub : ∀ x, x ∈ s1.addrs → x ∈ s.addrs) : (Ctx.fill c s1).addrs.Nodup := by
  obtain ⟨_, hc, hd⟩ := Ctx.nodup_fill hnd
  rw [(Ctx.fill_addrs_perm c s1).nodup_iff, List.nodup_append]
  exact ⟨h1, hc, fun x hx hx' => hd x (hsub x hx) hx'⟩

theorem Ctx.ino_fill : ∀ (c : Ctx K V) (s s1 : Shape K V), s1.ino = s.ino →
    (Ctx.fill c s1).ino = (Ctx.fill c s).ino
  | [], _, _, h => h
  | f :: c, s, s1, h => by
    simp only [Ctx.fill]
    apply Ctx.ino_fill c
    cases f <;> simp [Frame.plug, Shape.ino, h]

theorem Owns.frame_links {h h1 : Heap K V} : ∀ {t : Shape K V} {p : Option Nat},
    Owns h p t → (∀ a ∈ t.addrs, (h1[a]?).map linksOf = (h[a]?).map linksOf) → Owns h1 p t
  | .nil, _, ho, _ => ho
  | .node l a k v r, p, ho, hfr => by
    obtain ⟨hp, n, hn, hk, hv, hl, hr⟩ := ho
    have ha := hfr a (Shape.mem_addrs_node.mpr (Or.inr (Or.inl rfl)))
    rw [hn] at ha
    cases hh : h1[a]? with
    | none => rw [hh] at ha; cases ha
    | some m =>
      rw [hh] at ha
      simp only [Option.map_some', Option.some.injEq, linksOf, Prod.mk.injEq] at ha
      obtain ⟨e1, e2, e3, e4⟩ := ha
      refine ⟨hp, m, hh, e1.trans hk, e2.trans hv, ?_, ?_⟩
      · rw [e3]
        exact Owns.frame_links hl (fun b hb => hfr b (Shape.mem_addrs_node.mpr (Or.inl hb)))
      · rw [e4]
        exact Owns.frame_links hr
          (fun b hb => hfr b (Shape.mem_addrs_node.mpr (Or.inr (Or.inr hb))))

/-- A heap that holds a filled context holds the filling at some pointer. -/
theorem Owns.of_fill {h : Heap K V} : ∀ (c : Ctx K V) (s : Shape K V) (p : Option Nat),
    Owns h p (Ctx.fill c s) → ∃ q, Owns h q s
  | [], _, p, ho => ⟨p, ho⟩
  | f :: c, s, p, ho => by
    obtain ⟨q, hq⟩ := Owns.of_fill c (f.plug s) p ho
    cases f with
    | left a k v r =>
      obtain ⟨_, n, _, _, _, hl, _⟩ := hq
      exact ⟨n.lc, hl⟩
    | right l a k v =>
      obtain ⟨_, n, _, _, _, _, hr⟩ := hq
      exact ⟨n.rc, hr⟩

/-- Replacing the filling by a tree with the same root address, in a heap whose nodes
outside the hole keep their links. -/
theorem Owns.fill_same_root {h h1 : Heap K V} : ∀ (c : Ctx K V) (s s1 : Shape K V)
    (p : Option Nat), Owns h p (Ctx.fill c s) → s1.root = s.root → s.root ≠ none →
    (∀ q, Owns h q s → Owns h1 q s1) →
    (∀ a ∈ Ctx.addrs c, (h1[a]?).map linksOf = (h[a]?).map linksOf) →
    Owns h1 p (Ctx.fill c s1)
  | [], _, _, p, ho, _, _, hs, _ => hs p ho
  | f :: c, s, s1, p, ho, hroot, hne, hs, hfr => by
    simp only [Ctx.fill] at ho ⊢
    have hfrc : ∀ a ∈ Ctx.addrs c, (h1[a]?).map linksOf = (h[a]?).map linksOf :=
      fun a ha => hfr a (by simp only [Ctx.addrs, List.mem_append]; exact Or.inr ha)
    have hfrf : ∀ a ∈ f.addrs, (h1[a]?).map linksOf = (h[a]?).map linksOf :=
      fun a ha => hfr a (by simp only [Ctx.addrs, List.mem_append]; exact Or.inl ha)
    refine Owns.fill_same_root c (f.plug s) (f.plug s1) p ho ?_ ?_ ?_ hfrc
    · cases f <;> rfl
    · cases f <;> simp [Frame.plug, Shape.root]
    · intro q hq
      cases f with
      | left a k v r =>
        obtain ⟨hp, n, hn, hk, hv, hl, hr⟩ := hq
        have ha := hfrf a (by simp [Frame.addrs])
        rw [hn] at ha
        cases hh : h1[a]? with
        | none => rw [hh] at ha; cases ha
        | some m =>
          rw [hh] at ha
          simp only [Option.map_some', Option.some.injEq, linksOf, Prod.mk.injEq] at ha
          obtain ⟨e1, e2, e3, e4⟩ := ha
          refine ⟨hp, m, hh, e1.trans hk, e2.trans hv, ?_, ?_⟩
          · rw [e3]; exact hs _ hl
          · rw [e4]
            exact Owns.frame_links hr (fun b hb => hfrf b (by simp [Frame.addrs, hb]))
      | right l a k v =>
        obtain ⟨hp, n, hn, hk, hv, hl, hr⟩ := hq
        have ha := hfrf a (by simp [Frame.addrs])
        rw [hn] at ha
        cases hh : h1[a]? with
        | none => rw [hh] at ha; cases ha
        | some m =>
          rw [hh] at ha
          simp only [Option.map_some', Option.some.injEq, linksOf, Prod.mk.injEq] at ha
          obtain ⟨e1, e2, e3, e4⟩ := ha
          refine ⟨hp, m, hh, e1.trans hk, e2.trans hv, ?_, ?_⟩
          · rw [e3]
            exact Owns.frame_links hl (fun b hb => hfrf b (by simp [Frame.addrs, hb]))
          · rw [e4]; exact hs _ hr


/-! # Removal on abstract trees -/

theorem Shape.leftmost_ino : ∀ (r : Shape K V) (w : Nat) (k1 : K) (u1 : V),
    r.leftmost = some (w, k1, u1) → r.ino = (k1, u1) :: r.removeMin.ino
  | .nil, _, _, _, h => by simp [Shape.leftmost] at h
  | .node .nil a k v r, w, k1, u1, h => by
    simp only [Shape.leftmost, Option.some.injEq, Prod.mk.injEq] at h
    obtain ⟨_, e1, e2⟩ := h
    simp [Shape.ino, Shape.removeMin, e1, e2]
  | .node (.node ll b kb vb lr) a k v r, w, k1, u1, h => by
    simp only [Shape.leftmost] at h
    have := Shape.leftmost_ino (.node ll b kb vb lr) w k1 u1 h
    simp only [Shape.removeMin, Shape.ino] at this ⊢
    rw [this]
    simp

theorem Shape.leftmost_isSome : ∀ (r : Shape K V), r ≠ .nil → ∃ w k1 u1,
    r.leftmost = some (w, k1, u1)
  | .nil, h => absurd rfl h
  | .node .nil a k v r, _ => ⟨a, k, v, rfl⟩
  | .node (.node ll b kb vb lr) a k v r, _ => by
    obtain ⟨w, k1, u1, h⟩ := Shape.leftmost_isSome (.node ll b kb vb lr) (by simp)
    exact ⟨w, k1, u1, by simpa [Shape.leftmost] using h⟩

theorem Shape.removeRoot_ino (l r : Shape K V) (a : Nat) (k : K) (v : V) :
    (Shape.node l a k v r).removeRoot.ino = l.ino ++ r.ino := by
  cases l with
  | nil => simp [Shape.removeRoot, Shape.ino]
  | node ll b kb vb lr =>
    cases r with
    | nil => simp [Shape.removeRoot, Shape.ino]
    | node rl c kc vc rr =>
      obtain ⟨w, k1, u1, h⟩ := Shape.leftmost_isSome (.node rl c kc vc rr) (by simp)
      have := Shape.leftmost_ino _ w k1 u1 h
      simp only [Shape.removeRoot, h, Shape.ino] at this ⊢
      rw [this]

theorem Shape.removeMin_addrs_sub : ∀ (r : Shape K V) (x : Nat),
    x ∈ r.removeMin.addrs → x ∈ r.addrs
  | .nil, x, h => h
  | .node .nil a k v r, x, h => by
    simp only [Shape.removeMin] at h
    exact Shape.mem_addrs_node.mpr (Or.inr (Or.inr h))
  | .node (.node ll b kb vb lr) a k v r, x, h => by
    simp only [Shape.removeMin] at h
    rcases Shape.mem_addrs_node.mp h with e | e | e
    · exact Shape.mem_addrs_node.mpr (Or.inl (Shape.removeMin_addrs_sub _ x e))
    · exact Shape.mem_addrs_node.mpr (Or.inr (Or.inl e))
    · exact Shape.mem_addrs_node.mpr (Or.inr (Or.inr e))

theorem Shape.removeMin_nodup : ∀ (r : Shape K V), r.addrs.Nodup → r.removeMin.addrs.Nodup
  | .nil, h => h
  | .node .nil a k v r, h => (Shape.nodup_node h).2.1
  | .node (.node ll b kb vb lr) a k v r, h => by
    obtain ⟨hl, hr, hal, har, hlr⟩ := Shape.nodup_node h
    simp only [Shape.removeMin]
    exact Shape.nodup_of_parts (Shape.removeMin_nodup _ hl) hr
      (fun e => hal (Shape.removeMin_addrs_sub _ a e)) har
      (fun x hx => hlr x (Shape.removeMin_addrs_sub _ x hx))

theorem Shape.removeMin_size : ∀ (r : Shape K V), r ≠ .nil → r.removeMin.size + 1 = r.size
  | .nil, h => absurd rfl h
  | .node .nil a k v r, _ => by simp [Shape.removeMin, Shape.size]; omega
  | .node (.node ll b kb vb lr) a k v r, _ => by
    have := Shape.removeMin_size (.node ll b kb vb lr) (by simp)
    simp only [Shape.removeMin, Shape.size] at this ⊢
    omega

theorem Shape.removeRoot_addrs_sub (l r : Shape K V) (a : Nat) (k : K) (v : V) (x : Nat)
    (h : x ∈ (Shape.node l a k v r).removeRoot.addrs) : x ∈ (Shape.node l a k v r).addrs := by
  cases l with
  | nil =>
    simp only [Shape.removeRoot] at h
    exact Shape.mem_addrs_node.mpr (Or.inr (Or.inr h))
  | node ll b kb vb lr =>
    cases r with
    | nil =>
      simp only [Shape.removeRoot] at h
      exact Shape.mem_addrs_node.mpr (Or.inl h)
    | node rl c kc vc rr =>
      obtain ⟨w, k1, u1, hw⟩ := Shape.leftmost_isSome (.node rl c kc vc rr) (by simp)
      simp only [Shape.removeRoot, hw] at h
      rcases Shape.mem_addrs_node.mp h with e | e | e
      · exact Shape.mem_addrs_node.mpr (Or.inl e)
      · exact Shape.mem_addrs_node.mpr (Or.inr (Or.inl e))
      · exact Shape.mem_addrs_node.mpr (Or.inr (Or.inr (Shape.removeMin_addrs_sub _ x e)))

theorem Shape.removeRoot_nodup (l r : Shape K V) (a : Nat) (k : K) (v : V)
    (h : (Shape.node l a k v r).addrs.Nodup) : (Shape.node l a k v r).removeRoot.addrs.Nodup := by
  obtain ⟨hl, hr, hal, har, hlr⟩ := Shape.nodup_node h
  cases l with
  | nil => simpa [Shape.removeRoot] using hr
  | node ll b kb vb lr =>
    cases r with
    | nil => simpa [Shape.removeRoot] using hl
    | node rl c kc vc rr =>
      obtain ⟨w, k1, u1, hw⟩ := Shape.leftmost_isSome (.node rl c kc vc rr) (by simp)
      simp only [Shape.removeRoot, hw]
      exact Shape.nodup_of_parts hl (Shape.removeMin_nodup _ hr) hal
        (fun e => har (Shape.removeMin_addrs_sub _ a e))
        (fun x hx hx' => hlr x hx (Shape.removeMin_addrs_sub _ x hx'))

theorem Shape.removeRoot_size (l r : Shape K V) (a : Nat) (k : K) (v : V) :
    (Shape.node l a k v r).removeRoot.size + 1 = (Shape.node l a k v r).size := by
  cases l with
  | nil => simp [Shape.removeRoot, Shape.size]; omega
  | node ll b kb vb lr =>
    cases r with
    | nil => simp [Shape.removeRoot, Shape.size]
    | node rl c kc vc rr =>
      obtain ⟨w, k1, u1, hw⟩ := Shape.leftmost_isSome (.node rl c kc vc rr) (by simp)
      have := Shape.removeMin_size (.node rl c kc vc rr) (by simp)
      simp only [Shape.removeRoot, hw, Shape.size] at this ⊢
      omega

theorem Shape.removeRoot_keys (l r : Shape K V) (a : Nat) (k : K) (v : V) :
    (Shape.node l a k v r).removeRoot.keys = l.keys ++ r.keys := by
  simp [Shape.keys, Shape.removeRoot_ino]

section removePure
variable [LinearOrder K]

theorem Shape.removeRoot_ordered (l r : Shape K V) (a : Nat) (k : K) (v : V)
    (ho : (Shape.node l a k v r).Ordered) : (Shape.node l a k v r).removeRoot.Ordered := by
  obtain ⟨h1, h2, h3, h4⟩ := ho
  cases l with
  | nil => simpa [Shape.removeRoot] using h4
  | node ll b kb vb lr =>
    cases r with
    | nil => simpa [Shape.removeRoot] using h3
    | node rl c kc vc rr =>
      obtain ⟨w, k1, u1, hw⟩ := Shape.leftmost_isSome (.node rl c kc vc rr) (by simp)
      have hino := Shape.leftmost_ino _ w k1 u1 hw
      have hkeys : (Shape.node rl c kc vc rr).keys
          = k1 :: (Shape.node rl c kc vc rr).removeMin.keys := by
        simp [Shape.keys, hino]
      have hmin : ∀ t : Shape K V, t.Ordered → ∀ w k1 u1, t.leftmost = some (w, k1, u1) →
          t.removeMin.Ordered ∧ ∀ x ∈ t.removeMin.keys, k1 < x := by
        intro t
        induction t with
        | nil => intro _ w k1 u1 h; simp [Shape.leftmost] at h
        | node tl ta tk tv tr ihl _ =>
          intro hto w k1 u1 h
          obtain ⟨g1, g2, g3, g4⟩ := hto
          cases tl with
          | nil =>
            simp only [Shape.leftmost, Option.some.injEq, Prod.mk.injEq] at h
            simp only [Shape.removeMin]
            exact ⟨g4, fun x hx => h.2.1 ▸ g2 x hx⟩
          | node tll tb tkb tvb tlr =>
            simp only [Shape.leftmost] at h
            obtain ⟨i1, i2⟩ := ihl g3 w k1 u1 h
            have hk1 : k1 ∈ (Shape.node tll tb tkb tvb tlr).keys := by
              have := Shape.leftmost_ino _ w k1 u1 h
              simp [Shape.keys, this]
            have hsub : ∀ x ∈ (Shape.node tll tb tkb tvb tlr).removeMin.keys,
                x ∈ (Shape.node tll tb tkb tvb tlr).keys := by
              intro x hx
              have := Shape.leftmost_ino _ w k1 u1 h
              simp only [Shape.keys, this, List.map_cons, List.mem_cons]
              exact Or.inr hx
            simp only [Shape.removeMin]
            refine ⟨⟨fun x hx => g1 x (hsub x hx), g2, i1, g4⟩, ?_⟩
            intro x hx
            rw [Shape.keys_node] at hx
            rcases List.mem_append.mp hx with e | e
            · exact i2 x e
            · rcases List.mem_cons.mp e with e | e
              · rw [e]; exact g1 k1 hk1
              · exact lt_trans (g1 k1 hk1) (g2 x e)
      obtain ⟨i1, i2⟩ := hmin _ h4 w k1 u1 hw
      have hk1 : k < k1 := h2 k1 (by rw [hkeys]; exact List.mem_cons_self _ _)
      simp only [Shape.removeRoot, hw]
      exact ⟨fun x hx => lt_trans (h1 x hx) hk1, i2, h3, i1⟩

theorem Shape.remove_keys (v : K) : ∀ (T : Shape K V), T.Ordered →
    (T.remove v).keys = T.keys.filter (fun x => decide (x ≠ v))
  | .nil, _ => by simp [Shape.remove, Shape.keys_nil]
  | .node l a k u r, ho => by
    obtain ⟨h1, h2, h3, h4⟩ := ho
    have hl : ∀ x ∈ l.keys, k ≤ v → decide (x ≠ v) = true := fun x hx hv => by
      simpa using ne_of_lt (lt_of_lt_of_le (h1 x hx) hv)
    have hr : ∀ x ∈ r.keys, v ≤ k → decide (x ≠ v) = true := fun x hx hv => by
      simpa using (ne_of_lt (lt_of_le_of_lt hv (h2 x hx))).symm
    by_cases hkv : k = v
    · simp only [Shape.remove, hkv, if_true, Shape.removeRoot_keys, Shape.keys_node,
        List.filter_append, List.filter_cons, ne_eq, not_true_eq_false, decide_False,
        Bool.false_eq_true, if_false]
      rw [List.filter_eq_self.mpr (fun x hx => hl x hx (le_of_eq hkv)),
        List.filter_eq_self.mpr (fun x hx => hr x hx (le_of_eq hkv.symm))]
    · by_cases hlt : v < k
      · simp only [Shape.remove, hkv, hlt, if_true, if_false, Shape.keys_node,
          List.filter_append, List.filter_cons, Shape.remove_keys v l h3]
        rw [List.filter_eq_self.mpr (fun x hx => hr x hx hlt.le)]
        simp [hkv]
      · simp only [Shape.remove, hkv, hlt, if_false, Shape.keys_node,
          List.filter_append, List.filter_cons, Shape.remove_keys v r h4]
        rw [List.filter_eq_self.mpr (fun x hx => hl x hx (not_lt.mp hlt))]
        simp [hkv]

theorem Shape.remove_ordered (v : K) : ∀ (T : Shape K V), T.Ordered → (T.remove v).Ordered
  | .nil, _ => by simp [Shape.remove, Shape.Ordered]
  | .node l a k u r, ho => by
    have ho' := ho
    obtain ⟨h1, h2, h3, h4⟩ := ho
    by_cases hkv : k = v
    · simp only [Shape.remove, hkv, if_true]
      exact Shape.removeRoot_ordered l r a v u (hkv ▸ ho')
    · by_cases hlt : v < k
      · simp only [Shape.remove, hkv, hlt, if_true, if_false]
        refine ⟨?_, h2, Shape.remove_ordered v l h3, h4⟩
        intro x hx
        rw [Shape.remove_keys v l h3] at hx
        exact h1 x (List.mem_filter.mp hx).1
      · simp only [Shape.remove, hkv, hlt, if_false]
        refine ⟨h1, ?_, h3, Shape.remove_ordered v r h4⟩
        intro x hx
        rw [Shape.remove_keys v r h4] at hx
        exact h2 x (List.mem_filter.mp hx).1

end removePure


/-! # Locating a node: the context of a search and of a left spine -/

theorem Ctx.slot_append_singleton (x : Slot) (c : Ctx K V) (f : Frame K V) :
    Ctx.slot x (c ++ [f]) = Ctx.slot f.slot c := by
  cases c <;> rfl

theorem Ctx.parent_append_singleton (par : Option Nat) (c : Ctx K V) (f : Frame K V) :
    Ctx.parent par (c ++ [f]) = Ctx.parent (some f.addr) c := by
  cases c <;> rfl

theorem Ctx.fill_size (c : Ctx K V) (s : Shape K V) :
    (Ctx.fill c s).size = s.size + (Ctx.addrs c).length := by
  rw [← Shape.size_eq_length_addrs, (Ctx.fill_addrs_perm c s).length_eq, List.length_append,
    Shape.size_eq_length_addrs]

/-- A pointer to a filled context leads to the parent frame of the hole. -/
theorem Owns.of_fill_cons {h : Heap K V} (f : Frame K V) (c : Ctx K V) (s : Shape K V)
    (p : Option Nat) (ho : Owns h p (Ctx.fill (f :: c) s)) :
    ∃ n, h[f.addr]? = some n ∧
      Owns h (match f with
        | .left _ _ _ _ => n.lc
        | .right _ _ _ _ => n.rc) s := by
  obtain ⟨q, hq⟩ := Owns.of_fill c (f.plug s) p ho
  cases f with
  | left a k v r =>
    obtain ⟨_, n, hn, _, _, hl, _⟩ := hq
    exact ⟨n, hn, hl⟩
  | right l a k v =>
    obtain ⟨_, n, hn, _, _, _, hr⟩ := hq
    exact ⟨n, hn, hr⟩

theorem Parented.of_fill_par {h : Heap K V} : ∀ (c : Ctx K V) (s : Shape K V) (par : Option Nat),
    Parented h par (Ctx.fill c s) → Parented h (Ctx.parent par c) s
  | [], _, _, hp => hp
  | f :: c, s, par, hp => by
    have := Parented.of_fill_par c (f.plug s) par hp
    cases f with
    | left a k v r => exact this.2.1
    | right l a k v => exact this.2.2

/-- Replacing the filling when the nodes outside the hole keep their parent links. -/
theorem Parented.fill_same {h h1 : Heap K V} : ∀ (c : Ctx K V) (s s1 : Shape K V)
    (par : Option Nat), Parented h par (Ctx.fill c s) →
    (Parented h (Ctx.parent par c) s → Parented h1 (Ctx.parent par c) s1) →
    (∀ a ∈ Ctx.addrs c, (h1[a]?).map (·.parent) = (h[a]?).map (·.parent)) →
    Parented h1 par (Ctx.fill c s1)
  | [], _, _, _, hp, hs, _ => hs hp
  | f :: c, s, s1, par, hp, hs, hfr => by
    simp only [Ctx.fill] at hp ⊢
    have hfrc : ∀ a ∈ Ctx.addrs c, (h1[a]?).map (·.parent) = (h[a]?).map (·.parent) :=
      fun a ha => hfr a (by simp only [Ctx.addrs, List.mem_append]; exact Or.inr ha)
    have hfrf : ∀ a ∈ f.addrs, (h1[a]?).map (·.parent) = (h[a]?).map (·.parent) :=
      fun a ha => hfr a (by simp only [Ctx.addrs, List.mem_append]; exact Or.inl ha)
    refine Parented.fill_same c (f.plug s) (f.plug s1) par hp ?_ hfrc
    intro hq
    cases f with
    | left a k v r =>
      obtain ⟨⟨n, hn, hpar⟩, hl, hr⟩ := hq
      have ha := hfrf a (by simp [Frame.addrs])
      rw [hn] at ha
      cases hh : h1[a]? with
      | none => rw [hh] at ha; cases ha
      | some m =>
        rw [hh] at ha
        simp only [Option.map_some', Option.some.injEq] at ha
        exact ⟨⟨m, hh, ha.trans hpar⟩, hs hl,
          Parented.frame_par hr (fun b hb => hfrf b (by simp [Frame.addrs, hb]))⟩
    | right l a k v =>
      obtain ⟨⟨n, hn, hpar⟩, hl, hr⟩ := hq
      have ha := hfrf a (by simp [Frame.addrs])
      rw [hn] at ha
      cases hh : h1[a]? with
      | none => rw [hh] at ha; cases ha
      | some m =>
        rw [hh] at ha
        simp only [Option.map_some', Option.some.injEq] at ha
        exact ⟨⟨m, hh, ha.trans hpar⟩,
          Parented.frame_par hl (fun b hb => hfrf b (by simp [Frame.addrs, hb])), hs hr⟩

/-- Replacing the filling by a tree at another pointer, when the parent frame of the hole
has its child link redirected and all other nodes outside the hole keep their links. -/
theorem Owns.fill_cons_replace {h h1 : Heap K V} (f : Frame K V) (c : Ctx K V)
    (s s1 : Shape K V) (p p1 : Option Nat) (ho : Owns h p (Ctx.fill (f :: c) s))
    (hnd : (Ctx.fill (f :: c) s).addrs.Nodup) (hs1 : Owns h1 p1 s1)
    (hhold : ∀ n, h[f.addr]? = some n → (h1[f.addr]?).map linksOf = some (match f with
      | .left _ _ _ _ => (n.key, n.value, p1, n.rc)
      | .right _ _ _ _ => (n.key, n.value, n.lc, p1)))
    (hfr : ∀ a ∈ Ctx.addrs (f :: c), a ≠ f.addr →
      (h1[a]?).map linksOf = (h[a]?).map linksOf) :
    Owns h1 p (Ctx.fill (f :: c) s1) := by
  have hnd2 : (Ctx.fill c (f.plug s)).addrs.Nodup := hnd
  obtain ⟨hpn, _, hdisj⟩ := Ctx.nodup_fill hnd2
  have hfa : f.addr ∈ (f.plug s).addrs := by
    cases f <;> simp [Frame.plug, Frame.addr, Shape.addrs]
  show Owns h1 p (Ctx.fill c (f.plug s1))
  refine Owns.fill_same_root c (f.plug s) (f.plug s1) p ho ?_ ?_ ?_ ?_
  · cases f <;> rfl
  · cases f <;> simp [Frame.plug, Shape.root]
  · intro q hq
    cases f with
    | left a k v r =>
      obtain ⟨hp, n, hn, hk, hv, hl, hr⟩ := hq
      obtain ⟨_, _, _, har, _⟩ := Shape.nodup_node hpn
      have ha := hhold n hn
      cases hh : h1[a]? with
      | none => simp only [Frame.addr] at ha; rw [hh] at ha; cases ha
      | some m =>
        simp only [Frame.addr] at ha
        rw [hh] at ha
        simp only [Option.map_some', Option.some.injEq, linksOf, Prod.mk.injEq] at ha
        obtain ⟨e1, e2, e3, e4⟩ := ha
        refine ⟨hp, m, hh, e1.trans hk, e2.trans hv, ?_, ?_⟩
        · rw [e3]; exact hs1
        · rw [e4]
          exact Owns.frame_links hr (fun b hb => hfr b
            (by simp only [Ctx.addrs, Frame.addrs, List.mem_append, List.mem_cons]
                exact Or.inl (Or.inr hb))
            (fun e => har (by simp only [Frame.addr] at e; exact e ▸ hb)))
    | right l a k v =>
      obtain ⟨hp, n, hn, hk, hv, hl, hr⟩ := hq
      obtain ⟨_, _, hal, _, _⟩ := Shape.nodup_node hpn
      have ha := hhold n hn
      cases hh : h1[a]? with
      | none => simp only [Frame.addr] at ha; rw [hh] at ha; cases ha
      | some m =>
        simp only [Frame.addr] at ha
        rw [hh] at ha
        simp only [Option.map_some', Option.some.injEq, linksOf, Prod.mk.injEq] at ha
        obtain ⟨e1, e2, e3, e4⟩ := ha
        refine ⟨hp, m, hh, e1.trans hk, e2.trans hv, ?_, ?_⟩
        · rw [e3]
          exact Owns.frame_links hl (fun b hb => hfr b
            (by simp only [Ctx.addrs, Frame.addrs, List.mem_append, List.mem_cons]
                exact Or.inl (Or.inr hb))
            (fun e => hal (by simp only [Frame.addr] at e; exact e ▸ hb)))
        · rw [e4]; exact hs1
  · intro a ha
    exact hfr a (by simp only [Ctx.addrs, List.mem_append]; exact Or.inr ha)
      (fun e => hdisj _ hfa (e ▸ ha))

section split
variable [LinearOrder K]

/-- A successful search splits the tree into the node found and its context. -/
theorem Shape.find_split (v : K) : ∀ (T : Shape K V) (a : Nat), T.find v = some a →
    ∃ (c : Ctx K V) (l : Shape K V) (u : V) (r : Shape K V),
      T = Ctx.fill c (.node l a v u r) ∧
      T.remove v = Ctx.fill c (Shape.node l a v u r).removeRoot ∧
      (∀ x hot0, T.searchSlot v x hot0 = (Ctx.slot x c, Ctx.parent hot0 c))
  | .nil, a, hf => by simp [Shape.find] at hf
  | .node l b k u r, a, hf => by
    by_cases hkv : k = v
    · simp only [Shape.find, hkv, if_true, Option.some.injEq] at hf
      subst hf
      subst hkv
      exact ⟨[], l, u, r, rfl, by simp [Shape.remove, Ctx.fill], fun x hot0 => by
        simp [Shape.searchSlot, Ctx.slot, Ctx.parent]⟩
    · by_cases hlt : v < k
      · simp only [Shape.find, hkv, hlt, if_true, if_false] at hf
        obtain ⟨c, l1, u1, r1, h1, h2, h3⟩ := Shape.find_split v l a hf
        refine ⟨c ++ [.left b k u r], l1, u1, r1, ?_, ?_, ?_⟩
        · rw [Ctx.fill_append, ← h1]; rfl
        · rw [Ctx.fill_append, ← h2]
          simp [Shape.remove, hkv, hlt, Ctx.fill, Frame.plug]
        · intro x hot0
          rw [Ctx.slot_append_singleton, Ctx.parent_append_singleton]
          simp only [Shape.searchSlot, hkv, hlt, if_true, if_false, h3]
          rfl
      · simp only [Shape.find, hkv, hlt, if_false] at hf
        obtain ⟨c, l1, u1, r1, h1, h2, h3⟩ := Shape.find_split v r a hf
        refine ⟨c ++ [.right l b k u], l1, u1, r1, ?_, ?_, ?_⟩
        · rw [Ctx.fill_append, ← h1]; rfl
        · rw [Ctx.fill_append, ← h2]
          simp [Shape.remove, hkv, hlt, Ctx.fill, Frame.plug]
        · intro x hot0
          rw [Ctx.slot_append_singleton, Ctx.parent_append_singleton]
          simp only [Shape.searchSlot, hkv, hlt, if_false, h3]
          rfl

end split

/-- A non-empty tree splits into its first node in in-order and the context around it. -/
theorem Shape.leftmost_split : ∀ (r : Shape K V), r ≠ .nil →
    ∃ (c : Ctx K V) (w : Nat) (k1 : K) (u1 : V) (wr : Shape K V),
      r = Ctx.fill c (.node .nil w k1 u1 wr) ∧ r.leftmost = some (w, k1, u1) ∧
      r.removeMin = Ctx.fill c wr ∧ (∀ f ∈ c, ∃ a k v s, f = Frame.left a k v s)
  | .nil, h => absurd rfl h
  | .node .nil a k v r, _ => ⟨[], a, k, v, r, rfl, rfl, rfl, by simp⟩
  | .node (.node ll b kb vb lr) a k v r, _ => by
    obtain ⟨c, w, k1, u1, wr, h1, h2, h3, h4⟩ :=
      Shape.leftmost_split (.node ll b kb vb lr) (by simp)
    refine ⟨c ++ [.left a k v r], w, k1, u1, wr, ?_, ?_, ?_, ?_⟩
    · rw [Ctx.fill_append, ← h1]; rfl
    · simpa [Shape.leftmost] using h2
    · rw [Ctx.fill_append, ← h3]; rfl
    · intro f hf
      rcases List.mem_append.mp hf with e | e
      · exact h4 f e
      · simp only [List.mem_singleton] at e
        exact ⟨a, k, v, r, e⟩


/-! # Running `removeAt` -/

theorem get_update (h : Heap K V) (a b : Nat) (f : BinNode K V → BinNode K V) :
    (update h a f)[b]? = if a = b then (h[b]?).map f else h[b]? := by
  unfold update
  cases hh : h[a]? with
  | none =>
    by_cases hab : a = b
    · subst hab; simp [hh]
    · simp [hab]
  | some n =>
    by_cases hab : a = b
    · subst hab
      simp only [if_true, hh, Option.map_some']
      exact get_set_self hh
    · simp only [hab, if_false]
      exact get_set_other _ hab

theorem get_update_self {h : Heap K V} {a : Nat} {n : BinNode K V} (hn : h[a]? = some n)
    (f : BinNode K V → BinNode K V) : (update h a f)[a]? = some (f n) := by
  rw [get_update, if_pos rfl, hn]; rfl

theorem get_update_other (h : Heap K V) {a b : Nat} (hab : a ≠ b)
    (f : BinNode K V → BinNode K V) : (update h a f)[b]? = h[b]? := by
  rw [get_update, if_neg hab]

theorem length_update (h : Heap K V) (a : Nat) (f : BinNode K V → BinNode K V) :
    (update h a f).length = h.length := by
  unfold update
  cases h[a]? <;> simp

theorem store_eq_update {h : Heap K V} {a : Nat} {n : BinNode K V} (hn : h[a]? = some n)
    (f : BinNode K V → BinNode K V) : store h (some a) f = .ok (update h a f) := by
  simp [store, update, hn]

theorem get_reparent (h : Heap K V) (s hot : Option Nat) (b : Nat) :
    (reparent h s hot)[b]? = if s = some b then (h[b]?).map (fun q => { q with parent := hot })
      else h[b]? := by
  cases s with
  | none => simp [reparent]
  | some c =>
    simp only [reparent, get_update, Option.some.injEq]

theorem length_reparent (h : Heap K V) (s hot : Option Nat) :
    (reparent h s hot).length = h.length := by
  cases s with
  | none => rfl
  | some c => exact length_update _ _ _

theorem writeSlot_eq_setSlot {t : Bst K} {x : Slot} {q : Option Nat}
    (hx : t.readSlot x = .ok q) (p : Option Nat) : t.writeSlot x p = .ok (t.setSlot x p) := by
  cases x with
  | root => rfl
  | lc c =>
    simp only [Bst.readSlot, deref] at hx
    cases hh : t.heap[c]? with
    | none => simp [hh] at hx
    | some nc => simp [Bst.writeSlot, Bst.setSlot, store_eq_update hh]
  | rc c =>
    simp only [Bst.readSlot, deref] at hx
    cases hh : t.heap[c]? with
    | none => simp [hh] at hx
    | some nc => simp [Bst.writeSlot, Bst.setSlot, store_eq_update hh]

theorem readSlot_setSlot {t : Bst K} {x : Slot} {q : Option Nat}
    (hx : t.readSlot x = .ok q) (p : Option Nat) : (t.setSlot x p).readSlot x = .ok p := by
  cases x with
  | root => rfl
  | lc c =>
    simp only [Bst.readSlot, deref] at hx
    cases hh : t.heap[c]? with
    | none => simp [hh] at hx
    | some nc => simp [Bst.readSlot, Bst.setSlot, deref, get_update_self hh]
  | rc c =>
    simp only [Bst.readSlot, deref] at hx
    cases hh : t.heap[c]? with
    | none => simp [hh] at hx
    | some nc => simp [Bst.readSlot, Bst.setSlot, deref, get_update_self hh]

theorem get_setSlot_other (t : Bst K) (x : Slot) (p : Option Nat) (y : Nat)
    (hy : x.holder ≠ some y) : (t.setSlot x p).heap[y]? = t.heap[y]? := by
  cases x with
  | root => rfl
  | lc c => exact get_update_other _ (fun e => hy (by rw [e]; rfl)) _
  | rc c => exact get_update_other _ (fun e => hy (by rw [e]; rfl)) _

/-- Reading a slot depends only on the `root` field and on the holder of the slot. -/
theorem readSlot_congr {t t1 : Bst K} {x : Slot} (hroot : x = .root → t1.root = t.root)
    (hh : ∀ c, x.holder = some c →
      (t1.heap[c]?).map linksOf = (t.heap[c]?).map linksOf) :
    t1.readSlot x = t.readSlot x := by
  cases x with
  | root => simp [Bst.readSlot, hroot rfl]
  | lc c =>
    have := hh c rfl
    simp only [Bst.readSlot, deref]
    cases h1 : t1.heap[c]? <;> cases h2 : t.heap[c]? <;> rw [h1, h2] at this <;>
      simp [linksOf] at this ⊢
    exact this.2.1
  | rc c =>
    have := hh c rfl
    simp only [Bst.readSlot, deref]
    cases h1 : t1.heap[c]? <;> cases h2 : t.heap[c]? <;> rw [h1, h2] at this <;>
      simp [linksOf] at this ⊢
    exact this.2.2

/-- `removeAt` on a node without a left child: the slot takes the right child. -/
theorem Bst.removeAt_noLeft {t : Bst K} {x : Slot} {a : Nat} {n : BinNode K Unit} (fuel : Nat)
    (hx : t.readSlot x = .ok (some a)) (hn : t.heap[a]? = some n) (hlc : n.lc = none)
    (hha : x.holder ≠ some a) (hb : ∀ b, n.rc = some b → ∃ nb, t.heap[b]? = some nb) :
    t.removeAt fuel x = .ok ({ t.setSlot x n.rc with
      hot := n.parent, heap := reparent (t.setSlot x n.rc).heap n.rc n.parent }, n.rc) := by
  have hn1 : (t.setSlot x n.rc).heap[a]? = some n := by
    rw [get_setSlot_other _ _ _ _ hha]; exact hn
  rw [Bst.removeAt, hx]
  try dsimp only
  rw [deref_of_get hn]
  try dsimp only
  rw [Bst.unlink, if_pos hlc, writeSlot_eq_setSlot hx, ]
  try dsimp only
  rw [readSlot_setSlot hx]
  try dsimp only
  rw [deref_of_get hn1]
  try dsimp only
  cases hrc : n.rc with
  | none => simp [reparent]
  | some b =>
    obtain ⟨nb, hnb⟩ := hb b hrc
    have hb1 : ∃ m, (t.setSlot x (some b)).heap[b]? = some m := by
      cases x with
      | root => exact ⟨nb, hnb⟩
      | lc c =>
        simp only [Bst.setSlot, get_update, hnb]
        split <;> simp
      | rc c =>
        simp only [Bst.setSlot, get_update, hnb]
        split <;> simp
    obtain ⟨m, hm⟩ := hb1
    rw [if_pos (by simp)]
    try dsimp only
    rw [store_eq_update hm]
    rfl

/-- `removeAt` on a node with a left child and no right child: the slot takes the left
child. -/
theorem Bst.removeAt_noRight {t : Bst K} {x : Slot} {a : Nat} {n : BinNode K Unit} (fuel : Nat)
    (hx : t.readSlot x = .ok (some a)) (hn : t.heap[a]? = some n) (hlc : n.lc ≠ none)
    (hrc : n.rc = none)
    (hha : x.holder ≠ some a) (hb : ∀ b, n.lc = some b → ∃ nb, t.heap[b]? = some nb) :
    t.removeAt fuel x = .ok ({ t.setSlot x n.lc with
      hot := n.parent, heap := reparent (t.setSlot x n.lc).heap n.lc n.parent }, n.lc) := by
  have hn1 : (t.setSlot x n.lc).heap[a]? = some n := by
    rw [get_setSlot_other _ _ _ _ hha]; exact hn
  rw [Bst.removeAt, hx]
  try dsimp only
  rw [deref_of_get hn]
  try dsimp only
  rw [Bst.unlink, if_neg hlc, if_pos hrc, writeSlot_eq_setSlot hx, ]
  try dsimp only
  rw [readSlot_setSlot hx]
  try dsimp only
  rw [deref_of_get hn1]
  try dsimp only
  cases hl : n.lc with
  | none => exact absurd hl hlc
  | some b =>
    obtain ⟨nb, hnb⟩ := hb b hl
    have hb1 : ∃ m, (t.setSlot x (some b)).heap[b]? = some m := by
      cases x with
      | root => exact ⟨nb, hnb⟩
      | lc c =>
        simp only [Bst.setSlot, get_update, hnb]
        split <;> simp
      | rc c =>
        simp only [Bst.setSlot, get_update, hnb]
        split <;> simp
    obtain ⟨m, hm⟩ := hb1
    rw [if_pos (by simp)]
    try dsimp only
    rw [store_eq_update hm]
    rfl

/-- `removeAt` on a node with both children: the keys of the node and of its successor `w`
are exchanged and `w` is spliced out of its parent `q`. -/
theorem Bst.removeAt_both {t : Bst K} {x : Slot} {a w q : Nat} {n nw nq : BinNode K Unit}
    (fuel : Nat) (hx : t.readSlot x = .ok (some a)) (hn : t.heap[a]? = some n)
    (hlc : n.lc ≠ none) (hrc : n.rc ≠ none)
    (hsucc : successor fuel t.heap (some a) = .ok (some w)) (hw : t.heap[w]? = some nw)
    (hwa : w ≠ a) (hq : nw.parent = some q) (hnq : t.heap[q]? = some nq) (hqw : q ≠ w)
    (hcc : ∀ cc, nw.rc = some cc → ∃ ncc, t.heap[cc]? = some ncc) :
    t.removeAt fuel x = .ok ({ t with
      hot := some q,
      heap := reparent
        (update (update (update t.heap w (fun m => { m with key := n.key }))
          a (fun m => { m with key := nw.key }))
          q (fun m => if q = a then { m with rc := nw.rc } else { m with lc := nw.rc }))
        nw.rc (some q) }, nw.rc) := by
  have h1a : (update t.heap w (fun m => { m with key := n.key }))[a]? = some n := by
    rw [get_update_other _ hwa]; exact hn
  have h2w : (update (update t.heap w (fun m => { m with key := n.key }))
      a (fun m => { m with key := nw.key }))[w]? = some { nw with key := n.key } := by
    rw [get_update_other _ (Ne.symm hwa), get_update_self hw]
  have h2q : ∃ m, (update (update t.heap w (fun m => { m with key := n.key }))
      a (fun m => { m with key := nw.key }))[q]? = some m := by
    simp only [get_update, hnq, if_neg (Ne.symm hqw)]
    split <;> simp
  obtain ⟨m2, hm2⟩ := h2q
  rw [Bst.removeAt, hx]
  try dsimp only
  rw [deref_of_get hn]
  try dsimp only
  rw [Bst.unlink, if_neg hlc, if_neg hrc, hsucc]
  try dsimp only
  rw [deref_of_get hw]
  try dsimp only
  rw [store_eq_update hw]
  try dsimp only
  rw [store_eq_update h1a]
  try dsimp only
  rw [deref_of_get h2w]
  try dsimp only
  rw [hq]
  by_cases hqa : q = a
  · subst hqa
    have h3w : (update (update (update t.heap w (fun m => { m with key := n.key }))
        q (fun m => { m with key := nw.key })) q (fun m => { m with rc := nw.rc }))[w]?
        = some { nw with key := n.key } := by
      rw [get_update_other _ hqw, h2w]
    rw [if_pos rfl, store_eq_update hm2]
    try dsimp only
    rw [deref_of_get h3w]
    try dsimp only
    rw [deref_of_get h3w]
    try dsimp only
    cases hr : nw.rc with
    | none => simp [reparent, hq]
    | some cc =>
      obtain ⟨ncc, hncc⟩ := hcc cc hr
      have : ∃ m, (update (update (update t.heap w (fun m => { m with key := n.key }))
          q (fun m => { m with key := nw.key })) q (fun m => { m with rc := some cc }))[cc]?
          = some m := by
        simp only [get_update, hncc]
        split <;> split <;> simp
      obtain ⟨m, hm⟩ := this
      rw [if_pos (by simp)]
      try dsimp only
      rw [store_eq_update hm]
      simp [reparent, hq]
  · have h3w : (update (update (update t.heap w (fun m => { m with key := n.key }))
        a (fun m => { m with key := nw.key })) q (fun m => { m with lc := nw.rc }))[w]?
        = some { nw with key := n.key } := by
      rw [get_update_other _ hqw, h2w]
    rw [if_neg (by simpa using hqa), store_eq_update hm2]
    try dsimp only
    rw [deref_of_get h3w]
    try dsimp only
    rw [deref_of_get h3w]
    try dsimp only
    cases hr : nw.rc with
    | none => simp [reparent, hqa, hq]
    | some cc =>
      obtain ⟨ncc, hncc⟩ := hcc cc hr
      have : ∃ m, (update (update (update t.heap w (fun m => { m with key := n.key }))
          a (fun m => { m with key := nw.key })) q (fun m => { m with lc := some cc }))[cc]?
          = some m := by
        simp only [get_update, hncc]
        split <;> split <;> split <;> simp
      obtain ⟨m, hm⟩ := this
      rw [if_pos (by simp)]
      try dsimp only
      rw [store_eq_update hm]
      simp [reparent, hqa, hq]


/-! # The heap after `removeAt`, node by node -/

theorem spliced_links_other (h : Heap K V) {a w q y : Nat} (n nw : BinNode K V)
    (hya : y ≠ a) (hyq : y ≠ q) (hyw : y ≠ w) :
    ((spliced h a w q n nw)[y]?).map linksOf = (h[y]?).map linksOf := by
  simp only [spliced, get_reparent, get_update, if_neg (Ne.symm hya), if_neg (Ne.symm hyq),
    if_neg (Ne.symm hyw)]
  split
  · cases h[y]? <;> simp [linksOf]
  · rfl

theorem update_parent (h : Heap K V) (a y : Nat) (f : BinNode K V → BinNode K V)
    (hf : ∀ m, (f m).parent = m.parent) :
    ((update h a f)[y]?).map (·.parent) = (h[y]?).map (·.parent) := by
  rw [get_update]
  split
  · cases h[y]? <;> simp [hf]
  · rfl

theorem spliced_parent_other (h : Heap K V) {a w q y : Nat} (n nw : BinNode K V)
    (hy : nw.rc ≠ some y) :
    ((spliced h a w q n nw)[y]?).map (·.parent) = (h[y]?).map (·.parent) := by
  simp only [spliced, get_reparent, if_neg hy]
  refine (update_parent _ _ _ _ ?_).trans
    ((update_parent _ _ _ _ ?_).trans (update_parent _ _ _ _ ?_))
  · intro m; split <;> rfl
  · intro m; rfl
  · intro m; rfl

theorem spliced_get_far (h : Heap K V) {a w q y : Nat} (n nw : BinNode K V)
    (hya : y ≠ a) (hyq : y ≠ q) (hyw : y ≠ w) (hy : nw.rc ≠ some y) :
    (spliced h a w q n nw)[y]? = h[y]? := by
  simp only [spliced, get_reparent, get_update, if_neg (Ne.symm hya), if_neg (Ne.symm hyq),
    if_neg (Ne.symm hyw), if_neg hy]

theorem spliced_get_a_eq {h : Heap K V} {a w : Nat} {n nw : BinNode K V}
    (hn : h[a]? = some n) (hwa : w ≠ a) (hy : nw.rc ≠ some a) :
    (spliced h a w a n nw)[a]? = some { n with key := nw.key, rc := nw.rc } := by
  simp [spliced, get_reparent, get_update, hwa, hy, hn]

theorem spliced_get_a_ne {h : Heap K V} {a w q : Nat} {n nw : BinNode K V}
    (hn : h[a]? = some n) (hwa : w ≠ a) (hqa : q ≠ a) (hy : nw.rc ≠ some a) :
    (spliced h a w q n nw)[a]? = some { n with key := nw.key } := by
  simp [spliced, get_reparent, get_update, hwa, hy, hn, hqa]

theorem spliced_get_q {h : Heap K V} {a w q : Nat} {n nw nq : BinNode K V}
    (hnq : h[q]? = some nq) (hqw : q ≠ w) (hqa : q ≠ a) (hy : nw.rc ≠ some q) :
    (spliced h a w q n nw)[q]? = some { nq with lc := nw.rc } := by
  simp [spliced, get_reparent, get_update, Ne.symm hqw, hy, hnq, hqa, Ne.symm hqa]

theorem spliced_length (h : Heap K V) (a w q : Nat) (n nw : BinNode K V) :
    (spliced h a w q n nw).length = h.length := by
  simp [spliced, length_reparent, length_update]

theorem leftmostLoop_owns {h : Heap K V} : ∀ (r : Shape K V) (pr : Option Nat) (f : Nat)
    (w : Nat) (k1 : K) (u1 : V), Owns h pr r → r.leftmost = some (w, k1, u1) → r.size ≤ f →
    leftmostLoop f h pr = .ok (some w)
  | .nil, _, _, _, _, _, _, hl, _ => by simp [Shape.leftmost] at hl
  | .node .nil a k v r, pr, f, w, k1, u1, ho, hl, hf => by
    obtain ⟨hp, n, hn, _, _, hlc, _⟩ := ho
    subst hp
    have hlc' : n.lc = none := hlc
    simp only [Shape.leftmost, Option.some.injEq, Prod.mk.injEq] at hl
    cases f with
    | zero => simp [Shape.size] at hf
    | succ f =>
      rw [leftmostLoop, deref_of_get hn]
      simp [hlc', hl.1]
  | .node (.node ll b kb vb lr) a k v r, pr, f, w, k1, u1, ho, hl, hf => by
    obtain ⟨hp, n, hn, _, _, hlo, _⟩ := ho
    subst hp
    have hlc' : n.lc = some b := hlo.1
    simp only [Shape.leftmost] at hl
    cases f with
    | zero => simp [Shape.size] at hf
    | succ f =>
      rw [leftmostLoop, deref_of_get hn]
      dsimp only
      rw [if_pos (by rw [hlc']; simp)]
      exact leftmostLoop_owns (.node ll b kb vb lr) n.lc f w k1 u1 hlo hl
        (by simp only [Shape.size] at hf ⊢; omega)

theorem linksOf_parent (m : BinNode K V) (p : Option Nat) :
    linksOf { m with parent := p } = linksOf m := rfl

theorem readSlot_holder {t : Bst K} {x : Slot} {c : Nat} {p : Option Nat}
    (hx : t.readSlot x = .ok p) (hc : x.holder = some c) :
    ∃ nc, t.heap[c]? = some nc ∧ x.relink p nc = linksOf nc := by
  cases x with
  | root => cases hc
  | lc d =>
    simp only [Slot.holder, Option.some.injEq] at hc
    subst hc
    simp only [Bst.readSlot, deref] at hx
    cases hh : t.heap[d]? with
    | none => simp [hh] at hx
    | some nc =>
      simp [hh] at hx
      exact ⟨nc, rfl, by simp [Slot.relink, linksOf, hx]⟩
  | rc d =>
    simp only [Slot.holder, Option.some.injEq] at hc
    subst hc
    simp only [Bst.readSlot, deref] at hx
    cases hh : t.heap[d]? with
    | none => simp [hh] at hx
    | some nc =>
      simp [hh] at hx
      exact ⟨nc, rfl, by simp [Slot.relink, linksOf, hx]⟩

theorem get_setSlot_holder {t : Bst K} {x : Slot} {c : Nat} {nc : BinNode K Unit}
    (hc : x.holder = some c) (hnc : t.heap[c]? = some nc) (p : Option Nat) :
    ∃ m, (t.setSlot x p).heap[c]? = some m ∧ linksOf m = x.relink p nc ∧
      m.parent = nc.parent := by
  cases x with
  | root => cases hc
  | lc d =>
    simp only [Slot.holder, Option.some.injEq] at hc
    subst hc
    exact ⟨_, get_update_self hnc _, rfl, rfl⟩
  | rc d =>
    simp only [Slot.holder, Option.some.injEq] at hc
    subst hc
    exact ⟨_, get_update_self hnc _, rfl, rfl⟩

theorem setSlot_size (t : Bst K) (x : Slot) (p : Option Nat) : (t.setSlot x p).size = t.size := by
  cases x <;> rfl

theorem setSlot_root (t : Bst K) (x : Slot) (p : Option Nat) (hx : x ≠ .root) :
    (t.setSlot x p).root = t.root := by
  cases x with
  | root => exact absurd rfl hx
  | lc c => rfl
  | rc c => rfl

theorem setSlot_length (t : Bst K) (x : Slot) (p : Option Nat) :
    (t.setSlot x p).heap.length = t.heap.length := by
  cases x with
  | root => rfl
  | lc c => exact length_update _ _ _
  | rc c => exact length_update _ _ _

/-- The one-child branches of `removeAt`, on trees: the subtree `S1` at the child pointer
`s` of the removed node takes the place of the subtree `S`. -/
theorem replaced_by_child {t : Bst K} {x : Slot} {S S1 : Shape K Unit} {a : Nat}
    {n : BinNode K Unit} {s par : Option Nat}
    (hx : t.readSlot x = .ok (some a)) (_hn : t.heap[a]? = some n) (hpar : n.parent = par)
    (_ha : a ∈ S.addrs) (ha1 : a ∉ S1.addrs)
    (hsub : ∀ y, y ∈ S1.addrs → y ∈ S.addrs)
    (hh : ∀ c, x.holder = some c → c ∉ S.addrs)
    (ho1 : Owns t.heap s S1) (hp1 : Parented t.heap (some a) S1) (hnd1 : S1.addrs.Nodup) :
    Bst.Replaced t { t.setSlot x s with
      hot := n.parent, heap := reparent (t.setSlot x s).heap s n.parent } x S S1 par := by
  have hroot := ho1.root_eq
  have hfar : ∀ y, x.holder ≠ some y → s ≠ some y →
      (reparent (t.setSlot x s).heap s n.parent)[y]? = t.heap[y]? := by
    intro y h1 h2
    rw [get_reparent, if_neg h2, get_setSlot_other _ _ _ _ h1]
  have hlinks : ∀ y ∈ S1.addrs,
      ((reparent (t.setSlot x s).heap s n.parent)[y]?).map linksOf
        = (t.heap[y]?).map linksOf := by
    intro y hy
    have h1 : x.holder ≠ some y := fun e => hh y e (hsub y hy)
    rw [get_reparent, get_setSlot_other _ _ _ _ h1]
    split
    · cases t.heap[y]? <;> simp [linksOf]
    · rfl
  refine ⟨s, ?_, Owns.frame_links ho1 hlinks, ?_, setSlot_size _ _ _,
    fun hxr => setSlot_root _ _ _ hxr, ?_, ?_, ?_⟩
  · have h0 := readSlot_setSlot hx s
    rw [← h0]
    refine readSlot_congr (t := t.setSlot x s) (fun _ => rfl) ?_
    intro c hc
    have hcs : s ≠ some c := by
      intro e
      rw [hroot] at e
      cases S1 with
      | nil => cases e
      | node l1 b k1 u1 r1 =>
        simp only [Shape.root, Option.some.injEq] at e
        exact hh c hc (hsub c (e ▸ Shape.mem_addrs_node.mpr (Or.inr (Or.inl rfl))))
    show ((reparent (t.setSlot x s).heap s n.parent)[c]?).map linksOf = _
    rw [get_reparent, if_neg hcs]
  · cases S1 with
    | nil => trivial
    | node l1 b k1 u1 r1 =>
      obtain ⟨hs, nb, hnb, _, _, _, _⟩ := ho1
      obtain ⟨_, hpl, hpr⟩ := hp1
      obtain ⟨_, _, hbl, hbr, _⟩ := Shape.nodup_node hnd1
      have hb : b ∈ S.addrs := hsub b (Shape.mem_addrs_node.mpr (Or.inr (Or.inl rfl)))
      have hxb : x.holder ≠ some b := fun e => hh b e hb
      have hpar1 : ∀ y ∈ (Shape.node l1 b k1 u1 r1).addrs, y ≠ b →
          ((reparent (t.setSlot x s).heap s n.parent)[y]?).map (·.parent)
            = (t.heap[y]?).map (·.parent) := by
        intro y hy hyb
        rw [hfar y (fun e => hh y e (hsub y hy)) (by rw [hs]; simpa using Ne.symm hyb)]
      refine ⟨⟨{ nb with parent := n.parent }, ?_, hpar⟩, ?_, ?_⟩
      · show (reparent (t.setSlot x s).heap s n.parent)[b]? = _
        rw [get_reparent, if_pos hs, get_setSlot_other _ _ _ _ hxb, hnb]
        rfl
      · exact Parented.frame_par hpl (fun y hy => hpar1 y
          (Shape.mem_addrs_node.mpr (Or.inl hy)) (fun e => hbl (e ▸ hy)))
      · exact Parented.frame_par hpr (fun y hy => hpar1 y
          (Shape.mem_addrs_node.mpr (Or.inr (Or.inr hy))) (fun e => hbr (e ▸ hy)))
  · show (reparent (t.setSlot x s).heap s n.parent).length = _
    rw [length_reparent, setSlot_length]
  · intro y hy hxy
    refine hfar y hxy ?_
    intro e
    rw [hroot] at e
    cases S1 with
    | nil => cases e
    | node l1 b k1 u1 r1 =>
      simp only [Shape.root, Option.some.injEq] at e
      exact hy (hsub y (e ▸ Shape.mem_addrs_node.mpr (Or.inr (Or.inl rfl))))
  · intro c nc hc hnc
    have hcs : s ≠ some c := by
      intro e
      rw [hroot] at e
      cases S1 with
      | nil => cases e
      | node l1 b k1 u1 r1 =>
        simp only [Shape.root, Option.some.injEq] at e
        exact hh c hc (hsub c (e ▸ Shape.mem_addrs_node.mpr (Or.inr (Or.inl rfl))))
    obtain ⟨m, hm, hl, hp⟩ := get_setSlot_holder hc hnc s
    show ((reparent (t.setSlot x s).heap s n.parent)[c]?).map linksOf = _ ∧
      ((reparent (t.setSlot x s).heap s n.parent)[c]?).map (·.parent) = _
    rw [get_reparent, if_neg hcs, hm]
    simp [hl, hp]

theorem spliced_get_cc {h : Heap K V} {a w q cc : Nat} {n nw ncc : BinNode K V}
    (hr : nw.rc = some cc) (hncc : h[cc]? = some ncc)
    (hca : cc ≠ a) (hcq : cc ≠ q) (hcw : cc ≠ w) :
    (spliced h a w q n nw)[cc]? = some { ncc with parent := some q } := by
  simp [spliced, get_reparent, get_update, hr, Ne.symm hca, Ne.symm hcq, Ne.symm hcw, hncc]

theorem Shape.root_mem : ∀ (t : Shape K V) (c : Nat), t.root = some c → c ∈ t.addrs
  | .nil, _, h => by cases h
  | .node l a k v r, c, h => by
    simp only [Shape.root, Option.some.injEq] at h
    exact Shape.mem_addrs_node.mpr (Or.inr (Or.inl h.symm))

/-- The two-children branch of `removeAt`, on trees. -/
theorem replaced_by_successor {t : Bst K} {x : Slot} {ll lr rl rr : Shape K Unit}
    {a b c : Nat} {k kb kc : K} {par : Option Nat} (fuel : Nat)
    (hx : t.readSlot x = .ok (some a))
    (ho : Owns t.heap (some a) (.node (.node ll b kb () lr) a k () (.node rl c kc () rr)))
    (hpar : Parented t.heap par (.node (.node ll b kb () lr) a k () (.node rl c kc () rr)))
    (hnd : (Shape.node (.node ll b kb () lr) a k () (.node rl c kc () rr)).addrs.Nodup)
    (hh : ∀ d, x.holder = some d →
      d ∉ (Shape.node (.node ll b kb () lr) a k () (.node rl c kc () rr)).addrs)
    (hf : (Shape.node rl c kc () rr).size ≤ fuel) :
    ∃ (w q : Nat) (n nw nq : BinNode K Unit),
      t.heap[a]? = some n ∧ n.lc ≠ none ∧ n.rc ≠ none ∧
      successor fuel t.heap (some a) = .ok (some w) ∧ t.heap[w]? = some nw ∧ w ≠ a ∧
      nw.parent = some q ∧ t.heap[q]? = some nq ∧ q ≠ w ∧
      (∀ cc, nw.rc = some cc → ∃ ncc, t.heap[cc]? = some ncc) ∧
      (nw.lc = none ∧ nw.rc ≠ some a ∧ nw.rc ≠ some q ∧ nw.rc ≠ some w ∧
        leftmostLoop fuel t.heap n.rc = .ok (some w) ∧
        (if q = a then n.rc = some w else nq.lc = some w) ∧
        w ∉ (Shape.node (.node ll b kb () lr) a k () (.node rl c kc () rr)).removeRoot.addrs) ∧
      Bst.Replaced t { t with hot := some q, heap := spliced t.heap a w q n nw } x
        (.node (.node ll b kb () lr) a k () (.node rl c kc () rr))
        (Shape.node (.node ll b kb () lr) a k () (.node rl c kc () rr)).removeRoot par := by
  obtain ⟨_, n, hn, hk, _, hl, hr⟩ := ho
  obtain ⟨⟨n', hn', hnpar⟩, hpl, hpr⟩ := hpar
  rw [hn] at hn'
  cases hn'
  obtain ⟨hlnd, hrnd, hal, har, hlr⟩ := Shape.nodup_node hnd
  obtain ⟨cr, w, k1, u1, wr, hreq, hlm, hrm, hleft⟩ :=
    Shape.leftmost_split (.node rl c kc () rr) (by simp)
  have hlc : n.lc ≠ none := by rw [hl.1]; simp
  have hrc : n.rc ≠ none := by rw [hr.1]; simp
  have hr' := hr
  have hpr' := hpr
  have hrnd' := hrnd
  rw [hreq] at hr' hpr' hrnd'
  obtain ⟨q0, hq0⟩ := Owns.of_fill cr _ _ hr'
  obtain ⟨_, nw, hw, hwk, _, hwl, hwr⟩ := hq0
  obtain ⟨⟨nw', hw', hwpar⟩, _, hpwr⟩ := Parented.of_fill_par cr _ _ hpr'
  rw [hw] at hw'
  cases hw'
  obtain ⟨hswnd, hcrnd, hdisj⟩ := Ctx.nodup_fill hrnd'
  obtain ⟨_, hwrnd, _, hwwr, _⟩ := Shape.nodup_node hswnd
  have hmemr : ∀ y, y ∈ (Shape.node rl c kc () rr).addrs ↔
      (y ∈ (Shape.node .nil w k1 u1 wr).addrs ∨ y ∈ Ctx.addrs cr) := by
    intro y
    rw [hreq]
    exact Ctx.mem_fill_addrs
  have hwS : w ∈ (Shape.node (.nil : Shape K Unit) w k1 u1 wr).addrs :=
    Shape.mem_addrs_node.mpr (Or.inr (Or.inl rfl))
  have hwrS : ∀ y, y ∈ wr.addrs → y ∈ (Shape.node (.nil : Shape K Unit) w k1 u1 wr).addrs :=
    fun y hy => Shape.mem_addrs_node.mpr (Or.inr (Or.inr hy))
  have hwr_in : w ∈ (Shape.node rl c kc () rr).addrs := (hmemr w).mpr (Or.inl hwS)
  have hwa : w ≠ a := fun e => har (e ▸ hwr_in)
  have hsucc : successor fuel t.heap (some a) = .ok (some w) := by
    rw [successor, deref_of_get hn]
    dsimp only
    rw [if_pos hrc]
    exact leftmostLoop_owns _ n.rc fuel w k1 u1 hr hlm hf
  have hroot := hwr.root_eq
  have hrcmem : ∀ y, nw.rc = some y → y ∈ wr.addrs :=
    fun y hy => Shape.root_mem wr y (by rw [← hroot]; exact hy)
  have hcc : ∀ cc, nw.rc = some cc → ∃ ncc, t.heap[cc]? = some ncc :=
    fun cc hc => hwr.get_of_mem cc (hrcmem cc hc)
  -- the parent of the successor
  have hqex : ∃ q nq, Ctx.parent (some a) cr = some q ∧ t.heap[q]? = some nq ∧
      (q = a ∨ q ∈ Ctx.addrs cr) ∧ (cr = [] → q = a) ∧
      (∀ f c1, cr = f :: c1 → f.addr = q ∧ q ≠ a) := by
    cases cr with
    | nil => exact ⟨a, n, rfl, hn, Or.inl rfl, fun _ => rfl, fun f c1 e => by cases e⟩
    | cons f c1 =>
      have hfa : f.addr ∈ Ctx.addrs (f :: c1) := by
        cases f <;> simp [Ctx.addrs, Frame.addrs, Frame.addr]
      have hfr : f.addr ∈ (Shape.node rl c kc () rr).addrs := (hmemr _).mpr (Or.inr hfa)
      obtain ⟨nq, hnq⟩ := hr.get_of_mem _ hfr
      refine ⟨f.addr, nq, rfl, hnq, Or.inr hfa, ?_, ?_⟩
      · intro e
        cases e
      · intro f' c' e
        cases e
        exact ⟨rfl, fun e' => har (e' ▸ hfr)⟩
  obtain ⟨q, nq, hqpar, hnq, hqmem, hqnil, hqcons⟩ := hqex
  have hq : nw.parent = some q := hwpar.trans hqpar
  have hq_notS : q ∉ (Shape.node (.nil : Shape K Unit) w k1 u1 wr).addrs := by
    intro hqS
    rcases hqmem with e | e
    · exact har (e ▸ (hmemr q).mpr (Or.inl hqS))
    · exact hdisj q hqS e
  have hqw : q ≠ w := fun e => hq_notS (e ▸ hwS)
  have hq_notl : q ∉ (Shape.node ll b kb () lr).addrs := by
    intro hql
    rcases hqmem with e | e
    · exact hal (e ▸ hql)
    · exact hlr q hql ((hmemr q).mpr (Or.inr e))
  -- facts on the nodes of the right subtree of the successor
  have hwr_ne : ∀ y, y ∈ wr.addrs → y ≠ a ∧ y ≠ q ∧ y ≠ w := by
    intro y hy
    refine ⟨fun e => har (e ▸ (hmemr y).mpr (Or.inl (hwrS y hy))),
      fun e => hq_notS (e ▸ hwrS y hy), fun e => hwwr (e ▸ hy)⟩
  have hrc_a : nw.rc ≠ some a := fun e => (hwr_ne a (hrcmem a e)).1 rfl
  have hrc_q : nw.rc ≠ some q := fun e => (hwr_ne q (hrcmem q e)).2.1 rfl
  have hown_wr : Owns (spliced t.heap a w q n nw) nw.rc wr :=
    Owns.frame_links hwr (fun y hy =>
      spliced_links_other _ _ _ (hwr_ne y hy).1 (hwr_ne y hy).2.1 (hwr_ne y hy).2.2)
  have hpar_wr : Parented (spliced t.heap a w q n nw) (some q) wr := by
    cases wr with
    | nil => trivial
    | node wl cc kcc ucc wrr =>
      obtain ⟨hs, ncc, hncc, _⟩ := hwr
      obtain ⟨_, hp1, hp2⟩ := hpwr
      obtain ⟨_, _, hc1, hc2, _⟩ := Shape.nodup_node hwrnd
      have hccm : cc ∈ (Shape.node wl cc kcc ucc wrr).addrs :=
        Shape.mem_addrs_node.mpr (Or.inr (Or.inl rfl))
      obtain ⟨e1, e2, e3⟩ := hwr_ne cc hccm
      refine ⟨⟨_, spliced_get_cc hs hncc e1 e2 e3, rfl⟩, ?_, ?_⟩
      · exact Parented.frame_par hp1 (fun y hy => spliced_parent_other _ _ _
          (by rw [hs]; intro e; cases e; exact hc1 hy))
      · exact Parented.frame_par hp2 (fun y hy => spliced_parent_other _ _ _
          (by rw [hs]; intro e; cases e; exact hc2 hy))
  have hrc_ctx : ∀ y, y ∈ Ctx.addrs cr → nw.rc ≠ some y :=
    fun y hy e => hdisj y (hwrS y (hrcmem y e)) hy
  have hrc_l : ∀ y, y ∈ (Shape.node ll b kb () lr).addrs → nw.rc ≠ some y :=
    fun y hy e => hlr y hy ((hmemr y).mpr (Or.inl (hwrS y (hrcmem y e))))
  have hown_l : Owns (spliced t.heap a w q n nw) n.lc (.node ll b kb () lr) :=
    Owns.frame_links hl (fun y hy => spliced_links_other _ _ _
      (fun e => hal (e ▸ hy)) (fun e => hq_notl (e ▸ hy)) (fun e => hlr y hy (e ▸ hwr_in)))
  have hpar_l : Parented (spliced t.heap a w q n nw) (some a) (.node ll b kb () lr) :=
    Parented.frame_par hpl (fun y hy => spliced_parent_other _ _ _ (hrc_l y hy))
  have hpar_r : Parented (spliced t.heap a w q n nw) (some a) (Ctx.fill cr wr) := by
    refine Parented.fill_same cr _ wr (some a) hpr' (fun _ => ?_)
      (fun y hy => spliced_parent_other _ _ _ (hrc_ctx y hy))
    rw [hqpar]
    exact hpar_wr
  have hremove : (Shape.node (.node ll b kb () lr) a k () (.node rl c kc () rr)).removeRoot
      = .node (.node ll b kb () lr) a k1 u1 (Ctx.fill cr wr) := by
    simp only [Shape.removeRoot, hlm, hrm]
  have hown : Owns (spliced t.heap a w q n nw) (some a)
      (.node (.node ll b kb () lr) a k1 u1 (Ctx.fill cr wr)) := by
    cases cr with
    | nil =>
      have hqa : q = a := hqnil rfl
      subst hqa
      exact ⟨rfl, _, spliced_get_a_eq hn hwa hrc_a, hwk, rfl, hown_l, hown_wr⟩
    | cons f c1 =>
      obtain ⟨hfq, hqa⟩ := hqcons f c1 rfl
      obtain ⟨fa, fk, fv, fs, hfe⟩ := hleft f (List.mem_cons_self _ _)
      subst hfe
      have hfq' : fa = q := hfq
      refine ⟨rfl, _, spliced_get_a_ne hn hwa hqa hrc_a, hwk, rfl, hown_l, ?_⟩
      refine Owns.fill_cons_replace (Frame.left fa fk fv fs) c1 _ wr n.rc nw.rc hr' hrnd'
        hown_wr ?_ ?_
      · intro m hm
        simp only [Frame.addr] at hm ⊢
        rw [hfq'] at hm ⊢
        rw [hnq] at hm
        cases hm
        rw [spliced_get_q hnq hqw hqa hrc_q]
        rfl
      · intro y hy hyf
        simp only [Frame.addr] at hyf
        rw [hfq'] at hyf
        exact spliced_links_other _ _ _
          (fun e => har (e ▸ (hmemr y).mpr (Or.inr hy))) hyf
          (fun e => hdisj y (e ▸ hwS) hy)
  have hpar_all : Parented (spliced t.heap a w q n nw) par
      (.node (.node ll b kb () lr) a k1 u1 (Ctx.fill cr wr)) := by
    have hget_a : ∃ m, (spliced t.heap a w q n nw)[a]? = some m ∧ m.parent = n.parent := by
      have := spliced_parent_other t.heap (a := a) (w := w) (q := q) n nw hrc_a
      rw [hn] at this
      cases hh : (spliced t.heap a w q n nw)[a]? with
      | none => rw [hh] at this; cases this
      | some m =>
        rw [hh] at this
        simp only [Option.map_some', Option.some.injEq] at this
        exact ⟨m, rfl, this⟩
    obtain ⟨m, hm, hmp⟩ := hget_a
    exact ⟨⟨m, hm, hmp.trans hnpar⟩, hpar_l, hpar_r⟩
  have hfar : ∀ y, y ∉ (Shape.node (.node ll b kb () lr) a k () (.node rl c kc () rr)).addrs →
      (spliced t.heap a w q n nw)[y]? = t.heap[y]? := by
    intro y hy
    have hyr : y ∉ (Shape.node rl c kc () rr).addrs :=
      fun e => hy (Shape.mem_addrs_node.mpr (Or.inr (Or.inr e)))
    refine spliced_get_far _ _ _
      (fun e => hy (Shape.mem_addrs_node.mpr (Or.inr (Or.inl e)))) ?_
      (fun e => hyr (e ▸ hwr_in))
      (fun e => hyr ((hmemr y).mpr (Or.inl (hwrS y (hrcmem y e)))))
    intro e
    rcases hqmem with e' | e'
    · exact hy (Shape.mem_addrs_node.mpr (Or.inr (Or.inl (e.trans e'))))
    · exact hyr ((hmemr y).mpr (Or.inr (e ▸ e')))
  have hslot_w : if q = a then n.rc = some w else nq.lc = some w := by
    cases cr with
    | nil =>
      rw [if_pos (hqnil rfl)]
      exact hr'.1
    | cons f c1 =>
      obtain ⟨hfq, hqa⟩ := hqcons f c1 rfl
      rw [if_neg hqa]
      obtain ⟨fa, fk, fv, fs, hfe⟩ := hleft f (List.mem_cons_self _ _)
      subst hfe
      obtain ⟨m, hm, hmo⟩ := Owns.of_fill_cons (Frame.left fa fk fv fs) c1 _ _ hr'
      simp only [Frame.addr] at hm hfq
      rw [hfq, hnq] at hm
      cases hm
      exact hmo.1
  refine ⟨w, q, n, nw, nq, hn, hlc, hrc, hsucc, hw, hwa, hq, hnq, hqw, hcc,
    ⟨hwl, hrc_a, hrc_q, fun e => (hwr_ne w (hrcmem w e)).2.2 rfl,
      leftmostLoop_owns _ n.rc fuel w k1 u1 hr hlm hf, hslot_w, ?_⟩, ?_⟩
  · rw [hremove]
    intro hmem
    rcases Shape.mem_addrs_node.mp hmem with e | e | e
    · exact hlr w e hwr_in
    · exact hwa e
    · rcases Ctx.mem_fill_addrs.mp e with e' | e'
      · exact hwwr e'
      · exact hdisj w hwS e'
  rw [hremove]
  refine ⟨some a, ?_, hown, hpar_all, rfl, fun _ => rfl, spliced_length _ _ _ _ _ _, ?_, ?_⟩
  · rw [← hx]
    refine readSlot_congr (t := t) (fun _ => rfl) ?_
    intro d hd
    show ((spliced t.heap a w q n nw)[d]?).map linksOf = _
    rw [hfar d (hh d hd)]
  · intro y hy _
    exact hfar y hy
  · intro d nd hd hnd'
    obtain ⟨nd', hnd2, hrel⟩ := readSlot_holder hx hd
    rw [hnd'] at hnd2
    cases hnd2
    show ((spliced t.heap a w q n nw)[d]?).map linksOf = _ ∧
      ((spliced t.heap a w q n nw)[d]?).map (·.parent) = _
    rw [hfar d (hh d hd), hnd', hrel]
    exact ⟨rfl, rfl⟩


/-! # Removal -/

/-- A replacement inside a tree, seen from the root of the tree. -/
theorem Bst.replaced_lift {t t1 : Bst K} {c : Ctx K Unit} {S S1 : Shape K Unit}
    (ho : Owns t.heap t.root (Ctx.fill c S)) (hnd : (Ctx.fill c S).addrs.Nodup)
    (hpar : Parented t.heap none (Ctx.fill c S))
    (hrep : Bst.Replaced t t1 (Ctx.slot .root c) S S1 (Ctx.parent none c)) :
    Owns t1.heap t1.root (Ctx.fill c S1) ∧ Parented t1.heap none (Ctx.fill c S1) := by
  obtain ⟨p1, hrd, ho1, hp1, _, hroot, _, hfr, hhold⟩ := hrep
  obtain ⟨_, _, hdisj⟩ := Ctx.nodup_fill hnd
  cases c with
  | nil =>
    simp only [Ctx.slot, Bst.readSlot, Except.ok.injEq] at hrd
    rw [hrd]
    exact ⟨ho1, hp1⟩
  | cons f c1 =>
    have hfa : f.addr ∈ Ctx.addrs (f :: c1) := by
      cases f <;> simp [Ctx.addrs, Frame.addrs, Frame.addr]
    have hholder : (Ctx.slot .root (f :: c1)).holder = some f.addr := by
      cases f <;> rfl
    have hxr : Ctx.slot .root (f :: c1) ≠ .root := by
      cases f <;> simp [Ctx.slot, Frame.slot]
    rw [hroot hxr]
    constructor
    · refine Owns.fill_cons_replace f c1 S S1 t.root p1 ho hnd ho1 ?_ ?_
      · intro m hm
        rw [(hhold f.addr m hholder hm).1]
        cases f <;> rfl
      · intro y hy hyf
        rw [hfr y (fun e => hdisj y e hy) (by rw [hholder]; simpa using Ne.symm hyf)]
    · refine Parented.fill_same (f :: c1) S S1 none hpar (fun _ => hp1) ?_
      intro y hy
      by_cases hyf : y = f.addr
      · subst hyf
        obtain ⟨m, hm⟩ := ho.get_of_mem f.addr (Ctx.mem_fill_addrs.mpr (Or.inr hfa))
        rw [(hhold f.addr m hholder hm).2, hm]
        rfl
      · rw [hfr y (fun e => hdisj y e hy) (by rw [hholder]; simpa using Ne.symm hyf)]

/-- `removeAt` at a slot holding the root of a subtree replaces that subtree by the one
`removeRoot` computes. -/
theorem Bst.removeAt_replaced {t : Bst K} {x : Slot} {l r : Shape K Unit} {a : Nat} {k : K}
    {par : Option Nat} (fuel : Nat) (hx : t.readSlot x = .ok (some a))
    (ho : Owns t.heap (some a) (.node l a k () r))
    (hpar : Parented t.heap par (.node l a k () r))
    (hnd : (Shape.node l a k () r).addrs.Nodup)
    (hh : ∀ d, x.holder = some d → d ∉ (Shape.node l a k () r).addrs)
    (hf : (Shape.node l a k () r).size ≤ fuel) :
    ∃ t1 s, t.removeAt fuel x = .ok (t1, s) ∧
      Bst.Replaced t t1 x (.node l a k () r) (Shape.node l a k () r).removeRoot par := by
  have hamem : a ∈ (Shape.node l a k () r).addrs :=
    Shape.mem_addrs_node.mpr (Or.inr (Or.inl rfl))
  have hha : x.holder ≠ some a := fun e => hh a e hamem
  obtain ⟨hlnd, hrnd, hal, har, hlr⟩ := Shape.nodup_node hnd
  cases l with
  | nil =>
    obtain ⟨_, n, hn, _, _, hl, hr⟩ := ho
    obtain ⟨⟨n', hn', hnpar⟩, _, hpr⟩ := hpar
    rw [hn] at hn'
    cases hn'
    have hlc : n.lc = none := hl
    refine ⟨_, _, Bst.removeAt_noLeft fuel hx hn hlc hha ?_, ?_⟩
    · intro b hb
      exact hr.get_of_mem b (Shape.root_mem r b (by rw [← hr.root_eq]; exact hb))
    · have hrem : (Shape.node .nil a k () r).removeRoot = r := by
        simp [Shape.removeRoot]
      rw [hrem]
      exact replaced_by_child hx hn hnpar hamem har
        (fun y hy => Shape.mem_addrs_node.mpr (Or.inr (Or.inr hy))) hh hr hpr hrnd
  | node ll b kb ub lr =>
    cases r with
    | nil =>
      obtain ⟨_, n, hn, _, _, hl, hr⟩ := ho
      obtain ⟨⟨n', hn', hnpar⟩, hpl, _⟩ := hpar
      rw [hn] at hn'
      cases hn'
      have hrc : n.rc = none := hr
      have hlc : n.lc ≠ none := by rw [hl.1]; simp
      refine ⟨_, _, Bst.removeAt_noRight fuel hx hn hlc hrc hha ?_, ?_⟩
      · intro b' hb
        exact hl.get_of_mem b' (Shape.root_mem _ b' (by rw [← hl.root_eq]; exact hb))
      · have hrem : (Shape.node (.node ll b kb ub lr) a k () .nil).removeRoot
            = .node ll b kb ub lr := by
          simp [Shape.removeRoot]
        rw [hrem]
        exact replaced_by_child hx hn hnpar hamem hal
          (fun y hy => Shape.mem_addrs_node.mpr (Or.inl hy)) hh hl hpl hlnd
    | node rl c kc uc rr =>
      obtain ⟨w, q, n, nw, nq, h1, h2, h3, h4, h5, h6, h7, h8, h9, h10, -, hrep⟩ :=
        replaced_by_successor fuel hx ho hpar hnd hh
          (by simp only [Shape.size] at hf ⊢; omega)
      exact ⟨_, _, Bst.removeAt_both fuel hx h1 h2 h3 h4 h5 h6 h7 h8 h9 h10, hrep⟩

section removal
variable [LinearOrder K]

/-- `Remove` of a key that is absent reports failure and changes only `hot`. -/
theorem Bst.Remove_absent {t : Bst K} {T : Shape K Unit} (hinv : t.Inv T) (v : K)
    (hfind : T.find v = none) {fuel : Nat} (hf : T.size < fuel) :
    t.Remove fuel v = .ok ({ t with hot := (T.searchSlot v .root none).2 }, false) := by
  have hrd := readSlot_searchSlot v T { t with hot := (T.searchSlot v .root none).2 } .root
    t.root none rfl hinv.owns
  rw [Bst.Remove, Bst.searchAt_inv hinv v hf]
  dsimp only
  rw [hrd, hfind]

/-- `Remove` of a key that is present succeeds, takes one node out and keeps the
invariant. -/
theorem Bst.Remove_present {t : Bst K} {T : Shape K Unit} (hinv : t.Inv T) (v : K) {a : Nat}
    (hfind : T.find v = some a) {fuel : Nat} (hf : T.size < fuel) :
    ∃ t1 : Bst K, t.Remove fuel v = .ok (t1, true) ∧ t1.Inv (T.remove v) ∧
      t1.size = t.size - 1 ∧ t1.heap.length = t.heap.length := by
  obtain ⟨c, l, u, r, hT, hrem, hslot⟩ := Shape.find_split v T a hfind
  have hrd := readSlot_searchSlot v T
    { t with hot := (T.searchSlot v .root none).2, size := t.size - 1 } .root
    t.root none rfl hinv.owns
  rw [hslot] at hrd
  dsimp only at hrd
  rw [hfind] at hrd
  have ho := hinv.owns
  have hnd := hinv.nodup
  have hpa := hinv.parents
  rw [hT] at ho hnd hpa
  obtain ⟨hSnd, _, hdisj⟩ := Ctx.nodup_fill hnd
  obtain ⟨q0, hq0⟩ := Owns.of_fill c _ _ ho
  have hq0a : q0 = some a := hq0.1
  rw [hq0a] at hq0
  have hpS := Parented.of_fill_par c _ _ hpa
  have hsize : (Shape.node l a v u r).size ≤ fuel := by
    have := Ctx.fill_size c (Shape.node l a v u r)
    rw [← hT] at this
    omega
  obtain ⟨t1, s, hrun, hrep⟩ := Bst.removeAt_replaced
    (t := { t with hot := (T.searchSlot v .root none).2, size := t.size - 1 })
    (x := Ctx.slot .root c) fuel hrd hq0 hpS hSnd
    (by
      intro d hd hdS
      cases c with
      | nil => cases hd
      | cons f c1 =>
        have hfa : f.addr ∈ Ctx.addrs (f :: c1) := by
          cases f <;> simp [Ctx.addrs, Frame.addrs, Frame.addr]
        have hde : f.addr = d := by
          cases f <;> simpa [Ctx.slot, Frame.slot, Slot.holder, Frame.addr] using hd
        exact hdisj d hdS (hde ▸ hfa)) hsize
  have hlift := Bst.replaced_lift
    (t := { t with hot := (T.searchSlot v .root none).2, size := t.size - 1 }) ho hnd hpa hrep
  obtain ⟨p1, _, _, _, hsz, _, hlen, _, _⟩ := hrep
  have hrd2 := readSlot_searchSlot v T { t with hot := (T.searchSlot v .root none).2 } .root
    t.root none rfl hinv.owns
  refine ⟨t1, ?_, ⟨?_, ?_, ?_, ?_, ?_⟩, hsz, hlen⟩
  · rw [Bst.Remove, Bst.searchAt_inv hinv v hf]
    dsimp only
    rw [hrd2, hfind]
    dsimp only
    rw [hslot]
    dsimp only
    rw [hslot] at hrun
    dsimp only at hrun
    rw [hrun]
  · rw [hrem]; exact hlift.1
  · rw [hrem]
    exact Ctx.nodup_fill_of hnd (Shape.removeRoot_nodup l r a v u hSnd)
      (Shape.removeRoot_addrs_sub l r a v u)
  · rw [hrem]; exact hlift.2
  · exact Shape.remove_ordered v T hinv.ordered
  · have h1 := Ctx.fill_size c (Shape.node l a v u r)
    have h2 := Ctx.fill_size c (Shape.node l a v u r).removeRoot
    have h3 := Shape.removeRoot_size l r a v u
    rw [hsz, hrem]
    show t.size - 1 = _
    rw [hinv.size_eq, hT, h1, h2]
    omega

end removal


/-! # Rotations: running the code -/

theorem get_of_lt {h : Heap K V} {a : Nat} (ha : a < h.length) : ∃ n, h[a]? = some n :=
  ⟨h[a], List.getElem?_eq_getElem ha⟩

theorem store_of_lt {h : Heap K V} {a : Nat} (ha : a < h.length)
    (f : BinNode K V → BinNode K V) : store h (some a) f = .ok (update h a f) := by
  obtain ⟨n, hn⟩ := get_of_lt ha
  exact store_eq_update hn f

theorem length_relinkParent (h : Heap K V) (par : Option Nat) (a : Nat) (b : Option Nat) :
    (relinkParent h par a b).length = h.length := by
  cases par with
  | none => rfl
  | some pa =>
    simp only [relinkParent]
    split <;> exact length_update _ _ _

theorem length_heightUpdated (h : Heap K V) (a : Nat) : (heightUpdated h a).length = h.length :=
  length_update _ _ _

theorem getHeight_eq {h : Heap K V} {p : Option Nat} (hp : ∀ c, p = some c → c < h.length) :
    getHeight h p = .ok (heightOf h p) := by
  cases p with
  | none => rfl
  | some c =>
    obtain ⟨n, hn⟩ := get_of_lt (hp c rfl)
    simp [getHeight, heightOf, deref, hn]

theorem updateHeight_eq {h : Heap K V} {a : Nat} {m : BinNode K V} (hm : h[a]? = some m)
    (l : ∀ c, m.lc = some c → c < h.length) (r : ∀ c, m.rc = some c → c < h.length) :
    updateHeight h (some a) = .ok (heightUpdated h a) := by
  rw [updateHeight, deref_of_get hm]
  dsimp only
  rw [getHeight_eq l, getHeight_eq r]
  dsimp only
  by_cases hc : m.color = Red
  · rw [if_pos hc, store_of_get hm]
    simp [heightUpdated, update, hm, newHeight, hc]
  · rw [if_neg hc, store_of_get hm]
    simp [heightUpdated, update, hm, newHeight, hc]

/-- The step `if e.parent != nil { *e.fromParent() = b }` of a rotation. -/
theorem relink_exec {h : Heap K V} {a : Nat} {n : BinNode K V} (b : Option Nat)
    (hn : h[a]? = some n) (hpa : ∀ pa, n.parent = some pa → pa < h.length) :
    relinkFromParent h (some a) b = .ok (relinkParent h n.parent a b) := by
  rw [relinkFromParent, deref_of_get hn]
  dsimp only
  cases hp : n.parent with
  | none => simp [relinkParent]
  | some pa =>
    obtain ⟨npa, hnpa⟩ := get_of_lt (hpa pa hp)
    rw [if_pos (by simp)]
    simp only [fromParent, isLc, deref_of_get hn, hp, deref_of_get hnpa, relinkParent, hnpa,
      Option.map_some', Option.some.injEq, reduceCtorEq, if_false]
    by_cases hc : npa.lc = some a
    · simp [hc, storeSlot, store_eq_update hnpa]
    · simp [hc, storeSlot, store_eq_update hnpa]

theorem adopt_exec {h : Heap K V} {c : Option Nat} (e : Option Nat)
    (hc : ∀ x, c = some x → x < h.length) : adopt h c e = .ok (reparent h c e) := by
  cases c with
  | none => simp [adopt, reparent]
  | some x =>
    rw [adopt, if_pos (by simp), store_of_lt (hc x rfl)]
    rfl

theorem get_relinkParent_other (h : Heap K V) (par : Option Nat) (a : Nat) (b : Option Nat)
    (y : Nat) (hy : par ≠ some y) : (relinkParent h par a b)[y]? = h[y]? := by
  cases par with
  | none => rfl
  | some pa =>
    have hne : pa ≠ y := fun e => hy (by rw [e])
    simp only [relinkParent]
    split <;> exact get_update_other _ hne _

/-- Running `rightRotate` on a node with a left child. -/
theorem rightRotate_exec {h : Heap K V} {a b : Nat} {n nb : BinNode K V}
    (hn : h[a]? = some n) (hlc : n.lc = some b) (hnb : h[b]? = some nb) (hab : a ≠ b)
    (hpa : ∀ pa, n.parent = some pa → pa ≠ a ∧ pa ≠ b ∧ pa < h.length)
    (hc : ∀ c, nb.rc = some c → c ≠ a ∧ c ≠ b ∧ c < h.length)
    (hd : ∀ d, n.rc = some d → d < h.length)
    (he : ∀ e, nb.lc = some e → e < h.length) :
    rightRotate h (some a) = .ok (rotHeapR h a b n nb, some b) := by
  have hpa_a : n.parent ≠ some a := fun e => (hpa a e).1 rfl
  have hpa_b : n.parent ≠ some b := fun e => (hpa b e).2.1 rfl
  have hc_a : nb.rc ≠ some a := fun e => (hc a e).1 rfl
  have hc_b : nb.rc ≠ some b := fun e => (hc b e).2.1 rfl
  have ha_lt : a < h.length := lt_length_of_get hn
  have hb_lt : b < h.length := lt_length_of_get hnb
  -- the records of `a` and `b` along the way
  have h1a : (update h b (fun m => { m with parent := n.parent }))[a]? = some n := by
    rw [get_update_other _ (Ne.symm hab)]; exact hn
  have h1len : (update h b (fun m => { m with parent := n.parent })).length = h.length :=
    length_update _ _ _
  have h2a : (relinkParent (update h b (fun m => { m with parent := n.parent }))
      n.parent a (some b))[a]? = some n := by
    rw [get_relinkParent_other _ _ _ _ _ hpa_a]; exact h1a
  have h3b : (update (relinkParent (update h b (fun m => { m with parent := n.parent }))
      n.parent a (some b)) a (fun m => { m with parent := some b }))[b]?
      = some { nb with parent := n.parent } := by
    rw [get_update_other _ hab, get_relinkParent_other _ _ _ _ _ hpa_b, get_update_self hnb]
  have h3a : (update (relinkParent (update h b (fun m => { m with parent := n.parent }))
      n.parent a (some b)) a (fun m => { m with parent := some b }))[a]?
      = some { n with parent := some b } := get_update_self h2a _
  have h4a : (update (update (relinkParent (update h b (fun m => { m with parent := n.parent }))
      n.parent a (some b)) a (fun m => { m with parent := some b }))
      a (fun m => { m with lc := nb.rc }))[a]?
      = some { n with parent := some b, lc := nb.rc } := get_update_self h3a _
  have h4len : (update (update (relinkParent (update h b (fun m => { m with parent := n.parent }))
      n.parent a (some b)) a (fun m => { m with parent := some b }))
      a (fun m => { m with lc := nb.rc })).length = h.length := by
    rw [length_update, length_update, length_relinkParent, length_update]
  have h5len : (reparent (update (update (relinkParent
      (update h b (fun m => { m with parent := n.parent }))
      n.parent a (some b)) a (fun m => { m with parent := some b }))
      a (fun m => { m with lc := nb.rc })) nb.rc (some a)).length = h.length := by
    rw [length_reparent, h4len]
  have h6a : (update (reparent (update (update (relinkParent
      (update h b (fun m => { m with parent := n.parent }))
      n.parent a (some b)) a (fun m => { m with parent := some b }))
      a (fun m => { m with lc := nb.rc })) nb.rc (some a))
      b (fun m => { m with rc := some a }))[a]?
      = some { n with parent := some b, lc := nb.rc } := by
    rw [get_update_other _ (Ne.symm hab), get_reparent, if_neg hc_a, h4a]
  have h6len : (update (reparent (update (update (relinkParent
      (update h b (fun m => { m with parent := n.parent }))
      n.parent a (some b)) a (fun m => { m with parent := some b }))
      a (fun m => { m with lc := nb.rc })) nb.rc (some a))
      b (fun m => { m with rc := some a })).length = h.length := by
    rw [length_update, h5len]
  have h7b : ∃ mb, (heightUpdated (update (reparent (update (update (relinkParent
      (update h b (fun m => { m with parent := n.parent }))
      n.parent a (some b)) a (fun m => { m with parent := some b }))
      a (fun m => { m with lc := nb.rc })) nb.rc (some a))
      b (fun m => { m with rc := some a })) a)[b]? = some mb ∧ mb.lc = nb.lc ∧
      mb.rc = some a := by
    refine ⟨{ nb with parent := n.parent, rc := some a }, ?_, rfl, rfl⟩
    rw [heightUpdated, get_update_other _ hab, get_update, if_pos rfl, get_reparent,
      if_neg hc_b, get_update_other _ hab, get_update_other _ hab,
      get_relinkParent_other _ _ _ _ _ hpa_b, get_update_self hnb]
    rfl
  obtain ⟨mb, hmb, hmbl, hmbr⟩ := h7b
  rw [rightRotate]
  dsimp only
  rw [deref_of_get hn]
  dsimp only
  rw [if_neg (by rw [hlc]; simp), hlc, store_eq_update hnb]
  dsimp only
  rw [relink_exec (some b) h1a (fun pa hp => by rw [h1len]; exact (hpa pa hp).2.2)]
  dsimp only
  rw [store_eq_update h2a]
  dsimp only
  rw [deref_of_get h3b]
  dsimp only
  rw [store_eq_update h3a]
  dsimp only
  rw [deref_of_get h4a]
  dsimp only
  rw [adopt_exec (some a) (fun c hr => by rw [h4len]; exact (hc c hr).2.2)]
  dsimp only
  rw [store_of_lt (by rw [h5len]; exact hb_lt)]
  dsimp only
  have g1 : ∀ c, nb.rc = some c → c < (update (reparent (update (update (relinkParent
      (update h b (fun m => { m with parent := n.parent }))
      n.parent a (some b)) a (fun m => { m with parent := some b }))
      a (fun m => { m with lc := nb.rc })) nb.rc (some a))
      b (fun m => { m with rc := some a })).length :=
    fun c hcc => by rw [h6len]; exact (hc c hcc).2.2
  have g2 : ∀ d, n.rc = some d → d < (update (reparent (update (update (relinkParent
      (update h b (fun m => { m with parent := n.parent }))
      n.parent a (some b)) a (fun m => { m with parent := some b }))
      a (fun m => { m with lc := nb.rc })) nb.rc (some a))
      b (fun m => { m with rc := some a })).length :=
    fun d hdd => by rw [h6len]; exact hd d hdd
  rw [updateHeight_eq h6a (l := g1) (r := g2)]
  dsimp only
  rw [updateHeight_eq hmb
    (l := fun e hee => by rw [length_heightUpdated, h6len]; exact he e (hmbl ▸ hee))
    (r := fun d hdd => by
      rw [length_heightUpdated, h6len]
      rw [hmbr] at hdd
      cases hdd
      exact ha_lt)]
  rfl

/-- Running `leftRotate` on a node with a right child. -/
theorem leftRotate_exec {h : Heap K V} {a b : Nat} {n nb : BinNode K V}
    (hn : h[a]? = some n) (hlc : n.rc = some b) (hnb : h[b]? = some nb) (hab : a ≠ b)
    (hpa : ∀ pa, n.parent = some pa → pa ≠ a ∧ pa ≠ b ∧ pa < h.length)
    (hc : ∀ c, nb.lc = some c → c ≠ a ∧ c ≠ b ∧ c < h.length)
    (hd : ∀ d, n.lc = some d → d < h.length)
    (he : ∀ e, nb.rc = some e → e < h.length) :
    leftRotate h (some a) = .ok (rotHeapL h a b n nb, some b) := by
  have hpa_a : n.parent ≠ some a := fun e => (hpa a e).1 rfl
  have hpa_b : n.parent ≠ some b := fun e => (hpa b e).2.1 rfl
  have hc_a : nb.lc ≠ some a := fun e => (hc a e).1 rfl
  have hc_b : nb.lc ≠ some b := fun e => (hc b e).2.1 rfl
  have ha_lt : a < h.length := lt_length_of_get hn
  have hb_lt : b < h.length := lt_length_of_get hnb
  -- the records of `a` and `b` along the way
  have h1a : (update h b (fun m => { m with parent := n.parent }))[a]? = some n := by
    rw [get_update_other _ (Ne.symm hab)]; exact hn
  have h1len : (update h b (fun m => { m with parent := n.parent })).length = h.length :=
    length_update _ _ _
  have h2a : (relinkParent (update h b (fun m => { m with parent := n.parent }))
      n.parent a (some b))[a]? = some n := by
    rw [get_relinkParent_other _ _ _ _ _ hpa_a]; exact h1a
  have h3b : (update (relinkParent (update h b (fun m => { m with parent := n.parent }))
      n.parent a (some b)) a (fun m => { m with parent := some b }))[b]?
      = some { nb with parent := n.parent } := by
    rw [get_update_other _ hab, get_relinkParent_other _ _ _ _ _ hpa_b, get_update_self hnb]
  have h3a : (update (relinkParent (update h b (fun m => { m with parent := n.parent }))
      n.parent a (some b)) a (fun m => { m with parent := some b }))[a]?
      = some { n with parent := some b } := get_update_self h2a _
  have h4a : (update (update (relinkParent (update h b (fun m => { m with parent := n.parent }))
      n.parent a (some b)) a (fun m => { m with parent := some b }))
      a (fun m => { m with rc := nb.lc }))[a]?
      = some { n with parent := some b, rc := nb.lc } := get_update_self h3a _
  have h4len : (update (update (relinkParent (update h b (fun m => { m with parent := n.parent }))
      n.parent a (some b)) a (fun m => { m with parent := some b }))
      a (fun m => { m with rc := nb.lc })).length = h.length := by
    rw [length_update, length_update, length_relinkParent, length_update]
  have h5len : (reparent (update (update (relinkParent
      (update h b (fun m => { m with parent := n.parent }))
      n.parent a (some b)) a (fun m => { m with parent := some b }))
      a (fun m => { m with rc := nb.lc })) nb.lc (some a)).length = h.length := by
    rw [length_reparent, h4len]
  have h6a : (update (reparent (update (update (relinkParent
      (update h b (fun m => { m with parent := n.parent }))
      n.parent a (some b)) a (fun m => { m with parent := some b }))
      a (fun m => { m with rc := nb.lc })) nb.lc (some a))
      b (fun m => { m with lc := some a }))[a]?
      = some { n with parent := some b, rc := nb.lc } := by
    rw [get_update_other _ (Ne.symm hab), get_reparent, if_neg hc_a, h4a]
  have h6len : (update (reparent (update (update (relinkParent
      (update h b (fun m => { m with parent := n.parent }))
      n.parent a (some b)) a (fun m => { m with parent := some b }))
      a (fun m => { m with rc := nb.lc })) nb.lc (some a))
      b (fun m => { m with lc := some a })).length = h.length := by
    rw [length_update, h5len]
  have h7b : ∃ mb, (heightUpdated (update (reparent (update (update (relinkParent
      (update h b (fun m => { m with parent := n.parent }))
      n.parent a (some b)) a (fun m => { m with parent := some b }))
      a (fun m => { m with rc := nb.lc })) nb.lc (some a))
      b (fun m => { m with lc := some a })) a)[b]? = some mb ∧ mb.rc = nb.rc ∧
      mb.lc = some a := by
    refine ⟨{ nb with parent := n.parent, lc := some a }, ?_, rfl, rfl⟩
    rw [heightUpdated, get_update_other _ hab, get_update, if_pos rfl, get_reparent,
      if_neg hc_b, get_update_other _ hab, get_update_other _ hab,
      get_relinkParent_other _ _ _ _ _ hpa_b, get_update_self hnb]
    rfl
  obtain ⟨mb, hmb, hmbl, hmbr⟩ := h7b
  rw [leftRotate]
  dsimp only
  rw [deref_of_get hn]
  dsimp only
  rw [if_neg (by rw [hlc]; simp), hlc, store_eq_update hnb]
  dsimp only
  rw [relink_exec (some b) h1a (fun pa hp => by rw [h1len]; exact (hpa pa hp).2.2)]
  dsimp only
  rw [store_eq_update h2a]
  dsimp only
  rw [deref_of_get h3b]
  dsimp only
  rw [store_eq_update h3a]
  dsimp only
  rw [deref_of_get h4a]
  dsimp only
  rw [adopt_exec (some a) (fun c hr => by rw [h4len]; exact (hc c hr).2.2)]
  dsimp only
  rw [store_of_lt (by rw [h5len]; exact hb_lt)]
  dsimp only
  have g1 : ∀ c, nb.lc = some c → c < (update (reparent (update (update (relinkParent
      (update h b (fun m => { m with parent := n.parent }))
      n.parent a (some b)) a (fun m => { m with parent := some b }))
      a (fun m => { m with rc := nb.lc })) nb.lc (some a))
      b (fun m => { m with lc := some a })).length :=
    fun c hcc => by rw [h6len]; exact (hc c hcc).2.2
  have g2 : ∀ d, n.lc = some d → d < (update (reparent (update (update (relinkParent
      (update h b (fun m => { m with parent := n.parent }))
      n.parent a (some b)) a (fun m => { m with parent := some b }))
      a (fun m => { m with rc := nb.lc })) nb.lc (some a))
      b (fun m => { m with lc := some a })).length :=
    fun d hdd => by rw [h6len]; exact hd d hdd
  rw [updateHeight_eq h6a (r := g1) (l := g2)]
  dsimp only
  rw [updateHeight_eq hmb
    (r := fun e hee => by rw [length_heightUpdated, h6len]; exact he e (hmbl ▸ hee))
    (l := fun d hdd => by
      rw [length_heightUpdated, h6len]
      rw [hmbr] at hdd
      cases hdd
      exact ha_lt)]
  rfl


/-! # Rotations on trees -/

theorem update_links (h : Heap K V) (a y : Nat) (f : BinNode K V → BinNode K V)
    (hf : ∀ m, linksOf (f m) = linksOf m) :
    ((update h a f)[y]?).map linksOf = (h[y]?).map linksOf := by
  rw [get_update]
  split
  · cases h[y]? <;> simp [hf]
  · rfl

theorem reparent_links (h : Heap K V) (s hot : Option Nat) (y : Nat) :
    ((reparent h s hot)[y]?).map linksOf = (h[y]?).map linksOf := by
  cases s with
  | none => rfl
  | some c => exact update_links _ _ _ _ (fun _ => rfl)

theorem heightUpdated_links (h : Heap K V) (a y : Nat) :
    ((heightUpdated h a)[y]?).map linksOf = (h[y]?).map linksOf :=
  update_links _ _ _ _ (fun _ => rfl)

/-- Links after `rightRotate` at a node that is neither of the two rotated nodes nor the
parent of the rotated subtree. -/
theorem rotHeapR_links_other (h : Heap K V) {a b y : Nat} (n nb : BinNode K V)
    (hya : y ≠ a) (hyb : y ≠ b) (hyp : n.parent ≠ some y) :
    ((rotHeapR h a b n nb)[y]?).map linksOf = (h[y]?).map linksOf := by
  rw [rotHeapR, heightUpdated_links, heightUpdated_links, get_update_other _ (Ne.symm hyb),
    reparent_links, get_update_other _ (Ne.symm hya), get_update_other _ (Ne.symm hya),
    get_relinkParent_other _ _ _ _ _ hyp, get_update_other _ (Ne.symm hyb)]

theorem rotHeapR_links_b {h : Heap K V} {a b : Nat} {n nb : BinNode K V}
    (hnb : h[b]? = some nb) (hab : a ≠ b) (hpb : n.parent ≠ some b) :
    ((rotHeapR h a b n nb)[b]?).map linksOf = some (nb.key, nb.value, nb.lc, some a) := by
  rw [rotHeapR, heightUpdated_links, heightUpdated_links, get_update, if_pos rfl,
    Option.map_map]
  have : (reparent (update (update (relinkParent
      (update h b (fun m => { m with parent := n.parent })) n.parent a (some b))
      a (fun m => { m with parent := some b })) a (fun m => { m with lc := nb.rc }))
      nb.rc (some a))[b]?.map linksOf = some (linksOf nb) := by
    rw [reparent_links, get_update_other _ hab, get_update_other _ hab,
      get_relinkParent_other _ _ _ _ _ hpb, get_update_self hnb]
    rfl
  cases hh : (reparent (update (update (relinkParent
      (update h b (fun m => { m with parent := n.parent })) n.parent a (some b))
      a (fun m => { m with parent := some b })) a (fun m => { m with lc := nb.rc }))
      nb.rc (some a))[b]? with
  | none => rw [hh] at this; cases this
  | some m =>
    rw [hh] at this
    simp only [Option.map_some', Option.some.injEq, linksOf, Prod.mk.injEq] at this
    simp [linksOf, this.1, this.2.1, this.2.2.1]

theorem rotHeapR_links_a {h : Heap K V} {a b : Nat} {n nb : BinNode K V}
    (hn : h[a]? = some n) (hab : a ≠ b) (hpa : n.parent ≠ some a) :
    ((rotHeapR h a b n nb)[a]?).map linksOf = some (n.key, n.value, nb.rc, n.rc) := by
  have h2a : (relinkParent (update h b (fun m => { m with parent := n.parent }))
      n.parent a (some b))[a]? = some n := by
    rw [get_relinkParent_other _ _ _ _ _ hpa, get_update_other _ (Ne.symm hab)]; exact hn
  rw [rotHeapR, heightUpdated_links, heightUpdated_links, get_update_other _ (Ne.symm hab),
    reparent_links, get_update_self (get_update_self h2a _)]
  rfl

theorem rotHeapR_links_parent {h : Heap K V} {a b pa : Nat} {n nb npa : BinNode K V}
    (hp : n.parent = some pa) (hnpa : h[pa]? = some npa) (hpa : pa ≠ a) (hpb : pa ≠ b) :
    ((rotHeapR h a b n nb)[pa]?).map linksOf
      = some (if npa.lc = some a then (npa.key, npa.value, some b, npa.rc)
          else (npa.key, npa.value, npa.lc, some b)) := by
  have h1 : (update h b (fun m => { m with parent := n.parent }))[pa]? = some npa := by
    rw [get_update_other _ (Ne.symm hpb)]; exact hnpa
  rw [rotHeapR, heightUpdated_links, heightUpdated_links, get_update_other _ (Ne.symm hpb),
    reparent_links, get_update_other _ (Ne.symm hpa), get_update_other _ (Ne.symm hpa), hp]
  rw [hp] at h1
  simp only [relinkParent, h1, Option.map_some', Option.some.injEq]
  by_cases hc : npa.lc = some a
  · rw [if_pos hc, if_pos hc, get_update_self h1]
    rfl
  · rw [if_neg hc, if_neg hc, get_update_self h1]
    rfl

theorem Shape.split_at : ∀ (T : Shape K V) (a : Nat), a ∈ T.addrs →
    ∃ (c : Ctx K V) (l : Shape K V) (k : K) (v : V) (r : Shape K V),
      T = Ctx.fill c (.node l a k v r)
  | .nil, a, h => by simp [Shape.addrs] at h
  | .node l b k v r, a, h => by
    by_cases hab : b = a
    · subst hab
      exact ⟨[], l, k, v, r, rfl⟩
    · rcases Shape.mem_addrs_node.mp h with e | e | e
      · obtain ⟨c, l1, k1, v1, r1, h1⟩ := Shape.split_at l a e
        refine ⟨c ++ [.left b k v r], l1, k1, v1, r1, ?_⟩
        rw [Ctx.fill_append, ← h1]; rfl
      · exact absurd e.symm hab
      · obtain ⟨c, l1, k1, v1, r1, h1⟩ := Shape.split_at r a e
        refine ⟨c ++ [.right l b k v], l1, k1, v1, r1, ?_⟩
        rw [Ctx.fill_append, ← h1]; rfl

theorem Shape.rotR_ino (t : Shape K V) : t.rotR.ino = t.ino := by
  cases t with
  | nil => rfl
  | node l a k v r =>
    cases l with
    | nil => rfl
    | node ll b kb vb lr => simp [Shape.rotR, Shape.ino]

theorem Shape.rotL_ino (t : Shape K V) : t.rotL.ino = t.ino := by
  cases t with
  | nil => rfl
  | node l a k v r =>
    cases r with
    | nil => rfl
    | node rl b kb vb rr => simp [Shape.rotL, Shape.ino]

theorem owns_node_of_links {h : Heap K V} {a : Nat} {k : K} {v : V} {pl pr : Option Nat}
    {l r : Shape K V} (hl : (h[a]?).map linksOf = some (k, v, pl, pr)) (ol : Owns h pl l)
    (orr : Owns h pr r) : Owns h (some a) (.node l a k v r) := by
  cases hh : h[a]? with
  | none => rw [hh] at hl; cases hl
  | some m =>
    rw [hh] at hl
    simp only [Option.map_some', Option.some.injEq, linksOf, Prod.mk.injEq] at hl
    obtain ⟨e1, e2, e3, e4⟩ := hl
    exact ⟨rfl, m, hh, e1, e2, e3 ▸ ol, e4 ▸ orr⟩

theorem Ctx.root_fill_mem : ∀ (c : Ctx K V) (s : Shape K V) (f : Frame K V),
    ∃ x, (Ctx.fill (c ++ [f]) s).root = some x ∧ x ∈ Ctx.addrs (c ++ [f])
  | c, s, f => by
    rw [Ctx.fill_append, Ctx.addrs_append]
    cases f with
    | left x k v r =>
      exact ⟨x, rfl, List.mem_append.mpr (Or.inr (by simp [Ctx.addrs, Frame.addrs]))⟩
    | right l x k v =>
      exact ⟨x, rfl, List.mem_append.mpr (Or.inr (by simp [Ctx.addrs, Frame.addrs]))⟩

theorem Ctx.root_fill_cons_mem (f : Frame K V) (c : Ctx K V) (s : Shape K V) :
    ∃ x, (Ctx.fill (f :: c) s).root = some x ∧ x ∈ Ctx.addrs (f :: c) := by
  have hne : f :: c ≠ [] := by simp
  obtain ⟨c1, f1, he⟩ : ∃ c1 f1, f :: c = c1 ++ [f1] :=
    ⟨(f :: c).dropLast, (f :: c).getLast hne, (List.dropLast_append_getLast hne).symm⟩
  rw [he]
  exact Ctx.root_fill_mem c1 s f1

/-- `rightRotate` at a node of a tree, in terms of the tree: the rotated subtree and the
whole tree around it. -/
theorem rightRotate_fill {h : Heap K V} {p : Option Nat} {c : Ctx K V}
    {ll lr r : Shape K V} {a b : Nat} {k kb : K} {v vb : V}
    (ho : Owns h p (Ctx.fill c (.node (.node ll b kb vb lr) a k v r)))
    (hnd : (Ctx.fill c (.node (.node ll b kb vb lr) a k v r)).addrs.Nodup)
    (hpar : Parented h none (Ctx.fill c (.node (.node ll b kb vb lr) a k v r))) :
    ∃ n nb, h[a]? = some n ∧ n.lc = some b ∧ h[b]? = some nb ∧
      rightRotate h (some a) = .ok (rotHeapR h a b n nb, some b) ∧
      Owns (rotHeapR h a b n nb) (some b) (.node ll b kb vb (.node lr a k v r)) ∧
      Owns (rotHeapR h a b n nb) (if p = some a then some b else p)
        (Ctx.fill c (.node ll b kb vb (.node lr a k v r))) := by
  obtain ⟨q0, hq0⟩ := Owns.of_fill c _ p ho
  have hS := hq0
  obtain ⟨hq0a, n, hn, hk, hv, hl, hr⟩ := hq0
  obtain ⟨hlb, nb, hnb, hkb, hvb, hll, hlr⟩ := hl
  obtain ⟨⟨n', hn', hnpar⟩, _, _⟩ := Parented.of_fill_par c _ none hpar
  rw [hn] at hn'
  cases hn'
  obtain ⟨hSnd, _, hdisj⟩ := Ctx.nodup_fill hnd
  obtain ⟨hlnd, hrnd, hal, har, hlr_disj⟩ := Shape.nodup_node hSnd
  obtain ⟨_, _, hbll, hblr, _⟩ := Shape.nodup_node hlnd
  have hbl : b ∈ (Shape.node ll b kb vb lr).addrs :=
    Shape.mem_addrs_node.mpr (Or.inr (Or.inl rfl))
  have haS : a ∈ (Shape.node (.node ll b kb vb lr) a k v r).addrs :=
    Shape.mem_addrs_node.mpr (Or.inr (Or.inl rfl))
  have hbS : b ∈ (Shape.node (.node ll b kb vb lr) a k v r).addrs :=
    Shape.mem_addrs_node.mpr (Or.inl hbl)
  have hab : a ≠ b := fun e => hal (e ▸ hbl)
  have hlen : ∀ y, y ∈ (Shape.node (.node ll b kb vb lr) a k v r).addrs → y < h.length :=
    fun y hy => hS.lt_length y hy
  have hparent : ∀ pa, n.parent = some pa → pa ∈ Ctx.addrs c := by
    intro pa hp
    rw [hnpar] at hp
    cases c with
    | nil => cases hp
    | cons f c1 =>
      simp only [Ctx.parent, Option.some.injEq] at hp
      rw [← hp]
      cases f <;> simp [Ctx.addrs, Frame.addrs, Frame.addr]
  have hpS : ∀ pa, n.parent = some pa →
      pa ∉ (Shape.node (.node ll b kb vb lr) a k v r).addrs :=
    fun pa hp hm => hdisj pa hm (hparent pa hp)
  have hpa : ∀ pa, n.parent = some pa → pa ≠ a ∧ pa ≠ b ∧ pa < h.length := by
    intro pa hp
    refine ⟨fun e => hpS pa hp (e ▸ haS), fun e => hpS pa hp (e ▸ hbS), ?_⟩
    exact ho.lt_length pa (Ctx.mem_fill_addrs.mpr (Or.inr (hparent pa hp)))
  have hlrmem : ∀ x, nb.rc = some x → x ∈ lr.addrs :=
    fun x hx => Shape.root_mem lr x (by rw [← hlr.root_eq]; exact hx)
  have hllmem : ∀ x, nb.lc = some x → x ∈ ll.addrs :=
    fun x hx => Shape.root_mem ll x (by rw [← hll.root_eq]; exact hx)
  have hrmem : ∀ x, n.rc = some x → x ∈ r.addrs :=
    fun x hx => Shape.root_mem r x (by rw [← hr.root_eq]; exact hx)
  have hc : ∀ x, nb.rc = some x → x ≠ a ∧ x ≠ b ∧ x < h.length := by
    intro x hx
    have hxl : x ∈ (Shape.node ll b kb vb lr).addrs :=
      Shape.mem_addrs_node.mpr (Or.inr (Or.inr (hlrmem x hx)))
    exact ⟨fun e => hal (e ▸ hxl), fun e => hblr (e ▸ hlrmem x hx),
      hlen x (Shape.mem_addrs_node.mpr (Or.inl hxl))⟩
  have hexec := rightRotate_exec hn hlb hnb hab hpa hc
    (fun d hd => hlen d (Shape.mem_addrs_node.mpr (Or.inr (Or.inr (hrmem d hd)))))
    (fun e he => hlen e (Shape.mem_addrs_node.mpr (Or.inl
      (Shape.mem_addrs_node.mpr (Or.inl (hllmem e he))))))
  have hother : ∀ y, y ∈ (Shape.node (.node ll b kb vb lr) a k v r).addrs → y ≠ a → y ≠ b →
      ((rotHeapR h a b n nb)[y]?).map linksOf = (h[y]?).map linksOf :=
    fun y hy hya hyb => rotHeapR_links_other h n nb hya hyb (fun e => hpS y e hy)
  have hown_ll : Owns (rotHeapR h a b n nb) nb.lc ll :=
    Owns.frame_links hll (fun y hy => hother y
      (Shape.mem_addrs_node.mpr (Or.inl (Shape.mem_addrs_node.mpr (Or.inl hy))))
      (fun e => hal (e ▸ Shape.mem_addrs_node.mpr (Or.inl hy))) (fun e => hbll (e ▸ hy)))
  have hown_lr : Owns (rotHeapR h a b n nb) nb.rc lr :=
    Owns.frame_links hlr (fun y hy => hother y
      (Shape.mem_addrs_node.mpr (Or.inl (Shape.mem_addrs_node.mpr (Or.inr (Or.inr hy)))))
      (fun e => hal (e ▸ Shape.mem_addrs_node.mpr (Or.inr (Or.inr hy))))
      (fun e => hblr (e ▸ hy)))
  have hown_r : Owns (rotHeapR h a b n nb) n.rc r :=
    Owns.frame_links hr (fun y hy => hother y
      (Shape.mem_addrs_node.mpr (Or.inr (Or.inr hy)))
      (fun e => har (e ▸ hy)) (fun e => hlr_disj b hbl (e ▸ hy)))
  have hown_a : Owns (rotHeapR h a b n nb) (some a) (.node lr a k v r) :=
    owns_node_of_links (by
      rw [rotHeapR_links_a hn hab (fun e => (hpa a e).1 rfl), hk, hv]) hown_lr hown_r
  have hown_b : Owns (rotHeapR h a b n nb) (some b) (.node ll b kb vb (.node lr a k v r)) :=
    owns_node_of_links (by
      rw [rotHeapR_links_b hnb hab (fun e => (hpa b e).2.1 rfl), hkb, hvb]) hown_ll hown_a
  refine ⟨n, nb, hn, hlb, hnb, hexec, hown_b, ?_⟩
  cases c with
  | nil =>
    have hp : p = some a := ho.1
    rw [if_pos hp]
    exact hown_b
  | cons f c1 =>
    obtain ⟨x, hx1, hx2⟩ := Ctx.root_fill_cons_mem f c1 (.node (.node ll b kb vb lr) a k v r)
    have hp : p ≠ some a := by
      rw [ho.root_eq, hx1]
      intro e
      cases e
      exact hdisj _ haS hx2
    rw [if_neg hp]
    have hfa : f.addr ∈ Ctx.addrs (f :: c1) := by
      cases f <;> simp [Ctx.addrs, Frame.addrs, Frame.addr]
    have hnp : n.parent = some f.addr := hnpar
    obtain ⟨m, hm, hmo⟩ := Owns.of_fill_cons f c1 _ p ho
    refine Owns.fill_cons_replace f c1 _ _ p (some b) ho hnd hown_b ?_ ?_
    · intro m' hm'
      rw [hm] at hm'
      cases hm'
      rw [rotHeapR_links_parent hnp hm (hpa _ hnp).1 (hpa _ hnp).2.1]
      cases f with
      | left fa fk fv fs =>
        have : m.lc = some a := hmo.1
        simp [this]
      | right fl fa fk fv =>
        have hmr : m.rc = some a := hmo.1
        obtain ⟨q1, hq1⟩ := Owns.of_fill c1 _ p ho
        obtain ⟨_, m2, hm2, _, _, hfl, _⟩ := hq1
        simp only [Frame.addr] at hm
        rw [hm] at hm2
        cases hm2
        have hne : m.lc ≠ some a := by
          intro e
          have : a ∈ fl.addrs := Shape.root_mem fl a (by rw [← hfl.root_eq]; exact e)
          exact hdisj a haS (by simp [Ctx.addrs, Frame.addrs, this])
        simp [hne]
    · intro y hy hyf
      exact rotHeapR_links_other h n nb (fun e => hdisj a haS (e ▸ hy))
        (fun e => hdisj b hbS (e ▸ hy)) (by rw [hnp]; simpa using Ne.symm hyf)

/-- Links after `leftRotate` at a node that is neither of the two rotated nodes nor the
parent of the rotated subtree. -/
theorem rotHeapL_links_other (h : Heap K V) {a b y : Nat} (n nb : BinNode K V)
    (hya : y ≠ a) (hyb : y ≠ b) (hyp : n.parent ≠ some y) :
    ((rotHeapL h a b n nb)[y]?).map linksOf = (h[y]?).map linksOf := by
  rw [rotHeapL, heightUpdated_links, heightUpdated_links, get_update_other _ (Ne.symm hyb),
    reparent_links, get_update_other _ (Ne.symm hya), get_update_other _ (Ne.symm hya),
    get_relinkParent_other _ _ _ _ _ hyp, get_update_other _ (Ne.symm hyb)]

theorem rotHeapL_links_b {h : Heap K V} {a b : Nat} {n nb : BinNode K V}
    (hnb : h[b]? = some nb) (hab : a ≠ b) (hpb : n.parent ≠ some b) :
    ((rotHeapL h a b n nb)[b]?).map linksOf = some (nb.key, nb.value, some a, nb.rc) := by
  rw [rotHeapL, heightUpdated_links, heightUpdated_links, get_update, if_pos rfl,
    Option.map_map]
  have : (reparent (update (update (relinkParent
      (update h b (fun m => { m with parent := n.parent })) n.parent a (some b))
      a (fun m => { m with parent := some b })) a (fun m => { m with rc := nb.lc }))
      nb.lc (some a))[b]?.map linksOf = some (linksOf nb) := by
    rw [reparent_links, get_update_other _ hab, get_update_other _ hab,
      get_relinkParent_other _ _ _ _ _ hpb, get_update_self hnb]
    rfl
  cases hh : (reparent (update (update (relinkParent
      (update h b (fun m => { m with parent := n.parent })) n.parent a (some b))
      a (fun m => { m with parent := some b })) a (fun m => { m with rc := nb.lc }))
      nb.lc (some a))[b]? with
  | none => rw [hh] at this; cases this
  | some m =>
    rw [hh] at this
    simp only [Option.map_some', Option.some.injEq, linksOf, Prod.mk.injEq] at this
    simp [linksOf, this.1, this.2.1, this.2.2.2]

theorem rotHeapL_links_a {h : Heap K V} {a b : Nat} {n nb : BinNode K V}
    (hn : h[a]? = some n) (hab : a ≠ b) (hpa : n.parent ≠ some a) :
    ((rotHeapL h a b n nb)[a]?).map linksOf = some (n.key, n.value, n.lc, nb.lc) := by
  have h2a : (relinkParent (update h b (fun m => { m with parent := n.parent }))
      n.parent a (some b))[a]? = some n := by
    rw [get_relinkParent_other _ _ _ _ _ hpa, get_update_other _ (Ne.symm hab)]; exact hn
  rw [rotHeapL, heightUpdated_links, heightUpdated_links, get_update_other _ (Ne.symm hab),
    reparent_links, get_update_self (get_update_self h2a _)]
  rfl

theorem rotHeapL_links_parent {h : Heap K V} {a b pa : Nat} {n nb npa : BinNode K V}
    (hp : n.parent = some pa) (hnpa : h[pa]? = some npa) (hpa : pa ≠ a) (hpb : pa ≠ b) :
    ((rotHeapL h a b n nb)[pa]?).map linksOf
      = some (if npa.lc = some a then (npa.key, npa.value, some b, npa.rc)
          else (npa.key, npa.value, npa.lc, some b)) := by
  have h1 : (update h b (fun m => { m with parent := n.parent }))[pa]? = some npa := by
    rw [get_update_other _ (Ne.symm hpb)]; exact hnpa
  rw [rotHeapL, heightUpdated_links, heightUpdated_links, get_update_other _ (Ne.symm hpb),
    reparent_links, get_update_other _ (Ne.symm hpa), get_update_other _ (Ne.symm hpa), hp]
  rw [hp] at h1
  simp only [relinkParent, h1, Option.map_some', Option.some.injEq]
  by_cases hc : npa.lc = some a
  · rw [if_pos hc, if_pos hc, get_update_self h1]
    rfl
  · rw [if_neg hc, if_neg hc, get_update_self h1]
    rfl

/-- `leftRotate` at a node of a tree, in terms of the tree: the rotated subtree and the
whole tree around it. -/
theorem leftRotate_fill {h : Heap K V} {p : Option Nat} {c : Ctx K V}
    {l rl rr : Shape K V} {a b : Nat} {k kb : K} {v vb : V}
    (ho : Owns h p (Ctx.fill c (.node l a k v (.node rl b kb vb rr))))
    (hnd : (Ctx.fill c (.node l a k v (.node rl b kb vb rr))).addrs.Nodup)
    (hpar : Parented h none (Ctx.fill c (.node l a k v (.node rl b kb vb rr)))) :
    ∃ n nb, h[a]? = some n ∧ n.rc = some b ∧ h[b]? = some nb ∧
      leftRotate h (some a) = .ok (rotHeapL h a b n nb, some b) ∧
      Owns (rotHeapL h a b n nb) (some b) (.node (.node l a k v rl) b kb vb rr) ∧
      Owns (rotHeapL h a b n nb) (if p = some a then some b else p)
        (Ctx.fill c (.node (.node l a k v rl) b kb vb rr)) := by
  obtain ⟨q0, hq0⟩ := Owns.of_fill c _ p ho
  have hS := hq0
  obtain ⟨hq0a, n, hn, hk, hv, hl, hr⟩ := hq0
  obtain ⟨hrb, nb, hnb, hkb, hvb, hrl, hrr⟩ := hr
  obtain ⟨⟨n', hn', hnpar⟩, _, _⟩ := Parented.of_fill_par c _ none hpar
  rw [hn] at hn'
  cases hn'
  obtain ⟨hSnd, _, hdisj⟩ := Ctx.nodup_fill hnd
  obtain ⟨hlnd, hrnd, hal, har, hlr_disj⟩ := Shape.nodup_node hSnd
  obtain ⟨_, _, hbrl, hbrr, _⟩ := Shape.nodup_node hrnd
  have hbr : b ∈ (Shape.node rl b kb vb rr).addrs :=
    Shape.mem_addrs_node.mpr (Or.inr (Or.inl rfl))
  have haS : a ∈ (Shape.node l a k v (.node rl b kb vb rr)).addrs :=
    Shape.mem_addrs_node.mpr (Or.inr (Or.inl rfl))
  have hbS : b ∈ (Shape.node l a k v (.node rl b kb vb rr)).addrs :=
    Shape.mem_addrs_node.mpr (Or.inr (Or.inr hbr))
  have hab : a ≠ b := fun e => har (e ▸ hbr)
  have hlen : ∀ y, y ∈ (Shape.node l a k v (.node rl b kb vb rr)).addrs → y < h.length :=
    fun y hy => hS.lt_length y hy
  have hparent : ∀ pa, n.parent = some pa → pa ∈ Ctx.addrs c := by
    intro pa hp
    rw [hnpar] at hp
    cases c with
    | nil => cases hp
    | cons f c1 =>
      simp only [Ctx.parent, Option.some.injEq] at hp
      rw [← hp]
      cases f <;> simp [Ctx.addrs, Frame.addrs, Frame.addr]
  have hpS : ∀ pa, n.parent = some pa →
      pa ∉ (Shape.node l a k v (.node rl b kb vb rr)).addrs :=
    fun pa hp hm => hdisj pa hm (hparent pa hp)
  have hpa : ∀ pa, n.parent = some pa → pa ≠ a ∧ pa ≠ b ∧ pa < h.length := by
    intro pa hp
    refine ⟨fun e => hpS pa hp (e ▸ haS), fun e => hpS pa hp (e ▸ hbS), ?_⟩
    exact ho.lt_length pa (Ctx.mem_fill_addrs.mpr (Or.inr (hparent pa hp)))
  have hrlmem : ∀ x, nb.lc = some x → x ∈ rl.addrs :=
    fun x hx => Shape.root_mem rl x (by rw [← hrl.root_eq]; exact hx)
  have hrrmem : ∀ x, nb.rc = some x → x ∈ rr.addrs :=
    fun x hx => Shape.root_mem rr x (by rw [← hrr.root_eq]; exact hx)
  have hlmem : ∀ x, n.lc = some x → x ∈ l.addrs :=
    fun x hx => Shape.root_mem l x (by rw [← hl.root_eq]; exact hx)
  have hc : ∀ x, nb.lc = some x → x ≠ a ∧ x ≠ b ∧ x < h.length := by
    intro x hx
    have hxr : x ∈ (Shape.node rl b kb vb rr).addrs :=
      Shape.mem_addrs_node.mpr (Or.inl (hrlmem x hx))
    exact ⟨fun e => har (e ▸ hxr), fun e => hbrl (e ▸ hrlmem x hx),
      hlen x (Shape.mem_addrs_node.mpr (Or.inr (Or.inr hxr)))⟩
  have hexec := leftRotate_exec hn hrb hnb hab hpa hc
    (fun d hd => hlen d (Shape.mem_addrs_node.mpr (Or.inl (hlmem d hd))))
    (fun e he => hlen e (Shape.mem_addrs_node.mpr (Or.inr (Or.inr
      (Shape.mem_addrs_node.mpr (Or.inr (Or.inr (hrrmem e he))))))))
  have hother : ∀ y, y ∈ (Shape.node l a k v (.node rl b kb vb rr)).addrs → y ≠ a → y ≠ b →
      ((rotHeapL h a b n nb)[y]?).map linksOf = (h[y]?).map linksOf :=
    fun y hy hya hyb => rotHeapL_links_other h n nb hya hyb (fun e => hpS y e hy)
  have hown_rr : Owns (rotHeapL h a b n nb) nb.rc rr :=
    Owns.frame_links hrr (fun y hy => hother y
      (Shape.mem_addrs_node.mpr (Or.inr (Or.inr (Shape.mem_addrs_node.mpr (Or.inr (Or.inr hy))))))
      (fun e => har (e ▸ Shape.mem_addrs_node.mpr (Or.inr (Or.inr hy))))
      (fun e => hbrr (e ▸ hy)))
  have hown_rl : Owns (rotHeapL h a b n nb) nb.lc rl :=
    Owns.frame_links hrl (fun y hy => hother y
      (Shape.mem_addrs_node.mpr (Or.inr (Or.inr (Shape.mem_addrs_node.mpr (Or.inl hy)))))
      (fun e => har (e ▸ Shape.mem_addrs_node.mpr (Or.inl hy)))
      (fun e => hbrl (e ▸ hy)))
  have hown_l : Owns (rotHeapL h a b n nb) n.lc l :=
    Owns.frame_links hl (fun y hy => hother y
      (Shape.mem_addrs_node.mpr (Or.inl hy))
      (fun e => hal (e ▸ hy)) (fun e => hlr_disj y hy (e ▸ hbr)))
  have hown_a : Owns (rotHeapL h a b n nb) (some a) (.node l a k v rl) :=
    owns_node_of_links (by
      rw [rotHeapL_links_a hn hab (fun e => (hpa a e).1 rfl), hk, hv]) hown_l hown_rl
  have hown_b : Owns (rotHeapL h a b n nb) (some b) (.node (.node l a k v rl) b kb vb rr) :=
    owns_node_of_links (by
      rw [rotHeapL_links_b hnb hab (fun e => (hpa b e).2.1 rfl), hkb, hvb]) hown_a hown_rr
  refine ⟨n, nb, hn, hrb, hnb, hexec, hown_b, ?_⟩
  cases c with
  | nil =>
    have hp : p = some a := ho.1
    rw [if_pos hp]
    exact hown_b
  | cons f c1 =>
    obtain ⟨x, hx1, hx2⟩ := Ctx.root_fill_cons_mem f c1 (.node l a k v (.node rl b kb vb rr))
    have hp : p ≠ some a := by
      rw [ho.root_eq, hx1]
      intro e
      cases e
      exact hdisj _ haS hx2
    rw [if_neg hp]
    have hfa : f.addr ∈ Ctx.addrs (f :: c1) := by
      cases f <;> simp [Ctx.addrs, Frame.addrs, Frame.addr]
    have hnp : n.parent = some f.addr := hnpar
    obtain ⟨m, hm, hmo⟩ := Owns.of_fill_cons f c1 _ p ho
    refine Owns.fill_cons_replace f c1 _ _ p (some b) ho hnd hown_b ?_ ?_
    · intro m' hm'
      rw [hm] at hm'
      cases hm'
      rw [rotHeapL_links_parent hnp hm (hpa _ hnp).1 (hpa _ hnp).2.1]
      cases f with
      | left fa fk fv fs =>
        have : m.lc = some a := hmo.1
        simp [this]
      | right fl fa fk fv =>
        have hmr : m.rc = some a := hmo.1
        obtain ⟨q1, hq1⟩ := Owns.of_fill c1 _ p ho
        obtain ⟨_, m2, hm2, _, _, hfl, _⟩ := hq1
        simp only [Frame.addr] at hm
        rw [hm] at hm2
        cases hm2
        have hne : m.lc ≠ some a := by
          intro e
          have : a ∈ fl.addrs := Shape.root_mem fl a (by rw [← hfl.root_eq]; exact e)
          exact hdisj a haS (by simp [Ctx.addrs, Frame.addrs, this])
        simp [hne]
    · intro y hy hyf
      exact rotHeapL_links_other h n nb (fun e => hdisj a haS (e ▸ hy))
        (fun e => hdisj b hbS (e ▸ hy)) (by rw [hnp]; simpa using Ne.symm hyf)


/-! # Sequences of calls keep the invariant -/

section runs
variable [LinearOrder K]

theorem Bst.Inv.with_hot {t : Bst K} {T : Shape K Unit} (hinv : t.Inv T) (hot : Option Nat) :
    ({ t with hot := hot } : Bst K).Inv T :=
  ⟨hinv.owns, hinv.nodup, hinv.parents, hinv.ordered, hinv.size_eq⟩

theorem NewBst_inv : (NewBst : Bst K).Inv .nil :=
  ⟨rfl, List.nodup_nil, trivial, trivial, rfl⟩

/-- One call keeps the invariant and adds at most one node. -/
theorem Bst.apply_inv {t : Bst K} {T : Shape K Unit} (hinv : t.Inv T) (op : Op K)
    (fuel : Nat) (hf : T.size < fuel) :
    ∃ t1 T1, t.apply fuel op = .ok t1 ∧ t1.Inv T1 ∧ T1.size ≤ T.size + 1 := by
  cases op with
  | insert v =>
    cases hfind : T.find v with
    | none =>
      obtain ⟨t1, hrun, hinv1, -⟩ := Bst.Insert_absent hinv v hfind hf
      refine ⟨t1, _, ?_, hinv1, ?_⟩
      · simp [Bst.apply, hrun]
      · rw [Shape.size_insertAt v () _ T hfind]
    | some a =>
      refine ⟨{ t with hot := (T.searchSlot v .root none).2 }, T, ?_, hinv.with_hot _,
        Nat.le_succ _⟩
      simp only [Bst.apply, Bst.Insert_present hinv v hfind hf]
  | remove v =>
    cases hfind : T.find v with
    | none =>
      refine ⟨{ t with hot := (T.searchSlot v .root none).2 }, T, ?_, hinv.with_hot _,
        Nat.le_succ _⟩
      simp only [Bst.apply, Bst.Remove_absent hinv v hfind hf]
    | some a =>
      obtain ⟨t1, hrun, hinv1, hsz, -⟩ := Bst.Remove_present hinv v hfind hf
      refine ⟨t1, _, ?_, hinv1, ?_⟩
      · simp [Bst.apply, hrun]
      · have h1 := hinv.size_eq
        have h2 := hinv1.size_eq
        omega

/-- A sequence of calls runs to the end and keeps the invariant. -/
theorem Bst.run_inv : ∀ (ops : List (Op K)) (t : Bst K) (T : Shape K Unit) (fuel : Nat),
    t.Inv T → T.size + ops.length < fuel →
    ∃ t1 T1, Bst.run fuel ops t = .ok t1 ∧ t1.Inv T1 ∧ T1.size ≤ T.size + ops.length
  | [], t, T, _, hinv, _ => ⟨t, T, rfl, hinv, Nat.le_refl _⟩
  | op :: ops, t, T, fuel, hinv, hf => by
    simp only [List.length_cons] at hf
    obtain ⟨t1, T1, h1, hinv1, hs1⟩ := Bst.apply_inv hinv op fuel (by omega)
    obtain ⟨t2, T2, h2, hinv2, hs2⟩ := Bst.run_inv ops t1 T1 fuel hinv1 (by omega)
    refine ⟨t2, T2, ?_, hinv2, ?_⟩
    · simp only [Bst.run, h1, h2]
    · simp only [List.length_cons]
      omega

/-- Every reachable tree satisfies the invariant for some abstract tree. -/
theorem Bst.Reachable.inv {t : Bst K} (hr : t.Reachable) : ∃ T, t.Inv T := by
  obtain ⟨ops, fuel, hf, hrun⟩ := hr
  obtain ⟨t1, T1, h1, hinv1, -⟩ := Bst.run_inv ops NewBst .nil fuel NewBst_inv
    (by simp only [Shape.size]; omega)
  rw [hrun] at h1
  cases h1
  exact ⟨T1, hinv1⟩

/-- The keys of a search tree are strictly increasing in in-order. -/
theorem Shape.Ordered.pairwise : ∀ {T : Shape K V}, T.Ordered → T.keys.Pairwise (· < ·)
  | .nil, _ => by simp [Shape.keys_nil]
  | .node l a k v r, ho => by
    obtain ⟨h1, h2, h3, h4⟩ := ho
    rw [Shape.keys_node, List.pairwise_append]
    refine ⟨h3.pairwise, List.pairwise_cons.mpr ⟨h2, h4.pairwise⟩, ?_⟩
    intro x hx y hy
    rcases List.mem_cons.mp hy with e | e
    · rw [e]; exact h1 x hx
    · exact lt_trans (h1 x hx) (h2 y e)

theorem Shape.Ordered.sorted_le {T : Shape K V} (ho : T.Ordered) :
    List.Sorted (· ≤ ·) T.keys :=
  (ho.pairwise).imp (fun h => le_of_lt h)

theorem Shape.Ordered.nodup_keys {T : Shape K V} (ho : T.Ordered) : T.keys.Nodup :=
  (ho.pairwise).imp (fun h => ne_of_lt h)

/-- When the search succeeds, `hot` ends as the node before the last on the search path. -/
theorem searchSlot_hot_found_path (v : K) : ∀ (T : Shape K V) (x : Slot) (hot0 : Option Nat)
    (a : Nat), T.find v = some a →
    (T.searchSlot v x hot0).2 = (match (T.path v).dropLast.getLast? with
      | none => hot0
      | some c => some c) ∧ (T.path v).getLast? = some a
  | .nil, _, _, a, hf => by simp [Shape.find] at hf
  | .node l b k u r, x, hot0, a, hf => by
    by_cases hkv : k = v
    · simp only [Shape.find, hkv, if_true, Option.some.injEq] at hf
      simp [Shape.searchSlot, Shape.path, hkv, hf]
    · by_cases hlt : v < k
      · simp only [Shape.find, hkv, hlt, if_true, if_false] at hf
        obtain ⟨h1, h2⟩ := searchSlot_hot_found_path v l (.lc b) (some b) a hf
        have hne : l.path v ≠ [] := by
          intro e
          rw [e] at h2
          cases h2
        simp only [Shape.searchSlot, hkv, hlt, if_true, if_false, h1, Shape.path]
        rw [List.dropLast_cons_of_ne_nil hne, List.getLast?_cons, List.getLast?_cons, h2]
        cases (l.path v).dropLast.getLast? <;> simp
      · simp only [Shape.find, hkv, hlt, if_false] at hf
        obtain ⟨h1, h2⟩ := searchSlot_hot_found_path v r (.rc b) (some b) a hf
        have hne : r.path v ≠ [] := by
          intro e
          rw [e] at h2
          cases h2
        simp only [Shape.searchSlot, hkv, hlt, if_false, h1, Shape.path]
        rw [List.dropLast_cons_of_ne_nil hne, List.getLast?_cons, List.getLast?_cons, h2]
        cases (r.path v).dropLast.getLast? <;> simp

end runs

/-! # The claims about `Bst` -/

theorem demoBst_owns : Owns demoBst.heap demoBst.root demoShape := by
  simp [Owns, demoBst, demoShape, demoNode]

theorem demoBst_parented : Parented demoBst.heap none demoShape := by
  simp [Parented, demoBst, demoShape, demoNode]

theorem demoShape_ordered : demoShape.Ordered := by
  simp [Shape.Ordered, Shape.keys, Shape.ino, demoShape]

theorem demoBst_inv : demoBst.Inv demoShape :=
  ⟨demoBst_owns, by decide, demoBst_parented, demoShape_ordered, rfl⟩

theorem demoBst_reachable : demoBst.Reachable :=
  ⟨demoOps, 8, by decide, by rfl⟩


/-- Claim C1: every sequence of `Insert` and `Remove` calls on `NewBst()` returns (given
fuel for the longest search), and on the resulting root `travelIn` and `dfsIn` return the
same sequence, whose keys are in non-decreasing order. -/
theorem insert_remove_inorder_sorted [LinearOrder K] (ops : List (Op K)) (fuel : Nat)
    (hf : ops.length < fuel) :
    ∃ (t : Bst K) (out : List (K × Unit)), Bst.run fuel ops NewBst = .ok t ∧
      (∀ f, 2 * ops.length < f →
        travelIn f t.heap t.root = .ok out ∧ dfsIn f t.heap t.root = .ok out) ∧
      List.Sorted (· ≤ ·) (out.map Prod.fst) := by
  obtain ⟨t, T, hrun, hinv, hsz⟩ := Bst.run_inv ops NewBst .nil fuel NewBst_inv
    (by simp only [Shape.size]; omega)
  simp only [Shape.size, Nat.zero_add] at hsz
  refine ⟨t, T.ino, hrun, fun f hf2 => ⟨?_, ?_⟩, hinv.ordered.sorted_le⟩
  · exact stackIn2_owns hinv.owns (by omega)
  · exact dfsIn_owns T t.root f hinv.owns (by omega)

/-- The seven insertions 5, 3, 8, 1, 4, 7, 9 fall under C1, and their in-order sequence is
1, 3, 4, 5, 7, 8, 9. -/
theorem insert_remove_inorder_sorted_witness :
    demoOps.length < 8 ∧
    (∃ (t : Bst Nat) (out : List (Nat × Unit)), Bst.run 8 demoOps NewBst = .ok t ∧
      (∀ f, 2 * demoOps.length < f →
        travelIn f t.heap t.root = .ok out ∧ dfsIn f t.heap t.root = .ok out) ∧
      List.Sorted (· ≤ ·) (out.map Prod.fst)) ∧
    Bst.run 8 demoOps NewBst = .ok demoBst ∧
    travelIn 15 demoBst.heap demoBst.root
      = .ok [(1, ()), (3, ()), (4, ()), (5, ()), (7, ()), (8, ()), (9, ())] ∧
    dfsIn 15 demoBst.heap demoBst.root
      = .ok [(1, ()), (3, ()), (4, ()), (5, ()), (7, ()), (8, ()), (9, ())] :=
  ⟨by decide, insert_remove_inorder_sorted demoOps 8 (by decide), by rfl, by rfl, by rfl⟩

/-- Claim C2: a tree `t` reachable from `NewBst()` holds a search tree, and for every tree
`T` it holds: `Insert(v)` of an absent key allocates one node (at an unused address)
holding `v`, whose parent is `hot`; the node is written into the slot where the search of
`Insert` stopped, which was vacant; `Size()` grows by one and a following `Search(v)`
returns that node. `Insert(v)` of a present key returns the node holding `v` and leaves
heap, root and size as they were. -/
theorem insert_spec [LinearOrder K] (t : Bst K) (hr : t.Reachable) (v : K) :
    (∃ T : Shape K Unit, t.Inv T) ∧ ∀ T : Shape K Unit, t.Inv T → ∀ fuel, T.size + 1 < fuel →
      (v ∉ T.keys → ∃ (t1 : Bst K) (a : Nat) (t0 : Bst K) (x : Slot),
        t.Insert fuel v = .ok (t1, some a) ∧
        t.heap[a]? = none ∧ t1.heap.length = t.heap.length + 1 ∧
        t1.heap[a]? = some (freshNode v t1.hot) ∧
        t.searchAt fuel .root v = .ok (t0, x) ∧ t0.readSlot x = .ok none ∧
        t1.hot = t0.hot ∧ t1.readSlot x = .ok (some a) ∧
        t1.Size = t.Size + 1 ∧
        ∃ t2, t1.Search fuel v = .ok (t2, some a)) ∧
      (v ∈ T.keys → ∃ (t1 : Bst K) (a : Nat) (n : BinNode K Unit),
        t.Insert fuel v = .ok (t1, some a) ∧ t.heap[a]? = some n ∧ n.key = v ∧
        t1.heap = t.heap ∧ t1.root = t.root ∧ t1.Size = t.Size) := by
  refine ⟨hr.inv, fun T hinv fuel hf => ⟨fun hv => ?_, fun hv => ?_⟩⟩
  · have hfind : T.find v = none := (Shape.find_eq_none_iff v T hinv.ordered).mpr hv
    obtain ⟨t1, hins, hinv1, hsz, hhot, hnew, hslot, hlen, -⟩ :=
      Bst.Insert_absent hinv v hfind (show T.size < fuel by omega)
    have hsearch := Bst.searchAt_inv hinv v (show T.size < fuel by omega)
    have hrd := readSlot_searchSlot v T { t with hot := (T.searchSlot v .root none).2 } .root
      t.root none rfl hinv.owns
    rw [hfind] at hrd
    have hs1 := Bst.Search_inv hinv1 v
      (show (T.insertAt v () t.heap.length).size < fuel by
        rw [Shape.size_insertAt v () _ T hfind]; exact hf)
    rw [Shape.find_insertAt v () _ T hfind] at hs1
    exact ⟨t1, t.heap.length, _, _, hins, List.getElem?_eq_none (Nat.le_refl _), hlen, hnew,
      hsearch, hrd, hhot, hslot, hsz, _, hs1⟩
  · cases hfind : T.find v with
    | none => exact absurd hv ((Shape.find_eq_none_iff v T hinv.ordered).mp hfind)
    | some a =>
      obtain ⟨n, hn, hk⟩ := Owns.find_key v T t.root a hinv.owns hfind
      exact ⟨_, a, n, Bst.Insert_present hinv v hfind (show T.size < fuel by omega), hn, hk,
        rfl, rfl, rfl⟩

/-- The tree built from the seven insertions is reachable and holds `demoShape`, in which
6 is absent and 3 present, so both cases of C2 apply to it; evaluated, `Insert(6)`
allocates address 7 below node 5 (key 7) and a second `Insert(6)` returns the same address
with the size still 8. -/
theorem insert_spec_witness :
    (demoBst.Reachable ∧ demoBst.Inv demoShape ∧ demoShape.size + 1 < 9 ∧
      6 ∉ demoShape.keys ∧ 3 ∈ demoShape.keys) ∧
    (∃ (t1 : Bst Nat) (a : Nat) (t0 : Bst Nat) (x : Slot),
      demoBst.Insert 9 6 = .ok (t1, some a) ∧
      demoBst.heap[a]? = none ∧ t1.heap.length = demoBst.heap.length + 1 ∧
      t1.heap[a]? = some (freshNode 6 t1.hot) ∧
      demoBst.searchAt 9 .root 6 = .ok (t0, x) ∧ t0.readSlot x = .ok none ∧
      t1.hot = t0.hot ∧ t1.readSlot x = .ok (some a) ∧
      t1.Size = demoBst.Size + 1 ∧
      ∃ t2, t1.Search 9 6 = .ok (t2, some a)) ∧
    (∃ (t1 : Bst Nat) (a : Nat) (n : BinNode Nat Unit),
      demoBst.Insert 9 3 = .ok (t1, some a) ∧ demoBst.heap[a]? = some n ∧ n.key = 3 ∧
      t1.heap = demoBst.heap ∧ t1.root = demoBst.root ∧ t1.Size = demoBst.Size) ∧
    (∃ t1 t2 : Bst Nat, demoBst.Insert 9 6 = .ok (t1, some 7) ∧ t1.Size = 8 ∧
      t1.hot = some 5 ∧ t1.heap[7]? = some (demoNode 6 (some 5) none none) ∧
      t1.Insert 9 6 = .ok (t2, some 7) ∧ t2.Size = 8 ∧ t2.heap = t1.heap) :=
  ⟨⟨demoBst_reachable, demoBst_inv, by decide, by decide, by decide⟩,
    ((insert_spec demoBst demoBst_reachable 6).2 demoShape demoBst_inv 9 (by decide)).1
      (by decide),
    ((insert_spec demoBst demoBst_reachable 3).2 demoShape demoBst_inv 9 (by decide)).2
      (by decide),
    ⟨_, _, by rfl, by rfl, by rfl, by rfl, by rfl, by rfl, by rfl⟩⟩

/-- Claim C3: a tree `t` reachable from `NewBst()` holds a search tree, and for every tree
`T` it holds (so that `T.keys` is the in-order key sequence): `Remove(v)` of an absent key
returns `false` and leaves heap, root and size as they were; `Remove(v)` of a present key
returns `true`, `Size()` decreases by one, a following `Search(v)` returns `nil`, the
in-order key sequence is the old one with `v` erased, and `Search` still finds every other
key. -/
theorem remove_spec [LinearOrder K] (t : Bst K) (hr : t.Reachable) (v : K) :
    (∃ T : Shape K Unit, t.Inv T) ∧ ∀ T : Shape K Unit, t.Inv T → ∀ fuel, 2 * T.size < fuel →
      travelIn fuel t.heap t.root = .ok T.ino ∧
      (v ∉ T.keys → ∃ t1 : Bst K, t.Remove fuel v = .ok (t1, false) ∧
        t1.heap = t.heap ∧ t1.root = t.root ∧ t1.Size = t.Size ∧
        travelIn fuel t1.heap t1.root = .ok T.ino) ∧
      (v ∈ T.keys → ∃ (t1 : Bst K) (T1 : Shape K Unit),
        t.Remove fuel v = .ok (t1, true) ∧ t1.Size = t.Size - 1 ∧
        (∃ t2, t1.Search fuel v = .ok (t2, none)) ∧
        travelIn fuel t1.heap t1.root = .ok T1.ino ∧ T1.keys = T.keys.erase v ∧
        ∀ w, w ∈ T.keys → w ≠ v → ∃ (t2 : Bst K) (a : Nat) (n : BinNode K Unit),
          t1.Search fuel w = .ok (t2, some a) ∧ t1.heap[a]? = some n ∧ n.key = w) := by
  refine ⟨hr.inv, fun T hinv fuel hf =>
    ⟨stackIn2_owns hinv.owns hf, fun hv => ?_, fun hv => ?_⟩⟩
  · have hfind : T.find v = none := (Shape.find_eq_none_iff v T hinv.ordered).mpr hv
    exact ⟨_, Bst.Remove_absent hinv v hfind (show T.size < fuel by omega), rfl, rfl, rfl,
      stackIn2_owns hinv.owns hf⟩
  · cases hfind : T.find v with
    | none => exact absurd hv ((Shape.find_eq_none_iff v T hinv.ordered).mp hfind)
    | some a =>
      obtain ⟨t1, hrem, hinv1, hsz, -⟩ :=
        Bst.Remove_present hinv v hfind (show T.size < fuel by omega)
      have hkeys := Shape.remove_keys v T hinv.ordered
      have hs1 : (T.remove v).size ≤ T.size := by
        have e1 := hinv1.size_eq
        have e2 := hinv.size_eq
        omega
      have hgone : (T.remove v).find v = none := by
        rw [Shape.find_eq_none_iff v _ hinv1.ordered, hkeys]
        simp
      have hsr := Bst.Search_inv hinv1 v (show (T.remove v).size < fuel by omega)
      rw [hgone] at hsr
      refine ⟨t1, T.remove v, hrem, hsz, ⟨_, hsr⟩, stackIn2_owns hinv1.owns (by omega), ?_, ?_⟩
      · rw [hkeys, hinv.ordered.nodup_keys.erase_eq_filter]
        congr 1
        funext x
        by_cases hx : x = v <;> simp [hx]
      · intro w hw hwv
        have hw1 : w ∈ (T.remove v).keys := by
          rw [hkeys]
          simp [hw, hwv]
        cases hfw : (T.remove v).find w with
        | none => exact absurd hw1 ((Shape.find_eq_none_iff w _ hinv1.ordered).mp hfw)
        | some b =>
          obtain ⟨n, hn, hk⟩ := Owns.find_key w _ t1.root b hinv1.owns hfw
          have := Bst.Search_inv hinv1 w (show (T.remove v).size < fuel by omega)
          rw [hfw] at this
          exact ⟨_, b, n, this, hn, hk⟩

/-- The tree built from the seven insertions is reachable and holds `demoShape`, in which
5 is present and 6 absent, so both cases of C3 apply to it; evaluated, `Remove(5)` returns
`true`, the size is 6, `Search(5)` returns `nil`, `Search(7)` returns a node and the
in-order sequence is 1, 3, 4, 7, 8, 9. -/
theorem remove_spec_witness :
    (demoBst.Reachable ∧ demoBst.Inv demoShape ∧ 2 * demoShape.size < 15 ∧
      5 ∈ demoShape.keys ∧ 6 ∉ demoShape.keys) ∧
    (∃ (t1 : Bst Nat) (T1 : Shape Nat Unit),
      demoBst.Remove 15 5 = .ok (t1, true) ∧ t1.Size = demoBst.Size - 1 ∧
      (∃ t2, t1.Search 15 5 = .ok (t2, none)) ∧
      travelIn 15 t1.heap t1.root = .ok T1.ino ∧ T1.keys = demoShape.keys.erase 5 ∧
      ∀ w, w ∈ demoShape.keys → w ≠ 5 → ∃ (t2 : Bst Nat) (a : Nat) (n : BinNode Nat Unit),
        t1.Search 15 w = .ok (t2, some a) ∧ t1.heap[a]? = some n ∧ n.key = w) ∧
    (∃ t1 : Bst Nat, demoBst.Remove 15 6 = .ok (t1, false) ∧
      t1.heap = demoBst.heap ∧ t1.root = demoBst.root ∧ t1.Size = demoBst.Size ∧
      travelIn 15 t1.heap t1.root = .ok demoShape.ino) ∧
    (∃ t1 t2 t3 : Bst Nat, demoBst.Remove 8 5 = .ok (t1, true) ∧ t1.Size = 6 ∧
      t1.Search 8 5 = .ok (t2, none) ∧ t1.Search 8 7 = .ok (t3, some 0) ∧
      travelIn 15 t1.heap t1.root
        = .ok [(1, ()), (3, ()), (4, ()), (7, ()), (8, ()), (9, ())]) :=
  ⟨⟨demoBst_reachable, demoBst_inv, by decide, by decide, by decide⟩,
    ((remove_spec demoBst demoBst_reachable 5).2 demoShape demoBst_inv 15 (by decide)).2.2
      (by decide),
    ((remove_spec demoBst demoBst_reachable 6).2 demoShape demoBst_inv 15 (by decide)).2.1
      (by decide),
    ⟨_, _, _, by rfl, by rfl, by rfl, by rfl, by rfl⟩⟩

/-- Claim C4: on a `Bst` whose heap holds a search tree `T` with consistent parent links,
`Search(v)` returns the node whose key is `v` when `v` is a key of `T` and `nil`
otherwise; afterwards `hot` is the parent link of the returned node (`nil` when that node
is the root), the last node of the search path when `v` is not found, and `nil` when the
tree is empty; heap, root and size are as before. -/
theorem search_spec [LinearOrder K] (t : Bst K) (T : Shape K Unit)
    (ho : Owns t.heap t.root T) (hpar : Parented t.heap none T) (hord : T.Ordered)
    (v : K) (fuel : Nat) (hf : T.size < fuel) :
    ∃ (t1 : Bst K) (res : Option Nat), t.Search fuel v = .ok (t1, res) ∧
      t1.heap = t.heap ∧ t1.root = t.root ∧ t1.size = t.size ∧
      (v ∈ T.keys → ∃ (a : Nat) (n : BinNode K Unit), res = some a ∧ a ∈ T.addrs ∧
        t.heap[a]? = some n ∧ n.key = v ∧ t1.hot = n.parent ∧
        (t.root = some a → t1.hot = none)) ∧
      (v ∉ T.keys → res = none ∧ t1.hot = (T.path v).getLast?) ∧
      (t.root = none → res = none ∧ t1.hot = none) := by
  refine ⟨_, _, Bst.Search_owns ho hpar v hf, rfl, rfl, rfl, fun hv => ?_, fun hv => ?_,
    fun hroot => ?_⟩
  · cases hfind : T.find v with
    | none => exact absurd hv ((Shape.find_eq_none_iff v T hord).mp hfind)
    | some a =>
      obtain ⟨n, hn, hk⟩ := Owns.find_key v T t.root a ho hfind
      obtain ⟨n1, hn1, hhot⟩ := searchSlot_hot_found v T .root none a hpar hfind
      rw [hn] at hn1
      cases hn1
      refine ⟨a, n, rfl, Shape.find_mem v T a hfind, hn, hk, hhot, fun hra => ?_⟩
      rw [show ({ t with hot := (T.searchSlot v .root none).2 } : Bst K).hot = n.parent
        from hhot]
      cases T with
      | nil => cases ho.symm.trans hra
      | node l b k u r =>
        obtain ⟨⟨n2, hn2, hp2⟩, -⟩ := hpar
        have hab : b = a := Option.some.inj (ho.1.symm.trans hra)
        rw [hab, hn] at hn2
        cases hn2
        exact hp2
  · have hfind : T.find v = none := (Shape.find_eq_none_iff v T hord).mpr hv
    refine ⟨hfind, ?_⟩
    have := searchSlot_hot_missing v T .root none hfind
    show (T.searchSlot v .root none).2 = (T.path v).getLast?
    rw [this]
    cases (T.path v).getLast? <;> rfl
  · cases T with
    | nil => exact ⟨rfl, rfl⟩
    | node l b k u r => cases ho.1.symm.trans hroot

/-- The tree built from the seven insertions satisfies the hypotheses of C4, with 4 a key
of it and 6 not; evaluated, `Search(4)` returns node 4 with `hot` its parent 1, `Search(5)`
returns the root with `hot` `nil`, `Search(6)` returns `nil` with `hot` the node 5 holding
key 7, and on the empty tree `Search` returns `nil` with `hot` `nil`. -/
theorem search_spec_witness :
    (Owns demoBst.heap demoBst.root demoShape ∧ Parented demoBst.heap none demoShape ∧
      demoShape.Ordered ∧ demoShape.size < 8 ∧ 4 ∈ demoShape.keys ∧ 6 ∉ demoShape.keys) ∧
    (∃ (t1 : Bst Nat) (a : Nat) (n : BinNode Nat Unit),
      demoBst.Search 8 4 = .ok (t1, some a) ∧ a ∈ demoShape.addrs ∧
      demoBst.heap[a]? = some n ∧ n.key = 4 ∧ t1.hot = n.parent) ∧
    (∃ t1 : Bst Nat, demoBst.Search 8 6 = .ok (t1, none) ∧
      t1.hot = (demoShape.path 6).getLast?) ∧
    demoBst.Search 8 4 = .ok ({ demoBst with hot := some 1 }, some 4) ∧
    demoBst.Search 8 5 = .ok ({ demoBst with hot := none }, some 0) ∧
    demoBst.Search 8 6 = .ok ({ demoBst with hot := some 5 }, none) ∧
    (NewBst : Bst Nat).Search 8 6 = .ok (NewBst, none) := by
  refine ⟨⟨demoBst_owns, demoBst_parented, demoShape_ordered, by decide, by decide,
    by decide⟩, ?_, ?_, by rfl, by rfl, by rfl, by rfl⟩
  · obtain ⟨t1, res, h1, -, -, -, hfound, -, -⟩ :=
      search_spec demoBst demoShape demoBst_owns demoBst_parented demoShape_ordered 4 8
        (by decide)
    obtain ⟨a, n, hres, ha, hn, hk, hhot, -⟩ := hfound (by decide)
    exact ⟨t1, a, n, hres ▸ h1, ha, hn, hk, hhot⟩
  · obtain ⟨t1, res, h1, -, -, -, -, hmiss, -⟩ :=
      search_spec demoBst demoShape demoBst_owns demoBst_parented demoShape_ordered 6 8
        (by decide)
    obtain ⟨hres, hhot⟩ := hmiss (by decide)
    exact ⟨t1, hres ▸ h1, hhot⟩

/-! # The claims about the traversals -/

theorem skewHeap_wellFormed : WellFormed skewHeap (some 0) skewShape :=
  ⟨by simp [Owns, skewHeap, skewShape, demoNode], by simp [Shape.addrs, skewShape],
    by simp [ParentsBelow, Parented, skewHeap, skewShape, demoNode]⟩

theorem oneHeap_wellFormed : WellFormed oneHeap (some 0) oneShape :=
  ⟨by simp [Owns, oneHeap, oneShape, demoNode], by simp [Shape.addrs, oneShape],
    by simp [ParentsBelow, Parented, oneShape]⟩

/-- Claim C5 does not hold of `stackPost`: on the well-formed tree `A` with right child
`C`, whose left child is `D`, the methods `dfsPost`, `morrisPost` and `travelPost` visit
`D`, `C`, `A`, while `stackPost` returns after visiting `C`, `A` only, for every fuel that
lets the calls return. -/
theorem stackPost_skips_node :
    WellFormed skewHeap (some 0) skewShape ∧ Parented skewHeap none skewShape ∧
    (∀ k, dfsPost (k + 4) skewHeap (some 0) = .ok [(20, ()), (30, ()), (10, ())]) ∧
    (∀ k, morrisPost (k + 7) skewHeap (some 0)
      = .ok (skewHeap, [(20, ()), (30, ()), (10, ())])) ∧
    (∀ k, travelPost (k + 7) skewHeap (some 0)
      = .ok (skewHeap, [(20, ()), (30, ()), (10, ())])) ∧
    (∀ k, stackPost (k + 3) skewHeap (some 0) = .ok [(30, ()), (10, ())]) :=
  ⟨skewHeap_wellFormed, by simp [Parented, skewHeap, skewShape, demoNode],
    fun k => dfsPost_owns skewShape (some 0) (k + 4) skewHeap_wellFormed.owns
      (by simp only [skewShape, Shape.size]; omega),
    fun k => morrisPost_wellFormed skewHeap_wellFormed
      (by simp only [skewShape, Shape.size]; omega),
    fun k => morrisPost_wellFormed skewHeap_wellFormed
      (by simp only [skewShape, Shape.size]; omega),
    fun k => rfl⟩

/-- Claim C6: on a heap holding the binary tree `t` at the present node `a`, the methods
`dfsIn`, `stackIn1`, `stackIn2`, `travelIn` and `morrisIn` all return, and each has called
the visitor with the in-order sequence of `t`: left subtree, node, right subtree, one
visit per node. -/
theorem inorder_strategies_agree (h : Heap K V) (a : Nat) (t : Shape K V)
    (ho : Owns h (some a) t) (hnd : t.addrs.Nodup) (fuel : Nat) (hf : 2 * t.size < fuel) :
    dfsIn fuel h (some a) = .ok t.ino ∧ stackIn1 fuel h (some a) = .ok t.ino ∧
    stackIn2 fuel h (some a) = .ok t.ino ∧ travelIn fuel h (some a) = .ok t.ino ∧
    (morrisIn fuel h (some a)).map Prod.snd = .ok t.ino ∧ t.ino.length = t.size := by
  refine ⟨dfsIn_owns t _ fuel ho (by omega), stackIn1_owns ho (by omega), stackIn2_owns ho hf,
    stackIn2_owns ho hf, ?_, Shape.ino_length t⟩
  rw [morrisIn_owns ho hnd hf]
  rfl

/-- The tree built from the seven insertions falls under C6 with fuel 15. -/
theorem inorder_strategies_agree_witness :
    (Owns demoBst.heap (some 0) demoShape ∧ demoShape.addrs.Nodup ∧
      2 * demoShape.size < 15) ∧
    dfsIn 15 demoBst.heap (some 0) = .ok demoShape.ino ∧
    stackIn1 15 demoBst.heap (some 0) = .ok demoShape.ino ∧
    stackIn2 15 demoBst.heap (some 0) = .ok demoShape.ino ∧
    travelIn 15 demoBst.heap (some 0) = .ok demoShape.ino ∧
    (morrisIn 15 demoBst.heap (some 0)).map Prod.snd = .ok demoShape.ino ∧
    demoShape.ino.length = demoShape.size :=
  ⟨⟨demoBst_owns, by decide, by decide⟩,
    inorder_strategies_agree demoBst.heap 0 demoShape demoBst_owns (by decide) 15
      (by decide)⟩

/-- Claim C7: on a heap holding the binary tree `t` at the present node `a`, the methods
`dfsPre`, `stackPre1`, `travelPre`, `stackPre2` and `morrisPre` all return, and each has
called the visitor with the pre-order sequence of `t`: node, left subtree, right subtree,
one visit per node. -/
theorem preorder_strategies_agree (h : Heap K V) (a : Nat) (t : Shape K V)
    (ho : Owns h (some a) t) (hnd : t.addrs.Nodup) (fuel : Nat) (hf : 2 * t.size < fuel) :
    dfsPre fuel h (some a) = .ok t.pre ∧ stackPre1 fuel h (some a) = .ok t.pre ∧
    travelPre fuel h (some a) = .ok t.pre ∧ stackPre2 fuel h (some a) = .ok t.pre ∧
    (morrisPre fuel h (some a)).map Prod.snd = .ok t.pre ∧ t.pre.length = t.size := by
  refine ⟨dfsPre_owns t _ fuel ho (by omega), stackPre1_owns ho (by omega),
    stackPre1_owns ho (by omega), stackPre2_owns ho (by omega), ?_, ?_⟩
  · rw [morrisPre_owns ho hnd hf]
    rfl
  · clear ho hnd hf
    induction t with
    | nil => rfl
    | node l a k v r ihl ihr =>
      simp only [Shape.pre, Shape.size, List.length_cons, List.length_append, ihl, ihr]

/-- The tree built from the seven insertions falls under C7 with fuel 15; its pre-order
sequence is 5, 3, 1, 4, 8, 7, 9. -/
theorem preorder_strategies_agree_witness :
    (Owns demoBst.heap (some 0) demoShape ∧ demoShape.addrs.Nodup ∧
      2 * demoShape.size < 15) ∧
    (dfsPre 15 demoBst.heap (some 0) = .ok demoShape.pre ∧
      stackPre1 15 demoBst.heap (some 0) = .ok demoShape.pre ∧
      travelPre 15 demoBst.heap (some 0) = .ok demoShape.pre ∧
      stackPre2 15 demoBst.heap (some 0) = .ok demoShape.pre ∧
      (morrisPre 15 demoBst.heap (some 0)).map Prod.snd = .ok demoShape.pre ∧
      demoShape.pre.length = demoShape.size) ∧
    demoShape.pre = [(5, ()), (3, ()), (1, ()), (4, ()), (8, ()), (7, ()), (9, ())] :=
  ⟨⟨demoBst_owns, by decide, by decide⟩,
    preorder_strategies_agree demoBst.heap 0 demoShape demoBst_owns (by decide) 15
      (by decide), by rfl⟩

/-- Claim C8: on a heap holding a well-formed tree `t` at the present node `a`, each of
`morrisIn`, `morrisPre` and `morrisPost` returns, and the heap it leaves is the heap it
started from: every field of every node, hence every link, has its old value. -/
theorem morris_restores_heap (h : Heap K V) (a : Nat) (t : Shape K V)
    (hw : WellFormed h (some a) t) (fuel : Nat) (hf : 2 * t.size < fuel) :
    morrisIn fuel h (some a) = .ok (h, t.ino) ∧ morrisPre fuel h (some a) = .ok (h, t.pre) ∧
    morrisPost fuel h (some a) = .ok (h, t.post) :=
  ⟨morrisIn_owns hw.owns hw.nodup hf, morrisPre_owns hw.owns hw.nodup hf,
    morrisPost_wellFormed hw hf⟩

/-- On the tree of one node `morrisIn` visits the one key once and both child links are
absent afterwards. -/
theorem morris_restores_heap_witness :
    (WellFormed oneHeap (some 0) oneShape ∧ 2 * oneShape.size < 3) ∧
    (morrisIn 3 oneHeap (some 0) = .ok (oneHeap, oneShape.ino) ∧
      morrisPre 3 oneHeap (some 0) = .ok (oneHeap, oneShape.pre) ∧
      morrisPost 3 oneHeap (some 0) = .ok (oneHeap, oneShape.post)) ∧
    oneShape.ino = [(1, ())] ∧
    (∃ n, oneHeap[0]? = some n ∧ n.lc = none ∧ n.rc = none) :=
  ⟨⟨oneHeap_wellFormed, by decide⟩,
    morris_restores_heap oneHeap 0 oneShape oneHeap_wellFormed 3 (by decide), by rfl,
    ⟨_, rfl, rfl, rfl⟩⟩

/-- Claim C9 does not hold of three entry points: on a `nil` receiver `stackPre2`,
`morrisPost` and `travelPost` dereference `nil`, whatever the heap and the (positive) fuel;
the other twelve entry points return without a visit. -/
theorem nil_receiver_faults (h : Heap K V) (k : Nat) :
    stackPre2 (k + 1) h none = .error .nilDeref ∧
    morrisPost (k + 1) h none = .error .nilDeref ∧
    travelPost (k + 1) h none = .error .nilDeref ∧
    travelLevel (k + 2) h none = .ok [] ∧ travelPre (k + 1) h none = .ok [] ∧
    travelIn (k + 1) h none = .ok [] ∧ dfsPre (k + 1) h none = .ok [] ∧
    stackPre1 (k + 1) h none = .ok [] ∧ morrisPre (k + 1) h none = .ok (h, []) ∧
    dfsIn (k + 1) h none = .ok [] ∧ stackIn1 (k + 1) h none = .ok [] ∧
    stackIn2 (k + 1) h none = .ok [] ∧ morrisIn (k + 1) h none = .ok (h, []) ∧
    dfsPost (k + 1) h none = .ok [] ∧ stackPost (k + 1) h none = .ok [] :=
  ⟨rfl, rfl, rfl, rfl, rfl, rfl, rfl, rfl, rfl, rfl, rfl, rfl, rfl, rfl, rfl⟩

/-- Claim C10: in a well-formed tree `T` held at `p`, at a node `a` with a left child,
`rightRotate` returns that child `b`, the in-order sequence below `b` afterwards is the one
below `a` before, and the in-order sequence of the whole tree (entered at `b` when `a` was
the root) is unchanged; the same holds of `leftRotate` at a node with a right child. -/
theorem rotate_preserves_inorder (h : Heap K V) (p : Option Nat) (T : Shape K V)
    (ho : Owns h p T) (hnd : T.addrs.Nodup) (hpar : Parented h none T)
    (a : Nat) (n : BinNode K V) (ha : a ∈ T.addrs) (hn : h[a]? = some n) :
    (n.lc ≠ none → ∃ (h1 : Heap K V) (b : Nat) (sub : List (K × V)),
      rightRotate h (some a) = .ok (h1, some b) ∧ n.lc = some b ∧
      ∀ f, T.size < f →
        dfsIn f h (some a) = .ok sub ∧ dfsIn f h1 (some b) = .ok sub ∧
        dfsIn f h p = .ok T.ino ∧
        dfsIn f h1 (if p = some a then some b else p) = .ok T.ino) ∧
    (n.rc ≠ none → ∃ (h1 : Heap K V) (b : Nat) (sub : List (K × V)),
      leftRotate h (some a) = .ok (h1, some b) ∧ n.rc = some b ∧
      ∀ f, T.size < f →
        dfsIn f h (some a) = .ok sub ∧ dfsIn f h1 (some b) = .ok sub ∧
        dfsIn f h p = .ok T.ino ∧
        dfsIn f h1 (if p = some a then some b else p) = .ok T.ino) := by
  obtain ⟨c, l, k, v, r, rfl⟩ := Shape.split_at T a ha
  obtain ⟨q, hq⟩ := Owns.of_fill c _ p ho
  have hS := hq
  obtain ⟨hqa, n1, hn1, -, -, hl, hr⟩ := hq
  rw [hn] at hn1
  cases hn1
  rw [hqa] at hS
  constructor
  · intro hlc
    cases l with
    | nil => exact absurd hl hlc
    | node ll b kb vb lr =>
      obtain ⟨n0, nb, hn0, hlcb, -, hexec, hsub, hwhole⟩ := rightRotate_fill ho hnd hpar
      rw [hn] at hn0
      cases hn0
      have hsz := Ctx.fill_size c (.node (.node ll b kb vb lr) a k v r)
      have hsz1 := Ctx.fill_size c (.node ll b kb vb (.node lr a k v r))
      simp only [Shape.size] at hsz hsz1
      have hino : (Shape.node ll b kb vb (.node lr a k v r)).ino
          = (Shape.node (.node ll b kb vb lr) a k v r).ino := by simp [Shape.ino]
      refine ⟨_, b, _, hexec, hlcb, fun f hf => ⟨dfsIn_owns _ _ f hS ?_, ?_,
        dfsIn_owns _ _ f ho hf, ?_⟩⟩
      · simp only [Shape.size]; omega
      · rw [dfsIn_owns _ _ f hsub (by simp only [Shape.size]; omega), hino]
      · rw [dfsIn_owns _ _ f hwhole (by omega), Ctx.ino_fill c _ _ hino]
  · intro hrc
    cases r with
    | nil => exact absurd hr hrc
    | node rl b kb vb rr =>
      obtain ⟨n0, nb, hn0, hrcb, -, hexec, hsub, hwhole⟩ := leftRotate_fill ho hnd hpar
      rw [hn] at hn0
      cases hn0
      have hsz := Ctx.fill_size c (.node l a k v (.node rl b kb vb rr))
      have hsz1 := Ctx.fill_size c (.node (.node l a k v rl) b kb vb rr)
      simp only [Shape.size] at hsz hsz1
      have hino : (Shape.node (.node l a k v rl) b kb vb rr).ino
          = (Shape.node l a k v (.node rl b kb vb rr)).ino := by simp [Shape.ino]
      refine ⟨_, b, _, hexec, hrcb, fun f hf => ⟨dfsIn_owns _ _ f hS ?_, ?_,
        dfsIn_owns _ _ f ho hf, ?_⟩⟩
      · simp only [Shape.size]; omega
      · rw [dfsIn_owns _ _ f hsub (by simp only [Shape.size]; omega), hino]
      · rw [dfsIn_owns _ _ f hwhole (by omega), Ctx.ino_fill c _ _ hino]

/-- The tree built from the seven insertions falls under C10 at node 1 (key 3), which has
both children; evaluated, `rightRotate` there returns node 3 and `leftRotate` node 4, and
the in-order sequence from the root is 1, 3, 4, 5, 7, 8, 9 after either. -/
theorem rotate_preserves_inorder_witness :
    (Owns demoBst.heap (some 0) demoShape ∧ demoShape.addrs.Nodup ∧
      Parented demoBst.heap none demoShape ∧ 1 ∈ demoShape.addrs ∧
      demoBst.heap[1]? = some (demoNode 3 (some 0) (some 3) (some 4)) ∧
      (demoNode 3 (some 0) (some 3) (some 4)).lc ≠ none ∧
      (demoNode 3 (some 0) (some 3) (some 4)).rc ≠ none) ∧
    (∃ (h1 : Heap Nat Unit) (b : Nat) (sub : List (Nat × Unit)),
      rightRotate demoBst.heap (some 1) = .ok (h1, some b) ∧
      (demoNode 3 (some 0) (some 3) (some 4)).lc = some b ∧
      ∀ f, demoShape.size < f →
        dfsIn f demoBst.heap (some 1) = .ok sub ∧ dfsIn f h1 (some b) = .ok sub ∧
        dfsIn f demoBst.heap (some 0) = .ok demoShape.ino ∧
        dfsIn f h1 (if some 0 = some 1 then some b else some 0) = .ok demoShape.ino) ∧
    (∃ (h1 : Heap Nat Unit) (b : Nat) (sub : List (Nat × Unit)),
      leftRotate demoBst.heap (some 1) = .ok (h1, some b) ∧
      (demoNode 3 (some 0) (some 3) (some 4)).rc = some b ∧
      ∀ f, demoShape.size < f →
        dfsIn f demoBst.heap (some 1) = .ok sub ∧ dfsIn f h1 (some b) = .ok sub ∧
        dfsIn f demoBst.heap (some 0) = .ok demoShape.ino ∧
        dfsIn f h1 (if some 0 = some 1 then some b else some 0) = .ok demoShape.ino) ∧
    (∃ h1 h2 : Heap Nat Unit, rightRotate demoBst.heap (some 1) = .ok (h1, some 3) ∧
      leftRotate demoBst.heap (some 1) = .ok (h2, some 4) ∧
      dfsIn 8 h1 (some 0) = .ok [(1, ()), (3, ()), (4, ()), (5, ()), (7, ()), (8, ()), (9, ())] ∧
      dfsIn 8 h2 (some 0) = .ok [(1, ()), (3, ()), (4, ()), (5, ()), (7, ()), (8, ()), (9, ())] ∧
      dfsIn 8 h1 (some 3) = .ok [(1, ()), (3, ()), (4, ())] ∧
      dfsIn 8 h2 (some 4) = .ok [(1, ()), (3, ()), (4, ())]) :=
  ⟨⟨demoBst_owns, by decide, demoBst_parented, by decide, rfl, by decide, by decide⟩,
    (rotate_preserves_inorder demoBst.heap (some 0) demoShape demoBst_owns (by decide)
      demoBst_parented 1 _ (by decide) rfl).1 (by decide),
    (rotate_preserves_inorder demoBst.heap (some 0) demoShape demoBst_owns (by decide)
      demoBst_parented 1 _ (by decide) rfl).2 (by decide),
    ⟨_, _, by rfl, by rfl, by rfl, by rfl, by rfl, by rfl⟩⟩

end tree

namespace vector

variable {α : Type}

/-! # The vector -/

theorem index_of_get {xs : List α} {r : Int} {x : α} (h0 : 0 ≤ r)
    (hx : xs[r.toNat]? = some x) : index xs r = .ok x := by
  simp [index, h0, hx]

theorem get_of_valid {xs : List α} {r : Int} (h0 : 0 ≤ r) (h1 : r < xs.length) :
    ∃ x, xs[r.toNat]? = some x := by
  have : r.toNat < xs.length := by omega
  exact ⟨xs[r.toNat], List.getElem?_eq_getElem this⟩

theorem validRank_iff (vec : Vector α) (r : Int) :
    vec.validRank r = true ↔ 0 ≤ r ∧ r < vec.Size := by
  simp [Vector.validRank]

/-- The method `shrink` keeps the elements. -/
theorem shrink_elem (vec : Vector α) : ∃ vec1, vec.shrink = .ok vec1 ∧ vec1.elem = vec.elem := by
  unfold Vector.shrink
  by_cases hc : vec.Size * 4 > vec.Capacity ∨ vec.Capacity < lowCapacity * 2
  · rw [if_pos hc]
    exact ⟨vec, rfl, rfl⟩
  · rw [if_neg hc]
    have h1 : vec.Size ≤ vec.Capacity / 2 := by
      simp only [not_or, not_lt, gt_iff_lt, lowCapacity] at hc
      omega
    dsimp only
    rw [if_pos h1]
    exact ⟨_, rfl, rfl⟩

/-- The method `Remove` at a valid rank takes out the element at that rank. -/
theorem remove_valid (vec : Vector α) (r : Int) (h0 : 0 ≤ r) (h1 : r < vec.Size) :
    ∃ x vec1, vec.elem[r.toNat]? = some x ∧ vec.Remove r = .ok (vec1, .value x) ∧
      vec1.elem = vec.elem.eraseIdx r.toNat ∧ vec1.Size = vec.Size - 1 := by
  obtain ⟨x, hx⟩ := get_of_valid h0 h1
  have hv : vec.validRank r = true := (validRank_iff vec r).mpr ⟨h0, h1⟩
  obtain ⟨vec1, hs, he⟩ := shrink_elem
    { elem := vec.elem.take r.toNat ++ vec.elem.drop (r + 1).toNat, cap := vec.cap }
  have hrr : vec.RemoveRange r (r + 1) = .ok vec1 := by
    unfold Vector.RemoveRange
    rw [if_neg (by simp [hv]), if_neg (by omega)]
    exact hs
  have hsucc : (r + 1).toNat = r.toNat + 1 := by omega
  have helem : vec1.elem = vec.elem.eraseIdx r.toNat := by
    rw [he, List.eraseIdx_eq_take_drop_succ, hsucc]
  refine ⟨x, vec1, hx, ?_, helem, ?_⟩
  · unfold Vector.Remove
    rw [hv, index_of_get h0 hx]
    simp [hrr]
  · have hlt : r.toNat < vec.elem.length := by
      simp only [Vector.Size] at h1
      omega
    simp only [Vector.Size, helem, List.length_eraseIdx, hlt, if_true]
    omega

theorem remove_invalid (vec : Vector α) (r : Int) (h : r < 0 ∨ vec.Size ≤ r) :
    vec.Remove r = .ok (vec, .failure) := by
  have hv : vec.validRank r = false := by
    cases hh : vec.validRank r with
    | false => rfl
    | true =>
      have := (validRank_iff vec r).mp hh
      omega
  simp [Vector.Remove, hv]

theorem sorted_get_le [LinearOrder α] : ∀ {xs : List α}, xs.Sorted (· ≤ ·) →
    ∀ {i j : Nat} {x y : α}, xs[i]? = some x → xs[j]? = some y → i ≤ j → x ≤ y
  | [], _, i, j, x, y, hx, _, _ => by simp at hx
  | a :: xs, hs, i, j, x, y, hx, hy, hij => by
    rw [List.sorted_cons] at hs
    cases j with
    | zero =>
      have : i = 0 := by omega
      subst this
      simp at hx hy
      rw [← hx, ← hy]
    | succ j =>
      simp only [List.getElem?_cons_succ] at hy
      cases i with
      | zero =>
        simp at hx
        rw [← hx]
        exact hs.1 y (List.getElem?_mem hy)
      | succ i =>
        simp only [List.getElem?_cons_succ] at hx
        exact sorted_get_le hs.2 hx hy (by omega)

/-- The loop of `binarySearchV2` on a sorted vector: it returns `r` with everything in
`[lo, r]` not greater than `v` and everything in `(r, hi)` greater than `v`. -/
theorem binarySearchV2_sorted [LinearOrder α] (vec : Vector α) (v : α)
    (hs : vec.elem.Sorted (· ≤ ·)) : ∀ (fuel : Nat) (lo hi : Int), 0 ≤ lo → lo ≤ hi →
    hi ≤ vec.Size → hi - lo < fuel →
    ∃ r, vec.binarySearchV2 fuel v lo hi = .ok r ∧ lo - 1 ≤ r ∧ r < hi ∧
      (∀ (i : Int) (x : α), lo ≤ i → i ≤ r → vec.elem[i.toNat]? = some x → ¬ v < x) ∧
      (∀ (i : Int) (x : α), r < i → i < hi → vec.elem[i.toNat]? = some x → v < x)
  | 0, lo, hi, _, h1, _, hf => by omega
  | f + 1, lo, hi, h0, h1, h2, hf => by
    unfold Vector.binarySearchV2
    by_cases hlt : lo < hi
    · rw [if_pos hlt]
      dsimp only
      have hm0 : 0 ≤ (lo + hi) / 2 := by omega
      have hm1 : (lo + hi) / 2 < vec.Size := by omega
      obtain ⟨x, hx⟩ := get_of_valid hm0 hm1
      rw [index_of_get hm0 hx]
      dsimp only
      by_cases hvx : v < x
      · rw [if_pos hvx]
        obtain ⟨r, hr, hr1, hr2, hle, hgt⟩ :=
          binarySearchV2_sorted vec v hs f lo ((lo + hi) / 2) h0 (by omega) (by omega)
            (by omega)
        refine ⟨r, hr, hr1, by omega, hle, fun i y hi1 hi2 hy => ?_⟩
        by_cases him : i < (lo + hi) / 2
        · exact hgt i y hi1 him hy
        · exact lt_of_lt_of_le hvx (sorted_get_le hs hx hy (by omega))
      · rw [if_neg hvx]
        obtain ⟨r, hr, hr1, hr2, hle, hgt⟩ :=
          binarySearchV2_sorted vec v hs f ((lo + hi) / 2 + 1) hi (by omega) (by omega) h2
            (by omega)
        refine ⟨r, hr, by omega, hr2, fun i y hi1 hi2 hy => ?_, fun i y hi1 hi2 hy =>
          hgt i y hi1 hi2 hy⟩
        by_cases him : (lo + hi) / 2 + 1 ≤ i
        · exact hle i y him hi2 hy
        · exact fun hvy => hvx (lt_of_lt_of_le hvy (sorted_get_le hs hy hx (by omega)))
    · rw [if_neg hlt]
      exact ⟨lo - 1, rfl, le_refl _, by omega, fun i x hi1 hi2 _ => by omega,
        fun i x hi1 hi2 _ => by omega⟩

end vector

namespace tree

variable {K V : Type}

/-! # Parent and child links agree; `size` counts the nodes -/

/-- The method `size` on a heap holding `t`. -/
theorem size_owns {h : Heap K V} : ∀ (t : Shape K V) (p : Option Nat) (f : Nat),
    Owns h p t → t.size < f → size f h p = .ok (t.size : Int)
  | .nil, p, f, ho, hf => by
    cases f with
    | zero => omega
    | succ f => cases ho; rfl
  | .node l a k v r, p, f, ho, hf => by
    obtain ⟨hp, n, hn, -, -, hl, hr⟩ := ho
    subst hp
    cases f with
    | zero => omega
    | succ f =>
      simp only [Shape.size] at hf
      rw [size, deref_of_get hn]
      dsimp only
      rw [size_owns l _ f hl (by omega), size_owns r _ f hr (by omega)]
      simp only [Shape.size, Nat.cast_add, Nat.cast_one]
      congr 1
      omega

/-- A child link of a node of the tree leads to a node whose parent link leads back. -/
theorem Owns.child_parent {h : Heap K V} : ∀ {T : Shape K V} {p par : Option Nat},
    Owns h p T → Parented h par T → ∀ {y c : Nat} {n : BinNode K V}, y ∈ T.addrs →
    h[y]? = some n → (n.lc = some c ∨ n.rc = some c) →
    c ∈ T.addrs ∧ ∃ m, h[c]? = some m ∧ m.parent = some y
  | .nil, _, _, _, _, y, c, n, hy, _, _ => by simp [Shape.addrs] at hy
  | .node l a k v r, p, par, ho, hp, y, c, n, hy, hn, hc => by
    obtain ⟨-, na, hna, -, -, hl, hr⟩ := ho
    obtain ⟨-, hpl, hpr⟩ := hp
    rcases Shape.mem_addrs_node.mp hy with e | e | e
    · obtain ⟨h1, h2⟩ := Owns.child_parent hl hpl e hn hc
      exact ⟨Shape.mem_addrs_node.mpr (Or.inl h1), h2⟩
    · subst e
      rw [hna] at hn
      cases hn
      rcases hc with hc | hc
      · rw [hc] at hl
        cases l with
        | nil => cases hl
        | node ll b kb vb lr =>
          have hb : c = b := Option.some.inj hl.1
          subst hb
          obtain ⟨⟨m, hm, hmp⟩, -⟩ := hpl
          exact ⟨Shape.mem_addrs_node.mpr (Or.inl
            (Shape.mem_addrs_node.mpr (Or.inr (Or.inl rfl)))), m, hm, hmp⟩
      · rw [hc] at hr
        cases r with
        | nil => cases hr
        | node rl b kb vb rr =>
          have hb : c = b := Option.some.inj hr.1
          subst hb
          obtain ⟨⟨m, hm, hmp⟩, -⟩ := hpr
          exact ⟨Shape.mem_addrs_node.mpr (Or.inr (Or.inr
            (Shape.mem_addrs_node.mpr (Or.inr (Or.inl rfl))))), m, hm, hmp⟩
    · obtain ⟨h1, h2⟩ := Owns.child_parent hr hpr e hn hc
      exact ⟨Shape.mem_addrs_node.mpr (Or.inr (Or.inr h1)), h2⟩

/-- The parent link of a node of the tree is that of the whole tree at the root, and else
leads to a node of the tree that has the node as exactly one of its children. -/
theorem Owns.parent_child {h : Heap K V} : ∀ {T : Shape K V} {p par : Option Nat},
    Owns h p T → Parented h par T → T.addrs.Nodup → ∀ {y : Nat} {n : BinNode K V},
    y ∈ T.addrs → h[y]? = some n →
    (p = some y ∧ n.parent = par) ∨
    ∃ q m, q ∈ T.addrs ∧ n.parent = some q ∧ h[q]? = some m ∧
      ((m.lc = some y ∧ m.rc ≠ some y) ∨ (m.lc ≠ some y ∧ m.rc = some y))
  | .nil, _, _, _, _, _, y, n, hy, _ => by simp [Shape.addrs] at hy
  | .node l a k v r, p, par, ho, hp, hnd, y, n, hy, hn => by
    obtain ⟨hpa, na, hna, -, -, hl, hr⟩ := ho
    obtain ⟨⟨na1, hna1, hnpar⟩, hpl, hpr⟩ := hp
    rw [hna] at hna1
    cases hna1
    obtain ⟨hlnd, hrnd, hal, har, hdisj⟩ := Shape.nodup_node hnd
    rcases Shape.mem_addrs_node.mp hy with e | e | e
    · right
      rcases Owns.parent_child hl hpl hlnd e hn with ⟨h1, h2⟩ | ⟨q, m, hq, h2, h3, h4⟩
      · refine ⟨a, na, Shape.mem_addrs_node.mpr (Or.inr (Or.inl rfl)), h2, hna,
          Or.inl ⟨h1, fun hrc => ?_⟩⟩
        exact hdisj y e (Shape.root_mem r y (by rw [← hr.root_eq]; exact hrc))
      · exact ⟨q, m, Shape.mem_addrs_node.mpr (Or.inl hq), h2, h3, h4⟩
    · subst e
      rw [hna] at hn
      cases hn
      exact Or.inl ⟨hpa, hnpar⟩
    · right
      rcases Owns.parent_child hr hpr hrnd e hn with ⟨h1, h2⟩ | ⟨q, m, hq, h2, h3, h4⟩
      · refine ⟨a, na, Shape.mem_addrs_node.mpr (Or.inr (Or.inl rfl)), h2, hna,
          Or.inr ⟨fun hlc => ?_, h1⟩⟩
        exact hdisj y (Shape.root_mem l y (by rw [← hl.root_eq]; exact hlc)) e
      · exact ⟨q, m, Shape.mem_addrs_node.mpr (Or.inr (Or.inr hq)), h2, h3, h4⟩

/-! # `successor` and `precursor` are the in-order neighbours -/

theorem Ctx.fill_addrs : ∀ (c : Ctx K V) (s : Shape K V),
    (Ctx.fill c s).addrs = Ctx.before c ++ s.addrs ++ Ctx.after c
  | [], s => by simp [Ctx.fill, Ctx.before, Ctx.after]
  | .left a k v r :: c, s => by
    simp [Ctx.fill, Ctx.before, Ctx.after, Frame.plug, Ctx.fill_addrs c, Shape.addrs]
  | .right l a k v :: c, s => by
    simp [Ctx.fill, Ctx.before, Ctx.after, Frame.plug, Ctx.fill_addrs c, Shape.addrs]

theorem Ctx.length_le_addrs : ∀ (c : Ctx K V), c.length ≤ (Ctx.addrs c).length
  | [] => Nat.le_refl _
  | f :: c => by
    have := Ctx.length_le_addrs c
    cases f <;> simp [Ctx.addrs, Frame.addrs] <;> omega

/-- In a list without repetition an element splits the list in one way only. -/
theorem split_unique {a : Nat} : ∀ {p1 p2 q1 q2 : List Nat}, (p1 ++ a :: q1).Nodup →
    p1 ++ a :: q1 = p2 ++ a :: q2 → p1 = p2 ∧ q1 = q2
  | [], [], q1, q2, _, h => by simpa using h
  | [], y :: p2, q1, q2, hnd, h => by
    simp only [List.nil_append, List.cons_append, List.cons.injEq] at h
    obtain ⟨rfl, rfl⟩ := h
    simp at hnd
  | x :: p1, [], q1, q2, hnd, h => by
    simp only [List.nil_append, List.cons_append, List.cons.injEq] at h
    obtain ⟨rfl, -⟩ := h
    simp at hnd
  | x :: p1, y :: p2, q1, q2, hnd, h => by
    simp only [List.cons_append, List.cons.injEq] at h
    obtain ⟨rfl, h⟩ := h
    rw [List.cons_append, List.nodup_cons] at hnd
    obtain ⟨h1, h2⟩ := split_unique hnd.2 h
    exact ⟨by rw [h1], h2⟩

theorem getLast_append_cons (xs : List Nat) (y : Nat) (ys : List Nat) :
    (xs ++ y :: ys).getLast? = (y :: ys).getLast? := by
  induction xs with
  | nil => rfl
  | cons x xs ih =>
    cases hxs : xs ++ y :: ys with
    | nil => simp at hxs
    | cons z zs =>
      rw [List.cons_append, hxs, List.getLast?_cons_cons, ← hxs, ih]

/-- The first loop of `successor` ends at the first node of the subtree in in-order. -/
theorem leftmostLoop_head {h : Heap K V} : ∀ (r : Shape K V) (pr : Option Nat) (f : Nat),
    Owns h pr r → r ≠ .nil → r.size ≤ f → leftmostLoop f h pr = .ok r.addrs.head?
  | .nil, _, _, _, hne, _ => absurd rfl hne
  | .node l a k v r, pr, f, ho, _, hf => by
    obtain ⟨hp, n, hn, -, -, hl, -⟩ := ho
    subst hp
    cases f with
    | zero => simp [Shape.size] at hf
    | succ f =>
      rw [leftmostLoop, deref_of_get hn]
      dsimp only
      cases l with
      | nil =>
        have hlc : n.lc = none := hl
        simp [hlc, Shape.addrs]
      | node ll b kb vb lr =>
        have hlc : n.lc = some b := hl.1
        rw [if_pos (by simp [hlc])]
        simp only [Shape.size] at hf
        rw [leftmostLoop_head _ _ f hl (by simp) (by simp only [Shape.size]; omega)]
        simp [Shape.addrs]

/-- The first loop of `precursor` ends at the last node of the subtree in in-order. -/
theorem rightmostLoop_last {h : Heap K V} : ∀ (l : Shape K V) (pl : Option Nat) (f : Nat),
    Owns h pl l → l ≠ .nil → l.size ≤ f → rightmostLoop f h pl = .ok l.addrs.getLast?
  | .nil, _, _, _, hne, _ => absurd rfl hne
  | .node l a k v r, pl, f, ho, _, hf => by
    obtain ⟨hp, n, hn, -, -, -, hr⟩ := ho
    subst hp
    cases f with
    | zero => simp [Shape.size] at hf
    | succ f =>
      rw [rightmostLoop, deref_of_get hn]
      dsimp only
      cases r with
      | nil =>
        have hrc : n.rc = none := hr
        simp [hrc, Shape.addrs]
      | node rl b kb vb rr =>
        have hrc : n.rc = some b := hr.1
        rw [if_pos (by simp [hrc])]
        simp only [Shape.size] at hf
        rw [rightmostLoop_last _ _ f hr (by simp) (by simp only [Shape.size]; omega)]
        simp only [Shape.addrs]
        rw [getLast_append_cons, getLast_append_cons l.addrs a]
        exact congrArg _ (getLast_append_cons (a :: rl.addrs) b rr.addrs).symm

/-- The second loop of `successor`, started at the root of the hole of a tree: it stops at a
node whose parent is the first node after the hole in in-order. -/
theorem climbRcLoop_fill {h : Heap K V} {p : Option Nat} : ∀ (c : Ctx K V) (S : Shape K V)
    (x : Nat) (fuel : Nat), S.root = some x → Owns h p (Ctx.fill c S) →
    (Ctx.fill c S).addrs.Nodup → Parented h none (Ctx.fill c S) → c.length < fuel →
    ∃ y m, climbRcLoop fuel h (some x) = .ok (some y) ∧ h[y]? = some m ∧
      m.parent = (Ctx.after c).head?
  | c, .nil, x, fuel, hroot, _, _, _, _ => by cases hroot
  | c, .node l x1 k v r, x, fuel, hroot, ho, hnd, hpar, hf => by
    have hx : x1 = x := Option.some.inj hroot
    subst hx
    obtain ⟨⟨nx, hnx, hnxp⟩, -, -⟩ := Parented.of_fill_par c _ none hpar
    cases fuel with
    | zero => omega
    | succ f =>
      cases c with
      | nil =>
        have hp0 : nx.parent = none := hnxp
        refine ⟨x1, nx, ?_, hnx, hp0⟩
        simp [climbRcLoop, isRc, deref_of_get hnx, hp0]
      | cons f0 c1 =>
        have hp0 : nx.parent = some f0.addr := hnxp
        obtain ⟨nf, hnf, hown⟩ := Owns.of_fill_cons f0 c1 _ p ho
        cases f0 with
        | left b kb vb r0 =>
          obtain ⟨q, hq⟩ := Owns.of_fill c1 _ p ho
          obtain ⟨-, nf1, hnf1, -, -, -, hr0⟩ := hq
          simp only [Frame.addr] at hnf hp0
          rw [hnf] at hnf1
          cases hnf1
          obtain ⟨hpnd, -, -⟩ := Ctx.nodup_fill (c := c1) hnd
          obtain ⟨-, -, -, -, hdisj⟩ := Shape.nodup_node hpnd
          have hne : nf.rc ≠ some x1 := fun e =>
            hdisj x1 (Shape.mem_addrs_node.mpr (Or.inr (Or.inl rfl)))
              (Shape.root_mem r0 x1 (by rw [← hr0.root_eq]; exact e))
          refine ⟨x1, nx, ?_, hnx, ?_⟩
          · simp [climbRcLoop, isRc, deref_of_get hnx, hp0, deref_of_get hnf, hne]
          · simp [Ctx.after, hp0]
        | right l0 b kb vb =>
          simp only [Frame.addr] at hnf hp0
          have hrc : nf.rc = some x1 := hown.1
          obtain ⟨y, m, hy, hm, hmp⟩ := climbRcLoop_fill c1 (.node l0 b kb vb (.node l x1 k v r))
            b f rfl ho hnd hpar (by simpa using hf)
          refine ⟨y, m, ?_, hm, by simpa [Ctx.after] using hmp⟩
          simp [climbRcLoop, isRc, deref_of_get hnx, hp0, deref_of_get hnf, hrc, hy]

/-- The second loop of `precursor`, started at the root of the hole of a tree: it stops at a
node whose parent is the last node before the hole in in-order. -/
theorem climbLcLoop_fill {h : Heap K V} {p : Option Nat} : ∀ (c : Ctx K V) (S : Shape K V)
    (x : Nat) (fuel : Nat), S.root = some x → Owns h p (Ctx.fill c S) →
    (Ctx.fill c S).addrs.Nodup → Parented h none (Ctx.fill c S) → c.length < fuel →
    ∃ y m, climbLcLoop fuel h (some x) = .ok (some y) ∧ h[y]? = some m ∧
      m.parent = (Ctx.before c).getLast?
  | c, .nil, x, fuel, hroot, _, _, _, _ => by cases hroot
  | c, .node l x1 k v r, x, fuel, hroot, ho, hnd, hpar, hf => by
    have hx : x1 = x := Option.some.inj hroot
    subst hx
    obtain ⟨⟨nx, hnx, hnxp⟩, -, -⟩ := Parented.of_fill_par c _ none hpar
    cases fuel with
    | zero => omega
    | succ f =>
      cases c with
      | nil =>
        have hp0 : nx.parent = none := hnxp
        refine ⟨x1, nx, ?_, hnx, hp0⟩
        simp [climbLcLoop, isLc, deref_of_get hnx, hp0]
      | cons f0 c1 =>
        have hp0 : nx.parent = some f0.addr := hnxp
        obtain ⟨nf, hnf, hown⟩ := Owns.of_fill_cons f0 c1 _ p ho
        cases f0 with
        | right l0 b kb vb =>
          obtain ⟨q, hq⟩ := Owns.of_fill c1 _ p ho
          obtain ⟨-, nf1, hnf1, -, -, hl0, -⟩ := hq
          simp only [Frame.addr] at hnf hp0
          rw [hnf] at hnf1
          cases hnf1
          obtain ⟨hpnd, -, -⟩ := Ctx.nodup_fill (c := c1) hnd
          obtain ⟨-, -, -, -, hdisj⟩ := Shape.nodup_node hpnd
          have hne : nf.lc ≠ some x1 := fun e =>
            hdisj x1 (Shape.root_mem l0 x1 (by rw [← hl0.root_eq]; exact e))
              (Shape.mem_addrs_node.mpr (Or.inr (Or.inl rfl)))
          refine ⟨x1, nx, ?_, hnx, ?_⟩
          · simp [climbLcLoop, isLc, deref_of_get hnx, hp0, deref_of_get hnf, hne]
          · simp [Ctx.before, hp0, ← List.append_assoc]
        | left b kb vb r0 =>
          simp only [Frame.addr] at hnf hp0
          have hlc : nf.lc = some x1 := hown.1
          obtain ⟨y, m, hy, hm, hmp⟩ := climbLcLoop_fill c1 (.node (.node l x1 k v r) b kb vb r0)
            b f rfl ho hnd hpar (by simpa using hf)
          refine ⟨y, m, ?_, hm, by simpa [Ctx.before] using hmp⟩
          simp [climbLcLoop, isLc, deref_of_get hnx, hp0, deref_of_get hnf, hlc, hy]

theorem head_append_node (l : Shape K V) (a : Nat) (k : K) (v : V) (r : Shape K V)
    (ys : List Nat) :
    ((Shape.node l a k v r).addrs ++ ys).head? = (Shape.node l a k v r).addrs.head? := by
  simp only [Shape.addrs]
  cases l.addrs <;> simp

theorem getLast_append_node (l : Shape K V) (a : Nat) (k : K) (v : V) (r : Shape K V)
    (xs : List Nat) :
    (xs ++ (Shape.node l a k v r).addrs).getLast? = (Shape.node l a k v r).addrs.getLast? := by
  simp only [Shape.addrs]
  rw [← List.append_assoc, getLast_append_cons, getLast_append_cons]

/-- The method `successor` returns the next node in in-order. -/
theorem successor_split {h : Heap K V} {p : Option Nat} {T : Shape K V} (ho : Owns h p T)
    (hnd : T.addrs.Nodup) (hpar : Parented h none T) {pre post : List Nat} {a : Nat}
    (hs : T.addrs = pre ++ a :: post) {fuel : Nat} (hf : T.size < fuel) :
    successor fuel h (some a) = .ok post.head? := by
  have ha : a ∈ T.addrs := by rw [hs]; simp
  obtain ⟨c, l, k, v, r, rfl⟩ := Shape.split_at T a ha
  have hsz := Ctx.fill_size c (.node l a k v r)
  have hcl := Ctx.length_le_addrs c
  simp only [Shape.size] at hsz
  have hfa := Ctx.fill_addrs c (.node l a k v r)
  have hsplit : (Ctx.fill c (.node l a k v r)).addrs
      = (Ctx.before c ++ l.addrs) ++ a :: (r.addrs ++ Ctx.after c) := by
    rw [hfa]; simp [Shape.addrs]
  obtain ⟨-, hpost⟩ := split_unique (by rw [← hs]; exact hnd) (hs.symm.trans hsplit)
  obtain ⟨q, hq⟩ := Owns.of_fill c _ p ho
  obtain ⟨-, n, hn, -, -, -, hr⟩ := hq
  rw [successor, deref_of_get hn]
  dsimp only
  cases r with
  | nil =>
    have hrc : n.rc = none := hr
    rw [if_neg (by simp [hrc])]
    obtain ⟨y, m, hy, hm, hmp⟩ := climbRcLoop_fill c (.node l a k v .nil) a fuel rfl ho hnd hpar
      (by omega)
    rw [hy]
    dsimp only
    rw [deref_of_get hm]
    dsimp only
    rw [hmp, hpost]
    simp [Shape.addrs]
  | node rl b kb vb rr =>
    have hrc : n.rc = some b := hr.1
    rw [if_pos (by simp [hrc])]
    rw [leftmostLoop_head _ _ fuel hr (by simp) (by simp only [Shape.size] at hsz ⊢; omega),
      hpost, head_append_node]

/-- The method `precursor` returns the previous node in in-order. -/
theorem precursor_split {h : Heap K V} {p : Option Nat} {T : Shape K V} (ho : Owns h p T)
    (hnd : T.addrs.Nodup) (hpar : Parented h none T) {pre post : List Nat} {a : Nat}
    (hs : T.addrs = pre ++ a :: post) {fuel : Nat} (hf : T.size < fuel) :
    precursor fuel h (some a) = .ok pre.getLast? := by
  have ha : a ∈ T.addrs := by rw [hs]; simp
  obtain ⟨c, l, k, v, r, rfl⟩ := Shape.split_at T a ha
  have hsz := Ctx.fill_size c (.node l a k v r)
  have hcl := Ctx.length_le_addrs c
  simp only [Shape.size] at hsz
  have hfa := Ctx.fill_addrs c (.node l a k v r)
  have hsplit : (Ctx.fill c (.node l a k v r)).addrs
      = (Ctx.before c ++ l.addrs) ++ a :: (r.addrs ++ Ctx.after c) := by
    rw [hfa]; simp [Shape.addrs]
  obtain ⟨hpre, -⟩ := split_unique (by rw [← hs]; exact hnd) (hs.symm.trans hsplit)
  obtain ⟨q, hq⟩ := Owns.of_fill c _ p ho
  obtain ⟨-, n, hn, -, -, hl, -⟩ := hq
  rw [precursor, deref_of_get hn]
  dsimp only
  cases l with
  | nil =>
    have hlc : n.lc = none := hl
    rw [if_neg (by simp [hlc])]
    obtain ⟨y, m, hy, hm, hmp⟩ := climbLcLoop_fill c (.node .nil a k v r) a fuel rfl ho hnd hpar
      (by omega)
    rw [hy]
    dsimp only
    rw [deref_of_get hm]
    dsimp only
    rw [hmp, hpre]
    simp [Shape.addrs]
  | node ll b kb vb lr =>
    have hlc : n.lc = some b := hl.1
    rw [if_pos (by simp [hlc])]
    rw [rightmostLoop_last _ _ fuel hl (by simp) (by simp only [Shape.size] at hsz ⊢; omega),
      hpre, getLast_append_node]

/-! # `updateHeightAbove` re-establishes the height formula -/

theorem get_heightUpdated (h : Heap K V) (x y : Nat) :
    (heightUpdated h x)[y]? = if x = y then (h[y]?).map (fun m =>
      { m with height := newHeight m.color (heightOf h m.lc) (heightOf h m.rc) }) else h[y]? :=
  get_update h x y _

theorem heightOf_heightUpdated_other (h : Heap K V) (x : Nat) (q : Option Nat)
    (hq : q ≠ some x) : heightOf (heightUpdated h x) q = heightOf h q := by
  cases q with
  | none => rfl
  | some c =>
    have hne : x ≠ c := fun e => hq (by rw [e])
    simp only [heightOf, get_heightUpdated, if_neg hne]

theorem heightOf_heightUpdated_self {h : Heap K V} {x : Nat} {m : BinNode K V}
    (hm : h[x]? = some m) : heightOf (heightUpdated h x) (some x)
      = newHeight m.color (heightOf h m.lc) (heightOf h m.rc) := by
  simp only [heightOf, get_heightUpdated, if_pos, hm, Option.map_some']

/-- Updating a height that is already right changes no height. -/
theorem heightOf_heightUpdated_same {h : Heap K V} {x : Nat} {m : BinNode K V}
    (hm : h[x]? = some m)
    (he : m.height = newHeight m.color (heightOf h m.lc) (heightOf h m.rc)) (q : Option Nat) :
    heightOf (heightUpdated h x) q = heightOf h q := by
  by_cases hq : q = some x
  · rw [hq, heightOf_heightUpdated_self hm, ← he]
    simp [heightOf, hm]
  · exact heightOf_heightUpdated_other h x q hq

theorem HeightOK.heightUpdated_self {h : Heap K V} {x : Nat} {m : BinNode K V}
    (hm : h[x]? = some m) (hl : m.lc ≠ some x) (hr : m.rc ≠ some x) :
    HeightOK (heightUpdated h x) x := by
  refine ⟨_, by rw [get_heightUpdated, if_pos rfl, hm]; rfl, ?_⟩
  simp only [heightOf_heightUpdated_other h x _ hl, heightOf_heightUpdated_other h x _ hr]

theorem HeightOK.heightUpdated_other {h : Heap K V} {x y : Nat} (hy : HeightOK h y)
    (hxy : y ≠ x) (hc : ∀ n, h[y]? = some n → n.lc ≠ some x ∧ n.rc ≠ some x) :
    HeightOK (heightUpdated h x) y := by
  obtain ⟨n, hn, he⟩ := hy
  refine ⟨n, by rw [get_heightUpdated, if_neg (Ne.symm hxy)]; exact hn, ?_⟩
  rw [heightOf_heightUpdated_other h x _ (hc n hn).1,
    heightOf_heightUpdated_other h x _ (hc n hn).2]
  exact he

theorem HeightOK.heightUpdated_same {h : Heap K V} {x y : Nat} {m : BinNode K V}
    (hy : HeightOK h y) (hxy : y ≠ x) (hm : h[x]? = some m)
    (he : m.height = newHeight m.color (heightOf h m.lc) (heightOf h m.rc)) :
    HeightOK (heightUpdated h x) y := by
  obtain ⟨n, hn, hen⟩ := hy
  refine ⟨n, by rw [get_heightUpdated, if_neg (Ne.symm hxy)]; exact hn, ?_⟩
  rw [heightOf_heightUpdated_same hm he, heightOf_heightUpdated_same hm he]
  exact hen

/-- Only the height of a record differs between heaps that agree after heights are
erased. -/
theorem strip_heightUpdated (h : Heap K V) (x y : Nat) :
    ((heightUpdated h x)[y]?).map eraseHeight
      = (h[y]?).map eraseHeight := by
  rw [get_heightUpdated]
  by_cases hxy : x = y
  · rw [if_pos hxy]
    cases h[y]? <;> rfl
  · rw [if_neg hxy]

theorem strip_links {h h1 : Heap K V} {y : Nat}
    (hs : (h1[y]?).map eraseHeight
      = (h[y]?).map eraseHeight) :
    (h1[y]?).map linksOf = (h[y]?).map linksOf := by
  have := congrArg (Option.map linksOf) hs
  simpa [Option.map_map, Function.comp, linksOf, eraseHeight] using this

theorem strip_parent {h h1 : Heap K V} {y : Nat}
    (hs : (h1[y]?).map eraseHeight
      = (h[y]?).map eraseHeight) :
    (h1[y]?).map (·.parent) = (h[y]?).map (·.parent) := by
  have := congrArg (Option.map (·.parent)) hs
  simpa [Option.map_map, Function.comp, eraseHeight] using this

theorem strip_color {h h1 : Heap K V} {y : Nat}
    (hs : (h1[y]?).map eraseHeight
      = (h[y]?).map eraseHeight) :
    (h1[y]?).map (·.color) = (h[y]?).map (·.color) := by
  have := congrArg (Option.map (·.color)) hs
  simpa [Option.map_map, Function.comp, eraseHeight] using this

/-- One iteration of the loop of `updateHeightAbove`. -/
theorem updateHeightAbove_step {h : Heap K V} {x : Nat} {m : BinNode K V} (f : Nat)
    (hm : h[x]? = some m) (l : ∀ c, m.lc = some c → c < h.length)
    (r : ∀ c, m.rc = some c → c < h.length) :
    updateHeightAbove (f + 1) h (some x)
      = if m.height = newHeight m.color (heightOf h m.lc) (heightOf h m.rc)
        then .ok (heightUpdated h x)
        else updateHeightAbove f (heightUpdated h x) m.parent := by
  have hg : (heightUpdated h x)[x]? = some
      { m with height := newHeight m.color (heightOf h m.lc) (heightOf h m.rc) } := by
    rw [get_heightUpdated, if_pos rfl, hm]; rfl
  rw [updateHeightAbove]
  simp only [getHeight, deref_of_get hm, updateHeight_eq hm l r, deref_of_get hg]

/-- The walk of `updateHeightAbove` from the root `x` of the hole of a tree in which every
node but `x` has the right height: it returns, changes heights only, and leaves every node
with the right height. -/
theorem updateHeightAbove_fill {p : Option Nat} : ∀ (c : Ctx K V) (h : Heap K V)
    (S : Shape K V) (x : Nat) (fuel : Nat), S.root = some x → Owns h p (Ctx.fill c S) →
    (Ctx.fill c S).addrs.Nodup → Parented h none (Ctx.fill c S) →
    (∀ y ∈ (Ctx.fill c S).addrs, y ≠ x → HeightOK h y) → c.length + 1 < fuel →
    ∃ h1, updateHeightAbove fuel h (some x) = .ok h1 ∧
      (∀ y : Nat, (h1[y]?).map eraseHeight
        = (h[y]?).map eraseHeight) ∧
      (∀ y ∈ (Ctx.fill c S).addrs, HeightOK h1 y)
  | c, h, .nil, x, fuel, hroot, _, _, _, _, _ => by cases hroot
  | c, h, .node l x1 k v r, x, fuel, hroot, ho, hnd, hpar, hok, hf => by
    have hx : x1 = x := Option.some.inj hroot
    subst hx
    obtain ⟨q0, hq0⟩ := Owns.of_fill c _ p ho
    have hS := hq0
    obtain ⟨-, m, hm, -, -, hl, hr⟩ := hq0
    obtain ⟨⟨m1, hm1, hmp⟩, -, -⟩ := Parented.of_fill_par c _ none hpar
    rw [hm] at hm1
    cases hm1
    obtain ⟨hSnd, -, -⟩ := Ctx.nodup_fill hnd
    obtain ⟨-, -, hxl, hxr, -⟩ := Shape.nodup_node hSnd
    have hlx : m.lc ≠ some x1 := fun e =>
      hxl (Shape.root_mem l x1 (by rw [← hl.root_eq]; exact e))
    have hrx : m.rc ≠ some x1 := fun e =>
      hxr (Shape.root_mem r x1 (by rw [← hr.root_eq]; exact e))
    have hll : ∀ c0, m.lc = some c0 → c0 < h.length := fun c0 e =>
      hl.lt_length c0 (Shape.root_mem l c0 (by rw [← hl.root_eq]; exact e))
    have hrl : ∀ c0, m.rc = some c0 → c0 < h.length := fun c0 e =>
      hr.lt_length c0 (Shape.root_mem r c0 (by rw [← hr.root_eq]; exact e))
    have hxmem : x1 ∈ (Ctx.fill c (.node l x1 k v r)).addrs :=
      Ctx.mem_fill_addrs.mpr (Or.inl (Shape.mem_addrs_node.mpr (Or.inr (Or.inl rfl))))
    -- a node other than the parent of `x1` has no child `x1`
    have hchild : ∀ y ∈ (Ctx.fill c (.node l x1 k v r)).addrs, m.parent ≠ some y →
        ∀ n, h[y]? = some n → n.lc ≠ some x1 ∧ n.rc ≠ some x1 := by
      intro y hy hne n hn
      constructor
      · intro e
        obtain ⟨-, m2, hm2, hp2⟩ := Owns.child_parent ho hpar hy hn (Or.inl e)
        rw [hm] at hm2
        cases hm2
        exact hne hp2
      · intro e
        obtain ⟨-, m2, hm2, hp2⟩ := Owns.child_parent ho hpar hy hn (Or.inr e)
        rw [hm] at hm2
        cases hm2
        exact hne hp2
    cases fuel with
    | zero => omega
    | succ f =>
      rw [updateHeightAbove_step f hm hll hrl]
      by_cases he : m.height = newHeight m.color (heightOf h m.lc) (heightOf h m.rc)
      · rw [if_pos he]
        refine ⟨_, rfl, strip_heightUpdated h x1, fun y hy => ?_⟩
        by_cases hyx : y = x1
        · rw [hyx]; exact HeightOK.heightUpdated_self hm hlx hrx
        · exact (hok y hy hyx).heightUpdated_same hyx hm he
      · rw [if_neg he]
        cases c with
        | nil =>
          have hp0 : m.parent = none := hmp
          rw [hp0]
          cases f with
          | zero => simp at hf
          | succ f =>
            refine ⟨_, rfl, strip_heightUpdated h x1, fun y hy => ?_⟩
            by_cases hyx : y = x1
            · rw [hyx]; exact HeightOK.heightUpdated_self hm hlx hrx
            · exact (hok y hy hyx).heightUpdated_other hyx
                (hchild y hy (by rw [hp0]; simp))
        | cons f0 c1 =>
          have hp0 : m.parent = some f0.addr := hmp
          rw [hp0]
          have hfx : f0.addr ≠ x1 := by
            intro e
            obtain ⟨-, -, hdisj⟩ := Ctx.nodup_fill hnd
            refine hdisj x1 (Shape.mem_addrs_node.mpr (Or.inr (Or.inl rfl))) ?_
            rw [← e]
            cases f0 <;> simp [Ctx.addrs, Frame.addrs, Frame.addr]
          have ho1 : Owns (heightUpdated h x1) p (Ctx.fill (f0 :: c1) (.node l x1 k v r)) :=
            Owns.frame_links ho (fun a _ => strip_links (strip_heightUpdated h x1 a))
          have hpar1 : Parented (heightUpdated h x1) none
              (Ctx.fill (f0 :: c1) (.node l x1 k v r)) :=
            Parented.frame_par hpar (fun a _ => strip_parent (strip_heightUpdated h x1 a))
          have hroot1 : (f0.plug (.node l x1 k v r)).root = some f0.addr := by
            cases f0 <;> rfl
          obtain ⟨h1, hrun, hstrip, hall⟩ := updateHeightAbove_fill c1 (heightUpdated h x1)
            (f0.plug (.node l x1 k v r)) f0.addr f hroot1 ho1 hnd hpar1
            (fun y hy hyq => by
              by_cases hyx : y = x1
              · rw [hyx]; exact HeightOK.heightUpdated_self hm hlx hrx
              · exact (hok y hy hyx).heightUpdated_other hyx
                  (hchild y hy (by rw [hp0]; exact fun e => hyq (Option.some.inj e).symm)))
            (by simp only [List.length_cons] at hf; omega)
          exact ⟨h1, hrun, fun y => (hstrip y).trans (strip_heightUpdated h x1 y), hall⟩

/-! # The records of a heap after a rotation -/

theorem heightOf_update (h : Heap K V) (x : Nat) (f : BinNode K V → BinNode K V)
    (hf : ∀ m, (f m).height = m.height) (q : Option Nat) :
    heightOf (update h x f) q = heightOf h q := by
  cases q with
  | none => rfl
  | some c =>
    simp only [heightOf, get_update]
    by_cases hxc : x = c
    · rw [if_pos hxc]
      cases h[c]? <;> simp [hf]
    · rw [if_neg hxc]

theorem heightOf_reparent (h : Heap K V) (s hot q : Option Nat) :
    heightOf (reparent h s hot) q = heightOf h q := by
  cases s with
  | none => rfl
  | some c =>
    refine heightOf_update _ _ _ ?_ _
    intro m
    rfl

theorem heightOf_relinkParent (h : Heap K V) (par : Option Nat) (a : Nat) (b q : Option Nat) :
    heightOf (relinkParent h par a b) q = heightOf h q := by
  cases par with
  | none => rfl
  | some pa =>
    simp only [relinkParent]
    split
    · refine heightOf_update _ _ _ ?_ _
      intro m
      rfl
    · refine heightOf_update _ _ _ ?_ _
      intro m
      rfl

/-- Heights just before the two calls of `updateHeight` in `rightRotate`. -/
theorem heightOf_rotR_links (h : Heap K V) (a b : Nat) (n nb : BinNode K V) (q : Option Nat) :
    heightOf (update (reparent
      (update (update
        (relinkParent (update h b (fun m => { m with parent := n.parent })) n.parent a (some b))
        a (fun m => { m with parent := some b }))
        a (fun m => { m with lc := nb.rc }))
      nb.rc (some a))
      b (fun m => { m with rc := some a })) q = heightOf h q := by
  have e1 := heightOf_update h b (fun m => { m with parent := n.parent }) (fun _ => rfl) q
  have e2 := heightOf_relinkParent (update h b (fun m => { m with parent := n.parent }))
    n.parent a (some b) q
  have e3 := heightOf_update (relinkParent (update h b (fun m => { m with parent := n.parent }))
    n.parent a (some b)) a (fun m => { m with parent := some b }) (fun _ => rfl) q
  have e4 := heightOf_update (update (relinkParent
    (update h b (fun m => { m with parent := n.parent })) n.parent a (some b))
    a (fun m => { m with parent := some b })) a (fun m => { m with lc := nb.rc })
    (fun _ => rfl) q
  have e5 := heightOf_reparent (update (update (relinkParent
    (update h b (fun m => { m with parent := n.parent })) n.parent a (some b))
    a (fun m => { m with parent := some b })) a (fun m => { m with lc := nb.rc }))
    nb.rc (some a) q
  have e6 := heightOf_update (reparent (update (update (relinkParent
    (update h b (fun m => { m with parent := n.parent })) n.parent a (some b))
    a (fun m => { m with parent := some b })) a (fun m => { m with lc := nb.rc }))
    nb.rc (some a)) b (fun m => { m with rc := some a }) (fun _ => rfl) q
  rw [e6, e5, e4, e3, e2, e1]

/-- The record of the rotated node after `rightRotate`. -/
theorem rotHeapR_get_a {h : Heap K V} {a b : Nat} {n nb : BinNode K V}
    (hn : h[a]? = some n) (hab : a ≠ b) (hpa : n.parent ≠ some a) (hc : nb.rc ≠ some a) :
    (rotHeapR h a b n nb)[a]? = some { n with
      parent := some b, lc := nb.rc,
      height := newHeight n.color (heightOf h nb.rc) (heightOf h n.rc) } := by
  have h2a : (relinkParent (update h b (fun m => { m with parent := n.parent }))
      n.parent a (some b))[a]? = some n := by
    rw [get_relinkParent_other _ _ _ _ _ hpa, get_update_other _ (Ne.symm hab)]; exact hn
  rw [rotHeapR, get_heightUpdated, if_neg (Ne.symm hab), get_heightUpdated, if_pos rfl,
    get_update_other _ (Ne.symm hab), get_reparent, if_neg hc,
    get_update_self (get_update_self h2a _)]
  simp only [Option.map_some', heightOf_rotR_links]

/-- The record of the promoted child after `rightRotate`. -/
theorem rotHeapR_get_b {h : Heap K V} {a b : Nat} {n nb : BinNode K V}
    (hn : h[a]? = some n) (hnb : h[b]? = some nb) (hab : a ≠ b) (hpa : n.parent ≠ some a)
    (hpb : n.parent ≠ some b) (hc : nb.rc ≠ some a) (hcb : nb.rc ≠ some b)
    (he : nb.lc ≠ some a) :
    (rotHeapR h a b n nb)[b]? = some { nb with
      parent := n.parent, rc := some a,
      height := newHeight nb.color (heightOf h nb.lc)
        (newHeight n.color (heightOf h nb.rc) (heightOf h n.rc)) } := by
  have h2a : (relinkParent (update h b (fun m => { m with parent := n.parent }))
      n.parent a (some b))[a]? = some n := by
    rw [get_relinkParent_other _ _ _ _ _ hpa, get_update_other _ (Ne.symm hab)]; exact hn
  have h6a : (update (reparent
      (update (update
        (relinkParent (update h b (fun m => { m with parent := n.parent })) n.parent a (some b))
        a (fun m => { m with parent := some b }))
        a (fun m => { m with lc := nb.rc }))
      nb.rc (some a))
      b (fun m => { m with rc := some a }))[a]?
      = some { n with parent := some b, lc := nb.rc } := by
    rw [get_update_other _ (Ne.symm hab), get_reparent, if_neg hc,
      get_update_self (get_update_self h2a _)]
  rw [rotHeapR, get_heightUpdated, if_pos rfl, get_heightUpdated, if_neg hab,
    get_update, if_pos rfl, get_reparent, if_neg hcb, get_update_other _ hab,
    get_update_other _ hab, get_relinkParent_other _ _ _ _ _ hpb, get_update_self hnb]
  simp only [Option.map_some', heightOf_heightUpdated_other _ _ _ he,
    heightOf_heightUpdated_self h6a, heightOf_rotR_links]

/-- The record of the parent of the rotated node after `rightRotate`. -/
theorem rotHeapR_get_parent {h : Heap K V} {a b pa : Nat} {n nb npa : BinNode K V}
    (hp : n.parent = some pa) (hnpa : h[pa]? = some npa) (hpa : pa ≠ a) (hpb : pa ≠ b)
    (hcp : nb.rc ≠ some pa) :
    (rotHeapR h a b n nb)[pa]? = some (if npa.lc = some a then { npa with lc := some b }
      else { npa with rc := some b }) := by
  have h1 : (update h b (fun m => { m with parent := n.parent }))[pa]? = some npa := by
    rw [get_update_other _ (Ne.symm hpb)]; exact hnpa
  rw [rotHeapR, get_heightUpdated, if_neg (Ne.symm hpb), get_heightUpdated,
    if_neg (Ne.symm hpa), get_update_other _ (Ne.symm hpb), get_reparent, if_neg hcp,
    get_update_other _ (Ne.symm hpa), get_update_other _ (Ne.symm hpa), hp]
  rw [hp] at h1
  simp only [relinkParent, h1, Option.map_some', Option.some.injEq]
  by_cases hc : npa.lc = some a
  · rw [if_pos hc, if_pos hc, get_update_self h1]
  · rw [if_neg hc, if_neg hc, get_update_self h1]

/-- The record of the subtree root that changes sides in `rightRotate`. -/
theorem rotHeapR_get_c {h : Heap K V} {a b c : Nat} {n nb nc : BinNode K V}
    (hc : nb.rc = some c) (hnc : h[c]? = some nc) (hca : c ≠ a) (hcb : c ≠ b)
    (hpc : n.parent ≠ some c) :
    (rotHeapR h a b n nb)[c]? = some { nc with parent := some a } := by
  rw [rotHeapR, get_heightUpdated, if_neg (Ne.symm hcb), get_heightUpdated,
    if_neg (Ne.symm hca), get_update_other _ (Ne.symm hcb), get_reparent, if_pos hc,
    get_update_other _ (Ne.symm hca), get_update_other _ (Ne.symm hca),
    get_relinkParent_other _ _ _ _ _ hpc, get_update_other _ (Ne.symm hcb), hnc]
  rfl

/-- The records that `rightRotate` leaves alone. -/
theorem rotHeapR_get_other (h : Heap K V) {a b y : Nat} (n nb : BinNode K V)
    (hya : y ≠ a) (hyb : y ≠ b) (hyp : n.parent ≠ some y) (hyc : nb.rc ≠ some y) :
    (rotHeapR h a b n nb)[y]? = h[y]? := by
  rw [rotHeapR, get_heightUpdated, if_neg (Ne.symm hyb), get_heightUpdated,
    if_neg (Ne.symm hya), get_update_other _ (Ne.symm hyb), get_reparent, if_neg hyc,
    get_update_other _ (Ne.symm hya), get_update_other _ (Ne.symm hya),
    get_relinkParent_other _ _ _ _ _ hyp, get_update_other _ (Ne.symm hyb)]

/-- Heights just before the two calls of `updateHeight` in `leftRotate`. -/
theorem heightOf_rotL_links (h : Heap K V) (a b : Nat) (n nb : BinNode K V) (q : Option Nat) :
    heightOf (update (reparent
      (update (update
        (relinkParent (update h b (fun m => { m with parent := n.parent })) n.parent a (some b))
        a (fun m => { m with parent := some b }))
        a (fun m => { m with rc := nb.lc }))
      nb.lc (some a))
      b (fun m => { m with lc := some a })) q = heightOf h q := by
  have e1 := heightOf_update h b (fun m => { m with parent := n.parent }) (fun _ => rfl) q
  have e2 := heightOf_relinkParent (update h b (fun m => { m with parent := n.parent }))
    n.parent a (some b) q
  have e3 := heightOf_update (relinkParent (update h b (fun m => { m with parent := n.parent }))
    n.parent a (some b)) a (fun m => { m with parent := some b }) (fun _ => rfl) q
  have e4 := heightOf_update (update (relinkParent
    (update h b (fun m => { m with parent := n.parent })) n.parent a (some b))
    a (fun m => { m with parent := some b })) a (fun m => { m with rc := nb.lc })
    (fun _ => rfl) q
  have e5 := heightOf_reparent (update (update (relinkParent
    (update h b (fun m => { m with parent := n.parent })) n.parent a (some b))
    a (fun m => { m with parent := some b })) a (fun m => { m with rc := nb.lc }))
    nb.lc (some a) q
  have e6 := heightOf_update (reparent (update (update (relinkParent
    (update h b (fun m => { m with parent := n.parent })) n.parent a (some b))
    a (fun m => { m with parent := some b })) a (fun m => { m with rc := nb.lc }))
    nb.lc (some a)) b (fun m => { m with lc := some a }) (fun _ => rfl) q
  rw [e6, e5, e4, e3, e2, e1]

/-- The record of the rotated node after `leftRotate`. -/
theorem rotHeapL_get_a {h : Heap K V} {a b : Nat} {n nb : BinNode K V}
    (hn : h[a]? = some n) (hab : a ≠ b) (hpa : n.parent ≠ some a) (hc : nb.lc ≠ some a) :
    (rotHeapL h a b n nb)[a]? = some { n with
      parent := some b, rc := nb.lc,
      height := newHeight n.color (heightOf h n.lc) (heightOf h nb.lc) } := by
  have h2a : (relinkParent (update h b (fun m => { m with parent := n.parent }))
      n.parent a (some b))[a]? = some n := by
    rw [get_relinkParent_other _ _ _ _ _ hpa, get_update_other _ (Ne.symm hab)]; exact hn
  rw [rotHeapL, get_heightUpdated, if_neg (Ne.symm hab), get_heightUpdated, if_pos rfl,
    get_update_other _ (Ne.symm hab), get_reparent, if_neg hc,
    get_update_self (get_update_self h2a _)]
  simp only [Option.map_some', heightOf_rotL_links]

/-- The record of the promoted child after `leftRotate`. -/
theorem rotHeapL_get_b {h : Heap K V} {a b : Nat} {n nb : BinNode K V}
    (hn : h[a]? = some n) (hnb : h[b]? = some nb) (hab : a ≠ b) (hpa : n.parent ≠ some a)
    (hpb : n.parent ≠ some b) (hc : nb.lc ≠ some a) (hcb : nb.lc ≠ some b)
    (he : nb.rc ≠ some a) :
    (rotHeapL h a b n nb)[b]? = some { nb with
      parent := n.parent, lc := some a,
      height := newHeight nb.color
        (newHeight n.color (heightOf h n.lc) (heightOf h nb.lc)) (heightOf h nb.rc) } := by
  have h2a : (relinkParent (update h b (fun m => { m with parent := n.parent }))
      n.parent a (some b))[a]? = some n := by
    rw [get_relinkParent_other _ _ _ _ _ hpa, get_update_other _ (Ne.symm hab)]; exact hn
  have h6a : (update (reparent
      (update (update
        (relinkParent (update h b (fun m => { m with parent := n.parent })) n.parent a (some b))
        a (fun m => { m with parent := some b }))
        a (fun m => { m with rc := nb.lc }))
      nb.lc (some a))
      b (fun m => { m with lc := some a }))[a]?
      = some { n with parent := some b, rc := nb.lc } := by
    rw [get_update_other _ (Ne.symm hab), get_reparent, if_neg hc,
      get_update_self (get_update_self h2a _)]
  rw [rotHeapL, get_heightUpdated, if_pos rfl, get_heightUpdated, if_neg hab,
    get_update, if_pos rfl, get_reparent, if_neg hcb, get_update_other _ hab,
    get_update_other _ hab, get_relinkParent_other _ _ _ _ _ hpb, get_update_self hnb]
  simp only [Option.map_some', heightOf_heightUpdated_other _ _ _ he,
    heightOf_heightUpdated_self h6a, heightOf_rotL_links]

/-- The record of the parent of the rotated node after `leftRotate`. -/
theorem rotHeapL_get_parent {h : Heap K V} {a b pa : Nat} {n nb npa : BinNode K V}
    (hp : n.parent = some pa) (hnpa : h[pa]? = some npa) (hpa : pa ≠ a) (hpb : pa ≠ b)
    (hcp : nb.lc ≠ some pa) :
    (rotHeapL h a b n nb)[pa]? = some (if npa.lc = some a then { npa with lc := some b }
      else { npa with rc := some b }) := by
  have h1 : (update h b (fun m => { m with parent := n.parent }))[pa]? = some npa := by
    rw [get_update_other _ (Ne.symm hpb)]; exact hnpa
  rw [rotHeapL, get_heightUpdated, if_neg (Ne.symm hpb), get_heightUpdated,
    if_neg (Ne.symm hpa), get_update_other _ (Ne.symm hpb), get_reparent, if_neg hcp,
    get_update_other _ (Ne.symm hpa), get_update_other _ (Ne.symm hpa), hp]
  rw [hp] at h1
  simp only [relinkParent, h1, Option.map_some', Option.some.injEq]
  by_cases hc : npa.lc = some a
  · rw [if_pos hc, if_pos hc, get_update_self h1]
  · rw [if_neg hc, if_neg hc, get_update_self h1]

/-- The record of the subtree root that changes sides in `leftRotate`. -/
theorem rotHeapL_get_c {h : Heap K V} {a b c : Nat} {n nb nc : BinNode K V}
    (hc : nb.lc = some c) (hnc : h[c]? = some nc) (hca : c ≠ a) (hcb : c ≠ b)
    (hpc : n.parent ≠ some c) :
    (rotHeapL h a b n nb)[c]? = some { nc with parent := some a } := by
  rw [rotHeapL, get_heightUpdated, if_neg (Ne.symm hcb), get_heightUpdated,
    if_neg (Ne.symm hca), get_update_other _ (Ne.symm hcb), get_reparent, if_pos hc,
    get_update_other _ (Ne.symm hca), get_update_other _ (Ne.symm hca),
    get_relinkParent_other _ _ _ _ _ hpc, get_update_other _ (Ne.symm hcb), hnc]
  rfl

/-- The records that `leftRotate` leaves alone. -/
theorem rotHeapL_get_other (h : Heap K V) {a b y : Nat} (n nb : BinNode K V)
    (hya : y ≠ a) (hyb : y ≠ b) (hyp : n.parent ≠ some y) (hyc : nb.lc ≠ some y) :
    (rotHeapL h a b n nb)[y]? = h[y]? := by
  rw [rotHeapL, get_heightUpdated, if_neg (Ne.symm hyb), get_heightUpdated,
    if_neg (Ne.symm hya), get_update_other _ (Ne.symm hyb), get_reparent, if_neg hyc,
    get_update_other _ (Ne.symm hya), get_update_other _ (Ne.symm hya),
    get_relinkParent_other _ _ _ _ _ hyp, get_update_other _ (Ne.symm hyb)]

/-! # What a well-formed tree gives at a node to be rotated -/

theorem heightOf_rotHeapR_other (h : Heap K V) (a b : Nat) (n nb : BinNode K V)
    (q : Option Nat) (hqa : q ≠ some a) (hqb : q ≠ some b) :
    heightOf (rotHeapR h a b n nb) q = heightOf h q := by
  rw [rotHeapR, heightOf_heightUpdated_other _ _ _ hqb, heightOf_heightUpdated_other _ _ _ hqa,
    heightOf_rotR_links]

theorem heightOf_rotHeapL_other (h : Heap K V) (a b : Nat) (n nb : BinNode K V)
    (q : Option Nat) (hqa : q ≠ some a) (hqb : q ≠ some b) :
    heightOf (rotHeapL h a b n nb) q = heightOf h q := by
  rw [rotHeapL, heightOf_heightUpdated_other _ _ _ hqb, heightOf_heightUpdated_other _ _ _ hqa,
    heightOf_rotL_links]

/-- The parent of a node of a well-formed tree lies in the tree, outside the subtree of the
node, and has the node as exactly one of its children. -/
theorem parent_facts {h : Heap K V} {p : Option Nat} {c : Ctx K V} {S : Shape K V} {a : Nat}
    {n : BinNode K V} (hroot : S.root = some a)
    (ho : Owns h p (Ctx.fill c S)) (hnd : (Ctx.fill c S).addrs.Nodup)
    (hpar : Parented h none (Ctx.fill c S)) (hn : h[a]? = some n) :
    n.parent = Ctx.parent none c ∧ (p = some a → n.parent = none) ∧
    ∀ pa, n.parent = some pa → pa ∉ S.addrs ∧ pa < h.length ∧
      ∃ npa, h[pa]? = some npa ∧
        ((npa.lc = some a ∧ npa.rc ≠ some a) ∨ (npa.lc ≠ some a ∧ npa.rc = some a)) ∧
        ∀ y ∈ S.addrs, y ≠ a → npa.lc ≠ some y ∧ npa.rc ≠ some y := by
  have haS : a ∈ S.addrs := Shape.root_mem S a hroot
  have haT : a ∈ (Ctx.fill c S).addrs := Ctx.mem_fill_addrs.mpr (Or.inl haS)
  obtain ⟨-, -, hdisj⟩ := Ctx.nodup_fill hnd
  have hSpar : Parented h (Ctx.parent none c) S := Parented.of_fill_par c S none hpar
  have hnp : n.parent = Ctx.parent none c := by
    cases S with
    | nil => cases hroot
    | node l a1 k v r =>
      have e : a1 = a := Option.some.inj hroot
      subst e
      obtain ⟨⟨n1, hn1, hp1⟩, -⟩ := hSpar
      rw [hn] at hn1
      cases hn1
      exact hp1
  refine ⟨hnp, fun hpa => ?_, fun pa hpa => ?_⟩
  · cases c with
    | nil => exact hnp
    | cons f c1 =>
      exfalso
      obtain ⟨x, hx1, hx2⟩ := Ctx.root_fill_cons_mem f c1 S
      rw [ho.root_eq, hx1] at hpa
      cases hpa
      exact hdisj _ haS hx2
  · have hpaC : pa ∈ Ctx.addrs c := by
      rw [hnp] at hpa
      cases c with
      | nil => cases hpa
      | cons f c1 =>
        simp only [Ctx.parent, Option.some.injEq] at hpa
        rw [← hpa]
        cases f <;> simp [Ctx.addrs, Frame.addrs, Frame.addr]
    have hpaS : pa ∉ S.addrs := fun hm => hdisj pa hm hpaC
    have hpaT : pa ∈ (Ctx.fill c S).addrs := Ctx.mem_fill_addrs.mpr (Or.inr hpaC)
    refine ⟨hpaS, ho.lt_length pa hpaT, ?_⟩
    rcases Owns.parent_child ho hpar hnd haT hn with ⟨-, h2⟩ | ⟨q, m, -, h2, h3, h4⟩
    · rw [h2] at hpa; cases hpa
    · rw [hpa] at h2
      cases h2
      refine ⟨m, h3, h4, fun y hy hya => ?_⟩
      -- a child of `pa` inside `S` would have parent `pa`, but its parent lies in `S`
      have hyT : y ∈ (Ctx.fill c S).addrs := Ctx.mem_fill_addrs.mpr (Or.inl hy)
      obtain ⟨ny, hny⟩ := ho.get_of_mem y hyT
      obtain ⟨qS, hqS⟩ := Owns.of_fill c S p ho
      have hSnd := (Ctx.nodup_fill hnd).1
      have hin : ∀ e : m.lc = some y ∨ m.rc = some y, False := by
        intro e
        obtain ⟨-, my, hmy, hpy⟩ := Owns.child_parent ho hpar hpaT h3 e
        rw [hny] at hmy
        cases hmy
        rcases Owns.parent_child hqS hSpar hSnd hy hny with ⟨g1, -⟩ | ⟨q1, m1, hq1, g2, -, -⟩
        · rw [hqS.root_eq, hroot] at g1
          exact hya (Option.some.inj g1).symm
        · rw [hpy] at g2
          cases g2
          exact hpaS hq1
      exact ⟨fun e => hin (Or.inl e), fun e => hin (Or.inr e)⟩

/-- The two nodes of a right rotation in a well-formed tree, and the roots of the three
subtrees below them: all allocated, all different. -/
theorem rotR_facts {h : Heap K V} {q : Option Nat} {ll lr r : Shape K V} {a b : Nat}
    {k kb : K} {v vb : V} {par : Option Nat}
    (ho : Owns h q (.node (.node ll b kb vb lr) a k v r))
    (hnd : (Shape.node (.node ll b kb vb lr) a k v r).addrs.Nodup)
    (hpar : Parented h par (.node (.node ll b kb vb lr) a k v r)) :
    ∃ n nb, h[a]? = some n ∧ h[b]? = some nb ∧ n.lc = some b ∧ nb.parent = some a ∧ a ≠ b ∧
      (∀ y, nb.lc = some y ∨ nb.rc = some y ∨ n.rc = some y →
        y ∈ (Shape.node (.node ll b kb vb lr) a k v r).addrs ∧ y ≠ a ∧ y ≠ b ∧
          y < h.length) ∧
      (∀ y, nb.rc = some y → nb.lc ≠ some y ∧ n.rc ≠ some y ∧
        ∃ nc, h[y]? = some nc ∧ nc.parent = some b) := by
  have hS := ho
  obtain ⟨-, n, hn, -, -, hl, hr⟩ := ho
  have hlc : n.lc = some b := hl.1
  obtain ⟨-, nb, hnb, -, -, hll, hlr⟩ := hl
  obtain ⟨-, ⟨⟨nb1, hnb1, hbp⟩, -, hplr⟩, -⟩ := hpar
  rw [hnb] at hnb1
  cases hnb1
  obtain ⟨hlnd, -, hal, har, hdisj⟩ := Shape.nodup_node hnd
  obtain ⟨-, -, hbll, hblr, hdl⟩ := Shape.nodup_node hlnd
  have hbl : b ∈ (Shape.node ll b kb vb lr).addrs :=
    Shape.mem_addrs_node.mpr (Or.inr (Or.inl rfl))
  have hab : a ≠ b := fun e => hal (e ▸ hbl)
  have mll : ∀ y, nb.lc = some y → y ∈ ll.addrs :=
    fun y e => Shape.root_mem ll y (by rw [← hll.root_eq]; exact e)
  have mlr : ∀ y, nb.rc = some y → y ∈ lr.addrs :=
    fun y e => Shape.root_mem lr y (by rw [← hlr.root_eq]; exact e)
  have mr : ∀ y, n.rc = some y → y ∈ r.addrs :=
    fun y e => Shape.root_mem r y (by rw [← hr.root_eq]; exact e)
  refine ⟨n, nb, hn, hnb, hlc, hbp, hab, fun y hy => ?_, fun y hy => ⟨fun e => ?_, fun e => ?_, ?_⟩⟩
  · have hyS : y ∈ (Shape.node (.node ll b kb vb lr) a k v r).addrs := by
      rcases hy with e | e | e
      · exact Shape.mem_addrs_node.mpr (Or.inl (Shape.mem_addrs_node.mpr (Or.inl (mll y e))))
      · exact Shape.mem_addrs_node.mpr (Or.inl
          (Shape.mem_addrs_node.mpr (Or.inr (Or.inr (mlr y e)))))
      · exact Shape.mem_addrs_node.mpr (Or.inr (Or.inr (mr y e)))
    refine ⟨hyS, ?_, ?_, hS.lt_length y hyS⟩
    · rintro rfl
      rcases hy with e | e | e
      · exact hal (Shape.mem_addrs_node.mpr (Or.inl (mll _ e)))
      · exact hal (Shape.mem_addrs_node.mpr (Or.inr (Or.inr (mlr _ e))))
      · exact har (mr _ e)
    · rintro rfl
      rcases hy with e | e | e
      · exact hbll (mll _ e)
      · exact hblr (mlr _ e)
      · exact hdisj _ hbl (mr _ e)
  · exact hdl y (mll y e) (mlr y hy)
  · exact hdisj y (Shape.mem_addrs_node.mpr (Or.inr (Or.inr (mlr y hy)))) (mr y e)
  · cases lr with
    | nil =>
      have : nb.rc = none := hlr
      rw [this] at hy
      cases hy
    | node l1 c1 k1 v1 r1 =>
      have e : y = c1 := Option.some.inj (hy.symm.trans hlr.1)
      subst e
      obtain ⟨⟨nc, hnc, hcp⟩, -⟩ := hplr
      exact ⟨nc, hnc, hcp⟩

/-- The two nodes of a left rotation in a well-formed tree, and the roots of the three
subtrees below them: all allocated, all different. -/
theorem rotL_facts {h : Heap K V} {q : Option Nat} {l rl rr : Shape K V} {a b : Nat}
    {k kb : K} {v vb : V} {par : Option Nat}
    (ho : Owns h q (.node l a k v (.node rl b kb vb rr)))
    (hnd : (Shape.node l a k v (.node rl b kb vb rr)).addrs.Nodup)
    (hpar : Parented h par (.node l a k v (.node rl b kb vb rr))) :
    ∃ n nb, h[a]? = some n ∧ h[b]? = some nb ∧ n.rc = some b ∧ nb.parent = some a ∧ a ≠ b ∧
      (∀ y, nb.lc = some y ∨ nb.rc = some y ∨ n.lc = some y →
        y ∈ (Shape.node l a k v (.node rl b kb vb rr)).addrs ∧ y ≠ a ∧ y ≠ b ∧
          y < h.length) ∧
      (∀ y, nb.lc = some y → nb.rc ≠ some y ∧ n.lc ≠ some y ∧
        ∃ nc, h[y]? = some nc ∧ nc.parent = some b) := by
  have hS := ho
  obtain ⟨-, n, hn, -, -, hl, hr⟩ := ho
  have hrc : n.rc = some b := hr.1
  obtain ⟨-, nb, hnb, -, -, hrl, hrr⟩ := hr
  obtain ⟨-, -, ⟨⟨nb1, hnb1, hbp⟩, hprl, -⟩⟩ := hpar
  rw [hnb] at hnb1
  cases hnb1
  obtain ⟨-, hrnd, hal, har, hdisj⟩ := Shape.nodup_node hnd
  obtain ⟨-, -, hbrl, hbrr, hdr⟩ := Shape.nodup_node hrnd
  have hbr : b ∈ (Shape.node rl b kb vb rr).addrs :=
    Shape.mem_addrs_node.mpr (Or.inr (Or.inl rfl))
  have hab : a ≠ b := fun e => har (e ▸ hbr)
  have mrl : ∀ y, nb.lc = some y → y ∈ rl.addrs :=
    fun y e => Shape.root_mem rl y (by rw [← hrl.root_eq]; exact e)
  have mrr : ∀ y, nb.rc = some y → y ∈ rr.addrs :=
    fun y e => Shape.root_mem rr y (by rw [← hrr.root_eq]; exact e)
  have ml : ∀ y, n.lc = some y → y ∈ l.addrs :=
    fun y e => Shape.root_mem l y (by rw [← hl.root_eq]; exact e)
  refine ⟨n, nb, hn, hnb, hrc, hbp, hab, fun y hy => ?_, fun y hy => ⟨fun e => ?_, fun e => ?_, ?_⟩⟩
  · have hyS : y ∈ (Shape.node l a k v (.node rl b kb vb rr)).addrs := by
      rcases hy with e | e | e
      · exact Shape.mem_addrs_node.mpr (Or.inr (Or.inr
          (Shape.mem_addrs_node.mpr (Or.inl (mrl y e)))))
      · exact Shape.mem_addrs_node.mpr (Or.inr (Or.inr
          (Shape.mem_addrs_node.mpr (Or.inr (Or.inr (mrr y e))))))
      · exact Shape.mem_addrs_node.mpr (Or.inl (ml y e))
    refine ⟨hyS, ?_, ?_, hS.lt_length y hyS⟩
    · rintro rfl
      rcases hy with e | e | e
      · exact har (Shape.mem_addrs_node.mpr (Or.inl (mrl _ e)))
      · exact har (Shape.mem_addrs_node.mpr (Or.inr (Or.inr (mrr _ e))))
      · exact hal (ml _ e)
    · rintro rfl
      rcases hy with e | e | e
      · exact hbrl (mrl _ e)
      · exact hbrr (mrr _ e)
      · exact hdisj _ (ml _ e) hbr
  · exact hdr y (mrl y hy) (mrr y e)
  · exact hdisj y (ml y e) (Shape.mem_addrs_node.mpr (Or.inl (mrl y hy)))
  · cases rl with
    | nil =>
      have : nb.lc = none := hrl
      rw [this] at hy
      cases hy
    | node l1 c1 k1 v1 r1 =>
      have e : y = c1 := Option.some.inj (hy.symm.trans hrl.1)
      subst e
      obtain ⟨⟨nc, hnc, hcp⟩, -⟩ := hprl
      exact ⟨nc, hnc, hcp⟩

/-! # A rotation followed by the opposite rotation -/

theorem length_rotHeapR (h : Heap K V) (a b : Nat) (n nb : BinNode K V) :
    (rotHeapR h a b n nb).length = h.length := by
  simp only [rotHeapR, length_heightUpdated, length_update, length_reparent,
    length_relinkParent]

theorem length_rotHeapL (h : Heap K V) (a b : Nat) (n nb : BinNode K V) :
    (rotHeapL h a b n nb).length = h.length := by
  simp only [rotHeapL, length_heightUpdated, length_update, length_reparent,
    length_relinkParent]

theorem heightOf_get {h : Heap K V} {y : Nat} {m : BinNode K V} (hm : h[y]? = some m) :
    heightOf h (some y) = m.height := by
  simp [heightOf, hm]

/-- On heaps: `rightRotate` at `a` and then `leftRotate` at the promoted child `b` give
back the heap, when the heights of `a` and `b` were right. -/
theorem rotate_right_left_heap {h : Heap K V} {a b : Nat} {n nb : BinNode K V}
    (hn : h[a]? = some n) (hnb : h[b]? = some nb) (hlc : n.lc = some b)
    (hbp : nb.parent = some a) (hab : a ≠ b)
    (hpa : ∀ pa, n.parent = some pa → pa ≠ a ∧ pa ≠ b ∧ pa < h.length ∧ nb.rc ≠ some pa ∧
      ∃ npa, h[pa]? = some npa ∧ npa.lc ≠ some b ∧ (npa.lc = some a ∨ npa.rc = some a))
    (hch : ∀ y, nb.lc = some y ∨ nb.rc = some y ∨ n.rc = some y →
      y ≠ a ∧ y ≠ b ∧ y < h.length)
    (hc : ∀ y, nb.rc = some y → ∃ nc, h[y]? = some nc ∧ nc.parent = some b)
    (hha : n.height = newHeight n.color (heightOf h n.lc) (heightOf h n.rc))
    (hhb : nb.height = newHeight nb.color (heightOf h nb.lc) (heightOf h nb.rc)) :
    rightRotate h (some a) = .ok (rotHeapR h a b n nb, some b) ∧
    leftRotate (rotHeapR h a b n nb) (some b) = .ok (h, some a) := by
  have hpa_a : n.parent ≠ some a := fun e => (hpa a e).1 rfl
  have hpa_b : n.parent ≠ some b := fun e => (hpa b e).2.1 rfl
  have hlc_a : nb.lc ≠ some a := fun e => (hch a (Or.inl e)).1 rfl
  have hlc_b : nb.lc ≠ some b := fun e => (hch b (Or.inl e)).2.1 rfl
  have hrc_a : nb.rc ≠ some a := fun e => (hch a (Or.inr (Or.inl e))).1 rfl
  have hrc_b : nb.rc ≠ some b := fun e => (hch b (Or.inr (Or.inl e))).2.1 rfl
  have hnr_a : n.rc ≠ some a := fun e => (hch a (Or.inr (Or.inr e))).1 rfl
  have hnr_b : n.rc ≠ some b := fun e => (hch b (Or.inr (Or.inr e))).2.1 rfl
  have hexec := rightRotate_exec hn hlc hnb hab
    (fun pa e => ⟨(hpa pa e).1, (hpa pa e).2.1, (hpa pa e).2.2.1⟩)
    (fun c e => hch c (Or.inr (Or.inl e)))
    (fun d e => (hch d (Or.inr (Or.inr e))).2.2)
    (fun e e1 => (hch e (Or.inl e1)).2.2)
  have g1a := rotHeapR_get_a hn hab hpa_a hrc_a
  have g1b := rotHeapR_get_b hn hnb hab hpa_a hpa_b hrc_a hrc_b hlc_a
  have hlen := length_rotHeapR h a b n nb
  refine ⟨hexec, ?_⟩
  obtain ⟨n1, hn1⟩ : ∃ n1 : BinNode K V, n1 = { n with
      parent := some b, lc := nb.rc,
      height := newHeight n.color (heightOf h nb.rc) (heightOf h n.rc) } := ⟨_, rfl⟩
  obtain ⟨nb1, hnb1⟩ : ∃ nb1 : BinNode K V, nb1 = { nb with
      parent := n.parent, rc := some a,
      height := newHeight nb.color (heightOf h nb.lc)
        (newHeight n.color (heightOf h nb.rc) (heightOf h n.rc)) } := ⟨_, rfl⟩
  rw [← hn1] at g1a
  rw [← hnb1] at g1b
  have e1 : nb1.rc = some a := by rw [hnb1]
  have e2 : nb1.parent = n.parent := by rw [hnb1]
  have e3 : nb1.lc = nb.lc := by rw [hnb1]
  have e4 : n1.lc = nb.rc := by rw [hn1]
  have e5 : n1.rc = n.rc := by rw [hn1]
  have hexec2 := leftRotate_exec g1b e1 g1a (Ne.symm hab)
    (fun pa e => by
      rw [e2] at e
      exact ⟨(hpa pa e).2.1, (hpa pa e).1, by rw [hlen]; exact (hpa pa e).2.2.1⟩)
    (fun c e => by
      rw [e4] at e
      exact ⟨(hch c (Or.inr (Or.inl e))).2.1, (hch c (Or.inr (Or.inl e))).1,
        by rw [hlen]; exact (hch c (Or.inr (Or.inl e))).2.2⟩)
    (fun d e => by rw [e3] at e; rw [hlen]; exact (hch d (Or.inl e)).2.2)
    (fun e e0 => by rw [e5] at e0; rw [hlen]; exact (hch e (Or.inr (Or.inr e0))).2.2)
  rw [hexec2]
  congr 2
  apply List.ext_getElem?
  intro y
  have hb0 : heightOf h (some b) = nb.height := heightOf_get hnb
  have k1 : nb1.parent ≠ some b := by rw [e2]; exact hpa_b
  have k2 : nb1.parent ≠ some a := by rw [e2]; exact hpa_a
  have k3 : n1.lc ≠ some b := by rw [e4]; exact hrc_b
  have k4 : n1.lc ≠ some a := by rw [e4]; exact hrc_a
  have k5 : n1.rc ≠ some b := by rw [e5]; exact hnr_b
  by_cases hya : y = a
  · subst hya
    rw [rotHeapL_get_b g1b g1a (Ne.symm hab) k1 k2 k3 k4 k5, hn, hn1, hnb1]
    simp only [heightOf_rotHeapR_other h _ b n nb _ hlc_a hlc_b,
      heightOf_rotHeapR_other h _ b n nb _ hrc_a hrc_b,
      heightOf_rotHeapR_other h _ b n nb _ hnr_a hnr_b, ← hhb]
    rw [← hb0, ← hlc, ← hha]
  · by_cases hyb : y = b
    · subst hyb
      rw [rotHeapL_get_a g1b (Ne.symm hab) k1 k3, hnb, hn1, hnb1]
      simp only [heightOf_rotHeapR_other h a _ n nb _ hlc_a hlc_b,
        heightOf_rotHeapR_other h a _ n nb _ hrc_a hrc_b, ← hhb, ← hbp]
    · by_cases hyp : n.parent = some y
      · obtain ⟨-, -, -, hcp, npa, hnpa, hnpab, hnpaa⟩ := hpa y hyp
        have g1p := rotHeapR_get_parent hyp hnpa hya hyb hcp
        rw [rotHeapL_get_parent (e2.trans hyp) g1p hyb hya (by rw [e4]; exact hcp), hnpa]
        by_cases hl : npa.lc = some a
        · simp only [hl, if_true]
          rw [← hl]
        · have hr : npa.rc = some a := hnpaa.resolve_left hl
          simp only [hl, if_false, hnpab]
          rw [← hr]
      · by_cases hyc : nb.rc = some y
        · obtain ⟨nc, hnc, hncp⟩ := hc y hyc
          have g1c := rotHeapR_get_c hyc hnc hya hyb hyp
          rw [rotHeapL_get_c (e4.trans hyc) g1c hyb hya (by rw [e2]; exact hyp), hnc, ← hncp]
        · rw [rotHeapL_get_other _ _ _ hyb hya (by rw [e2]; exact hyp)
            (by rw [e4]; exact hyc), rotHeapR_get_other _ _ _ hya hyb hyp hyc]

/-- On heaps: `leftRotate` at `a` and then `rightRotate` at the promoted child `b` give
back the heap, when the heights of `a` and `b` were right. -/
theorem rotate_left_right_heap {h : Heap K V} {a b : Nat} {n nb : BinNode K V}
    (hn : h[a]? = some n) (hnb : h[b]? = some nb) (hrc : n.rc = some b)
    (hbp : nb.parent = some a) (hab : a ≠ b)
    (hpa : ∀ pa, n.parent = some pa → pa ≠ a ∧ pa ≠ b ∧ pa < h.length ∧ nb.lc ≠ some pa ∧
      ∃ npa, h[pa]? = some npa ∧ npa.lc ≠ some b ∧ (npa.lc = some a ∨ npa.rc = some a))
    (hch : ∀ y, nb.lc = some y ∨ nb.rc = some y ∨ n.lc = some y →
      y ≠ a ∧ y ≠ b ∧ y < h.length)
    (hc : ∀ y, nb.lc = some y → ∃ nc, h[y]? = some nc ∧ nc.parent = some b)
    (hha : n.height = newHeight n.color (heightOf h n.lc) (heightOf h n.rc))
    (hhb : nb.height = newHeight nb.color (heightOf h nb.lc) (heightOf h nb.rc)) :
    leftRotate h (some a) = .ok (rotHeapL h a b n nb, some b) ∧
    rightRotate (rotHeapL h a b n nb) (some b) = .ok (h, some a) := by
  have hpa_a : n.parent ≠ some a := fun e => (hpa a e).1 rfl
  have hpa_b : n.parent ≠ some b := fun e => (hpa b e).2.1 rfl
  have hlc_a : nb.lc ≠ some a := fun e => (hch a (Or.inl e)).1 rfl
  have hlc_b : nb.lc ≠ some b := fun e => (hch b (Or.inl e)).2.1 rfl
  have hrc_a : nb.rc ≠ some a := fun e => (hch a (Or.inr (Or.inl e))).1 rfl
  have hrc_b : nb.rc ≠ some b := fun e => (hch b (Or.inr (Or.inl e))).2.1 rfl
  have hnl_a : n.lc ≠ some a := fun e => (hch a (Or.inr (Or.inr e))).1 rfl
  have hnl_b : n.lc ≠ some b := fun e => (hch b (Or.inr (Or.inr e))).2.1 rfl
  have hexec := leftRotate_exec hn hrc hnb hab
    (fun pa e => ⟨(hpa pa e).1, (hpa pa e).2.1, (hpa pa e).2.2.1⟩)
    (fun c e => hch c (Or.inl e))
    (fun d e => (hch d (Or.inr (Or.inr e))).2.2)
    (fun e e1 => (hch e (Or.inr (Or.inl e1))).2.2)
  have g1a := rotHeapL_get_a hn hab hpa_a hlc_a
  have g1b := rotHeapL_get_b hn hnb hab hpa_a hpa_b hlc_a hlc_b hrc_a
  have hlen := length_rotHeapL h a b n nb
  refine ⟨hexec, ?_⟩
  obtain ⟨n1, hn1⟩ : ∃ n1 : BinNode K V, n1 = { n with
      parent := some b, rc := nb.lc,
      height := newHeight n.color (heightOf h n.lc) (heightOf h nb.lc) } := ⟨_, rfl⟩
  obtain ⟨nb1, hnb1⟩ : ∃ nb1 : BinNode K V, nb1 = { nb with
      parent := n.parent, lc := some a,
      height := newHeight nb.color
        (newHeight n.color (heightOf h n.lc) (heightOf h nb.lc)) (heightOf h nb.rc) } :=
    ⟨_, rfl⟩
  rw [← hn1] at g1a
  rw [← hnb1] at g1b
  have e1 : nb1.lc = some a := by rw [hnb1]
  have e2 : nb1.parent = n.parent := by rw [hnb1]
  have e3 : nb1.rc = nb.rc := by rw [hnb1]
  have e4 : n1.rc = nb.lc := by rw [hn1]
  have e5 : n1.lc = n.lc := by rw [hn1]
  have hexec2 := rightRotate_exec g1b e1 g1a (Ne.symm hab)
    (fun pa e => by
      rw [e2] at e
      exact ⟨(hpa pa e).2.1, (hpa pa e).1, by rw [hlen]; exact (hpa pa e).2.2.1⟩)
    (fun c e => by
      rw [e4] at e
      exact ⟨(hch c (Or.inl e)).2.1, (hch c (Or.inl e)).1,
        by rw [hlen]; exact (hch c (Or.inl e)).2.2⟩)
    (fun d e => by rw [e3] at e; rw [hlen]; exact (hch d (Or.inr (Or.inl e))).2.2)
    (fun e e0 => by rw [e5] at e0; rw [hlen]; exact (hch e (Or.inr (Or.inr e0))).2.2)
  rw [hexec2]
  congr 2
  apply List.ext_getElem?
  intro y
  have hb0 : heightOf h (some b) = nb.height := heightOf_get hnb
  have k1 : nb1.parent ≠ some b := by rw [e2]; exact hpa_b
  have k2 : nb1.parent ≠ some a := by rw [e2]; exact hpa_a
  have k3 : n1.rc ≠ some b := by rw [e4]; exact hlc_b
  have k4 : n1.rc ≠ some a := by rw [e4]; exact hlc_a
  have k5 : n1.lc ≠ some b := by rw [e5]; exact hnl_b
  by_cases hya : y = a
  · subst hya
    rw [rotHeapR_get_b g1b g1a (Ne.symm hab) k1 k2 k3 k4 k5, hn, hn1, hnb1]
    simp only [heightOf_rotHeapL_other h _ b n nb _ hlc_a hlc_b,
      heightOf_rotHeapL_other h _ b n nb _ hrc_a hrc_b,
      heightOf_rotHeapL_other h _ b n nb _ hnl_a hnl_b, ← hhb]
    rw [← hb0, ← hrc, ← hha]
  · by_cases hyb : y = b
    · subst hyb
      rw [rotHeapR_get_a g1b (Ne.symm hab) k1 k3, hnb, hn1, hnb1]
      simp only [heightOf_rotHeapL_other h a _ n nb _ hlc_a hlc_b,
        heightOf_rotHeapL_other h a _ n nb _ hrc_a hrc_b, ← hhb, ← hbp]
    · by_cases hyp : n.parent = some y
      · obtain ⟨-, -, -, hcp, npa, hnpa, hnpab, hnpaa⟩ := hpa y hyp
        have g1p := rotHeapL_get_parent hyp hnpa hya hyb hcp
        rw [rotHeapR_get_parent (e2.trans hyp) g1p hyb hya (by rw [e4]; exact hcp), hnpa]
        by_cases hl : npa.lc = some a
        · simp only [hl, if_true]
          rw [← hl]
        · have hr : npa.rc = some a := hnpaa.resolve_left hl
          simp only [hl, if_false, hnpab]
          rw [← hr]
      · by_cases hyc : nb.lc = some y
        · obtain ⟨nc, hnc, hncp⟩ := hc y hyc
          have g1c := rotHeapL_get_c hyc hnc hya hyb hyp
          rw [rotHeapR_get_c (e4.trans hyc) g1c hyb hya (by rw [e2]; exact hyp), hnc, ← hncp]
        · rw [rotHeapR_get_other _ _ _ hyb hya (by rw [e2]; exact hyp)
            (by rw [e4]; exact hyc), rotHeapL_get_other _ _ _ hya hyb hyp hyc]

/-! # What a rotation does to the records -/

/-- The heap `rotHeapR` is the heap `RightRotated` describes. -/
theorem rightRotated_heap {h : Heap K V} {a b : Nat} {n nb : BinNode K V}
    (hn : h[a]? = some n) (hnb : h[b]? = some nb) (hab : a ≠ b)
    (hpa : ∀ pa, n.parent = some pa → pa ≠ a ∧ pa ≠ b ∧ nb.rc ≠ some pa)
    (hch : ∀ y, nb.lc = some y ∨ nb.rc = some y ∨ n.rc = some y → y ≠ a ∧ y ≠ b) :
    RightRotated h (rotHeapR h a b n nb) a b n nb := by
  have hpa_a : n.parent ≠ some a := fun e => (hpa a e).1 rfl
  have hpa_b : n.parent ≠ some b := fun e => (hpa b e).2.1 rfl
  have hlc_a : nb.lc ≠ some a := fun e => (hch a (Or.inl e)).1 rfl
  have hlc_b : nb.lc ≠ some b := fun e => (hch b (Or.inl e)).2 rfl
  have hrc_a : nb.rc ≠ some a := fun e => (hch a (Or.inr (Or.inl e))).1 rfl
  have hrc_b : nb.rc ≠ some b := fun e => (hch b (Or.inr (Or.inl e))).2 rfl
  have hnr_a : n.rc ≠ some a := fun e => (hch a (Or.inr (Or.inr e))).1 rfl
  have hnr_b : n.rc ≠ some b := fun e => (hch b (Or.inr (Or.inr e))).2 rfl
  have g1a := rotHeapR_get_a hn hab hpa_a hrc_a
  have g1b := rotHeapR_get_b hn hnb hab hpa_a hpa_b hrc_a hrc_b hlc_a
  refine ⟨?_, ?_, ?_, ?_, ?_⟩
  · rw [g1b, heightOf_rotHeapR_other h a b n nb _ hlc_a hlc_b, heightOf_get g1a]
  · rw [g1a, heightOf_rotHeapR_other h a b n nb _ hrc_a hrc_b,
      heightOf_rotHeapR_other h a b n nb _ hnr_a hnr_b]
  · intro pa npa hp hnpa
    exact rotHeapR_get_parent hp hnpa (hpa pa hp).1 (hpa pa hp).2.1 (hpa pa hp).2.2
  · intro c nc hc hnc
    exact rotHeapR_get_c hc hnc (hch c (Or.inr (Or.inl hc))).1 (hch c (Or.inr (Or.inl hc))).2
      (fun e => (hpa c e).2.2 hc)
  · intro y hya hyb hyp hyc
    exact rotHeapR_get_other h n nb hya hyb hyp hyc

/-- The heap `rotHeapL` is the heap `LeftRotated` describes. -/
theorem leftRotated_heap {h : Heap K V} {a b : Nat} {n nb : BinNode K V}
    (hn : h[a]? = some n) (hnb : h[b]? = some nb) (hab : a ≠ b)
    (hpa : ∀ pa, n.parent = some pa → pa ≠ a ∧ pa ≠ b ∧ nb.lc ≠ some pa)
    (hch : ∀ y, nb.lc = some y ∨ nb.rc = some y ∨ n.lc = some y → y ≠ a ∧ y ≠ b) :
    LeftRotated h (rotHeapL h a b n nb) a b n nb := by
  have hpa_a : n.parent ≠ some a := fun e => (hpa a e).1 rfl
  have hpa_b : n.parent ≠ some b := fun e => (hpa b e).2.1 rfl
  have hlc_a : nb.lc ≠ some a := fun e => (hch a (Or.inl e)).1 rfl
  have hlc_b : nb.lc ≠ some b := fun e => (hch b (Or.inl e)).2 rfl
  have hrc_a : nb.rc ≠ some a := fun e => (hch a (Or.inr (Or.inl e))).1 rfl
  have hrc_b : nb.rc ≠ some b := fun e => (hch b (Or.inr (Or.inl e))).2 rfl
  have hnl_a : n.lc ≠ some a := fun e => (hch a (Or.inr (Or.inr e))).1 rfl
  have hnl_b : n.lc ≠ some b := fun e => (hch b (Or.inr (Or.inr e))).2 rfl
  have g1a := rotHeapL_get_a hn hab hpa_a hlc_a
  have g1b := rotHeapL_get_b hn hnb hab hpa_a hpa_b hlc_a hlc_b hrc_a
  refine ⟨?_, ?_, ?_, ?_, ?_⟩
  · rw [g1b, heightOf_rotHeapL_other h a b n nb _ hrc_a hrc_b, heightOf_get g1a]
  · rw [g1a, heightOf_rotHeapL_other h a b n nb _ hlc_a hlc_b,
      heightOf_rotHeapL_other h a b n nb _ hnl_a hnl_b]
  · intro pa npa hp hnpa
    exact rotHeapL_get_parent hp hnpa (hpa pa hp).1 (hpa pa hp).2.1 (hpa pa hp).2.2
  · intro c nc hc hnc
    exact rotHeapL_get_c hc hnc (hch c (Or.inl hc)).1 (hch c (Or.inl hc)).2
      (fun e => (hpa c e).2.2 hc)
  · intro y hya hyb hyp hyc
    exact rotHeapL_get_other h n nb hya hyb hyp hyc

/-- A node with a left child in a well-formed tree: everything `rightRotate` needs. -/
theorem rotR_ready {h : Heap K V} {p : Option Nat} {T : Shape K V} (ho : Owns h p T)
    (hnd : T.addrs.Nodup) (hpar : Parented h none T) {a b : Nat} {n : BinNode K V}
    (ha : a ∈ T.addrs) (hn : h[a]? = some n) (hlc : n.lc = some b) :
    ∃ nb, h[b]? = some nb ∧ nb.parent = some a ∧ a ≠ b ∧
      (p = some a → n.parent = none) ∧
      (∀ pa, n.parent = some pa → pa ≠ a ∧ pa ≠ b ∧ pa < h.length ∧ nb.rc ≠ some pa ∧
        ∃ npa, h[pa]? = some npa ∧ npa.lc ≠ some b ∧ npa.rc ≠ some b ∧
          ((npa.lc = some a ∧ npa.rc ≠ some a) ∨ (npa.lc ≠ some a ∧ npa.rc = some a))) ∧
      (∀ y, nb.lc = some y ∨ nb.rc = some y ∨ n.rc = some y →
        y ≠ a ∧ y ≠ b ∧ y < h.length ∧ n.parent ≠ some y) ∧
      (∀ y, nb.rc = some y → nb.lc ≠ some y ∧ n.rc ≠ some y ∧
        ∃ nc, h[y]? = some nc ∧ nc.parent = some b) := by
  obtain ⟨c, l, k, v, r, rfl⟩ := Shape.split_at T a ha
  obtain ⟨q, hq⟩ := Owns.of_fill c _ p ho
  have hq1 := hq
  obtain ⟨-, n1, hn1, -, -, hl, -⟩ := hq1
  rw [hn] at hn1
  cases hn1
  cases l with
  | nil =>
    have : n.lc = none := hl
    rw [this] at hlc
    cases hlc
  | node ll b1 kb vb lr =>
    have hb : b1 = b := Option.some.inj (hl.1.symm.trans hlc)
    subst hb
    obtain ⟨hSnd, -, -⟩ := Ctx.nodup_fill hnd
    obtain ⟨n2, nb, hn2, hnb, -, hbp, hab, hch, hc⟩ :=
      rotR_facts hq hSnd (Parented.of_fill_par c _ none hpar)
    rw [hn] at hn2
    cases hn2
    obtain ⟨-, hroot, hpf⟩ := parent_facts (S := .node (.node ll b1 kb vb lr) a k v r) rfl
      ho hnd hpar hn
    have haS : a ∈ (Shape.node (.node ll b1 kb vb lr) a k v r).addrs :=
      Shape.mem_addrs_node.mpr (Or.inr (Or.inl rfl))
    have hbS : b1 ∈ (Shape.node (.node ll b1 kb vb lr) a k v r).addrs :=
      Shape.mem_addrs_node.mpr (Or.inl (Shape.mem_addrs_node.mpr (Or.inr (Or.inl rfl))))
    refine ⟨nb, hnb, hbp, hab, hroot, fun pa hp => ?_, fun y hy => ⟨(hch y hy).2.1,
      (hch y hy).2.2.1, (hch y hy).2.2.2, fun e => (hpf y e).1 (hch y hy).1⟩, hc⟩
    obtain ⟨hpaS, hlt, npa, hnpa, hx, hin⟩ := hpf pa hp
    exact ⟨fun e => hpaS (e ▸ haS), fun e => hpaS (e ▸ hbS), hlt,
      fun e => hpaS (hch pa (Or.inr (Or.inl e))).1, npa, hnpa,
      (hin b1 hbS (Ne.symm hab)).1, (hin b1 hbS (Ne.symm hab)).2, hx⟩

/-- A node with a right child in a well-formed tree: everything `leftRotate` needs. -/
theorem rotL_ready {h : Heap K V} {p : Option Nat} {T : Shape K V} (ho : Owns h p T)
    (hnd : T.addrs.Nodup) (hpar : Parented h none T) {a b : Nat} {n : BinNode K V}
    (ha : a ∈ T.addrs) (hn : h[a]? = some n) (hrc : n.rc = some b) :
    ∃ nb, h[b]? = some nb ∧ nb.parent = some a ∧ a ≠ b ∧
      (p = some a → n.parent = none) ∧
      (∀ pa, n.parent = some pa → pa ≠ a ∧ pa ≠ b ∧ pa < h.length ∧ nb.lc ≠ some pa ∧
        ∃ npa, h[pa]? = some npa ∧ npa.lc ≠ some b ∧ npa.rc ≠ some b ∧
          ((npa.lc = some a ∧ npa.rc ≠ some a) ∨ (npa.lc ≠ some a ∧ npa.rc = some a))) ∧
      (∀ y, nb.lc = some y ∨ nb.rc = some y ∨ n.lc = some y →
        y ≠ a ∧ y ≠ b ∧ y < h.length ∧ n.parent ≠ some y) ∧
      (∀ y, nb.lc = some y → nb.rc ≠ some y ∧ n.lc ≠ some y ∧
        ∃ nc, h[y]? = some nc ∧ nc.parent = some b) := by
  obtain ⟨c, l, k, v, r, rfl⟩ := Shape.split_at T a ha
  obtain ⟨q, hq⟩ := Owns.of_fill c _ p ho
  have hq1 := hq
  obtain ⟨-, n1, hn1, -, -, -, hr⟩ := hq1
  rw [hn] at hn1
  cases hn1
  cases r with
  | nil =>
    have : n.rc = none := hr
    rw [this] at hrc
    cases hrc
  | node rl b1 kb vb rr =>
    have hb : b1 = b := Option.some.inj (hr.1.symm.trans hrc)
    subst hb
    obtain ⟨hSnd, -, -⟩ := Ctx.nodup_fill hnd
    obtain ⟨n2, nb, hn2, hnb, -, hbp, hab, hch, hc⟩ :=
      rotL_facts hq hSnd (Parented.of_fill_par c _ none hpar)
    rw [hn] at hn2
    cases hn2
    obtain ⟨-, hroot, hpf⟩ := parent_facts (S := .node l a k v (.node rl b1 kb vb rr)) rfl
      ho hnd hpar hn
    have haS : a ∈ (Shape.node l a k v (.node rl b1 kb vb rr)).addrs :=
      Shape.mem_addrs_node.mpr (Or.inr (Or.inl rfl))
    have hbS : b1 ∈ (Shape.node l a k v (.node rl b1 kb vb rr)).addrs :=
      Shape.mem_addrs_node.mpr (Or.inr (Or.inr
        (Shape.mem_addrs_node.mpr (Or.inr (Or.inl rfl)))))
    refine ⟨nb, hnb, hbp, hab, hroot, fun pa hp => ?_, fun y hy => ⟨(hch y hy).2.1,
      (hch y hy).2.2.1, (hch y hy).2.2.2, fun e => (hpf y e).1 (hch y hy).1⟩, hc⟩
    obtain ⟨hpaS, hlt, npa, hnpa, hx, hin⟩ := hpf pa hp
    exact ⟨fun e => hpaS (e ▸ haS), fun e => hpaS (e ▸ hbS), hlt,
      fun e => hpaS (hch pa (Or.inl e)).1, npa, hnpa,
      (hin b1 hbS (Ne.symm hab)).1, (hin b1 hbS (Ne.symm hab)).2, hx⟩

/-! # `connect34` -/

theorem length_attachStage (h : Heap K V) (x : Nat) (t0 t1 : Option Nat) :
    (attachStage h x t0 t1).length = h.length := by
  simp only [attachStage, length_heightUpdated, length_update, length_reparent]

/-- Running the statements of `connect34` that attach two subtrees to a node. -/
theorem attachStage_exec {h : Heap K V} {x : Nat} {m : BinNode K V} {t0 t1 : Option Nat}
    (hm : h[x]? = some m) (h0 : t0 ≠ some x) (h1 : t1 ≠ some x)
    (l0 : ∀ y, t0 = some y → y < h.length) (l1 : ∀ y, t1 = some y → y < h.length) :
    attachLc h (some x) t0
      = .ok (reparent (update h x (fun m => { m with lc := t0 })) t0 (some x)) ∧
    attachRc (reparent (update h x (fun m => { m with lc := t0 })) t0 (some x)) (some x) t1
      = .ok (reparent (update (reparent (update h x (fun m => { m with lc := t0 })) t0 (some x))
          x (fun m => { m with rc := t1 })) t1 (some x)) ∧
    updateHeight (reparent (update (reparent (update h x (fun m => { m with lc := t0 }))
        t0 (some x)) x (fun m => { m with rc := t1 })) t1 (some x)) (some x)
      = .ok (attachStage h x t0 t1) := by
  have g1 : (update h x (fun m => { m with lc := t0 }))[x]? = some { m with lc := t0 } :=
    get_update_self hm _
  have g2 : (reparent (update h x (fun m => { m with lc := t0 })) t0 (some x))[x]?
      = some { m with lc := t0 } := by
    rw [get_reparent, if_neg h0, g1]
  have g3 : (update (reparent (update h x (fun m => { m with lc := t0 })) t0 (some x))
      x (fun m => { m with rc := t1 }))[x]? = some { m with lc := t0, rc := t1 } :=
    get_update_self g2 _
  have g4 : (reparent (update (reparent (update h x (fun m => { m with lc := t0 })) t0 (some x))
      x (fun m => { m with rc := t1 })) t1 (some x))[x]?
      = some { m with lc := t0, rc := t1 } := by
    rw [get_reparent, if_neg h1, g3]
  refine ⟨?_, ?_, ?_⟩
  · rw [attachLc, store_eq_update hm]
    dsimp only
    rw [deref_of_get g1]
    dsimp only
    exact adopt_exec _ (fun y hy => by rw [length_update]; exact l0 y hy)
  · rw [attachRc, store_eq_update g2]
    dsimp only
    rw [deref_of_get g3]
    dsimp only
    exact adopt_exec _ (fun y hy => by
      rw [length_update, length_reparent, length_update]; exact l1 y hy)
  · rw [updateHeight_eq g4
      (fun y hy => by
        rw [length_reparent, length_update, length_reparent, length_update]; exact l0 y hy)
      (fun y hy => by
        rw [length_reparent, length_update, length_reparent, length_update]; exact l1 y hy)]
    rfl

/-- Heights just before the call of `updateHeight` in an attaching stage. -/
theorem heightOf_attach_links (h : Heap K V) (x : Nat) (t0 t1 q : Option Nat) :
    heightOf (reparent (update (reparent (update h x (fun m => { m with lc := t0 }))
      t0 (some x)) x (fun m => { m with rc := t1 })) t1 (some x)) q = heightOf h q := by
  have e1 := heightOf_update h x (fun m => { m with lc := t0 }) (fun _ => rfl) q
  have e2 := heightOf_reparent (update h x (fun m => { m with lc := t0 })) t0 (some x) q
  have e3 := heightOf_update (reparent (update h x (fun m => { m with lc := t0 })) t0 (some x))
    x (fun m => { m with rc := t1 }) (fun _ => rfl) q
  have e4 := heightOf_reparent (update (reparent (update h x (fun m => { m with lc := t0 }))
    t0 (some x)) x (fun m => { m with rc := t1 })) t1 (some x) q
  rw [e4, e3, e2, e1]

/-- The record of the node after an attaching stage. -/
theorem attachStage_get_self {h : Heap K V} {x : Nat} {m : BinNode K V} {t0 t1 : Option Nat}
    (hm : h[x]? = some m) (h0 : t0 ≠ some x) (h1 : t1 ≠ some x) :
    (attachStage h x t0 t1)[x]? = some { m with
      lc := t0, rc := t1,
      height := newHeight m.color (heightOf h t0) (heightOf h t1) } := by
  have g1 : (update h x (fun m => { m with lc := t0 }))[x]? = some { m with lc := t0 } :=
    get_update_self hm _
  have g2 : (reparent (update h x (fun m => { m with lc := t0 })) t0 (some x))[x]?
      = some { m with lc := t0 } := by
    rw [get_reparent, if_neg h0, g1]
  rw [attachStage, get_heightUpdated, if_pos rfl, get_reparent, if_neg h1,
    get_update_self g2]
  simp only [Option.map_some', heightOf_attach_links]

/-- The other records after an attaching stage: the roots of the attached subtrees get the
node as parent. -/
theorem attachStage_get_other (h : Heap K V) {x y : Nat} (t0 t1 : Option Nat) (hyx : y ≠ x) :
    (attachStage h x t0 t1)[y]? = if t0 = some y ∨ t1 = some y
      then (h[y]?).map (fun m => { m with parent := some x }) else h[y]? := by
  rw [attachStage, get_heightUpdated, if_neg (Ne.symm hyx), get_reparent,
    get_update_other _ (Ne.symm hyx), get_reparent, get_update_other _ (Ne.symm hyx)]
  by_cases e1 : t1 = some y
  · rw [if_pos e1, if_pos (Or.inr e1)]
    by_cases e0 : t0 = some y
    · rw [if_pos e0]
      cases h[y]? <;> rfl
    · rw [if_neg e0]
  · rw [if_neg e1]
    by_cases e0 : t0 = some y
    · rw [if_pos e0, if_pos (Or.inl e0)]
    · rw [if_neg e0, if_neg (by simp [e0, e1])]

theorem heightOf_attachStage_other (h : Heap K V) (x : Nat) (t0 t1 q : Option Nat)
    (hq : q ≠ some x) : heightOf (attachStage h x t0 t1) q = heightOf h q := by
  rw [attachStage, heightOf_heightUpdated_other _ _ _ hq, heightOf_attach_links]

/-- Running `connect34` on three allocated, different nodes and four allocated or absent
subtree roots that are none of the three nodes. -/
theorem connect34_exec {h : Heap K V} {a b c : Nat} {t0 t1 t2 t3 : Option Nat}
    (ha : a < h.length) (hb : b < h.length) (hc : c < h.length)
    (hab : a ≠ b) (hbc : b ≠ c)
    (h0 : t0 ≠ some a) (h1 : t1 ≠ some a) (h2 : t2 ≠ some c) (h3 : t3 ≠ some c)
    (l0 : ∀ y, t0 = some y → y < h.length) (l1 : ∀ y, t1 = some y → y < h.length)
    (l2 : ∀ y, t2 = some y → y < h.length) (l3 : ∀ y, t3 = some y → y < h.length) :
    connect34 h (some a) (some b) (some c) t0 t1 t2 t3
      = .ok (connect34Heap h a b c t0 t1 t2 t3, some b) := by
  obtain ⟨na, hna⟩ := get_of_lt ha
  obtain ⟨e1, e2, e3⟩ := attachStage_exec hna h0 h1 l0 l1
  have hlen1 := length_attachStage h a t0 t1
  obtain ⟨mc, hmc⟩ := get_of_lt (h := attachStage h a t0 t1) (a := c) (by rw [hlen1]; exact hc)
  obtain ⟨e4, e5, e6⟩ := attachStage_exec hmc h2 h3
    (fun y hy => by rw [hlen1]; exact l2 y hy) (fun y hy => by rw [hlen1]; exact l3 y hy)
  have hlen2 := length_attachStage (attachStage h a t0 t1) c t2 t3
  obtain ⟨mb, hmb⟩ := get_of_lt (h := attachStage (attachStage h a t0 t1) c t2 t3) (a := b)
    (by rw [hlen2, hlen1]; exact hb)
  have s7 := store_eq_update hmb (fun q => { q with lc := some a })
  have hl7 : (update (attachStage (attachStage h a t0 t1) c t2 t3) b
      (fun q => { q with lc := some a })).length = h.length := by
    rw [length_update, hlen2, hlen1]
  have s8 := store_of_lt (h := update (attachStage (attachStage h a t0 t1) c t2 t3) b
      (fun q => { q with lc := some a })) (a := a) (by rw [hl7]; exact ha)
      (fun q => { q with parent := some b })
  have g8b : (update (update (attachStage (attachStage h a t0 t1) c t2 t3) b
      (fun q => { q with lc := some a })) a (fun q => { q with parent := some b }))[b]?
      = some { mb with lc := some a } := by
    rw [get_update_other _ hab, get_update_self hmb]
  have s9 := store_eq_update g8b (fun q => { q with rc := some c })
  have hl9 : (update (update (update (attachStage (attachStage h a t0 t1) c t2 t3) b
      (fun q => { q with lc := some a })) a (fun q => { q with parent := some b })) b
      (fun q => { q with rc := some c })).length = h.length := by
    rw [length_update, length_update, hl7]
  have s10 := store_of_lt (h := update (update (update
      (attachStage (attachStage h a t0 t1) c t2 t3) b
      (fun q => { q with lc := some a })) a (fun q => { q with parent := some b })) b
      (fun q => { q with rc := some c })) (a := c) (by rw [hl9]; exact hc)
      (fun q => { q with parent := some b })
  have g10b : (update (update (update (update
      (attachStage (attachStage h a t0 t1) c t2 t3) b
      (fun q => { q with lc := some a })) a (fun q => { q with parent := some b })) b
      (fun q => { q with rc := some c })) c (fun q => { q with parent := some b }))[b]?
      = some { mb with lc := some a, rc := some c } := by
    rw [get_update_other _ (Ne.symm hbc), get_update_self g8b]
  have s11 := updateHeight_eq g10b
    (fun y hy => by
      rw [length_update, hl9]
      cases hy
      exact ha)
    (fun y hy => by
      rw [length_update, hl9]
      cases hy
      exact hc)
  rw [connect34, e1]
  dsimp only
  rw [e2]
  dsimp only
  rw [e3]
  dsimp only
  rw [e4]
  dsimp only
  rw [e5]
  dsimp only
  rw [e6]
  dsimp only
  rw [s7]
  dsimp only
  rw [s8]
  dsimp only
  rw [s9]
  dsimp only
  rw [s10]
  dsimp only
  rw [s11]
  rfl

theorem heightOf_connect34Heap_other (h : Heap K V) (a b c : Nat) (t0 t1 t2 t3 q : Option Nat)
    (hqa : q ≠ some a) (hqb : q ≠ some b) (hqc : q ≠ some c) :
    heightOf (connect34Heap h a b c t0 t1 t2 t3) q = heightOf h q := by
  have e1 := heightOf_attachStage_other h a t0 t1 q hqa
  have e2 := heightOf_attachStage_other (attachStage h a t0 t1) c t2 t3 q hqc
  have e3 := heightOf_update (attachStage (attachStage h a t0 t1) c t2 t3) b
    (fun m => { m with lc := some a }) (fun _ => rfl) q
  have e4 := heightOf_update (update (attachStage (attachStage h a t0 t1) c t2 t3) b
    (fun m => { m with lc := some a })) a (fun m => { m with parent := some b })
    (fun _ => rfl) q
  have e5 := heightOf_update (update (update (attachStage (attachStage h a t0 t1) c t2 t3) b
    (fun m => { m with lc := some a })) a (fun m => { m with parent := some b })) b
    (fun m => { m with rc := some c }) (fun _ => rfl) q
  have e6 := heightOf_update (update (update (update
    (attachStage (attachStage h a t0 t1) c t2 t3) b
    (fun m => { m with lc := some a })) a (fun m => { m with parent := some b })) b
    (fun m => { m with rc := some c })) c (fun m => { m with parent := some b })
    (fun _ => rfl) q
  rw [connect34Heap, heightOf_heightUpdated_other _ _ _ hqb, e6, e5, e4, e3, e2, e1]

/-- The record of `a` after `connect34`. -/
theorem connect34Heap_get_a {h : Heap K V} {a b c : Nat} {na : BinNode K V}
    {t0 t1 t2 t3 : Option Nat} (hna : h[a]? = some na) (hab : a ≠ b) (hac : a ≠ c)
    (h0 : t0 ≠ some a) (h1 : t1 ≠ some a) (h2 : t2 ≠ some a) (h3 : t3 ≠ some a) :
    (connect34Heap h a b c t0 t1 t2 t3)[a]? = some { na with
      lc := t0, rc := t1, parent := some b,
      height := newHeight na.color (heightOf h t0) (heightOf h t1) } := by
  have g1 := attachStage_get_self hna h0 h1
  have g2 : (attachStage (attachStage h a t0 t1) c t2 t3)[a]? = _ :=
    (attachStage_get_other _ t2 t3 hac).trans (by rw [if_neg (by simp [h2, h3]), g1])
  rw [connect34Heap, get_heightUpdated, if_neg (Ne.symm hab), get_update_other _ (Ne.symm hac),
    get_update_other _ (Ne.symm hab), get_update_self (by
      rw [get_update_other _ (Ne.symm hab)]; exact g2)]

/-- The record of `c` after `connect34`. -/
theorem connect34Heap_get_c {h : Heap K V} {a b c : Nat} {nc : BinNode K V}
    {t0 t1 t2 t3 : Option Nat} (hnc : h[c]? = some nc) (hac : a ≠ c) (hbc : b ≠ c)
    (h0 : t0 ≠ some c) (h1 : t1 ≠ some c) (h2 : t2 ≠ some c) (h3 : t3 ≠ some c)
    (h2a : t2 ≠ some a) (h3a : t3 ≠ some a) :
    (connect34Heap h a b c t0 t1 t2 t3)[c]? = some { nc with
      lc := t2, rc := t3, parent := some b,
      height := newHeight nc.color (heightOf h t2) (heightOf h t3) } := by
  have g1 : (attachStage h a t0 t1)[c]? = some nc :=
    (attachStage_get_other _ t0 t1 (Ne.symm hac)).trans (by
      rw [if_neg (by simp [h0, h1]), hnc])
  have g2 := attachStage_get_self (h := attachStage h a t0 t1) g1 h2 h3
  rw [heightOf_attachStage_other h a t0 t1 _ h2a, heightOf_attachStage_other h a t0 t1 _ h3a]
    at g2
  rw [connect34Heap, get_heightUpdated, if_neg hbc, get_update_self (by
    rw [get_update_other _ hbc, get_update_other _ hac, get_update_other _ hbc]; exact g2)]

/-- The record of `b` after `connect34`. -/
theorem connect34Heap_get_b {h : Heap K V} {a b c : Nat} {na nb nc : BinNode K V}
    {t0 t1 t2 t3 : Option Nat} (hna : h[a]? = some na) (hnb : h[b]? = some nb)
    (hnc : h[c]? = some nc) (hab : a ≠ b) (hac : a ≠ c) (hbc : b ≠ c)
    (h0 : t0 ≠ some a) (h1 : t1 ≠ some a) (h2 : t2 ≠ some a) (h3 : t3 ≠ some a)
    (h0b : t0 ≠ some b) (h1b : t1 ≠ some b) (h2b : t2 ≠ some b) (h3b : t3 ≠ some b)
    (h0c : t0 ≠ some c) (h1c : t1 ≠ some c) (h2c : t2 ≠ some c) (h3c : t3 ≠ some c) :
    (connect34Heap h a b c t0 t1 t2 t3)[b]? = some { nb with
      lc := some a, rc := some c,
      height := newHeight nb.color (newHeight na.color (heightOf h t0) (heightOf h t1))
        (newHeight nc.color (heightOf h t2) (heightOf h t3)) } := by
  have g1 : (attachStage h a t0 t1)[b]? = some nb :=
    (attachStage_get_other _ t0 t1 (Ne.symm hab)).trans (by
      rw [if_neg (by simp [h0b, h1b]), hnb])
  have g2 : (attachStage (attachStage h a t0 t1) c t2 t3)[b]? = some nb :=
    (attachStage_get_other _ t2 t3 hbc).trans (by rw [if_neg (by simp [h2b, h3b]), g1])
  have ga1 := attachStage_get_self hna h0 h1
  have ga2 : (attachStage (attachStage h a t0 t1) c t2 t3)[a]? = _ :=
    (attachStage_get_other _ t2 t3 hac).trans (by rw [if_neg (by simp [h2, h3]), ga1])
  have gc1 : (attachStage h a t0 t1)[c]? = some nc :=
    (attachStage_get_other _ t0 t1 (Ne.symm hac)).trans (by
      rw [if_neg (by simp [h0c, h1c]), hnc])
  have gc2 := attachStage_get_self (h := attachStage h a t0 t1) gc1 h2c h3c
  rw [heightOf_attachStage_other h a t0 t1 _ h2, heightOf_attachStage_other h a t0 t1 _ h3]
    at gc2
  have ua : (update (update (update (update (attachStage (attachStage h a t0 t1) c t2 t3)
      b (fun m => { m with lc := some a })) a (fun m => { m with parent := some b }))
      b (fun m => { m with rc := some c })) c (fun m => { m with parent := some b }))[a]?
      = some { na with
          lc := t0, rc := t1, parent := some b,
          height := newHeight na.color (heightOf h t0) (heightOf h t1) } := by
    rw [get_update_other _ (Ne.symm hac), get_update_other _ (Ne.symm hab),
      get_update_self (by rw [get_update_other _ (Ne.symm hab)]; exact ga2)]
  have uc : (update (update (update (update (attachStage (attachStage h a t0 t1) c t2 t3)
      b (fun m => { m with lc := some a })) a (fun m => { m with parent := some b }))
      b (fun m => { m with rc := some c })) c (fun m => { m with parent := some b }))[c]?
      = some { nc with
          lc := t2, rc := t3, parent := some b,
          height := newHeight nc.color (heightOf h t2) (heightOf h t3) } := by
    rw [get_update_self (by
      rw [get_update_other _ hbc, get_update_other _ hac, get_update_other _ hbc]; exact gc2)]
  have ub : (update (update (update (update (attachStage (attachStage h a t0 t1) c t2 t3)
      b (fun m => { m with lc := some a })) a (fun m => { m with parent := some b }))
      b (fun m => { m with rc := some c })) c (fun m => { m with parent := some b }))[b]?
      = some { nb with lc := some a, rc := some c } := by
    rw [get_update_other _ (Ne.symm hbc), get_update_self (by
      rw [get_update_other _ hab, get_update_self g2])]
  rw [connect34Heap, get_heightUpdated, if_pos rfl, ub]
  simp only [Option.map_some', heightOf_get ua, heightOf_get uc]

/-- The other records after `connect34`: the roots of the four subtrees get their new
parent. -/
theorem connect34Heap_get_other (h : Heap K V) {a b c y : Nat} (t0 t1 t2 t3 : Option Nat)
    (hya : y ≠ a) (hyb : y ≠ b) (hyc : y ≠ c) :
    (connect34Heap h a b c t0 t1 t2 t3)[y]? =
      if t2 = some y ∨ t3 = some y then
        ((if t0 = some y ∨ t1 = some y then (h[y]?).map (fun m => { m with parent := some a })
          else h[y]?) : Option (BinNode K V)).map (fun m => { m with parent := some c })
      else if t0 = some y ∨ t1 = some y then (h[y]?).map (fun m => { m with parent := some a })
      else h[y]? := by
  rw [connect34Heap, get_heightUpdated, if_neg (Ne.symm hyb), get_update_other _ (Ne.symm hyc),
    get_update_other _ (Ne.symm hyb), get_update_other _ (Ne.symm hya),
    get_update_other _ (Ne.symm hyb), attachStage_get_other _ t2 t3 hyc,
    attachStage_get_other _ t0 t1 hya]

/-! # `connect34` on trees -/

theorem connect34Heap_links_other (h : Heap K V) {a b c y : Nat} (t0 t1 t2 t3 : Option Nat)
    (hya : y ≠ a) (hyb : y ≠ b) (hyc : y ≠ c) :
    ((connect34Heap h a b c t0 t1 t2 t3)[y]?).map linksOf = (h[y]?).map linksOf := by
  rw [connect34Heap_get_other h t0 t1 t2 t3 hya hyb hyc]
  split <;> split <;> cases h[y]? <;> rfl

/-- The function `connect34` on three nodes and four subtrees that together make up a tree
in which no node occurs twice: the records of the three nodes, the parents of the subtree
roots, and the tree the result holds. -/
theorem connect34_owns {h : Heap K V} {a b c : Nat} {na nb nc : BinNode K V}
    {t0 t1 t2 t3 : Option Nat} {T0 T1 T2 T3 : Shape K V}
    (hna : h[a]? = some na) (hnb : h[b]? = some nb) (hnc : h[c]? = some nc)
    (o0 : Owns h t0 T0) (o1 : Owns h t1 T1) (o2 : Owns h t2 T2) (o3 : Owns h t3 T3)
    (hnd : (Shape.node (.node T0 a na.key na.value T1) b nb.key nb.value
      (.node T2 c nc.key nc.value T3)).addrs.Nodup) :
    connect34 h (some a) (some b) (some c) t0 t1 t2 t3
      = .ok (connect34Heap h a b c t0 t1 t2 t3, some b) ∧
    (connect34Heap h a b c t0 t1 t2 t3)[a]? = some { na with
      lc := t0, rc := t1, parent := some b,
      height := newHeight na.color (heightOf (connect34Heap h a b c t0 t1 t2 t3) t0)
        (heightOf (connect34Heap h a b c t0 t1 t2 t3) t1) } ∧
    (connect34Heap h a b c t0 t1 t2 t3)[c]? = some { nc with
      lc := t2, rc := t3, parent := some b,
      height := newHeight nc.color (heightOf (connect34Heap h a b c t0 t1 t2 t3) t2)
        (heightOf (connect34Heap h a b c t0 t1 t2 t3) t3) } ∧
    (connect34Heap h a b c t0 t1 t2 t3)[b]? = some { nb with
      lc := some a, rc := some c,
      height := newHeight nb.color (heightOf (connect34Heap h a b c t0 t1 t2 t3) (some a))
        (heightOf (connect34Heap h a b c t0 t1 t2 t3) (some c)) } ∧
    (∀ y, t0 = some y ∨ t1 = some y →
      ∃ m, h[y]? = some m ∧
        (connect34Heap h a b c t0 t1 t2 t3)[y]? = some { m with parent := some a }) ∧
    (∀ y, t2 = some y ∨ t3 = some y →
      ∃ m, h[y]? = some m ∧
        (connect34Heap h a b c t0 t1 t2 t3)[y]? = some { m with parent := some c }) ∧
    (∀ y, y ≠ a → y ≠ b → y ≠ c → t0 ≠ some y → t1 ≠ some y → t2 ≠ some y → t3 ≠ some y →
      (connect34Heap h a b c t0 t1 t2 t3)[y]? = h[y]?) ∧
    Owns (connect34Heap h a b c t0 t1 t2 t3) (some b)
      (.node (.node T0 a na.key na.value T1) b nb.key nb.value
        (.node T2 c nc.key nc.value T3)) := by
  obtain ⟨hLnd, hRnd, hbL, hbR, hLR⟩ := Shape.nodup_node hnd
  obtain ⟨-, -, ha0, ha1, h01⟩ := Shape.nodup_node hLnd
  obtain ⟨-, -, hc2, hc3, h23⟩ := Shape.nodup_node hRnd
  have haL : a ∈ (Shape.node T0 a na.key na.value T1).addrs :=
    Shape.mem_addrs_node.mpr (Or.inr (Or.inl rfl))
  have hcR : c ∈ (Shape.node T2 c nc.key nc.value T3).addrs :=
    Shape.mem_addrs_node.mpr (Or.inr (Or.inl rfl))
  have m0 : ∀ y, y ∈ T0.addrs → y ∈ (Shape.node T0 a na.key na.value T1).addrs :=
    fun y hy => Shape.mem_addrs_node.mpr (Or.inl hy)
  have m1 : ∀ y, y ∈ T1.addrs → y ∈ (Shape.node T0 a na.key na.value T1).addrs :=
    fun y hy => Shape.mem_addrs_node.mpr (Or.inr (Or.inr hy))
  have m2 : ∀ y, y ∈ T2.addrs → y ∈ (Shape.node T2 c nc.key nc.value T3).addrs :=
    fun y hy => Shape.mem_addrs_node.mpr (Or.inl hy)
  have m3 : ∀ y, y ∈ T3.addrs → y ∈ (Shape.node T2 c nc.key nc.value T3).addrs :=
    fun y hy => Shape.mem_addrs_node.mpr (Or.inr (Or.inr hy))
  have hab : a ≠ b := fun e => hbL (e ▸ haL)
  have hbc : b ≠ c := fun e => hbR (e ▸ hcR)
  have hac : a ≠ c := fun e => hLR a haL (e ▸ hcR)
  have r0 : ∀ y, t0 = some y → y ∈ T0.addrs :=
    fun y e => Shape.root_mem T0 y (by rw [← o0.root_eq]; exact e)
  have r1 : ∀ y, t1 = some y → y ∈ T1.addrs :=
    fun y e => Shape.root_mem T1 y (by rw [← o1.root_eq]; exact e)
  have r2 : ∀ y, t2 = some y → y ∈ T2.addrs :=
    fun y e => Shape.root_mem T2 y (by rw [← o2.root_eq]; exact e)
  have r3 : ∀ y, t3 = some y → y ∈ T3.addrs :=
    fun y e => Shape.root_mem T3 y (by rw [← o3.root_eq]; exact e)
  -- nodes of the left pair of subtrees and of the right pair
  have nL : ∀ y, y ∈ T0.addrs ∨ y ∈ T1.addrs → y ≠ a ∧ y ≠ b ∧ y ≠ c := by
    intro y hy
    have hyL : y ∈ (Shape.node T0 a na.key na.value T1).addrs := hy.elim (m0 y) (m1 y)
    refine ⟨?_, fun e => hbL (e ▸ hyL), fun e => hLR y hyL (e ▸ hcR)⟩
    rintro rfl
    exact hy.elim ha0 ha1
  have nR : ∀ y, y ∈ T2.addrs ∨ y ∈ T3.addrs → y ≠ a ∧ y ≠ b ∧ y ≠ c := by
    intro y hy
    have hyR : y ∈ (Shape.node T2 c nc.key nc.value T3).addrs := hy.elim (m2 y) (m3 y)
    refine ⟨fun e => hLR a haL (e ▸ hyR), fun e => hbR (e ▸ hyR), ?_⟩
    rintro rfl
    exact hy.elim hc2 hc3
  have e0 : ∀ y, t0 = some y → y ≠ a ∧ y ≠ b ∧ y ≠ c := fun y e => nL y (Or.inl (r0 y e))
  have e1 : ∀ y, t1 = some y → y ≠ a ∧ y ≠ b ∧ y ≠ c := fun y e => nL y (Or.inr (r1 y e))
  have e2 : ∀ y, t2 = some y → y ≠ a ∧ y ≠ b ∧ y ≠ c := fun y e => nR y (Or.inl (r2 y e))
  have e3 : ∀ y, t3 = some y → y ≠ a ∧ y ≠ b ∧ y ≠ c := fun y e => nR y (Or.inr (r3 y e))
  have ga := connect34Heap_get_a (b := b) (c := c) hna hab hac
    (fun e => (e0 a e).1 rfl) (fun e => (e1 a e).1 rfl) (fun e => (e2 a e).1 rfl)
    (fun e => (e3 a e).1 rfl)
  have gc := connect34Heap_get_c (a := a) (b := b) hnc hac hbc
    (fun e => (e0 c e).2.2 rfl) (fun e => (e1 c e).2.2 rfl) (fun e => (e2 c e).2.2 rfl)
    (fun e => (e3 c e).2.2 rfl) (fun e => (e2 a e).1 rfl) (fun e => (e3 a e).1 rfl)
  have gb := connect34Heap_get_b hna hnb hnc hab hac hbc
    (fun e => (e0 a e).1 rfl) (fun e => (e1 a e).1 rfl) (fun e => (e2 a e).1 rfl)
    (fun e => (e3 a e).1 rfl)
    (fun e => (e0 b e).2.1 rfl) (fun e => (e1 b e).2.1 rfl) (fun e => (e2 b e).2.1 rfl)
    (fun e => (e3 b e).2.1 rfl)
    (fun e => (e0 c e).2.2 rfl) (fun e => (e1 c e).2.2 rfl) (fun e => (e2 c e).2.2 rfl)
    (fun e => (e3 c e).2.2 rfl)
  have hother : ∀ (t : Option Nat), (∀ y, t = some y → y ≠ a ∧ y ≠ b ∧ y ≠ c) →
      heightOf (connect34Heap h a b c t0 t1 t2 t3) t = heightOf h t :=
    fun t ht => heightOf_connect34Heap_other h a b c t0 t1 t2 t3 t
      (fun e => (ht a e).1 rfl) (fun e => (ht b e).2.1 rfl) (fun e => (ht c e).2.2 rfl)
  have hlinks : ∀ y, y ≠ a ∧ y ≠ b ∧ y ≠ c →
      ((connect34Heap h a b c t0 t1 t2 t3)[y]?).map linksOf = (h[y]?).map linksOf :=
    fun y hy => connect34Heap_links_other h t0 t1 t2 t3 hy.1 hy.2.1 hy.2.2
  have O0 := Owns.frame_links o0 (fun y hy => hlinks y (nL y (Or.inl hy)))
  have O1 := Owns.frame_links o1 (fun y hy => hlinks y (nL y (Or.inr hy)))
  have O2 := Owns.frame_links o2 (fun y hy => hlinks y (nR y (Or.inl hy)))
  have O3 := Owns.frame_links o3 (fun y hy => hlinks y (nR y (Or.inr hy)))
  refine ⟨?_, ?_, ?_, ?_, ?_, ?_, ?_, ?_⟩
  · exact connect34_exec (lt_length_of_get hna) (lt_length_of_get hnb) (lt_length_of_get hnc)
      hab hbc (fun e => (e0 a e).1 rfl) (fun e => (e1 a e).1 rfl)
      (fun e => (e2 c e).2.2 rfl) (fun e => (e3 c e).2.2 rfl)
      (fun y e => o0.lt_length y (r0 y e)) (fun y e => o1.lt_length y (r1 y e))
      (fun y e => o2.lt_length y (r2 y e)) (fun y e => o3.lt_length y (r3 y e))
  · rw [ga, hother t0 e0, hother t1 e1]
  · rw [gc, hother t2 e2, hother t3 e3]
  · rw [gb, heightOf_get ga, heightOf_get gc]
  · intro y hy
    have hyL : y ∈ T0.addrs ∨ y ∈ T1.addrs := hy.imp (r0 y) (r1 y)
    obtain ⟨hya, hyb, hyc⟩ := nL y hyL
    obtain ⟨m, hm⟩ : ∃ m, h[y]? = some m :=
      hyL.elim (fun e => o0.get_of_mem y e) (fun e => o1.get_of_mem y e)
    have hyLm : y ∈ (Shape.node T0 a na.key na.value T1).addrs := hyL.elim (m0 y) (m1 y)
    have h23' : ¬ (t2 = some y ∨ t3 = some y) := fun e =>
      hLR y hyLm (e.elim (fun e => m2 y (r2 y e)) (fun e => m3 y (r3 y e)))
    refine ⟨m, hm, ?_⟩
    rw [connect34Heap_get_other h t0 t1 t2 t3 hya hyb hyc, if_neg h23', if_pos hy, hm]
    rfl
  · intro y hy
    have hyR : y ∈ T2.addrs ∨ y ∈ T3.addrs := hy.imp (r2 y) (r3 y)
    obtain ⟨hya, hyb, hyc⟩ := nR y hyR
    obtain ⟨m, hm⟩ : ∃ m, h[y]? = some m :=
      hyR.elim (fun e => o2.get_of_mem y e) (fun e => o3.get_of_mem y e)
    have hyRm : y ∈ (Shape.node T2 c nc.key nc.value T3).addrs := hyR.elim (m2 y) (m3 y)
    have h01' : ¬ (t0 = some y ∨ t1 = some y) := fun e =>
      hLR y (e.elim (fun e => m0 y (r0 y e)) (fun e => m1 y (r1 y e))) hyRm
    refine ⟨m, hm, ?_⟩
    rw [connect34Heap_get_other h t0 t1 t2 t3 hya hyb hyc, if_pos hy, if_neg h01', hm]
    rfl
  · intro y hya hyb hyc g0 g1 g2 g3
    rw [connect34Heap_get_other h t0 t1 t2 t3 hya hyb hyc, if_neg (by simp [g2, g3]),
      if_neg (by simp [g0, g1])]
  · refine owns_node_of_links (by rw [gb]; rfl) ?_ ?_
    · exact owns_node_of_links (by rw [ga]; rfl) O0 O1
    · exact owns_node_of_links (by rw [gc]; rfl) O2 O3

/-! # The three cases of `removeAt` -/

theorem Shape.removeRoot_root_both (ll lr rl rr : Shape K V) (a b c : Nat) (k kb kc : K)
    (u ub uc : V) :
    (Shape.node (.node ll b kb ub lr) a k u (.node rl c kc uc rr)).removeRoot.root = some a := by
  obtain ⟨w, k1, u1, h⟩ := Shape.leftmost_isSome (.node rl c kc uc rr) (by simp)
  simp only [Shape.removeRoot, h, Shape.root]

/-- After a replacement the parent link of the root of the new subtree is the parent of the
slot. -/
theorem Parented.root_parent {h : Heap K V} {par : Option Nat} {S : Shape K V} {c : Nat}
    (hp : Parented h par S) (hroot : S.root = some c) :
    ∃ m, h[c]? = some m ∧ m.parent = par := by
  cases S with
  | nil => cases hroot
  | node l a k v r =>
    simp only [Shape.root, Option.some.injEq] at hroot
    subst hroot
    exact hp.1

/-- The method `removeAt` at a slot holding node `a`, case by case: what the slot holds
afterwards, the value of `hot`, the returned pointer and its parent link. -/
theorem Bst.removeAt_cases {t : Bst K} {x : Slot} {l r : Shape K Unit} {a : Nat} {k : K}
    {par : Option Nat} {n : BinNode K Unit} (fuel : Nat) (hx : t.readSlot x = .ok (some a))
    (ho : Owns t.heap (some a) (.node l a k () r))
    (hpar : Parented t.heap par (.node l a k () r))
    (hnd : (Shape.node l a k () r).addrs.Nodup)
    (hh : ∀ d, x.holder = some d → d ∉ (Shape.node l a k () r).addrs)
    (hf : (Shape.node l a k () r).size ≤ fuel) (hn : t.heap[a]? = some n) :
    ∃ t1 s, t.removeAt fuel x = .ok (t1, s) ∧
      (n.lc = none → t1.readSlot x = .ok n.rc ∧ t1.hot = n.parent ∧ s = n.rc ∧
        a ∉ (Shape.node l a k () r).removeRoot.addrs) ∧
      (n.lc ≠ none → n.rc = none → t1.readSlot x = .ok n.lc ∧ t1.hot = n.parent ∧ s = n.lc ∧
        a ∉ (Shape.node l a k () r).removeRoot.addrs) ∧
      (n.lc ≠ none → n.rc ≠ none → ∃ (w q : Nat) (nw nq m mq : BinNode K Unit),
        successor fuel t.heap (some a) = .ok (some w) ∧
        leftmostLoop fuel t.heap n.rc = .ok (some w) ∧
        t.heap[w]? = some nw ∧ nw.lc = none ∧ nw.parent = some q ∧ t.heap[q]? = some nq ∧
        (if q = a then n.rc = some w else nq.lc = some w) ∧
        t1.readSlot x = .ok (some a) ∧ t1.heap[a]? = some m ∧ m.key = nw.key ∧
        m.parent = n.parent ∧ m.lc = n.lc ∧
        t1.heap[q]? = some mq ∧ (if q = a then mq.rc = nw.rc else mq.lc = nw.rc) ∧
        w ∉ (Shape.node l a k () r).removeRoot.addrs ∧ t1.hot = some q ∧ s = nw.rc) ∧
      (∀ c, s = some c → ∃ m, t1.heap[c]? = some m ∧ m.parent = t1.hot) := by
  have hamem : a ∈ (Shape.node l a k () r).addrs :=
    Shape.mem_addrs_node.mpr (Or.inr (Or.inl rfl))
  have hha : x.holder ≠ some a := fun e => hh a e hamem
  obtain ⟨hlnd, hrnd, hal, har, hlr⟩ := Shape.nodup_node hnd
  have ho' := ho
  have hpar' := hpar
  obtain ⟨_, n', hn', _, _, hl, hr⟩ := ho'
  rw [hn] at hn'
  cases hn'
  obtain ⟨⟨n', hn', hnpar⟩, hpl, hpr⟩ := hpar'
  rw [hn] at hn'
  cases hn'
  cases l with
  | nil =>
    have hlc : n.lc = none := hl
    have hrun := Bst.removeAt_noLeft fuel hx hn hlc hha (fun b hb =>
      hr.get_of_mem b (Shape.root_mem r b (by rw [← hr.root_eq]; exact hb)))
    have hrem : (Shape.node .nil a k () r).removeRoot = r := by
      simp [Shape.removeRoot]
    have hrep := replaced_by_child hx hn hnpar hamem har
      (fun y hy => Shape.mem_addrs_node.mpr (Or.inr (Or.inr hy))) hh hr hpr hrnd
    obtain ⟨p1, hrd, ho1, hp1, -⟩ := hrep
    have hp1r : p1 = n.rc := ho1.root_eq.trans hr.root_eq.symm
    refine ⟨_, _, hrun, fun _ => ⟨hrd.trans (by rw [hp1r]), rfl, rfl, by rw [hrem]; exact har⟩,
      fun h1 => absurd hlc h1, fun h1 => absurd hlc h1, ?_⟩
    intro c hc
    obtain ⟨m, hm, hmp⟩ := Parented.root_parent hp1 (hr.root_eq.symm.trans hc)
    exact ⟨m, hm, hmp.trans hnpar.symm⟩
  | node ll b kb ub lr =>
    have hlc : n.lc ≠ none := by rw [hl.1]; simp
    cases r with
    | nil =>
      have hrc : n.rc = none := hr
      have hrun := Bst.removeAt_noRight fuel hx hn hlc hrc hha (fun b' hb =>
        hl.get_of_mem b' (Shape.root_mem _ b' (by rw [← hl.root_eq]; exact hb)))
      have hrem : (Shape.node (.node ll b kb ub lr) a k () .nil).removeRoot
          = .node ll b kb ub lr := by
        simp [Shape.removeRoot]
      have hrep := replaced_by_child hx hn hnpar hamem hal
        (fun y hy => Shape.mem_addrs_node.mpr (Or.inl hy)) hh hl hpl hlnd
      obtain ⟨p1, hrd, ho1, hp1, -⟩ := hrep
      have hp1r : p1 = n.lc := ho1.root_eq.trans hl.root_eq.symm
      refine ⟨_, _, hrun, fun h1 => absurd h1 hlc,
        fun _ _ => ⟨hrd.trans (by rw [hp1r]), rfl, rfl, by rw [hrem]; exact hal⟩,
        fun _ h2 => absurd hrc h2, ?_⟩
      intro c hc
      obtain ⟨m, hm, hmp⟩ := Parented.root_parent hp1 (hl.root_eq.symm.trans hc)
      exact ⟨m, hm, hmp.trans hnpar.symm⟩
    | node rl c kc uc rr =>
      have hrc : n.rc ≠ none := by rw [hr.1]; simp
      obtain ⟨w, q, n', nw, nq, h1, h2, h3, h4, h5, h6, h7, h8, h9, h10,
          ⟨e1, e2, e3, e4, e5, e6, e7⟩, hrep⟩ :=
        replaced_by_successor fuel hx ho hpar hnd hh
          (by simp only [Shape.size] at hf ⊢; omega)
      rw [hn] at h1
      cases h1
      have hrun := Bst.removeAt_both fuel hx hn h2 h3 h4 h5 h6 h7 h8 h9 h10
      obtain ⟨p1, hrd, ho1, hp1, -⟩ := hrep
      have hp1a : p1 = some a :=
        ho1.root_eq.trans (Shape.removeRoot_root_both ll lr rl rr a b c k kb kc () ub uc)
      have hqa : q = a ∨ q ≠ a := em _
      have hrecs : ∃ m mq : BinNode K Unit,
          (spliced t.heap a w q n nw)[a]? = some m ∧ m.key = nw.key ∧ m.parent = n.parent ∧
          m.lc = n.lc ∧ (spliced t.heap a w q n nw)[q]? = some mq ∧
          (if q = a then mq.rc = nw.rc else mq.lc = nw.rc) := by
        rcases hqa with hqa | hqa
        · subst hqa
          exact ⟨_, _, spliced_get_a_eq hn h6 e2, rfl, rfl, rfl, spliced_get_a_eq hn h6 e2,
            by rw [if_pos rfl]⟩
        · exact ⟨_, _, spliced_get_a_ne hn h6 hqa e2, rfl, rfl, rfl,
            spliced_get_q h8 h9 hqa e3, by rw [if_neg hqa]⟩
      obtain ⟨m, mq, hm, hmk, hmp, hml, hmq, hmqs⟩ := hrecs
      refine ⟨_, _, hrun, fun h1 => absurd h1 hlc, fun _ h2 => absurd h2 hrc,
        fun _ _ => ⟨w, q, nw, nq, m, mq, h4, e5, h5, e1, h7, h8, e6, hrd.trans (by rw [hp1a]),
          hm, hmk, hmp, hml, hmq, hmqs, e7, rfl, rfl⟩, ?_⟩
      intro cc hcc
      obtain ⟨ncc, hncc⟩ := h10 cc hcc
      exact ⟨_, spliced_get_cc hcc hncc (fun e => e2 (e ▸ hcc)) (fun e => e3 (e ▸ hcc))
        (fun e => e4 (e ▸ hcc)), rfl⟩

/-! # Rotations, `connect34`, in-order neighbours and heights: the claims -/

theorem tallHeap_owns : Owns tallHeap (some 0) tallShape := by
  simp [Owns, tallHeap, tallShape, blackNode]

theorem tallHeap_parented : Parented tallHeap none tallShape := by
  simp [Parented, tallHeap, tallShape, blackNode]

theorem staleHeap_owns : Owns staleHeap (some 0) tallShape := by
  simp [Owns, staleHeap, tallShape, blackNode]

theorem staleHeap_parented : Parented staleHeap none tallShape := by
  simp [Parented, staleHeap, tallShape, blackNode]

/-- For a colour that is `Red` or `Black` the height `updateHeight` stores is the height of
the formula that reads the colour with `isRed`. -/
theorem newHeight_eq_specHeight (c : rbColor) (hl hr : Int) (hc : c = Red ∨ c = Black) :
    newHeight c hl hr = specHeight (!decide (c = Black)) hl hr := by
  rcases hc with rfl | rfl
  · have e : (!decide (Red = Black)) = true := by decide
    rw [e]
    simp only [newHeight, specHeight, if_true]
    split <;> omega
  · have e : (!decide (Black = Black)) = false := by decide
    have e2 : ¬ (Black = Red) := by decide
    rw [e]
    simp only [newHeight, specHeight, if_neg e2, Bool.false_eq_true, if_false]
    split <;> omega

/-- Claim C11: in a tree held by the heap, with consistent parent links and no node
occurring twice, let the cached heights of a node `a` and of its child `b` satisfy the
height formula. If `b` is the left child, `rightRotate(a)` returns `b`, and `leftRotate(b)`
then returns `a` and leaves the heap the two calls started from, so that every parent,
left and right link and every cached height has its former value; symmetrically for
`leftRotate(a)` followed by `rightRotate(b)` when `b` is the right child. -/
theorem rotate_round_trip (h : Heap K V) (p : Option Nat) (T : Shape K V) (ho : Owns h p T)
    (hnd : T.addrs.Nodup) (hpar : Parented h none T) (a : Nat) (n : BinNode K V)
    (ha : a ∈ T.addrs) (hn : h[a]? = some n) (hha : HeightOK h a) :
    (∀ b, n.lc = some b → HeightOK h b →
      ∃ h1, rightRotate h (some a) = .ok (h1, some b) ∧
        leftRotate h1 (some b) = .ok (h, some a)) ∧
    (∀ b, n.rc = some b → HeightOK h b →
      ∃ h1, leftRotate h (some a) = .ok (h1, some b) ∧
        rightRotate h1 (some b) = .ok (h, some a)) := by
  obtain ⟨n1, hn1, hha1⟩ := hha
  rw [hn] at hn1
  cases hn1
  constructor
  · intro b hlc hhb
    obtain ⟨nb, hnb, hbp, hab, -, hpa, hch, hc⟩ := rotR_ready ho hnd hpar ha hn hlc
    obtain ⟨nb1, hnb1, hhb1⟩ := hhb
    rw [hnb] at hnb1
    cases hnb1
    exact ⟨_, rotate_right_left_heap hn hnb hlc hbp hab
      (fun pa hp => by
        obtain ⟨e1, e2, e3, e4, npa, e5, e6, -, e7⟩ := hpa pa hp
        exact ⟨e1, e2, e3, e4, npa, e5, e6,
          e7.elim (fun x => Or.inl x.1) (fun x => Or.inr x.2)⟩)
      (fun y hy => ⟨(hch y hy).1, (hch y hy).2.1, (hch y hy).2.2.1⟩)
      (fun y hy => (hc y hy).2.2) hha1 hhb1⟩
  · intro b hrc hhb
    obtain ⟨nb, hnb, hbp, hab, -, hpa, hch, hc⟩ := rotL_ready ho hnd hpar ha hn hrc
    obtain ⟨nb1, hnb1, hhb1⟩ := hhb
    rw [hnb] at hnb1
    cases hnb1
    exact ⟨_, rotate_left_right_heap hn hnb hrc hbp hab
      (fun pa hp => by
        obtain ⟨e1, e2, e3, e4, npa, e5, e6, -, e7⟩ := hpa pa hp
        exact ⟨e1, e2, e3, e4, npa, e5, e6,
          e7.elim (fun x => Or.inl x.1) (fun x => Or.inr x.2)⟩)
      (fun y hy => ⟨(hch y hy).1, (hch y hy).2.1, (hch y hy).2.2.1⟩)
      (fun y hy => (hc y hy).2.2) hha1 hhb1⟩

/-- Claim C11 applies to the root of `tallHeap`, whose cached heights are consistent: the
root has the left child 1 and the right child 2, and both round trips give `tallHeap`
back. -/
theorem rotate_round_trip_witness :
    (Owns tallHeap (some 0) tallShape ∧ tallShape.addrs.Nodup ∧
      Parented tallHeap none tallShape ∧ 0 ∈ tallShape.addrs ∧
      tallHeap[0]? = some (blackNode 4 2 none (some 1) (some 2)) ∧
      HeightOK tallHeap 0 ∧ HeightOK tallHeap 1 ∧ HeightOK tallHeap 2) ∧
    (∃ h1, rightRotate tallHeap (some 0) = .ok (h1, some 1) ∧
      leftRotate h1 (some 1) = .ok (tallHeap, some 0)) ∧
    (∃ h1, leftRotate tallHeap (some 0) = .ok (h1, some 2) ∧
      rightRotate h1 (some 2) = .ok (tallHeap, some 0)) :=
  ⟨⟨tallHeap_owns, by decide, tallHeap_parented, by decide, rfl, ⟨_, rfl, by decide⟩,
      ⟨_, rfl, by decide⟩, ⟨_, rfl, by decide⟩⟩,
    (rotate_round_trip tallHeap (some 0) tallShape tallHeap_owns (by decide) tallHeap_parented
      0 _ (by decide) rfl ⟨_, rfl, by decide⟩).1 1 rfl ⟨_, rfl, by decide⟩,
    (rotate_round_trip tallHeap (some 0) tallShape tallHeap_owns (by decide) tallHeap_parented
      0 _ (by decide) rfl ⟨_, rfl, by decide⟩).2 2 rfl ⟨_, rfl, by decide⟩⟩

/-- Claim C12: in a tree held by the heap, with consistent parent links and no node
occurring twice, let `n` be the record of node `a`. On `nil`, and when `a` has no left
child, `rightRotate` returns `nil` and the heap is unchanged. When `a` has the left child
`b` (record `nb`), `rightRotate(a)` returns `b` and the new heap is as `RightRotated`
says: `b` has the former parent of `a`, its former left child and `a` as right child; `a`
has parent `b`, the former right child of `b` as left child and its former right child;
the cached heights of `a` and `b` are the height formula over their new children; the
former parent of `a`, which referred to `a` in exactly one of its two child links, refers
to `b` there; the root of the subtree that changed sides has parent `a`; every other
record, among them the left child of `b` and the right child of `a`, is unchanged.
`leftRotate` is the mirror image. -/
theorem rotate_contract (h : Heap K V) (p : Option Nat) (T : Shape K V) (ho : Owns h p T)
    (hnd : T.addrs.Nodup) (hpar : Parented h none T) (a : Nat) (n : BinNode K V)
    (ha : a ∈ T.addrs) (hn : h[a]? = some n) :
    rightRotate h none = .ok (h, none) ∧ leftRotate h none = .ok (h, none) ∧
    (n.lc = none → rightRotate h (some a) = .ok (h, none)) ∧
    (n.rc = none → leftRotate h (some a) = .ok (h, none)) ∧
    (∀ b, n.lc = some b → ∃ nb h1, h[b]? = some nb ∧
      rightRotate h (some a) = .ok (h1, some b) ∧ RightRotated h h1 a b n nb ∧
      HeightOK h1 a ∧ HeightOK h1 b ∧
      (∀ pa, n.parent = some pa → ∃ npa, h[pa]? = some npa ∧
        ((npa.lc = some a ∧ npa.rc ≠ some a) ∨ (npa.lc ≠ some a ∧ npa.rc = some a))) ∧
      (∀ y, nb.lc = some y ∨ n.rc = some y → h1[y]? = h[y]?)) ∧
    (∀ b, n.rc = some b → ∃ nb h1, h[b]? = some nb ∧
      leftRotate h (some a) = .ok (h1, some b) ∧ LeftRotated h h1 a b n nb ∧
      HeightOK h1 a ∧ HeightOK h1 b ∧
      (∀ pa, n.parent = some pa → ∃ npa, h[pa]? = some npa ∧
        ((npa.lc = some a ∧ npa.rc ≠ some a) ∨ (npa.lc ≠ some a ∧ npa.rc = some a))) ∧
      (∀ y, nb.rc = some y ∨ n.lc = some y → h1[y]? = h[y]?)) := by
  refine ⟨rfl, rfl, fun hlc => ?_, fun hrc => ?_, fun b hlc => ?_, fun b hrc => ?_⟩
  · simp [rightRotate, deref_of_get hn, hlc]
  · simp [leftRotate, deref_of_get hn, hrc]
  · obtain ⟨nb, hnb, hbp, hab, -, hpa, hch, hc⟩ := rotR_ready ho hnd hpar ha hn hlc
    have hrun := rightRotate_exec hn hlc hnb hab
      (fun pa hp => ⟨(hpa pa hp).1, (hpa pa hp).2.1, (hpa pa hp).2.2.1⟩)
      (fun c hcc => ⟨(hch c (Or.inr (Or.inl hcc))).1, (hch c (Or.inr (Or.inl hcc))).2.1,
        (hch c (Or.inr (Or.inl hcc))).2.2.1⟩)
      (fun d hd => (hch d (Or.inr (Or.inr hd))).2.2.1)
      (fun e he => (hch e (Or.inl he)).2.2.1)
    have hR := rightRotated_heap hn hnb hab
      (fun pa hp => ⟨(hpa pa hp).1, (hpa pa hp).2.1, (hpa pa hp).2.2.2.1⟩)
      (fun y hy => ⟨(hch y hy).1, (hch y hy).2.1⟩)
    refine ⟨nb, _, hnb, hrun, hR, ⟨_, hR.2.1, rfl⟩, ⟨_, hR.1, rfl⟩, fun pa hp => ?_,
      fun y hy => ?_⟩
    · obtain ⟨-, -, -, -, npa, e5, -, -, e7⟩ := hpa pa hp
      exact ⟨npa, e5, e7⟩
    · rcases hy with hy | hy
      · exact hR.2.2.2.2 y (hch y (Or.inl hy)).1 (hch y (Or.inl hy)).2.1
          (hch y (Or.inl hy)).2.2.2 (fun e => (hc y e).1 hy)
      · exact hR.2.2.2.2 y (hch y (Or.inr (Or.inr hy))).1 (hch y (Or.inr (Or.inr hy))).2.1
          (hch y (Or.inr (Or.inr hy))).2.2.2 (fun e => (hc y e).2.1 hy)
  · obtain ⟨nb, hnb, hbp, hab, -, hpa, hch, hc⟩ := rotL_ready ho hnd hpar ha hn hrc
    have hrun := leftRotate_exec hn hrc hnb hab
      (fun pa hp => ⟨(hpa pa hp).1, (hpa pa hp).2.1, (hpa pa hp).2.2.1⟩)
      (fun c hcc => ⟨(hch c (Or.inl hcc)).1, (hch c (Or.inl hcc)).2.1,
        (hch c (Or.inl hcc)).2.2.1⟩)
      (fun d hd => (hch d (Or.inr (Or.inr hd))).2.2.1)
      (fun e he => (hch e (Or.inr (Or.inl he))).2.2.1)
    have hL := leftRotated_heap hn hnb hab
      (fun pa hp => ⟨(hpa pa hp).1, (hpa pa hp).2.1, (hpa pa hp).2.2.2.1⟩)
      (fun y hy => ⟨(hch y hy).1, (hch y hy).2.1⟩)
    refine ⟨nb, _, hnb, hrun, hL, ⟨_, hL.2.1, rfl⟩, ⟨_, hL.1, rfl⟩, fun pa hp => ?_,
      fun y hy => ?_⟩
    · obtain ⟨-, -, -, -, npa, e5, -, -, e7⟩ := hpa pa hp
      exact ⟨npa, e5, e7⟩
    · rcases hy with hy | hy
      · exact hL.2.2.2.2 y (hch y (Or.inr (Or.inl hy))).1 (hch y (Or.inr (Or.inl hy))).2.1
          (hch y (Or.inr (Or.inl hy))).2.2.2 (fun e => (hc y e).1 hy)
      · exact hL.2.2.2.2 y (hch y (Or.inr (Or.inr hy))).1 (hch y (Or.inr (Or.inr hy))).2.1
          (hch y (Or.inr (Or.inr hy))).2.2.2 (fun e => (hc y e).2.1 hy)

/-- Claim C12 applies to node 1 of `tallHeap`, which has the parent 0, the left child 3
and no right child: `leftRotate` there changes nothing and `rightRotate` returns node 3;
evaluated, the root then has the left child 3, node 3 the parent 0 and the right child 1,
and node 1 the parent 3 and no child. -/
theorem rotate_contract_witness :
    (Owns tallHeap (some 0) tallShape ∧ tallShape.addrs.Nodup ∧
      Parented tallHeap none tallShape ∧ 1 ∈ tallShape.addrs ∧
      tallHeap[1]? = some (blackNode 2 1 (some 0) (some 3) none)) ∧
    leftRotate tallHeap (some 1) = .ok (tallHeap, none) ∧
    (∃ nb h1, tallHeap[3]? = some nb ∧
      rightRotate tallHeap (some 1) = .ok (h1, some 3) ∧
      RightRotated tallHeap h1 1 3 (blackNode 2 1 (some 0) (some 3) none) nb ∧
      HeightOK h1 1 ∧ HeightOK h1 3 ∧
      (∀ pa, (blackNode 2 1 (some 0) (some 3) none).parent = some pa →
        ∃ npa, tallHeap[pa]? = some npa ∧
          ((npa.lc = some 1 ∧ npa.rc ≠ some 1) ∨ (npa.lc ≠ some 1 ∧ npa.rc = some 1))) ∧
      (∀ y, nb.lc = some y ∨ (blackNode 2 1 (some 0) (some 3) none).rc = some y →
        h1[y]? = tallHeap[y]?)) ∧
    rightRotate tallHeap (some 1) = .ok
      ([blackNode 4 2 none (some 3) (some 2), blackNode 2 0 (some 3) none none,
        blackNode 6 0 (some 0) none none, blackNode 1 1 (some 0) none (some 1)], some 3) :=
  ⟨⟨tallHeap_owns, by decide, tallHeap_parented, by decide, rfl⟩,
    (rotate_contract tallHeap (some 0) tallShape tallHeap_owns (by decide) tallHeap_parented
      1 _ (by decide) rfl).2.2.2.1 rfl,
    (rotate_contract tallHeap (some 0) tallShape tallHeap_owns (by decide) tallHeap_parented
      1 _ (by decide) rfl).2.2.2.2.1 3 rfl,
    by rfl⟩

/-- Claim C13: let `a`, `b`, `c` be allocated nodes and let the heap hold the trees `T0`,
`T1`, `T2`, `T3` at the pointers `t0`, `t1`, `t2`, `t3` (each possibly `nil`), such that no
node occurs twice among the three nodes and the four trees. Then `connect34` returns `b`;
afterwards `a` has the children `t0`, `t1`, `c` has the children `t2`, `t3` and `b` has the
children `a`, `c`; `a`, `c` and the present roots among `t0..t3` have their new parent as
parent link and the parent link of `b` is as before; the cached heights of `a`, `c` and
`b` satisfy the height formula; and the in-order sequence from `b` is that of `T0`, then
`a`, `T1`, `b`, `T2`, `c`, `T3`. -/
theorem connect34_contract (h : Heap K V) (a b c : Nat) (na nb nc : BinNode K V)
    (t0 t1 t2 t3 : Option Nat) (T0 T1 T2 T3 : Shape K V)
    (hna : h[a]? = some na) (hnb : h[b]? = some nb) (hnc : h[c]? = some nc)
    (o0 : Owns h t0 T0) (o1 : Owns h t1 T1) (o2 : Owns h t2 T2) (o3 : Owns h t3 T3)
    (hnd : (Shape.node (.node T0 a na.key na.value T1) b nb.key nb.value
      (.node T2 c nc.key nc.value T3)).addrs.Nodup) (fuel : Nat)
    (hf : T0.size + T1.size + T2.size + T3.size + 3 < fuel) :
    ∃ (h1 : Heap K V) (ma mb mc : BinNode K V),
      connect34 h (some a) (some b) (some c) t0 t1 t2 t3 = .ok (h1, some b) ∧
      h1[a]? = some ma ∧ h1[b]? = some mb ∧ h1[c]? = some mc ∧
      ma.lc = t0 ∧ ma.rc = t1 ∧ mc.lc = t2 ∧ mc.rc = t3 ∧ mb.lc = some a ∧ mb.rc = some c ∧
      ma.parent = some b ∧ mc.parent = some b ∧ mb.parent = nb.parent ∧
      (∀ y, t0 = some y ∨ t1 = some y → ∃ m, h1[y]? = some m ∧ m.parent = some a) ∧
      (∀ y, t2 = some y ∨ t3 = some y → ∃ m, h1[y]? = some m ∧ m.parent = some c) ∧
      HeightOK h1 a ∧ HeightOK h1 c ∧ HeightOK h1 b ∧
      dfsIn fuel h1 (some b) = .ok (T0.ino ++ [(na.key, na.value)] ++ T1.ino ++
        [(nb.key, nb.value)] ++ T2.ino ++ [(nc.key, nc.value)] ++ T3.ino) := by
  obtain ⟨hrun, ga, gc, gb, hp01, hp23, -, hown⟩ :=
    connect34_owns hna hnb hnc o0 o1 o2 o3 hnd
  refine ⟨_, _, _, _, hrun, ga, gb, gc, rfl, rfl, rfl, rfl, rfl, rfl, rfl, rfl, rfl,
    fun y hy => ?_, fun y hy => ?_, ⟨_, ga, rfl⟩, ⟨_, gc, rfl⟩, ⟨_, gb, rfl⟩, ?_⟩
  · obtain ⟨m, -, hm⟩ := hp01 y hy
    exact ⟨_, hm, rfl⟩
  · obtain ⟨m, -, hm⟩ := hp23 y hy
    exact ⟨_, hm, rfl⟩
  · rw [dfsIn_owns _ _ fuel hown (by simp only [Shape.size]; omega)]
    simp [Shape.ino]

/-- Claim C13 applies to the zig-zag of `skewHeap`, with `a` the root (key 10), `c` its
right child (key 30), `b` the left child of `c` (key 20) and four empty subtrees:
`connect34` returns `b`, and the in-order sequence from `b` is 10, 20, 30. -/
theorem connect34_contract_witness :
    (skewHeap[0]? = some (demoNode 10 none none (some 1)) ∧
      skewHeap[2]? = some (demoNode 20 (some 1) none none) ∧
      skewHeap[1]? = some (demoNode 30 (some 0) (some 2) none) ∧
      Owns skewHeap none (.nil : Shape Nat Unit) ∧
      (Shape.node (.node (.nil : Shape Nat Unit) 0 10 () .nil) 2 20 ()
        (.node .nil 1 30 () .nil)).addrs.Nodup) ∧
    ∃ h1 : Heap Nat Unit,
      connect34 skewHeap (some 0) (some 2) (some 1) none none none none = .ok (h1, some 2) ∧
      HeightOK h1 0 ∧ HeightOK h1 1 ∧ HeightOK h1 2 ∧
      dfsIn 4 h1 (some 2) = .ok [(10, ()), (20, ()), (30, ())] :=
  ⟨⟨rfl, rfl, rfl, rfl, by decide⟩,
    match connect34_contract skewHeap 0 2 1 _ _ _ none none none none .nil .nil .nil .nil
      rfl rfl rfl rfl rfl rfl rfl (by decide) 4 (by decide) with
    | ⟨h1, _, _, _, hrun, _, _, _, _, _, _, _, _, _, _, _, _, _, _, ha, hc, hb, hdfs⟩ =>
      ⟨h1, hrun, ha, hc, hb, hdfs⟩⟩

/-! # In-order neighbours and `updateHeightAbove`: the claims -/

theorem getLast_concat_one (xs : List Nat) (a : Nat) : (xs ++ [a]).getLast? = some a := by
  simp

/-- Claim C14: in a tree held by the heap, with consistent parent links and no node
occurring twice, let the in-order list of nodes be `pre`, then `a`, then `post`. Then
`successor(a)` returns the first node of `post`, the node that follows `a` in in-order,
and `nil` exactly when `a` is the last node; `precursor(a)` returns the last node of `pre`
and `nil` exactly when `a` is the first node; and `precursor` of a present successor, as
well as `successor` of a present precursor, is `a` again. -/
theorem successor_precursor_neighbours (h : Heap K V) (p : Option Nat) (T : Shape K V)
    (ho : Owns h p T) (hnd : T.addrs.Nodup) (hpar : Parented h none T) (pre post : List Nat)
    (a : Nat) (hs : T.addrs = pre ++ a :: post) (fuel : Nat) (hf : T.size < fuel) :
    successor fuel h (some a) = .ok post.head? ∧
    precursor fuel h (some a) = .ok pre.getLast? ∧
    (post.head? = none ↔ T.addrs.getLast? = some a) ∧
    (pre.getLast? = none ↔ T.addrs.head? = some a) ∧
    (∀ s, post.head? = some s → precursor fuel h (some s) = .ok (some a)) ∧
    (∀ s, pre.getLast? = some s → successor fuel h (some s) = .ok (some a)) := by
  have hnd1 := hnd
  rw [hs] at hnd1
  refine ⟨successor_split ho hnd hpar hs hf, precursor_split ho hnd hpar hs hf, ?_, ?_, ?_, ?_⟩
  · rw [hs]
    cases post with
    | nil => simp
    | cons s post1 =>
      simp only [List.head?_cons, false_iff]
      simp only [reduceCtorEq, false_iff]
      intro hlast
      rw [getLast_append_cons, List.getLast?_cons_cons] at hlast
      have hmem : a ∈ s :: post1 := List.mem_of_getLast?_eq_some hlast
      rw [List.nodup_append] at hnd1
      have := (List.nodup_cons.mp hnd1.2.1).1
      exact this hmem
  · rw [hs]
    cases pre with
    | nil => simp
    | cons x pre1 =>
      have hne : (x :: pre1).getLast? ≠ none := by simp
      simp only [hne, false_iff, List.cons_append, List.head?_cons, Option.some.injEq]
      rintro rfl
      rw [List.cons_append, List.nodup_cons] at hnd1
      exact hnd1.1 (by simp)
  · intro s hsucc
    cases post with
    | nil => simp at hsucc
    | cons s1 post1 =>
      simp only [List.head?_cons, Option.some.injEq] at hsucc
      subst hsucc
      have hs1 : T.addrs = (pre ++ [a]) ++ s1 :: post1 := by rw [hs]; simp
      rw [precursor_split ho hnd hpar hs1 hf, getLast_concat_one]
  · intro s hprec
    rcases List.eq_nil_or_concat pre with e | ⟨pre1, s1, e⟩
    · rw [e] at hprec
      simp at hprec
    · subst e
      rw [List.concat_eq_append, getLast_concat_one] at hprec
      cases hprec
      have hs1 : T.addrs = pre1 ++ s :: (a :: post) := by rw [hs]; simp
      rw [successor_split ho hnd hpar hs1 hf]
      rfl

/-- Claim C14 applies to node 4 of `demoBst` (key 4, a right child without children): the
in-order list of nodes is 3, 1, 4, 0, 5, 2, 6, so its successor is the root 0, found by
climbing, and its precursor is node 1; node 6 is last and has no successor. -/
theorem successor_precursor_neighbours_witness :
    (Owns demoBst.heap (some 0) demoShape ∧ demoShape.addrs.Nodup ∧
      Parented demoBst.heap none demoShape ∧ demoShape.addrs = [3, 1] ++ 4 :: [0, 5, 2, 6] ∧
      demoShape.size < 8) ∧
    (successor 8 demoBst.heap (some 4) = .ok (some 0) ∧
      precursor 8 demoBst.heap (some 4) = .ok (some 1) ∧
      precursor 8 demoBst.heap (some 0) = .ok (some 4) ∧
      successor 8 demoBst.heap (some 1) = .ok (some 4)) ∧
    successor 8 demoBst.heap (some 6) = .ok none :=
  ⟨⟨demoBst_owns, by decide, demoBst_parented, by decide, by decide⟩,
    ⟨(successor_precursor_neighbours demoBst.heap (some 0) demoShape demoBst_owns (by decide)
        demoBst_parented [3, 1] [0, 5, 2, 6] 4 (by decide) 8 (by decide)).1,
      (successor_precursor_neighbours demoBst.heap (some 0) demoShape demoBst_owns (by decide)
        demoBst_parented [3, 1] [0, 5, 2, 6] 4 (by decide) 8 (by decide)).2.1,
      (successor_precursor_neighbours demoBst.heap (some 0) demoShape demoBst_owns (by decide)
        demoBst_parented [3, 1] [0, 5, 2, 6] 4 (by decide) 8 (by decide)).2.2.2.2.1 0 rfl,
      (successor_precursor_neighbours demoBst.heap (some 0) demoShape demoBst_owns (by decide)
        demoBst_parented [3, 1] [0, 5, 2, 6] 4 (by decide) 8 (by decide)).2.2.2.2.2 1 rfl⟩,
    (successor_precursor_neighbours demoBst.heap (some 0) demoShape demoBst_owns (by decide)
      demoBst_parented [3, 1, 4, 0, 5, 2] [] 6 (by decide) 8 (by decide)).1⟩

/-- What `updateHeightAbove` does establish: in a tree held by the heap, with consistent
parent links and no node occurring twice, let the cached height of every node other than
`x` be the height `updateHeight` would store: the larger child height for a node whose
colour is `Red`, one more for every other node, with `-1` for an absent child. Then
`x.updateHeightAbove()` returns, changes nothing but cached heights, and afterwards this
holds of every node of the tree. If moreover every node of the tree has the colour `Red`
or `Black`, every node satisfies the formula in which red is what `isRed` reports. -/
theorem updateHeightAbove_restores (h : Heap K V) (p : Option Nat) (T : Shape K V)
    (ho : Owns h p T) (hnd : T.addrs.Nodup) (hpar : Parented h none T) (x : Nat)
    (hx : x ∈ T.addrs) (hok : ∀ y ∈ T.addrs, y ≠ x → HeightOK h y) (fuel : Nat)
    (hf : T.size < fuel) :
    ∃ h1, updateHeightAbove fuel h (some x) = .ok h1 ∧
      (∀ y : Nat, (h1[y]?).map eraseHeight = (h[y]?).map eraseHeight) ∧
      (∀ y ∈ T.addrs, HeightOK h1 y) ∧
      ((∀ y ∈ T.addrs, ∀ m, h[y]? = some m → m.color = Red ∨ m.color = Black) →
        ∀ y ∈ T.addrs, SpecHeightOK h1 y) := by
  obtain ⟨c, l, k, v, r, rfl⟩ := Shape.split_at T x hx
  have hsz := Ctx.fill_size c (Shape.node l x k v r)
  have hlen := Ctx.length_le_addrs c
  have hf1 : c.length + 1 < fuel := by
    simp only [Shape.size] at hsz
    omega
  obtain ⟨h1, hrun, hstrip, hall⟩ :=
    updateHeightAbove_fill c h (.node l x k v r) x fuel rfl ho hnd hpar hok hf1
  refine ⟨h1, hrun, hstrip, hall, fun hcol y hy => ?_⟩
  obtain ⟨n, hn1, hh⟩ := hall y hy
  obtain ⟨m, hm⟩ := ho.get_of_mem y hy
  have hc := strip_color (hstrip y)
  rw [hn1, hm] at hc
  simp only [Option.map_some', Option.some.injEq] at hc
  have hcn : n.color = Red ∨ n.color = Black := by
    rw [hc]
    exact hcol y hy m hm
  refine ⟨n, !decide (n.color = Black), hn1, ?_, ?_⟩
  · simp [isRed, isBlack, deref_of_get hn1]
  · rw [hh]
    exact newHeight_eq_specHeight _ _ _ hcn

/-- The theorem `updateHeightAbove_restores` applies to `staleHeap` and its node 1, to
which the leaf 3 has just been attached: the heights of the other nodes are consistent
with the cached ones, all nodes are black, and the call turns the heap into `tallHeap`,
raising the heights of node 1 and of the root. -/
theorem updateHeightAbove_restores_witness :
    (Owns staleHeap (some 0) tallShape ∧ tallShape.addrs.Nodup ∧
      Parented staleHeap none tallShape ∧ 1 ∈ tallShape.addrs ∧
      (∀ y ∈ tallShape.addrs, y ≠ 1 → HeightOK staleHeap y) ∧ ¬ HeightOK staleHeap 1 ∧
      tallShape.size < 5) ∧
    (∃ h1, updateHeightAbove 5 staleHeap (some 1) = .ok h1 ∧
      (∀ y : Nat, (h1[y]?).map eraseHeight = (staleHeap[y]?).map eraseHeight) ∧
      (∀ y ∈ tallShape.addrs, HeightOK h1 y) ∧
      ((∀ y ∈ tallShape.addrs, ∀ m, staleHeap[y]? = some m →
          m.color = Red ∨ m.color = Black) →
        ∀ y ∈ tallShape.addrs, SpecHeightOK h1 y)) ∧
    updateHeightAbove 5 staleHeap (some 1) = .ok tallHeap :=
  have hok : ∀ y ∈ tallShape.addrs, y ≠ 1 → HeightOK staleHeap y := by
    intro y hy hne
    simp only [tallShape, Shape.addrs, List.nil_append, List.cons_append, List.mem_cons,
      List.mem_singleton, List.not_mem_nil, or_false] at hy
    rcases hy with rfl | rfl | rfl | rfl
    · exact ⟨_, rfl, by decide⟩
    · exact absurd rfl hne
    · exact ⟨_, rfl, by decide⟩
    · exact ⟨_, rfl, by decide⟩
  have hbad : ¬ HeightOK staleHeap 1 := by
    rintro ⟨n, hn, hh⟩
    have e : staleHeap[1]? = some (blackNode 2 0 (some 0) (some 3) none) := rfl
    rw [e] at hn
    cases hn
    exact absurd hh (by decide)
  ⟨⟨staleHeap_owns, by decide, staleHeap_parented, by decide, hok, hbad, by decide⟩,
    updateHeightAbove_restores staleHeap (some 0) tallShape staleHeap_owns (by decide)
      staleHeap_parented 1 (by decide) hok 5 (by decide),
    by rfl⟩

/-- Claim C15 does not hold of `updateHeightAbove` on a node whose colour is the zero
value of `rbColor`, which `isRed` reports red but `updateHeight`, testing `color == Red`,
counts as black. The only node of `oneHeap` is such a node: the tree is well formed and
has no node other than `x`; `updateHeightAbove` returns and leaves the cached height 0,
while the node is red by `isRed`, for which the formula of the claim asks for the larger
child height, `-1`. This is the tree that `Insert(1)` builds from `NewBst()`. -/
theorem updateHeightAbove_colourless :
    (Owns oneHeap (some 0) oneShape ∧ oneShape.addrs.Nodup ∧ Parented oneHeap none oneShape ∧
      0 ∈ oneShape.addrs ∧ ∀ y ∈ oneShape.addrs, y ≠ 0 → SpecHeightOK oneHeap y) ∧
    updateHeightAbove 2 oneHeap (some 0) = .ok oneHeap ∧
    isRed oneHeap (some 0) = .ok true ∧ isBlack oneHeap (some 0) = .ok false ∧
    heightOf oneHeap (some 0) = 0 ∧
    specHeight true (heightOf oneHeap none) (heightOf oneHeap none) = -1 ∧
    ¬ SpecHeightOK oneHeap 0 ∧
    (∀ k : Nat, updateHeightAbove (k + 2) oneHeap (some 0) = .ok oneHeap) ∧
    ∃ t : Bst Nat, (NewBst : Bst Nat).Insert 2 1 = .ok (t, some 0) ∧ t.heap = oneHeap ∧
      t.root = some 0 := by
  refine ⟨⟨by simp [Owns, oneHeap, oneShape, demoNode], by decide,
    by simp [Parented, oneShape, oneHeap, demoNode], by decide, ?_⟩, by rfl, by rfl, by rfl,
    by rfl, by decide, ?_, fun k => rfl, ⟨_, by rfl, by rfl, by rfl⟩⟩
  · intro y hy hne
    simp only [oneShape, Shape.addrs, List.nil_append, List.mem_singleton] at hy
    exact absurd hy hne
  · rintro ⟨n, red, hn, hred, hh⟩
    have e1 : oneHeap[0]? = some (demoNode 1 none none none) := rfl
    have e2 : isRed oneHeap (some 0) = .ok true := rfl
    rw [e1] at hn
    rw [e2] at hred
    cases hn
    cases hred
    exact absurd hh (by decide)

/-! # The cases of `Remove` and the links of reachable trees: the claims -/

section removalCases
variable [LinearOrder K]

/-- Claim C19: let the tree `t` satisfy the invariant with shape `T`, and let the search
for `v` end at node `a` with record `n`, in the slot `x` that `searchAt` returns. Then
`Remove(v)` returns `true` and keeps the invariant, and: if `a` has no left child, the
slot `x` holds the former right child of `a`; else if `a` has no right child, it holds
the former left child; in both cases `a` is no node of the tree any more, `hot` is the
former parent of `a` and the replacing child, if present, has `hot` as parent. If `a` has
both children, let `s` be its successor, the leftmost node of its right subtree, with
parent `q`: `s` has no left child; the slot `x` still holds `a`, whose record has the key
of `s` and the parent and left child it had; the child link of `q` that referred to `s`
holds the former right child of `s`; `s` is no node of the tree any more; `hot` is `q` and
the former right child of `s`, if present, has `hot` as parent. -/
theorem remove_cases (t : Bst K) (T : Shape K Unit) (hinv : t.Inv T) (v : K) (a : Nat)
    (n : BinNode K Unit) (hfind : T.find v = some a) (hn : t.heap[a]? = some n) (fuel : Nat)
    (hf : T.size < fuel) :
    ∃ (t1 : Bst K) (x : Slot) (hot0 : Option Nat),
      t.searchAt fuel .root v = .ok ({ t with hot := hot0 }, x) ∧
      t.readSlot x = .ok (some a) ∧ n.key = v ∧
      t.Remove fuel v = .ok (t1, true) ∧ t1.Inv (T.remove v) ∧
      (n.lc = none → t1.readSlot x = .ok n.rc ∧ t1.hot = n.parent ∧
        a ∉ (T.remove v).addrs ∧
        ∀ c, n.rc = some c → ∃ m, t1.heap[c]? = some m ∧ m.parent = t1.hot) ∧
      (n.lc ≠ none → n.rc = none → t1.readSlot x = .ok n.lc ∧ t1.hot = n.parent ∧
        a ∉ (T.remove v).addrs ∧
        ∀ c, n.lc = some c → ∃ m, t1.heap[c]? = some m ∧ m.parent = t1.hot) ∧
      (n.lc ≠ none → n.rc ≠ none → ∃ (s q : Nat) (ns nq m mq : BinNode K Unit),
        successor fuel t.heap (some a) = .ok (some s) ∧
        leftmostLoop fuel t.heap n.rc = .ok (some s) ∧
        t.heap[s]? = some ns ∧ ns.lc = none ∧ ns.parent = some q ∧ t.heap[q]? = some nq ∧
        (if q = a then n.rc = some s else nq.lc = some s) ∧
        t1.readSlot x = .ok (some a) ∧ t1.heap[a]? = some m ∧ m.key = ns.key ∧
        m.parent = n.parent ∧ m.lc = n.lc ∧
        t1.heap[q]? = some mq ∧ (if q = a then mq.rc = ns.rc else mq.lc = ns.rc) ∧
        s ∉ (T.remove v).addrs ∧ t1.hot = some q ∧
        ∀ c, ns.rc = some c → ∃ mc, t1.heap[c]? = some mc ∧ mc.parent = t1.hot) := by
  obtain ⟨c, l, u, r, hT, hrem, hslot⟩ := Shape.find_split v T a hfind
  have hrd := readSlot_searchSlot v T
    { t with hot := (T.searchSlot v .root none).2, size := t.size - 1 } .root
    t.root none rfl hinv.owns
  rw [hslot] at hrd
  dsimp only at hrd
  rw [hfind] at hrd
  have hrd0 := readSlot_searchSlot v T t .root t.root none rfl hinv.owns
  rw [hslot] at hrd0
  dsimp only at hrd0
  rw [hfind] at hrd0
  have ho := hinv.owns
  have hnd := hinv.nodup
  have hpa := hinv.parents
  rw [hT] at ho hnd hpa
  obtain ⟨hSnd, _, hdisj⟩ := Ctx.nodup_fill hnd
  obtain ⟨q0, hq0⟩ := Owns.of_fill c _ _ ho
  have hq0a : q0 = some a := hq0.1
  rw [hq0a] at hq0
  have hpS := Parented.of_fill_par c _ _ hpa
  have hsize : (Shape.node l a v u r).size ≤ fuel := by
    have := Ctx.fill_size c (Shape.node l a v u r)
    rw [← hT] at this
    omega
  have haS : a ∈ (Shape.node l a v u r).addrs :=
    Shape.mem_addrs_node.mpr (Or.inr (Or.inl rfl))
  obtain ⟨n0, hn0, hkey⟩ := Owns.find_key v T t.root a hinv.owns hfind
  rw [hn] at hn0
  cases hn0
  obtain ⟨t1, s, hrun, hc1, hc2, hc3, hc4⟩ := Bst.removeAt_cases
    (t := { t with hot := (T.searchSlot v .root none).2, size := t.size - 1 })
    (x := Ctx.slot .root c) fuel hrd hq0 hpS hSnd
    (by
      intro d hd hdS
      cases c with
      | nil => cases hd
      | cons f c1 =>
        have hfa : f.addr ∈ Ctx.addrs (f :: c1) := by
          cases f <;> simp [Ctx.addrs, Frame.addrs, Frame.addr]
        have hde : f.addr = d := by
          cases f <;> simpa [Ctx.slot, Frame.slot, Slot.holder, Frame.addr] using hd
        exact hdisj d hdS (hde ▸ hfa)) hsize hn
  have hrd2 := readSlot_searchSlot v T { t with hot := (T.searchSlot v .root none).2 } .root
    t.root none rfl hinv.owns
  have hremove : t.Remove fuel v = .ok (t1, true) := by
    rw [Bst.Remove, Bst.searchAt_inv hinv v hf]
    dsimp only
    rw [hrd2, hfind]
    dsimp only
    rw [hslot]
    dsimp only
    rw [hslot] at hrun
    dsimp only at hrun
    rw [hrun]
  obtain ⟨t2, hrem2, hinv2, -, -⟩ := Bst.Remove_present hinv v hfind hf
  rw [hremove] at hrem2
  cases hrem2
  have hgone : ∀ y, y ∈ (Shape.node l a v u r).addrs →
      y ∉ (Shape.node l a v u r).removeRoot.addrs → y ∉ (T.remove v).addrs := by
    intro y hy hny hmem
    rw [hrem] at hmem
    rcases Ctx.mem_fill_addrs.mp hmem with e | e
    · exact hny e
    · exact hdisj y hy e
  refine ⟨t1, Ctx.slot .root c, Ctx.parent none c, ?_, hrd0, hkey, hremove, hinv2, ?_, ?_, ?_⟩
  · rw [Bst.searchAt_inv hinv v hf, hslot]
  · intro hlc
    obtain ⟨e1, e2, e3, e4⟩ := hc1 hlc
    exact ⟨e1, e2, hgone a haS e4, fun cc hcc => hc4 cc (e3.trans hcc)⟩
  · intro hlc hrc
    obtain ⟨e1, e2, e3, e4⟩ := hc2 hlc hrc
    exact ⟨e1, e2, hgone a haS e4, fun cc hcc => hc4 cc (e3.trans hcc)⟩
  · intro hlc hrc
    obtain ⟨w, q, nw, nq, m, mq, e1, e2, e3, e4, e5, e6, e7, e8, e9, e10, e11, e12, e13,
      e14, e15, e16, e17⟩ := hc3 hlc hrc
    have hwS : w ∈ (Shape.node l a v u r).addrs := by
      obtain ⟨-, n1, hn1, -, -, -, hr⟩ := hq0
      have hn' : t.heap[a]? = some n1 := hn1
      rw [hn] at hn'
      cases hn'
      have hrne : r ≠ .nil := by
        rintro rfl
        exact hrc hr
      have hrs : r.size ≤ fuel := by
        simp only [Shape.size] at hsize
        omega
      have hlm := leftmostLoop_head r n.rc fuel hr hrne hrs
      have e2' : leftmostLoop fuel t.heap n.rc = .ok (some w) := e2
      rw [hlm] at e2'
      have hhead : r.addrs.head? = some w := by
        injection e2'
      exact Shape.mem_addrs_node.mpr (Or.inr (Or.inr (List.mem_of_mem_head? hhead)))
    exact ⟨w, q, nw, nq, m, mq, e1, e2, e3, e4, e5, e6, e7, e8, e9, e10, e11, e12, e13,
      e14, hgone w hwS e15, e16, fun cc hcc => hc4 cc (e17.trans hcc)⟩

/-- Claim C19 applies to `demoBst` and the key 5 of its root, which has both children: the
successor is node 5 (key 7), the left child of node 2; evaluated, `Remove(5)` leaves the
root in place with key 7, empties the left link of node 2 and sets `hot` to node 2.
`Remove(1)` takes out the leaf 3, empties the left link of its parent 1 and sets `hot` to
node 1. -/
theorem remove_cases_witness :
    (demoBst.Inv demoShape ∧ demoShape.find 5 = some 0 ∧
      demoBst.heap[0]? = some (demoNode 5 none (some 1) (some 2)) ∧ demoShape.size < 8) ∧
    (∃ (t1 : Bst Nat) (x : Slot), demoBst.readSlot x = .ok (some 0) ∧
      demoBst.Remove 8 5 = .ok (t1, true) ∧ t1.Inv (demoShape.remove 5) ∧
      ∃ (s q : Nat) (ns nq m mq : BinNode Nat Unit),
        successor 8 demoBst.heap (some 0) = .ok (some s) ∧
        leftmostLoop 8 demoBst.heap (demoNode 5 none (some 1) (some 2)).rc = .ok (some s) ∧
        demoBst.heap[s]? = some ns ∧ ns.lc = none ∧ ns.parent = some q ∧
        demoBst.heap[q]? = some nq ∧
        (if q = 0 then (demoNode 5 none (some 1) (some 2)).rc = some s
          else nq.lc = some s) ∧
        t1.readSlot x = .ok (some 0) ∧ t1.heap[0]? = some m ∧ m.key = ns.key ∧
        m.parent = (demoNode 5 none (some 1) (some 2)).parent ∧
        m.lc = (demoNode 5 none (some 1) (some 2)).lc ∧
        t1.heap[q]? = some mq ∧ (if q = 0 then mq.rc = ns.rc else mq.lc = ns.rc) ∧
        s ∉ (demoShape.remove 5).addrs ∧ t1.hot = some q ∧
        ∀ c, ns.rc = some c → ∃ mc, t1.heap[c]? = some mc ∧ mc.parent = t1.hot) ∧
    (∃ t1 : Bst Nat, demoBst.Remove 8 5 = .ok (t1, true) ∧ t1.hot = some 2 ∧
      t1.root = some 0 ∧ t1.heap[0]? = some (demoNode 7 none (some 1) (some 2)) ∧
      t1.heap[2]? = some (demoNode 8 (some 0) none (some 6))) ∧
    (∃ t1 : Bst Nat, demoBst.Remove 8 1 = .ok (t1, true) ∧ t1.hot = some 1 ∧
      t1.heap[1]? = some (demoNode 3 (some 0) none (some 4))) :=
  ⟨⟨demoBst_inv, by decide, rfl, by decide⟩,
    match remove_cases demoBst demoShape demoBst_inv 5 0 _ (by decide) rfl 8 (by decide) with
    | ⟨t1, x, _, _, h2, _, h4, h5, _, _, h8⟩ =>
      ⟨t1, x, h2, h4, h5, h8 (by decide) (by decide)⟩,
    ⟨_, by rfl, by rfl, by rfl, by rfl, by rfl⟩,
    ⟨_, by rfl, by rfl, by rfl⟩⟩

/-- Claim C20: in every tree reachable from `NewBst()` by `Insert` and `Remove` calls the
nodes reachable from the root form a tree `T` without repetition such that the parent link
of the root is `nil`; for every node `y` of it a present left or right child is a node of
the tree whose parent link is `y`, and a present parent is a node of the tree that refers
to `y` in exactly one of its two child links; and the field `size` is the number of nodes,
which is what the method `size` returns on the root. -/
theorem links_consistent (t : Bst K) (hr : t.Reachable) :
    ∃ T : Shape K Unit, Owns t.heap t.root T ∧ T.addrs.Nodup ∧
      (∀ a n, t.root = some a → t.heap[a]? = some n → n.parent = none) ∧
      (∀ y ∈ T.addrs, ∃ n, t.heap[y]? = some n ∧
        (∀ c, n.lc = some c → c ∈ T.addrs ∧ ∃ m, t.heap[c]? = some m ∧ m.parent = some y) ∧
        (∀ c, n.rc = some c → c ∈ T.addrs ∧ ∃ m, t.heap[c]? = some m ∧ m.parent = some y) ∧
        (∀ q, n.parent = some q → q ∈ T.addrs ∧ ∃ m, t.heap[q]? = some m ∧
          ((m.lc = some y ∧ m.rc ≠ some y) ∨ (m.lc ≠ some y ∧ m.rc = some y)))) ∧
      t.size = T.size ∧
      ∀ fuel, T.size < fuel → size fuel t.heap t.root = .ok t.size := by
  obtain ⟨T, hinv⟩ := hr.inv
  refine ⟨T, hinv.owns, hinv.nodup, ?_, ?_, hinv.size_eq, ?_⟩
  · intro a n hroot hn
    obtain ⟨m, hm, hmp⟩ := Parented.root_parent hinv.parents
      (hinv.owns.root_eq.symm.trans hroot)
    rw [hn] at hm
    cases hm
    exact hmp
  · intro y hy
    obtain ⟨n, hn⟩ := hinv.owns.get_of_mem y hy
    refine ⟨n, hn, fun c hc => ?_, fun c hc => ?_, fun q hq => ?_⟩
    · exact Owns.child_parent hinv.owns hinv.parents hy hn (Or.inl hc)
    · exact Owns.child_parent hinv.owns hinv.parents hy hn (Or.inr hc)
    · rcases Owns.parent_child hinv.owns hinv.parents hinv.nodup hy hn with ⟨-, e⟩ | h1
      · rw [e] at hq
        cases hq
      · obtain ⟨q1, m, hq1, hp, hm, hx⟩ := h1
        rw [hp] at hq
        cases hq
        exact ⟨hq1, m, hm, hx⟩
  · intro fuel hf
    rw [size_owns T t.root fuel hinv.owns hf, hinv.size_eq]

/-- Claim C20 applies to `demoBst`, the tree seven insertions build: it is reachable, and
evaluated, the method `size` returns 7 on its root, the value of the field `size`. -/
theorem links_consistent_witness :
    demoBst.Reachable ∧
    (∃ T : Shape Nat Unit, Owns demoBst.heap demoBst.root T ∧ T.addrs.Nodup ∧
      (∀ a n, demoBst.root = some a → demoBst.heap[a]? = some n → n.parent = none) ∧
      (∀ y ∈ T.addrs, ∃ n, demoBst.heap[y]? = some n ∧
        (∀ c, n.lc = some c →
          c ∈ T.addrs ∧ ∃ m, demoBst.heap[c]? = some m ∧ m.parent = some y) ∧
        (∀ c, n.rc = some c →
          c ∈ T.addrs ∧ ∃ m, demoBst.heap[c]? = some m ∧ m.parent = some y) ∧
        (∀ q, n.parent = some q → q ∈ T.addrs ∧ ∃ m, demoBst.heap[q]? = some m ∧
          ((m.lc = some y ∧ m.rc ≠ some y) ∨ (m.lc ≠ some y ∧ m.rc = some y)))) ∧
      demoBst.size = T.size ∧
      ∀ fuel, T.size < fuel → size fuel demoBst.heap demoBst.root = .ok demoBst.size) ∧
    size 8 demoBst.heap demoBst.root = .ok 7 ∧ demoBst.size = 7 :=
  ⟨demoBst_reachable, links_consistent demoBst demoBst_reachable, by rfl, rfl⟩

end removalCases

end tree

namespace vector

variable {α : Type}

/-! # The vector: the claims -/

theorem at_valid (vec : Vector α) (r : Int) (h0 : 0 ≤ r) (h1 : r < vec.Size) {x : α}
    (hx : vec.elem[r.toNat]? = some x) : vec.At r = .ok (.value x) := by
  have hv : vec.validRank r = true := (validRank_iff vec r).mpr ⟨h0, h1⟩
  simp [Vector.At, hv, index_of_get h0 hx]

theorem at_invalid (vec : Vector α) (r : Int) (h : r < 0 ∨ vec.Size ≤ r) :
    vec.At r = .ok .failure := by
  have hv : vec.validRank r = false := by
    cases hh : vec.validRank r with
    | false => rfl
    | true =>
      have := (validRank_iff vec r).mp hh
      omega
  simp [Vector.At, hv]

theorem size_nonneg (vec : Vector α) : 0 ≤ vec.Size := by
  simp [Vector.Size]

theorem front_back_empty (vec : Vector α) (h : vec.Size = 0) :
    vec.Front = .ok .failure ∧ vec.Back = .ok .failure := by
  simp [Vector.Front, Vector.Back, Vector.Empty, h]

theorem front_back_value (vec : Vector α) (h : 0 < vec.Size) :
    ∃ x y, vec.elem.head? = some x ∧ vec.elem.getLast? = some y ∧
      vec.elem[(vec.Size - 1).toNat]? = some y ∧
      vec.Front = .ok (.value x) ∧ vec.Back = .ok (.value y) := by
  obtain ⟨x, hx⟩ := @get_of_valid α vec.elem 0 (le_refl 0) h
  obtain ⟨y, hy⟩ := @get_of_valid α vec.elem (vec.Size - 1)
    (by omega) (by simp only [Vector.Size]; omega)
  have he : vec.Empty = false := by
    simp only [Vector.Empty, decide_eq_false_iff_not]
    omega
  have hlast : (vec.Size - 1).toNat = vec.elem.length - 1 := by
    simp only [Vector.Size]
    omega
  refine ⟨x, y, ?_, ?_, hy, ?_, ?_⟩
  · rw [List.head?_eq_getElem?]
    exact hx
  · rw [List.getLast?_eq_getElem?, ← hlast]
    exact hy
  · simp [Vector.Front, he, index_of_get (le_refl 0) hx]
  · simp [Vector.Back, he, index_of_get (show (0 : Int) ≤ vec.Size - 1 by omega) hy]

/-- Claim C16: on every vector and every rank `r`, `At(r)` and `Remove(r)` return an error
exactly when `r < 0` or `r >= Size()`, and `Front()`, `Back()` and `Pop()` exactly when the
vector is empty; none of them aborts, and in the error case the vector is unchanged (`At`,
`Front` and `Back` never change it). Otherwise `At(r)` returns the element at `r`,
`Front()` and `Back()` the first and the last element, `Remove(r)` returns the element at
`r` and leaves the sequence with position `r` erased and `Size()` one less, and `Pop()`
does so for the last position. -/
theorem checked_access (vec : Vector α) (r : Int) :
    (vec.At r = .ok .failure ↔ (r < 0 ∨ vec.Size ≤ r)) ∧
    ((∃ vec1, vec.Remove r = .ok (vec1, .failure)) ↔ (r < 0 ∨ vec.Size ≤ r)) ∧
    (r < 0 ∨ vec.Size ≤ r → vec.Remove r = .ok (vec, .failure)) ∧
    (vec.Front = .ok .failure ↔ vec.Size = 0) ∧ (vec.Back = .ok .failure ↔ vec.Size = 0) ∧
    ((∃ vec1, vec.Pop = .ok (vec1, .failure)) ↔ vec.Size = 0) ∧
    (vec.Size = 0 → vec.Pop = .ok (vec, .failure)) ∧
    (0 ≤ r → r < vec.Size → ∃ x vec1, vec.elem[r.toNat]? = some x ∧
      vec.At r = .ok (.value x) ∧ vec.Remove r = .ok (vec1, .value x) ∧
      vec1.elem = vec.elem.eraseIdx r.toNat ∧ vec1.Size = vec.Size - 1) ∧
    (0 < vec.Size → ∃ x y vec1, vec.elem.head? = some x ∧ vec.elem.getLast? = some y ∧
      vec.Front = .ok (.value x) ∧ vec.Back = .ok (.value y) ∧
      vec.Pop = .ok (vec1, .value y) ∧ vec1.elem = vec.elem.dropLast ∧
      vec1.Size = vec.Size - 1) := by
  have hsz := size_nonneg vec
  have hvalid : 0 ≤ r → r < vec.Size → ∃ x vec1, vec.elem[r.toNat]? = some x ∧
      vec.At r = .ok (.value x) ∧ vec.Remove r = .ok (vec1, .value x) ∧
      vec1.elem = vec.elem.eraseIdx r.toNat ∧ vec1.Size = vec.Size - 1 := by
    intro h0 h1
    obtain ⟨x, vec1, hx, hrm, he, hs⟩ := remove_valid vec r h0 h1
    exact ⟨x, vec1, hx, at_valid vec r h0 h1 hx, hrm, he, hs⟩
  have hpop : 0 < vec.Size → ∃ x y vec1, vec.elem.head? = some x ∧
      vec.elem.getLast? = some y ∧
      vec.Front = .ok (.value x) ∧ vec.Back = .ok (.value y) ∧
      vec.Pop = .ok (vec1, .value y) ∧ vec1.elem = vec.elem.dropLast ∧
      vec1.Size = vec.Size - 1 := by
    intro hpos
    obtain ⟨x, y, hx, hy, hy2, hf, hb⟩ := front_back_value vec hpos
    obtain ⟨y1, vec1, hy1, hrm, he, hs⟩ :=
      remove_valid vec (vec.Size - 1) (by omega) (by omega)
    rw [hy2] at hy1
    cases hy1
    refine ⟨x, y, vec1, hx, hy, hf, hb, hrm, ?_, hs⟩
    rw [he]
    refine (List.dropLast_eq_eraseIdx ?_).symm
    simp only [Vector.Size] at hpos ⊢
    omega
  refine ⟨⟨fun h => ?_, at_invalid vec r⟩, ⟨fun h => ?_, fun h => ⟨vec, remove_invalid vec r h⟩⟩,
    remove_invalid vec r, ⟨fun h => ?_, fun h => (front_back_empty vec h).1⟩,
    ⟨fun h => ?_, fun h => (front_back_empty vec h).2⟩,
    ⟨fun h => ?_, fun h => ⟨vec, remove_invalid vec _ (by omega)⟩⟩,
    fun h => remove_invalid vec _ (by omega), hvalid, hpop⟩
  · by_contra hne
    obtain ⟨x, vec1, -, hat, -⟩ := hvalid (by omega) (by omega)
    rw [hat] at h
    cases h
  · by_contra hne
    obtain ⟨vec2, h⟩ := h
    obtain ⟨x, vec1, -, -, hrm, -⟩ := hvalid (by omega) (by omega)
    rw [hrm] at h
    cases h
  · by_contra hne
    obtain ⟨x, y, vec1, -, -, hf, -⟩ := hpop (by omega)
    rw [hf] at h
    cases h
  · by_contra hne
    obtain ⟨x, y, vec1, -, -, -, hb, -⟩ := hpop (by omega)
    rw [hb] at h
    cases h
  · by_contra hne
    obtain ⟨vec2, h⟩ := h
    obtain ⟨x, y, vec1, -, -, -, -, hp, -⟩ := hpop (by omega)
    rw [hp] at h
    cases h

/-- Claim C16 on the vector 10, 20, 30 and on the empty vector: rank 1 is valid and rank 3
is not; evaluated, `At(1)` is 20, `Remove(1)` leaves 10, 30, `Pop()` returns 30, and on
the empty vector `Front()`, `Back()` and `Pop()` return an error. -/
theorem checked_access_witness :
    ((0 : Int) ≤ 1 ∧ (1 : Int) < (⟨[10, 20, 30], 3⟩ : Vector Nat).Size ∧
      (⟨[10, 20, 30], 3⟩ : Vector Nat).Size ≤ 3) ∧
    (∃ x vec1, (⟨[10, 20, 30], 3⟩ : Vector Nat).elem[(1 : Int).toNat]? = some x ∧
      (⟨[10, 20, 30], 3⟩ : Vector Nat).At 1 = .ok (.value x) ∧
      (⟨[10, 20, 30], 3⟩ : Vector Nat).Remove 1 = .ok (vec1, .value x) ∧
      vec1.elem = (⟨[10, 20, 30], 3⟩ : Vector Nat).elem.eraseIdx (1 : Int).toNat ∧
      vec1.Size = (⟨[10, 20, 30], 3⟩ : Vector Nat).Size - 1) ∧
    (⟨[10, 20, 30], 3⟩ : Vector Nat).Remove 3 = .ok (⟨[10, 20, 30], 3⟩, .failure) ∧
    (⟨[10, 20, 30], 3⟩ : Vector Nat).At 1 = .ok (.value 20) ∧
    (⟨[10, 20, 30], 3⟩ : Vector Nat).At 3 = .ok .failure ∧
    (⟨[10, 20, 30], 3⟩ : Vector Nat).Remove 1 = .ok (⟨[10, 30], 3⟩, .value 20) ∧
    (⟨[10, 20, 30], 3⟩ : Vector Nat).Pop = .ok (⟨[10, 20], 3⟩, .value 30) ∧
    (⟨[], 3⟩ : Vector Nat).Front = .ok .failure ∧ (⟨[], 3⟩ : Vector Nat).Back = .ok .failure ∧
    (⟨[], 3⟩ : Vector Nat).Pop = .ok (⟨[], 3⟩, .failure) :=
  ⟨⟨by decide, by decide, by decide⟩,
    (checked_access (⟨[10, 20, 30], 3⟩ : Vector Nat) 1).2.2.2.2.2.2.2.1 (by decide) (by decide),
    (checked_access (⟨[10, 20, 30], 3⟩ : Vector Nat) 3).2.2.1 (Or.inr (by decide)),
    by rfl, by rfl, by rfl, by rfl, by rfl, by rfl, by rfl⟩

/-- Claim C17 does not hold of `Deduplicate`: on the vector 1, 1, 1 it returns 1 and
leaves 1, 1, in which two positions hold equal elements. After `Remove(i)` the loop goes
on with `i + 1`, so the element that moved to position `i` is never looked at. -/
theorem deduplicate_skips (k : Nat) :
    Vector.Deduplicate (k + 4) (⟨[1, 1, 1], 3⟩ : Vector Nat) = .ok (⟨[1, 1], 3⟩, 1) ∧
    ¬ (⟨[1, 1], 3⟩ : Vector Nat).elem.Nodup ∧
    (⟨[1, 1, 1], 3⟩ : Vector Nat).elem.dedup = [1] :=
  ⟨rfl, by decide, by decide⟩

section search
variable [LinearOrder α]

/-- Claim C18: on a vector sorted in non-decreasing order, `SearchRange(v, lo, hi)` with
`0 <= lo <= hi <= Size()` returns a rank `r` with `lo - 1 <= r < hi` such that no element
at a rank from `lo` up to `r` is greater than `v` and every element at a rank above `r`
and below `hi` is greater than `v`: the greatest rank in the range whose element is not
greater than `v`, and `lo - 1` exactly when every element of the range is greater than
`v`. `Search(v)` is the case `lo = 0`, `hi = Size()`, with `-1` when no element is not
greater than `v`. -/
theorem search_greatest_rank (vec : Vector α) (v : α) (hs : vec.elem.Sorted (· ≤ ·))
    (fuel : Nat) (lo hi : Int) (h0 : 0 ≤ lo) (h1 : lo ≤ hi) (h2 : hi ≤ vec.Size)
    (hf : vec.Size < fuel) :
    (∃ r, vec.SearchRange fuel v lo hi = .ok r ∧ lo - 1 ≤ r ∧ r < hi ∧
      (∀ (i : Int) (x : α), lo ≤ i → i ≤ r → vec.elem[i.toNat]? = some x → ¬ v < x) ∧
      (∀ (i : Int) (x : α), r < i → i < hi → vec.elem[i.toNat]? = some x → v < x) ∧
      (r = lo - 1 ↔
        ∀ (i : Int) (x : α), lo ≤ i → i < hi → vec.elem[i.toNat]? = some x → v < x)) ∧
    (∃ r, vec.Search fuel v = .ok r ∧ -1 ≤ r ∧ r < vec.Size ∧
      (∀ (i : Int) (x : α), 0 ≤ i → i ≤ r → vec.elem[i.toNat]? = some x → ¬ v < x) ∧
      (∀ (i : Int) (x : α), r < i → i < vec.Size → vec.elem[i.toNat]? = some x → v < x) ∧
      (r = -1 ↔
        ∀ (i : Int) (x : α), 0 ≤ i → i < vec.Size → vec.elem[i.toNat]? = some x → v < x)) := by
  have key : ∀ lo hi : Int, 0 ≤ lo → lo ≤ hi → hi ≤ vec.Size →
      ∃ r, vec.binarySearchV2 fuel v lo hi = .ok r ∧ lo - 1 ≤ r ∧ r < hi ∧
      (∀ (i : Int) (x : α), lo ≤ i → i ≤ r → vec.elem[i.toNat]? = some x → ¬ v < x) ∧
      (∀ (i : Int) (x : α), r < i → i < hi → vec.elem[i.toNat]? = some x → v < x) ∧
      (r = lo - 1 ↔
        ∀ (i : Int) (x : α), lo ≤ i → i < hi → vec.elem[i.toNat]? = some x → v < x) := by
    intro lo hi h0 h1 h2
    obtain ⟨r, hrun, hr1, hr2, hle, hgt⟩ :=
      binarySearchV2_sorted vec v hs fuel lo hi h0 h1 h2 (by omega)
    refine ⟨r, hrun, hr1, hr2, hle, hgt, fun e i x hi1 hi2 hx => ?_, fun hall => ?_⟩
    · exact hgt i x (by omega) hi2 hx
    · by_contra hne
      have hr0 : lo ≤ r := by omega
      obtain ⟨x, hx⟩ := @get_of_valid α vec.elem r (by omega)
        (by simp only [Vector.Size] at h2; omega)
      exact hle r x hr0 (le_refl r) hx (hall r x hr0 hr2 hx)
  refine ⟨key lo hi h0 h1 h2, ?_⟩
  obtain ⟨r, hrun, hr1, hr2, hle, hgt, hiff⟩ := key 0 vec.Size (le_refl 0) (size_nonneg vec)
    (le_refl _)
  exact ⟨r, hrun, by omega, hr2, hle, hgt, by simpa using hiff⟩

end search

/-- Claim C18 on the sorted vector 1, 3, 5, 7: evaluated, `Search(4)` returns rank 1,
`Search(0)` returns `-1`, `Search(7)` returns rank 3 and `SearchRange(4, 2, 4)` returns 1,
the rank below the range. -/
theorem search_greatest_rank_witness :
    ((⟨[1, 3, 5, 7], 4⟩ : Vector Nat).elem.Sorted (· ≤ ·) ∧ (0 : Int) ≤ 2 ∧ (2 : Int) ≤ 4 ∧
      (4 : Int) ≤ (⟨[1, 3, 5, 7], 4⟩ : Vector Nat).Size ∧
      (⟨[1, 3, 5, 7], 4⟩ : Vector Nat).Size < (5 : Nat)) ∧
    (∃ r, (⟨[1, 3, 5, 7], 4⟩ : Vector Nat).Search 5 4 = .ok r ∧ -1 ≤ r ∧
      r < (⟨[1, 3, 5, 7], 4⟩ : Vector Nat).Size ∧
      (∀ (i : Int) (x : Nat), 0 ≤ i → i ≤ r →
        (⟨[1, 3, 5, 7], 4⟩ : Vector Nat).elem[i.toNat]? = some x → ¬ 4 < x) ∧
      (∀ (i : Int) (x : Nat), r < i → i < (⟨[1, 3, 5, 7], 4⟩ : Vector Nat).Size →
        (⟨[1, 3, 5, 7], 4⟩ : Vector Nat).elem[i.toNat]? = some x → 4 < x) ∧
      (r = -1 ↔ ∀ (i : Int) (x : Nat), 0 ≤ i → i < (⟨[1, 3, 5, 7], 4⟩ : Vector Nat).Size →
        (⟨[1, 3, 5, 7], 4⟩ : Vector Nat).elem[i.toNat]? = some x → 4 < x)) ∧
    (⟨[1, 3, 5, 7], 4⟩ : Vector Nat).Search 5 4 = .ok 1 ∧
    (⟨[1, 3, 5, 7], 4⟩ : Vector Nat).Search 5 0 = .ok (-1) ∧
    (⟨[1, 3, 5, 7], 4⟩ : Vector Nat).Search 5 7 = .ok 3 ∧
    (⟨[1, 3, 5, 7], 4⟩ : Vector Nat).SearchRange 5 4 2 4 = .ok 1 :=
  ⟨⟨by decide, by decide, by decide, by decide, by decide⟩,
    (search_greatest_rank (⟨[1, 3, 5, 7], 4⟩ : Vector Nat) 4 (by decide) 5 2 4 (by decide)
      (by decide) (by decide) (by decide)).2,
    by rfl, by rfl, by rfl, by rfl⟩

end vector

namespace tree

variable {K V : Type}

/-! # Rotations and `connect34` produce the same records -/

/-- In the tree that `connect34` builds no node occurs twice: the three nodes differ, the
four subtrees hold none of them, and no two subtrees share a node. -/
theorem shape34_distinct {T0 T1 T2 T3 : Shape K V} {a b c : Nat} {ka kb kc : K} {va vb vc : V}
    (hnd : (Shape.node (.node T0 a ka va T1) b kb vb (.node T2 c kc vc T3)).addrs.Nodup) :
    (a ≠ b ∧ b ≠ c ∧ a ≠ c) ∧
    (∀ y, y ∈ T0.addrs ∨ y ∈ T1.addrs ∨ y ∈ T2.addrs ∨ y ∈ T3.addrs →
      y ≠ a ∧ y ≠ b ∧ y ≠ c) ∧
    (∀ y, y ∈ T0.addrs → y ∉ T1.addrs ∧ y ∉ T2.addrs ∧ y ∉ T3.addrs) ∧
    (∀ y, y ∈ T1.addrs → y ∉ T2.addrs ∧ y ∉ T3.addrs) ∧
    (∀ y, y ∈ T2.addrs → y ∉ T3.addrs) := by
  obtain ⟨hLnd, hRnd, hbL, hbR, hLR⟩ := Shape.nodup_node hnd
  obtain ⟨-, -, ha0, ha1, h01⟩ := Shape.nodup_node hLnd
  obtain ⟨-, -, hc2, hc3, h23⟩ := Shape.nodup_node hRnd
  have haL : a ∈ (Shape.node T0 a ka va T1).addrs :=
    Shape.mem_addrs_node.mpr (Or.inr (Or.inl rfl))
  have hcR : c ∈ (Shape.node T2 c kc vc T3).addrs :=
    Shape.mem_addrs_node.mpr (Or.inr (Or.inl rfl))
  have m0 : ∀ y, y ∈ T0.addrs → y ∈ (Shape.node T0 a ka va T1).addrs :=
    fun y hy => Shape.mem_addrs_node.mpr (Or.inl hy)
  have m1 : ∀ y, y ∈ T1.addrs → y ∈ (Shape.node T0 a ka va T1).addrs :=
    fun y hy => Shape.mem_addrs_node.mpr (Or.inr (Or.inr hy))
  have m2 : ∀ y, y ∈ T2.addrs → y ∈ (Shape.node T2 c kc vc T3).addrs :=
    fun y hy => Shape.mem_addrs_node.mpr (Or.inl hy)
  have m3 : ∀ y, y ∈ T3.addrs → y ∈ (Shape.node T2 c kc vc T3).addrs :=
    fun y hy => Shape.mem_addrs_node.mpr (Or.inr (Or.inr hy))
  have nL : ∀ y, y ∈ (Shape.node T0 a ka va T1).addrs → y ≠ b ∧ y ≠ c :=
    fun y hy => ⟨fun e => hbL (e ▸ hy), fun e => hLR y hy (e ▸ hcR)⟩
  have nR : ∀ y, y ∈ (Shape.node T2 c kc vc T3).addrs → y ≠ a ∧ y ≠ b :=
    fun y hy => ⟨fun e => hLR a haL (e ▸ hy), fun e => hbR (e ▸ hy)⟩
  refine ⟨⟨(nL a haL).1, (nR c hcR).2.symm, (nL a haL).2⟩, ?_, ?_, ?_, ?_⟩
  · rintro y (hy | hy | hy | hy)
    · exact ⟨fun e => ha0 (e ▸ hy), (nL y (m0 y hy)).1, (nL y (m0 y hy)).2⟩
    · exact ⟨fun e => ha1 (e ▸ hy), (nL y (m1 y hy)).1, (nL y (m1 y hy)).2⟩
    · exact ⟨(nR y (m2 y hy)).1, (nR y (m2 y hy)).2, fun e => hc2 (e ▸ hy)⟩
    · exact ⟨(nR y (m3 y hy)).1, (nR y (m3 y hy)).2, fun e => hc3 (e ▸ hy)⟩
  · exact fun y hy => ⟨h01 y hy, fun e => hLR y (m0 y hy) (m2 y e),
      fun e => hLR y (m0 y hy) (m3 y e)⟩
  · exact fun y hy => ⟨fun e => hLR y (m1 y hy) (m2 y e), fun e => hLR y (m1 y hy) (m3 y e)⟩
  · exact h23

/-- The root of a tree the heap holds at `t` is a node of the tree. -/
theorem Owns.ptr_mem {h : Heap K V} {t : Option Nat} {T : Shape K V} (o : Owns h t T) {y : Nat}
    (e : t = some y) : y ∈ T.addrs :=
  Shape.root_mem T y (by rw [← o.root_eq]; exact e)

/-- The heap after `connect34`, record by record in terms of the heap before. -/
theorem connect34_joined {h : Heap K V} {a b c : Nat} {na nb nc : BinNode K V}
    {t0 t1 t2 t3 : Option Nat} {T0 T1 T2 T3 : Shape K V}
    (hna : h[a]? = some na) (hnb : h[b]? = some nb) (hnc : h[c]? = some nc)
    (o0 : Owns h t0 T0) (o1 : Owns h t1 T1) (o2 : Owns h t2 T2) (o3 : Owns h t3 T3)
    (hnd : (Shape.node (.node T0 a na.key na.value T1) b nb.key nb.value
      (.node T2 c nc.key nc.value T3)).addrs.Nodup) :
    connect34 h (some a) (some b) (some c) t0 t1 t2 t3
      = .ok (connect34Heap h a b c t0 t1 t2 t3, some b) ∧
    Joined34 h (connect34Heap h a b c t0 t1 t2 t3) a b c na nb nc t0 t1 t2 t3 nb.parent none ∧
    Owns (connect34Heap h a b c t0 t1 t2 t3) (some b)
      (.node (.node T0 a na.key na.value T1) b nb.key nb.value
        (.node T2 c nc.key nc.value T3)) := by
  obtain ⟨⟨hab, hbc, hac⟩, hT, -, -, -⟩ := shape34_distinct hnd
  have e0 : ∀ y, t0 = some y → y ≠ a ∧ y ≠ b ∧ y ≠ c :=
    fun y e => hT y (Or.inl (o0.ptr_mem e))
  have e1 : ∀ y, t1 = some y → y ≠ a ∧ y ≠ b ∧ y ≠ c :=
    fun y e => hT y (Or.inr (Or.inl (o1.ptr_mem e)))
  have e2 : ∀ y, t2 = some y → y ≠ a ∧ y ≠ b ∧ y ≠ c :=
    fun y e => hT y (Or.inr (Or.inr (Or.inl (o2.ptr_mem e))))
  have e3 : ∀ y, t3 = some y → y ≠ a ∧ y ≠ b ∧ y ≠ c :=
    fun y e => hT y (Or.inr (Or.inr (Or.inr (o3.ptr_mem e))))
  obtain ⟨hrun, -, -, -, hp01, hp23, hoth, hown⟩ :=
    connect34_owns hna hnb hnc o0 o1 o2 o3 hnd
  have ga := connect34Heap_get_a (b := b) (c := c) hna hab hac
    (fun e => (e0 a e).1 rfl) (fun e => (e1 a e).1 rfl) (fun e => (e2 a e).1 rfl)
    (fun e => (e3 a e).1 rfl)
  have gc := connect34Heap_get_c (a := a) (b := b) hnc hac hbc
    (fun e => (e0 c e).2.2 rfl) (fun e => (e1 c e).2.2 rfl) (fun e => (e2 c e).2.2 rfl)
    (fun e => (e3 c e).2.2 rfl) (fun e => (e2 a e).1 rfl) (fun e => (e3 a e).1 rfl)
  have gb := connect34Heap_get_b hna hnb hnc hab hac hbc
    (fun e => (e0 a e).1 rfl) (fun e => (e1 a e).1 rfl) (fun e => (e2 a e).1 rfl)
    (fun e => (e3 a e).1 rfl)
    (fun e => (e0 b e).2.1 rfl) (fun e => (e1 b e).2.1 rfl) (fun e => (e2 b e).2.1 rfl)
    (fun e => (e3 b e).2.1 rfl)
    (fun e => (e0 c e).2.2 rfl) (fun e => (e1 c e).2.2 rfl) (fun e => (e2 c e).2.2 rfl)
    (fun e => (e3 c e).2.2 rfl)
  refine ⟨hrun, ⟨ga, gc, gb, ?_, ?_, ?_⟩, hown⟩
  · intro y m hy hm
    obtain ⟨m1, hm1, hx⟩ := hp01 y hy
    rw [hm] at hm1
    cases hm1
    exact hx
  · intro y m hy hm
    obtain ⟨m1, hm1, hx⟩ := hp23 y hy
    rw [hm] at hm1
    cases hm1
    exact hx
  · intro y h1 h2 h3 g0 g1 g2 g3 _
    exact hoth y h1 h2 h3 g0 g1 g2 g3

/-- Two heaps that both hold the "3 + 4" join of the same nodes and subtrees, one with the
parent of the local root left as it was and one with the local root linked to the parent
`par`, differ in that link only. -/
theorem linked_of_joined {h hC hR : Heap K V} {a b c g : Nat} {na nb nc : BinNode K V}
    {t0 t1 t2 t3 par : Option Nat}
    (jC : Joined34 h hC a b c na nb nc t0 t1 t2 t3 nb.parent none)
    (jR : Joined34 h hR a b c na nb nc t0 t1 t2 t3 par par)
    (hpa : ∀ pa, par = some pa → pa ≠ a ∧ pa ≠ b ∧ pa ≠ c ∧ t0 ≠ some pa ∧ t1 ≠ some pa ∧
      t2 ≠ some pa ∧ t3 ≠ some pa ∧ ∃ npa, h[pa]? = some npa ∧
        hR[pa]? = some (if npa.lc = some g then { npa with lc := some b }
          else { npa with rc := some b }))
    (hroots : ∀ y, t0 = some y ∨ t1 = some y ∨ t2 = some y ∨ t3 = some y →
      ∃ m, h[y]? = some m) :
    LinkedToParent hC hR g b par := by
  obtain ⟨ca, cc, cb, c01, c23, co⟩ := jC
  obtain ⟨ra, rc, rb, r01, r23, ro⟩ := jR
  refine ⟨?_, ?_, ?_⟩
  · rw [rb, cb]
    rfl
  · intro pa hp
    obtain ⟨h1, h2, h3, g0, g1, g2, g3, npa, hnpa, hr⟩ := hpa pa hp
    rw [hr, co pa h1 h2 h3 g0 g1 g2 g3 (by simp), hnpa]
    rfl
  · intro y hyb hyp
    by_cases hya : y = a
    · subst hya
      rw [ra, ca]
    by_cases hyc : y = c
    · subst hyc
      rw [rc, cc]
    by_cases h01 : t0 = some y ∨ t1 = some y
    · obtain ⟨m, hm⟩ := hroots y (h01.elim Or.inl (fun e => Or.inr (Or.inl e)))
      rw [r01 y m h01 hm, c01 y m h01 hm]
    by_cases h23 : t2 = some y ∨ t3 = some y
    · obtain ⟨m, hm⟩ := hroots y
        (h23.elim (fun e => Or.inr (Or.inr (Or.inl e))) (fun e => Or.inr (Or.inr (Or.inr e))))
      rw [r23 y m h23 hm, c23 y m h23 hm]
    rw [not_or] at h01 h23
    rw [ro y hya hyb hyc h01.1 h01.2 h23.1 h23.2 hyp,
      co y hya hyb hyc h01.1 h01.2 h23.1 h23.2 (by simp)]

/-- Linking the local root to its parent keeps the subtree: the same tree is held at the
local root, with the same cached heights. -/
theorem linked_owns {hC hR : Heap K V} {g b : Nat} {par : Option Nat}
    (hl : LinkedToParent hC hR g b par) {S : Shape K V} (ho : Owns hC (some b) S)
    (hpa : ∀ pa, par = some pa → pa ∉ S.addrs) :
    Owns hR (some b) S ∧ ∀ y ∈ S.addrs, heightOf hR (some y) = heightOf hC (some y) := by
  obtain ⟨lb, -, lo⟩ := hl
  have hrec : ∀ y ∈ S.addrs, (hR[y]?).map linksOf = (hC[y]?).map linksOf ∧
      (hR[y]?).map (·.height) = (hC[y]?).map (·.height) := by
    intro y hy
    by_cases hyb : y = b
    · subst hyb
      rw [lb]
      cases hC[y]? <;> exact ⟨rfl, rfl⟩
    · rw [lo y hyb (fun e => hpa y e hy)]
      exact ⟨rfl, rfl⟩
  refine ⟨Owns.frame_links ho (fun y hy => (hrec y hy).1), fun y hy => ?_⟩
  have := (hrec y hy).2
  simp only [heightOf]
  cases h1 : hR[y]? <;> cases h2 : hC[y]? <;> rw [h1, h2] at this <;>
    simp_all

/-- From a heap `hR` that holds the "3 + 4" join with the local root linked to the parent:
`connect34` on the same nodes and subtrees returns, its heap differs from `hR` in the link
to the parent only, and both heaps hold the same tree with the same cached heights at the
local root. -/
theorem realizes_of_joined {h hR : Heap K V} {a b c g : Nat} {na nb nc : BinNode K V}
    {t0 t1 t2 t3 par : Option Nat} {T0 T1 T2 T3 : Shape K V}
    (hna : h[a]? = some na) (hnb : h[b]? = some nb) (hnc : h[c]? = some nc)
    (o0 : Owns h t0 T0) (o1 : Owns h t1 T1) (o2 : Owns h t2 T2) (o3 : Owns h t3 T3)
    (hnd : (Shape.node (.node T0 a na.key na.value T1) b nb.key nb.value
      (.node T2 c nc.key nc.value T3)).addrs.Nodup)
    (jR : Joined34 h hR a b c na nb nc t0 t1 t2 t3 par par)
    (hpa : ∀ pa, par = some pa →
      pa ∉ (Shape.node (.node T0 a na.key na.value T1) b nb.key nb.value
        (.node T2 c nc.key nc.value T3)).addrs ∧
      ∃ npa, h[pa]? = some npa ∧
        hR[pa]? = some (if npa.lc = some g then { npa with lc := some b }
          else { npa with rc := some b })) :
    ∃ hC, connect34 h (some a) (some b) (some c) t0 t1 t2 t3 = .ok (hC, some b) ∧
      LinkedToParent hC hR g b par ∧
      Owns hC (some b) (.node (.node T0 a na.key na.value T1) b nb.key nb.value
        (.node T2 c nc.key nc.value T3)) ∧
      Owns hR (some b) (.node (.node T0 a na.key na.value T1) b nb.key nb.value
        (.node T2 c nc.key nc.value T3)) ∧
      ∀ y ∈ (Shape.node (.node T0 a na.key na.value T1) b nb.key nb.value
          (.node T2 c nc.key nc.value T3)).addrs,
        heightOf hR (some y) = heightOf hC (some y) := by
  obtain ⟨hrun, jC, hown⟩ := connect34_joined hna hnb hnc o0 o1 o2 o3 hnd
  have min : ∀ y, y ∈ T0.addrs ∨ y ∈ T1.addrs ∨ y ∈ T2.addrs ∨ y ∈ T3.addrs →
      y ∈ (Shape.node (.node T0 a na.key na.value T1) b nb.key nb.value
        (.node T2 c nc.key nc.value T3)).addrs := by
    rintro y (hy | hy | hy | hy)
    · exact Shape.mem_addrs_node.mpr (Or.inl (Shape.mem_addrs_node.mpr (Or.inl hy)))
    · exact Shape.mem_addrs_node.mpr (Or.inl (Shape.mem_addrs_node.mpr (Or.inr (Or.inr hy))))
    · exact Shape.mem_addrs_node.mpr (Or.inr (Or.inr (Shape.mem_addrs_node.mpr (Or.inl hy))))
    · exact Shape.mem_addrs_node.mpr
        (Or.inr (Or.inr (Shape.mem_addrs_node.mpr (Or.inr (Or.inr hy)))))
  have hl : LinkedToParent (connect34Heap h a b c t0 t1 t2 t3) hR g b par := by
    refine linked_of_joined jC jR (fun pa hp => ?_) ?_
    · obtain ⟨hout, npa, hnpa, hr⟩ := hpa pa hp
      refine ⟨?_, ?_, ?_, ?_, ?_, ?_, ?_, npa, hnpa, hr⟩
      · rintro rfl
        exact hout (Shape.mem_addrs_node.mpr (Or.inl
          (Shape.mem_addrs_node.mpr (Or.inr (Or.inl rfl)))))
      · rintro rfl
        exact hout (Shape.mem_addrs_node.mpr (Or.inr (Or.inl rfl)))
      · rintro rfl
        exact hout (Shape.mem_addrs_node.mpr (Or.inr (Or.inr
          (Shape.mem_addrs_node.mpr (Or.inr (Or.inl rfl))))))
      · exact fun e => hout (min pa (Or.inl (o0.ptr_mem e)))
      · exact fun e => hout (min pa (Or.inr (Or.inl (o1.ptr_mem e))))
      · exact fun e => hout (min pa (Or.inr (Or.inr (Or.inl (o2.ptr_mem e)))))
      · exact fun e => hout (min pa (Or.inr (Or.inr (Or.inr (o3.ptr_mem e)))))
    · rintro y (e | e | e | e)
      · exact o0.get_of_mem y (o0.ptr_mem e)
      · exact o1.get_of_mem y (o1.ptr_mem e)
      · exact o2.get_of_mem y (o2.ptr_mem e)
      · exact o3.get_of_mem y (o3.ptr_mem e)
  obtain ⟨hownR, hh⟩ := linked_owns hl hown (fun pa hp => (hpa pa hp).1)
  exact ⟨_, hrun, hl, hown, hownR, hh⟩

/-! # The four rotation cases as "3 + 4" joins -/

theorem set_parent_same {m : BinNode K V} {q : Option Nat} (e : m.parent = q) :
    ({ m with parent := q } : BinNode K V) = m := by
  subst e
  rfl

/-- A node outside the joined tree is none of the three nodes and no subtree root. -/
theorem outside34 {h : Heap K V} {a b c : Nat} {ka kb kc : K} {va vb vc : V}
    {t0 t1 t2 t3 : Option Nat} {T0 T1 T2 T3 : Shape K V}
    (o0 : Owns h t0 T0) (o1 : Owns h t1 T1) (o2 : Owns h t2 T2) (o3 : Owns h t3 T3) {pa : Nat}
    (hout : pa ∉ (Shape.node (.node T0 a ka va T1) b kb vb (.node T2 c kc vc T3)).addrs) :
    pa ≠ a ∧ pa ≠ b ∧ pa ≠ c ∧ t0 ≠ some pa ∧ t1 ≠ some pa ∧ t2 ≠ some pa ∧ t3 ≠ some pa := by
  refine ⟨?_, ?_, ?_, fun e => hout ?_, fun e => hout ?_, fun e => hout ?_, fun e => hout ?_⟩
  · rintro rfl
    exact hout (Shape.mem_addrs_node.mpr (Or.inl
      (Shape.mem_addrs_node.mpr (Or.inr (Or.inl rfl)))))
  · rintro rfl
    exact hout (Shape.mem_addrs_node.mpr (Or.inr (Or.inl rfl)))
  · rintro rfl
    exact hout (Shape.mem_addrs_node.mpr (Or.inr (Or.inr
      (Shape.mem_addrs_node.mpr (Or.inr (Or.inl rfl))))))
  · exact Shape.mem_addrs_node.mpr (Or.inl (Shape.mem_addrs_node.mpr (Or.inl (o0.ptr_mem e))))
  · exact Shape.mem_addrs_node.mpr
      (Or.inl (Shape.mem_addrs_node.mpr (Or.inr (Or.inr (o1.ptr_mem e)))))
  · exact Shape.mem_addrs_node.mpr
      (Or.inr (Or.inr (Shape.mem_addrs_node.mpr (Or.inl (o2.ptr_mem e)))))
  · exact Shape.mem_addrs_node.mpr
      (Or.inr (Or.inr (Shape.mem_addrs_node.mpr (Or.inr (Or.inr (o3.ptr_mem e))))))

/-- The roots of the four subtrees of a joined tree: each differs from the three nodes and
from the other roots, and is allocated. -/
theorem roots34 {h : Heap K V} {a b c : Nat} {ka kb kc : K} {va vb vc : V}
    {t0 t1 t2 t3 : Option Nat} {T0 T1 T2 T3 : Shape K V}
    (o0 : Owns h t0 T0) (o1 : Owns h t1 T1) (o2 : Owns h t2 T2) (o3 : Owns h t3 T3)
    (hnd : (Shape.node (.node T0 a ka va T1) b kb vb (.node T2 c kc vc T3)).addrs.Nodup) :
    (∀ y, t0 = some y → y ≠ a ∧ y ≠ b ∧ y ≠ c ∧ t1 ≠ some y ∧ t2 ≠ some y ∧ t3 ≠ some y ∧
      y < h.length) ∧
    (∀ y, t1 = some y → y ≠ a ∧ y ≠ b ∧ y ≠ c ∧ t0 ≠ some y ∧ t2 ≠ some y ∧ t3 ≠ some y ∧
      y < h.length) ∧
    (∀ y, t2 = some y → y ≠ a ∧ y ≠ b ∧ y ≠ c ∧ t0 ≠ some y ∧ t1 ≠ some y ∧ t3 ≠ some y ∧
      y < h.length) ∧
    (∀ y, t3 = some y → y ≠ a ∧ y ≠ b ∧ y ≠ c ∧ t0 ≠ some y ∧ t1 ≠ some y ∧ t2 ≠ some y ∧
      y < h.length) := by
  obtain ⟨-, hT, d0, d1, d2⟩ := shape34_distinct hnd
  refine ⟨fun y e => ?_, fun y e => ?_, fun y e => ?_, fun y e => ?_⟩
  · have hy := o0.ptr_mem e
    obtain ⟨x1, x2, x3⟩ := hT y (Or.inl hy)
    exact ⟨x1, x2, x3, fun e1 => (d0 y hy).1 (o1.ptr_mem e1),
      fun e1 => (d0 y hy).2.1 (o2.ptr_mem e1), fun e1 => (d0 y hy).2.2 (o3.ptr_mem e1),
      o0.lt_length y hy⟩
  · have hy := o1.ptr_mem e
    obtain ⟨x1, x2, x3⟩ := hT y (Or.inr (Or.inl hy))
    exact ⟨x1, x2, x3, fun e1 => (d0 y (o0.ptr_mem e1)).1 hy,
      fun e1 => (d1 y hy).1 (o2.ptr_mem e1), fun e1 => (d1 y hy).2 (o3.ptr_mem e1),
      o1.lt_length y hy⟩
  · have hy := o2.ptr_mem e
    obtain ⟨x1, x2, x3⟩ := hT y (Or.inr (Or.inr (Or.inl hy)))
    exact ⟨x1, x2, x3, fun e1 => (d0 y (o0.ptr_mem e1)).2.1 hy,
      fun e1 => (d1 y (o1.ptr_mem e1)).1 hy, fun e1 => d2 y hy (o3.ptr_mem e1),
      o2.lt_length y hy⟩
  · have hy := o3.ptr_mem e
    obtain ⟨x1, x2, x3⟩ := hT y (Or.inr (Or.inr (Or.inr hy)))
    exact ⟨x1, x2, x3, fun e1 => (d0 y (o0.ptr_mem e1)).2.2 hy,
      fun e1 => (d1 y (o1.ptr_mem e1)).2 hy, fun e1 => d2 y (o2.ptr_mem e1) hy,
      o3.lt_length y hy⟩

/-- The single rotation of the left-left case: `rightRotate(g)`, where `p` is the left child
of `g` and `v` the left child of `p`, joins `v`, `p`, `g` and the subtrees of `v`, the right
subtree of `p` and the right subtree of `g`. -/
theorem joined_single_ll {h : Heap K V} {g p v : Nat} {ng np nv : BinNode K V}
    {T0 T1 T2 T3 : Shape K V}
    (hng : h[g]? = some ng) (hnp : h[p]? = some np) (hnv : h[v]? = some nv)
    (hgl : ng.lc = some p) (hpl : np.lc = some v) (hvp : nv.parent = some p)
    (o0 : Owns h nv.lc T0) (o1 : Owns h nv.rc T1) (o2 : Owns h np.rc T2) (o3 : Owns h ng.rc T3)
    (q0 : Parented h (some v) T0) (q1 : Parented h (some v) T1) (q3 : Parented h (some g) T3)
    (hnd : (Shape.node (.node T0 v nv.key nv.value T1) p np.key np.value
      (.node T2 g ng.key ng.value T3)).addrs.Nodup)
    (hpa : ∀ pa, ng.parent = some pa →
      pa ∉ (Shape.node (.node T0 v nv.key nv.value T1) p np.key np.value
        (.node T2 g ng.key ng.value T3)).addrs ∧ pa < h.length)
    (hv : nv.height = newHeight nv.color (heightOf h nv.lc) (heightOf h nv.rc)) :
    rightRotate h (some g) = .ok (rotHeapR h g p ng np, some p) ∧
    Joined34 h (rotHeapR h g p ng np) v p g nv np ng nv.lc nv.rc np.rc ng.rc
      ng.parent ng.parent ∧
    (∀ pa npa, ng.parent = some pa → h[pa]? = some npa →
      (rotHeapR h g p ng np)[pa]? = some (if npa.lc = some g then { npa with lc := some p }
        else { npa with rc := some p })) := by
  obtain ⟨⟨hvp', hpg, hvg⟩, -⟩ := shape34_distinct hnd
  obtain ⟨r0, r1, r2, r3⟩ := roots34 o0 o1 o2 o3 hnd
  have hout : ∀ pa, ng.parent = some pa → pa ≠ v ∧ pa ≠ p ∧ pa ≠ g ∧ nv.lc ≠ some pa ∧
      nv.rc ≠ some pa ∧ np.rc ≠ some pa ∧ ng.rc ≠ some pa :=
    fun pa hp => outside34 o0 o1 o2 o3 (hpa pa hp).1
  have hgp : g ≠ p := Ne.symm hpg
  have p_g : ng.parent ≠ some g := fun e => (hout g e).2.2.1 rfl
  have p_p : ng.parent ≠ some p := fun e => (hout p e).2.1 rfl
  have p_v : ng.parent ≠ some v := fun e => (hout v e).1 rfl
  have c_g : np.rc ≠ some g := fun e => (r2 g e).2.2.1 rfl
  have c_p : np.rc ≠ some p := fun e => (r2 p e).2.1 rfl
  have c_v : np.rc ≠ some v := fun e => (r2 v e).1 rfl
  have hh : heightOf h np.lc = newHeight nv.color (heightOf h nv.lc) (heightOf h nv.rc) := by
    rw [hpl, heightOf_get hnv, hv]
  refine ⟨?_, ⟨?_, ?_, ?_, ?_, ?_, ?_⟩, ?_⟩
  · exact rightRotate_exec hng hgl hnp hgp
      (fun pa hp => ⟨(hout pa hp).2.2.1, (hout pa hp).2.1, (hpa pa hp).2⟩)
      (fun y e => ⟨(r2 y e).2.2.1, (r2 y e).2.1, (r2 y e).2.2.2.2.2.2⟩)
      (fun y e => (r3 y e).2.2.2.2.2.2)
      (fun y e => by
        rw [hpl] at e
        cases e
        exact lt_length_of_get hnv)
  · rw [rotHeapR_get_other h ng np hvg hvp' p_v c_v, hnv, ← hv]
    exact congrArg some (set_parent_same hvp).symm
  · exact rotHeapR_get_a hng hgp p_g c_g
  · have l_g : np.lc ≠ some g := by
      rw [hpl]
      exact fun e => hvg (Option.some.inj e)
    rw [rotHeapR_get_b hng hnp hgp p_g p_p c_g c_p l_g, hh, ← hpl]
  · intro y m hy hm
    have hyf : y ≠ g ∧ y ≠ p ∧ ng.parent ≠ some y ∧ np.rc ≠ some y ∧
        ∃ m1, h[y]? = some m1 ∧ m1.parent = some v := by
      rcases hy with e | e
      · exact ⟨(r0 y e).2.2.1, (r0 y e).2.1, fun e1 => (hout y e1).2.2.2.1 e,
          (r0 y e).2.2.2.2.1, Parented.root_parent q0 (o0.root_eq.symm.trans e)⟩
      · exact ⟨(r1 y e).2.2.1, (r1 y e).2.1, fun e1 => (hout y e1).2.2.2.2.1 e,
          (r1 y e).2.2.2.2.1, Parented.root_parent q1 (o1.root_eq.symm.trans e)⟩
    obtain ⟨y1, y2, y3, y4, m1, hm1, hmp⟩ := hyf
    rw [hm] at hm1
    cases hm1
    rw [rotHeapR_get_other h ng np y1 y2 y3 y4, hm, set_parent_same hmp]
  · intro y m hy hm
    rcases hy with e | e
    · exact rotHeapR_get_c e hm (r2 y e).2.2.1 (r2 y e).2.1
        (fun e1 => (hout y e1).2.2.2.2.2.1 e)
    · obtain ⟨m1, hm1, hmp⟩ := Parented.root_parent q3 (o3.root_eq.symm.trans e)
      rw [hm] at hm1
      cases hm1
      rw [rotHeapR_get_other h ng np (r3 y e).2.2.1 (r3 y e).2.1
        (fun e1 => (hout y e1).2.2.2.2.2.2 e) (r3 y e).2.2.2.2.2.1, hm, set_parent_same hmp]
  · intro y _ hyp hyg _ _ g2 _ hpar
    exact rotHeapR_get_other h ng np hyg hyp hpar g2
  · intro pa npa hp hnpa
    exact rotHeapR_get_parent hp hnpa (hout pa hp).2.2.1 (hout pa hp).2.1
      (hout pa hp).2.2.2.2.2.1

/-- The single rotation of the right-right case: `leftRotate(g)`, where `p` is the right
child of `g` and `v` the right child of `p`, joins `g`, `p`, `v` and the left subtree of
`g`, the left subtree of `p` and the subtrees of `v`. -/
theorem joined_single_rr {h : Heap K V} {g p v : Nat} {ng np nv : BinNode K V}
    {T0 T1 T2 T3 : Shape K V}
    (hng : h[g]? = some ng) (hnp : h[p]? = some np) (hnv : h[v]? = some nv)
    (hgr : ng.rc = some p) (hpr : np.rc = some v) (hvp : nv.parent = some p)
    (o0 : Owns h ng.lc T0) (o1 : Owns h np.lc T1) (o2 : Owns h nv.lc T2) (o3 : Owns h nv.rc T3)
    (q0 : Parented h (some g) T0) (q2 : Parented h (some v) T2) (q3 : Parented h (some v) T3)
    (hnd : (Shape.node (.node T0 g ng.key ng.value T1) p np.key np.value
      (.node T2 v nv.key nv.value T3)).addrs.Nodup)
    (hpa : ∀ pa, ng.parent = some pa →
      pa ∉ (Shape.node (.node T0 g ng.key ng.value T1) p np.key np.value
        (.node T2 v nv.key nv.value T3)).addrs ∧ pa < h.length)
    (hv : nv.height = newHeight nv.color (heightOf h nv.lc) (heightOf h nv.rc)) :
    leftRotate h (some g) = .ok (rotHeapL h g p ng np, some p) ∧
    Joined34 h (rotHeapL h g p ng np) g p v ng np nv ng.lc np.lc nv.lc nv.rc
      ng.parent ng.parent ∧
    (∀ pa npa, ng.parent = some pa → h[pa]? = some npa →
      (rotHeapL h g p ng np)[pa]? = some (if npa.lc = some g then { npa with lc := some p }
        else { npa with rc := some p })) := by
  obtain ⟨⟨hgp, hpv, hgv⟩, -⟩ := shape34_distinct hnd
  obtain ⟨r0, r1, r2, r3⟩ := roots34 o0 o1 o2 o3 hnd
  have hout : ∀ pa, ng.parent = some pa → pa ≠ g ∧ pa ≠ p ∧ pa ≠ v ∧ ng.lc ≠ some pa ∧
      np.lc ≠ some pa ∧ nv.lc ≠ some pa ∧ nv.rc ≠ some pa :=
    fun pa hp => outside34 o0 o1 o2 o3 (hpa pa hp).1
  have hvg : v ≠ g := Ne.symm hgv
  have hvp' : v ≠ p := Ne.symm hpv
  have p_g : ng.parent ≠ some g := fun e => (hout g e).1 rfl
  have p_p : ng.parent ≠ some p := fun e => (hout p e).2.1 rfl
  have p_v : ng.parent ≠ some v := fun e => (hout v e).2.2.1 rfl
  have c_g : np.lc ≠ some g := fun e => (r1 g e).1 rfl
  have c_p : np.lc ≠ some p := fun e => (r1 p e).2.1 rfl
  have c_v : np.lc ≠ some v := fun e => (r1 v e).2.2.1 rfl
  have hh : heightOf h np.rc = newHeight nv.color (heightOf h nv.lc) (heightOf h nv.rc) := by
    rw [hpr, heightOf_get hnv, hv]
  refine ⟨?_, ⟨?_, ?_, ?_, ?_, ?_, ?_⟩, ?_⟩
  · exact leftRotate_exec hng hgr hnp hgp
      (fun pa hp => ⟨(hout pa hp).1, (hout pa hp).2.1, (hpa pa hp).2⟩)
      (fun y e => ⟨(r1 y e).1, (r1 y e).2.1, (r1 y e).2.2.2.2.2.2⟩)
      (fun y e => (r0 y e).2.2.2.2.2.2)
      (fun y e => by
        rw [hpr] at e
        cases e
        exact lt_length_of_get hnv)
  · exact rotHeapL_get_a hng hgp p_g c_g
  · rw [rotHeapL_get_other h ng np hvg hvp' p_v c_v, hnv, ← hv]
    exact congrArg some (set_parent_same hvp).symm
  · have r_g : np.rc ≠ some g := by
      rw [hpr]
      exact fun e => hvg (Option.some.inj e)
    rw [rotHeapL_get_b hng hnp hgp p_g p_p c_g c_p r_g, hh, ← hpr]
  · intro y m hy hm
    rcases hy with e | e
    · obtain ⟨m1, hm1, hmp⟩ := Parented.root_parent q0 (o0.root_eq.symm.trans e)
      rw [hm] at hm1
      cases hm1
      rw [rotHeapL_get_other h ng np (r0 y e).1 (r0 y e).2.1
        (fun e1 => (hout y e1).2.2.2.1 e) (r0 y e).2.2.2.1, hm, set_parent_same hmp]
    · exact rotHeapL_get_c e hm (r1 y e).1 (r1 y e).2.1 (fun e1 => (hout y e1).2.2.2.2.1 e)
  · intro y m hy hm
    have hyf : y ≠ g ∧ y ≠ p ∧ ng.parent ≠ some y ∧ np.lc ≠ some y ∧
        ∃ m1, h[y]? = some m1 ∧ m1.parent = some v := by
      rcases hy with e | e
      · exact ⟨(r2 y e).1, (r2 y e).2.1, fun e1 => (hout y e1).2.2.2.2.2.1 e,
          (r2 y e).2.2.2.2.1, Parented.root_parent q2 (o2.root_eq.symm.trans e)⟩
      · exact ⟨(r3 y e).1, (r3 y e).2.1, fun e1 => (hout y e1).2.2.2.2.2.2 e,
          (r3 y e).2.2.2.2.1, Parented.root_parent q3 (o3.root_eq.symm.trans e)⟩
    obtain ⟨y1, y2, y3, y4, m1, hm1, hmp⟩ := hyf
    rw [hm] at hm1
    cases hm1
    rw [rotHeapL_get_other h ng np y1 y2 y3 y4, hm, set_parent_same hmp]
  · intro y hyg hyp _ _ g1 _ _ hpar
    exact rotHeapL_get_other h ng np hyg hyp hpar g1
  · intro pa npa hp hnpa
    exact rotHeapL_get_parent hp hnpa (hout pa hp).1 (hout pa hp).2.1
      (hout pa hp).2.2.2.2.1

/-- The double rotation of the left-right case: `leftRotate(p)` followed by
`rightRotate(g)`, where `p` is the left child of `g` and `v` the right child of `p`, joins
`p`, `v`, `g` and the left subtree of `p`, the subtrees of `v` and the right subtree of
`g`. -/
theorem joined_double_lr {h : Heap K V} {g p v : Nat} {ng np nv : BinNode K V}
    {T0 T1 T2 T3 : Shape K V}
    (hng : h[g]? = some ng) (hnp : h[p]? = some np) (hnv : h[v]? = some nv)
    (hgl : ng.lc = some p) (hpr : np.rc = some v) (hpp : np.parent = some g)
    (o0 : Owns h np.lc T0) (o1 : Owns h nv.lc T1) (o2 : Owns h nv.rc T2) (o3 : Owns h ng.rc T3)
    (q0 : Parented h (some p) T0) (q3 : Parented h (some g) T3)
    (hnd : (Shape.node (.node T0 p np.key np.value T1) v nv.key nv.value
      (.node T2 g ng.key ng.value T3)).addrs.Nodup)
    (hpa : ∀ pa, ng.parent = some pa →
      pa ∉ (Shape.node (.node T0 p np.key np.value T1) v nv.key nv.value
        (.node T2 g ng.key ng.value T3)).addrs ∧ pa < h.length) :
    ∃ h1 hR, leftRotate h (some p) = .ok (h1, some v) ∧
      rightRotate h1 (some g) = .ok (hR, some v) ∧
      Joined34 h hR p v g np nv ng np.lc nv.lc nv.rc ng.rc ng.parent ng.parent ∧
      (∀ pa npa, ng.parent = some pa → h[pa]? = some npa →
        hR[pa]? = some (if npa.lc = some g then { npa with lc := some v }
          else { npa with rc := some v })) := by
  obtain ⟨⟨hpv, hvg, hpg⟩, -⟩ := shape34_distinct hnd
  obtain ⟨r0, r1, r2, r3⟩ := roots34 o0 o1 o2 o3 hnd
  have hout : ∀ pa, ng.parent = some pa → pa ≠ p ∧ pa ≠ v ∧ pa ≠ g ∧ np.lc ≠ some pa ∧
      nv.lc ≠ some pa ∧ nv.rc ≠ some pa ∧ ng.rc ≠ some pa :=
    fun pa hp => outside34 o0 o1 o2 o3 (hpa pa hp).1
  have hgp : g ≠ p := Ne.symm hpg
  have hgv : g ≠ v := Ne.symm hvg
  have p_g : ng.parent ≠ some g := fun e => (hout g e).2.2.1 rfl
  have p_p : ng.parent ≠ some p := fun e => (hout p e).1 rfl
  have p_v : ng.parent ≠ some v := fun e => (hout v e).2.1 rfl
  have pp_y : ∀ y, y ≠ g → np.parent ≠ some y := by
    intro y hy e
    rw [hpp] at e
    exact hy (Option.some.inj e).symm
  have vl_p : nv.lc ≠ some p := fun e => (r1 p e).1 rfl
  have vl_v : nv.lc ≠ some v := fun e => (r1 v e).2.1 rfl
  have vl_g : nv.lc ≠ some g := fun e => (r1 g e).2.2.1 rfl
  have vr_p : nv.rc ≠ some p := fun e => (r2 p e).1 rfl
  have vr_v : nv.rc ≠ some v := fun e => (r2 v e).2.1 rfl
  have vr_g : nv.rc ≠ some g := fun e => (r2 g e).2.2.1 rfl
  have gr_p : ng.rc ≠ some p := fun e => (r3 p e).1 rfl
  have gr_v : ng.rc ≠ some v := fun e => (r3 v e).2.1 rfl
  -- the heap after the first rotation
  have L_p : (rotHeapL h p v np nv)[p]? = _ := rotHeapL_get_a hnp hpv (pp_y p hpg) vl_p
  have L_v := rotHeapL_get_b hnp hnv hpv (pp_y p hpg) (pp_y v hvg) vl_p vl_v vr_p
  have L_g : (rotHeapL h p v np nv)[g]? = _ := rotHeapL_get_parent hpp hng hgp hgv vl_g
  rw [if_pos hgl] at L_g
  have L_o : ∀ y, y ≠ p → y ≠ v → y ≠ g → nv.lc ≠ some y →
      (rotHeapL h p v np nv)[y]? = h[y]? :=
    fun y h1 h2 h3 h4 => rotHeapL_get_other h np nv h1 h2 (pp_y y h3) h4
  have hlen : (rotHeapL h p v np nv).length = h.length := length_rotHeapL h p v np nv
  have e1 : heightOf (rotHeapL h p v np nv) nv.rc = heightOf h nv.rc :=
    heightOf_rotHeapL_other h p v np nv _ vr_p vr_v
  have e2 : heightOf (rotHeapL h p v np nv) ng.rc = heightOf h ng.rc :=
    heightOf_rotHeapL_other h p v np nv _ gr_p gr_v
  have e3 := heightOf_get L_p
  have run1 := leftRotate_exec hnp hpr hnv hpv
    (fun pa hp => by
      rw [hpp] at hp
      cases hp
      exact ⟨hgp, hgv, lt_length_of_get hng⟩)
    (fun y e => ⟨(r1 y e).1, (r1 y e).2.1, (r1 y e).2.2.2.2.2.2⟩)
    (fun y e => (r0 y e).2.2.2.2.2.2)
    (fun y e => (r2 y e).2.2.2.2.2.2)
  have run2 := rightRotate_exec L_g rfl L_v hgv
    (fun pa hp => ⟨(hout pa hp).2.2.1, (hout pa hp).2.1, by rw [hlen]; exact (hpa pa hp).2⟩)
    (fun y e => ⟨(r2 y e).2.2.1, (r2 y e).2.1, by rw [hlen]; exact (r2 y e).2.2.2.2.2.2⟩)
    (fun y e => by rw [hlen]; exact (r3 y e).2.2.2.2.2.2)
    (fun y e => by
      have e' : some p = some y := e
      cases e'
      exact lt_length_of_get L_p)
  have R_g := rotHeapR_get_a L_g hgv p_g vr_g
  have R_v := rotHeapR_get_b L_g L_v hgv p_g p_v vr_g vr_v
    (show (some p : Option Nat) ≠ some g from fun e => hgp (Option.some.inj e).symm)
  refine ⟨_, _, run1, run2, ⟨?_, ?_, ?_, ?_, ?_, ?_⟩, ?_⟩
  · exact (rotHeapR_get_other _ _ _ hpg hpv p_p vr_p).trans L_p
  · refine R_g.trans ?_
    dsimp only
    rw [e1, e2]
  · refine R_v.trans ?_
    dsimp only at e3 ⊢
    rw [e1, e2, e3]
  · intro y m hy hm
    rcases hy with e | e
    · obtain ⟨m1, hm1, hmp⟩ := Parented.root_parent q0 (o0.root_eq.symm.trans e)
      rw [hm] at hm1
      cases hm1
      refine (rotHeapR_get_other _ _ _ (r0 y e).2.2.1 (r0 y e).2.1
        (fun e1 => (hout y e1).2.2.2.1 e) (r0 y e).2.2.2.2.1).trans ?_
      rw [L_o y (r0 y e).1 (r0 y e).2.1 (r0 y e).2.2.1 (r0 y e).2.2.2.1,
        hm, set_parent_same hmp]
    · refine (rotHeapR_get_other _ _ _ (r1 y e).2.2.1 (r1 y e).2.1
        (fun e1 => (hout y e1).2.2.2.2.1 e) (r1 y e).2.2.2.2.1).trans ?_
      exact rotHeapL_get_c e hm (r1 y e).1 (r1 y e).2.1 (pp_y y (r1 y e).2.2.1)
  · intro y m hy hm
    rcases hy with e | e
    · have hm1 : (rotHeapL h p v np nv)[y]? = some m := by
        rw [L_o y (r2 y e).1 (r2 y e).2.1 (r2 y e).2.2.1 (r2 y e).2.2.2.2.1, hm]
      exact rotHeapR_get_c e hm1 (r2 y e).2.2.1 (r2 y e).2.1
        (fun e1 => (hout y e1).2.2.2.2.2.1 e)
    · obtain ⟨m1, hm1, hmp⟩ := Parented.root_parent q3 (o3.root_eq.symm.trans e)
      rw [hm] at hm1
      cases hm1
      refine (rotHeapR_get_other _ _ _ (r3 y e).2.2.1 (r3 y e).2.1
        (fun e1 => (hout y e1).2.2.2.2.2.2 e) (r3 y e).2.2.2.2.2.1).trans ?_
      rw [L_o y (r3 y e).1 (r3 y e).2.1 (r3 y e).2.2.1 (r3 y e).2.2.2.2.1,
        hm, set_parent_same hmp]
  · intro y hyp hyv hyg _ g1 g2 _ hpar
    exact (rotHeapR_get_other _ _ _ hyg hyv hpar g2).trans (L_o y hyp hyv hyg g1)
  · intro pa npa hp hnpa
    have hm1 : (rotHeapL h p v np nv)[pa]? = some npa := by
      rw [L_o pa (hout pa hp).1 (hout pa hp).2.1 (hout pa hp).2.2.1 (hout pa hp).2.2.2.2.1,
        hnpa]
    exact rotHeapR_get_parent hp hm1 (hout pa hp).2.2.1 (hout pa hp).2.1
      (hout pa hp).2.2.2.2.2.1

/-- The double rotation of the right-left case: `rightRotate(p)` followed by
`leftRotate(g)`, where `p` is the right child of `g` and `v` the left child of `p`, joins
`g`, `v`, `p` and the left subtree of `g`, the subtrees of `v` and the right subtree of
`p`. -/
theorem joined_double_rl {h : Heap K V} {g p v : Nat} {ng np nv : BinNode K V}
    {T0 T1 T2 T3 : Shape K V}
    (hng : h[g]? = some ng) (hnp : h[p]? = some np) (hnv : h[v]? = some nv)
    (_hgr : ng.rc = some p) (hpl : np.lc = some v) (hpp : np.parent = some g)
    (o0 : Owns h ng.lc T0) (o1 : Owns h nv.lc T1) (o2 : Owns h nv.rc T2) (o3 : Owns h np.rc T3)
    (q0 : Parented h (some g) T0) (q3 : Parented h (some p) T3)
    (hnd : (Shape.node (.node T0 g ng.key ng.value T1) v nv.key nv.value
      (.node T2 p np.key np.value T3)).addrs.Nodup)
    (hpa : ∀ pa, ng.parent = some pa →
      pa ∉ (Shape.node (.node T0 g ng.key ng.value T1) v nv.key nv.value
        (.node T2 p np.key np.value T3)).addrs ∧ pa < h.length) :
    ∃ h1 hR, rightRotate h (some p) = .ok (h1, some v) ∧
      leftRotate h1 (some g) = .ok (hR, some v) ∧
      Joined34 h hR g v p ng nv np ng.lc nv.lc nv.rc np.rc ng.parent ng.parent ∧
      (∀ pa npa, ng.parent = some pa → h[pa]? = some npa →
        hR[pa]? = some (if npa.lc = some g then { npa with lc := some v }
          else { npa with rc := some v })) := by
  obtain ⟨⟨hgv, hvp, hgp⟩, -⟩ := shape34_distinct hnd
  obtain ⟨r0, r1, r2, r3⟩ := roots34 o0 o1 o2 o3 hnd
  have hout : ∀ pa, ng.parent = some pa → pa ≠ g ∧ pa ≠ v ∧ pa ≠ p ∧ ng.lc ≠ some pa ∧
      nv.lc ≠ some pa ∧ nv.rc ≠ some pa ∧ np.rc ≠ some pa :=
    fun pa hp => outside34 o0 o1 o2 o3 (hpa pa hp).1
  have hpg : p ≠ g := Ne.symm hgp
  have hpv : p ≠ v := Ne.symm hvp
  have p_g : ng.parent ≠ some g := fun e => (hout g e).1 rfl
  have p_p : ng.parent ≠ some p := fun e => (hout p e).2.2.1 rfl
  have p_v : ng.parent ≠ some v := fun e => (hout v e).2.1 rfl
  have pp_y : ∀ y, y ≠ g → np.parent ≠ some y := by
    intro y hy e
    rw [hpp] at e
    exact hy (Option.some.inj e).symm
  have gl_p : ng.lc ≠ some p := fun e => (r0 p e).2.2.1 rfl
  have gl_v : ng.lc ≠ some v := fun e => (r0 v e).2.1 rfl
  have vl_p : nv.lc ≠ some p := fun e => (r1 p e).2.2.1 rfl
  have vl_v : nv.lc ≠ some v := fun e => (r1 v e).2.1 rfl
  have vl_g : nv.lc ≠ some g := fun e => (r1 g e).1 rfl
  have vr_p : nv.rc ≠ some p := fun e => (r2 p e).2.2.1 rfl
  have vr_v : nv.rc ≠ some v := fun e => (r2 v e).2.1 rfl
  have vr_g : nv.rc ≠ some g := fun e => (r2 g e).1 rfl
  -- the heap after the first rotation
  have R_p : (rotHeapR h p v np nv)[p]? = _ := rotHeapR_get_a hnp hpv (pp_y p hpg) vr_p
  have R_v := rotHeapR_get_b hnp hnv hpv (pp_y p hpg) (pp_y v (Ne.symm hgv)) vr_p vr_v vl_p
  have R_g : (rotHeapR h p v np nv)[g]? = _ := rotHeapR_get_parent hpp hng hgp hgv vr_g
  rw [if_neg gl_p] at R_g
  have R_o : ∀ y, y ≠ p → y ≠ v → y ≠ g → nv.rc ≠ some y →
      (rotHeapR h p v np nv)[y]? = h[y]? :=
    fun y h1 h2 h3 h4 => rotHeapR_get_other h np nv h1 h2 (pp_y y h3) h4
  have hlen : (rotHeapR h p v np nv).length = h.length := length_rotHeapR h p v np nv
  have e1 : heightOf (rotHeapR h p v np nv) ng.lc = heightOf h ng.lc :=
    heightOf_rotHeapR_other h p v np nv _ gl_p gl_v
  have e2 : heightOf (rotHeapR h p v np nv) nv.lc = heightOf h nv.lc :=
    heightOf_rotHeapR_other h p v np nv _ vl_p vl_v
  have e3 := heightOf_get R_p
  have run1 := rightRotate_exec hnp hpl hnv hpv
    (fun pa hp => by
      rw [hpp] at hp
      cases hp
      exact ⟨hgp, hgv, lt_length_of_get hng⟩)
    (fun y e => ⟨(r2 y e).2.2.1, (r2 y e).2.1, (r2 y e).2.2.2.2.2.2⟩)
    (fun y e => (r3 y e).2.2.2.2.2.2)
    (fun y e => (r1 y e).2.2.2.2.2.2)
  have run2 := leftRotate_exec R_g rfl R_v hgv
    (fun pa hp => ⟨(hout pa hp).1, (hout pa hp).2.1, by rw [hlen]; exact (hpa pa hp).2⟩)
    (fun y e => ⟨(r1 y e).1, (r1 y e).2.1, by rw [hlen]; exact (r1 y e).2.2.2.2.2.2⟩)
    (fun y e => by rw [hlen]; exact (r0 y e).2.2.2.2.2.2)
    (fun y e => by
      have e' : some p = some y := e
      cases e'
      exact lt_length_of_get R_p)
  have L_g := rotHeapL_get_a R_g hgv p_g vl_g
  have L_v := rotHeapL_get_b R_g R_v hgv p_g p_v vl_g vl_v
    (show (some p : Option Nat) ≠ some g from fun e => hpg (Option.some.inj e))
  refine ⟨_, _, run1, run2, ⟨?_, ?_, ?_, ?_, ?_, ?_⟩, ?_⟩
  · refine L_g.trans ?_
    dsimp only
    rw [e1, e2]
  · exact (rotHeapL_get_other _ _ _ hpg hpv p_p vl_p).trans R_p
  · refine L_v.trans ?_
    dsimp only at e3 ⊢
    rw [e1, e2, e3]
  · intro y m hy hm
    rcases hy with e | e
    · obtain ⟨m1, hm1, hmp⟩ := Parented.root_parent q0 (o0.root_eq.symm.trans e)
      rw [hm] at hm1
      cases hm1
      refine (rotHeapL_get_other _ _ _ (r0 y e).1 (r0 y e).2.1
        (fun e1 => (hout y e1).2.2.2.1 e) (r0 y e).2.2.2.1).trans ?_
      rw [R_o y (r0 y e).2.2.1 (r0 y e).2.1 (r0 y e).1 (r0 y e).2.2.2.2.1,
        hm, set_parent_same hmp]
    · have hm1 : (rotHeapR h p v np nv)[y]? = some m := by
        rw [R_o y (r1 y e).2.2.1 (r1 y e).2.1 (r1 y e).1 (r1 y e).2.2.2.2.1, hm]
      exact rotHeapL_get_c e hm1 (r1 y e).1 (r1 y e).2.1
        (fun e1 => (hout y e1).2.2.2.2.1 e)
  · intro y m hy hm
    rcases hy with e | e
    · refine (rotHeapL_get_other _ _ _ (r2 y e).1 (r2 y e).2.1
        (fun e1 => (hout y e1).2.2.2.2.2.1 e) (r2 y e).2.2.2.2.1).trans ?_
      exact rotHeapR_get_c e hm (r2 y e).2.2.1 (r2 y e).2.1 (pp_y y (r2 y e).1)
    · obtain ⟨m1, hm1, hmp⟩ := Parented.root_parent q3 (o3.root_eq.symm.trans e)
      rw [hm] at hm1
      cases hm1
      refine (rotHeapL_get_other _ _ _ (r3 y e).1 (r3 y e).2.1
        (fun e1 => (hout y e1).2.2.2.2.2.2 e) (r3 y e).2.2.2.2.1).trans ?_
      rw [R_o y (r3 y e).2.2.1 (r3 y e).2.1 (r3 y e).1 (r3 y e).2.2.2.2.2.1,
        hm, set_parent_same hmp]
  · intro y hyg hyv hyp _ g1 g2 _ hpar
    exact (rotHeapL_get_other _ _ _ hyg hyv hpar g1).trans (R_o y hyp hyv hyg g2)
  · intro pa npa hp hnpa
    have hm1 : (rotHeapR h p v np nv)[pa]? = some npa := by
      rw [R_o pa (hout pa hp).2.2.1 (hout pa hp).2.1 (hout pa hp).1 (hout pa hp).2.2.2.2.2.1,
        hnpa]
    exact rotHeapL_get_parent hp hm1 (hout pa hp).1 (hout pa hp).2.1
      (hout pa hp).2.2.2.2.1

/-! # `connect34` realizes the single and the double rotation: the claim -/

/-- A tree held at a pointer to the node `b`: its root is `b`, with the key and value of the
record, and its subtrees are held at the links of the record. -/
theorem child_split {h : Heap K V} {q par : Option Nat} {S : Shape K V} {b : Nat}
    {nb : BinNode K V} (ho : Owns h q S) (hp : Parented h par S) (hq : q = some b)
    (hnb : h[b]? = some nb) :
    ∃ l r, S = .node l b nb.key nb.value r ∧ Owns h nb.lc l ∧ Owns h nb.rc r ∧
      nb.parent = par ∧ Parented h (some b) l ∧ Parented h (some b) r := by
  cases S with
  | nil =>
    have hn : q = none := ho
    rw [hn] at hq
    cases hq
  | node l a k u r =>
    obtain ⟨hqa, n, hn, hk, hu, hl, hr⟩ := ho
    obtain ⟨⟨n1, hn1, hnp⟩, hpl, hpr⟩ := hp
    have hab : a = b := Option.some.inj (hqa.symm.trans hq)
    subst hab
    rw [hnb] at hn hn1
    cases hn
    cases hn1
    subst hk hu
    exact ⟨l, r, rfl, hl, hr, hnp, hpl, hpr⟩

/-- The subtree at a node `g` of a well-formed tree, and the parent of `g` outside it. -/
theorem subtree_split {h : Heap K V} {p0 : Option Nat} {T : Shape K V} (ho : Owns h p0 T)
    (hnd : T.addrs.Nodup) (hpar : Parented h none T) {g : Nat} {ng : BinNode K V}
    (hg : g ∈ T.addrs) (hng : h[g]? = some ng) :
    ∃ l r, Owns h ng.lc l ∧ Owns h ng.rc r ∧ Parented h (some g) l ∧ Parented h (some g) r ∧
      (Shape.node l g ng.key ng.value r).addrs.Nodup ∧
      ∀ pa, ng.parent = some pa → pa ∉ (Shape.node l g ng.key ng.value r).addrs ∧
        pa < h.length ∧ ∃ npa, h[pa]? = some npa := by
  obtain ⟨c, l, k, u, r, rfl⟩ := Shape.split_at T g hg
  obtain ⟨q, hq⟩ := Owns.of_fill c _ p0 ho
  obtain ⟨l1, r1, hS, hl, hr, -, hpl, hpr⟩ :=
    child_split hq (Parented.of_fill_par c _ none hpar) hq.1 hng
  injection hS with e1 e2 e3 e4 e5
  subst e1 e3 e4 e5
  obtain ⟨-, -, hpf⟩ := parent_facts (S := Shape.node l g ng.key ng.value r) rfl ho hnd hpar hng
  refine ⟨l, r, hl, hr, hpl, hpr, (Ctx.nodup_fill hnd).1, fun pa hp => ?_⟩
  obtain ⟨h1, h2, npa, hnpa, -⟩ := hpf pa hp
  exact ⟨h1, h2, npa, hnpa⟩

/-- The left-left case on a well-formed tree. -/
theorem realizes_ll {h : Heap K V} {p0 : Option Nat} {T : Shape K V} (ho : Owns h p0 T)
    (hnd : T.addrs.Nodup) (hpar : Parented h none T) {g p v : Nat} {ng np nv : BinNode K V}
    (hg : g ∈ T.addrs) (hng : h[g]? = some ng) (hnp : h[p]? = some np)
    (hnv : h[v]? = some nv) (hgl : ng.lc = some p) (hpl : np.lc = some v)
    (hv : HeightOK h v) :
    ∃ hR hC, rightRotate h (some g) = .ok (hR, some p) ∧
      connect34 h (some v) (some p) (some g) nv.lc nv.rc np.rc ng.rc = .ok (hC, some p) ∧
      SameSubtree h hR hC v p g g nv np ng nv.lc nv.rc np.rc ng.rc ng.parent := by
  obtain ⟨l, r, ol, o3, pl, q3, hSnd, hpa⟩ := subtree_split ho hnd hpar hg hng
  obtain ⟨ll, T2, rfl, oll, o2, -, pll, -⟩ := child_split ol pl hgl hnp
  obtain ⟨T0, T1, rfl, o0, o1, hvp, q0, q1⟩ := child_split oll pll hpl hnv
  have hadd : (Shape.node (.node T0 v nv.key nv.value T1) p np.key np.value
      (.node T2 g ng.key ng.value r)).addrs
      = (Shape.node (.node (.node T0 v nv.key nv.value T1) p np.key np.value T2)
        g ng.key ng.value r).addrs := by
    simp [Shape.addrs]
  obtain ⟨nv1, hnv1, hvh⟩ := hv
  rw [hnv] at hnv1
  cases hnv1
  have hnd1 := hSnd
  rw [← hadd] at hnd1
  obtain ⟨run, jR, hpaR⟩ := joined_single_ll hng hnp hnv hgl hpl hvp o0 o1 o2 o3 q0 q1 q3 hnd1
    (fun pa hp => ⟨by rw [hadd]; exact (hpa pa hp).1, (hpa pa hp).2.1⟩) hvh
  obtain ⟨hC, hrunC, hl, hoC, hoR, hh⟩ := realizes_of_joined hnv hnp hng o0 o1 o2 o3 hnd1 jR
    (fun pa hp => by
      obtain ⟨e1, -, npa, hnpa⟩ := hpa pa hp
      exact ⟨by rw [hadd]; exact e1, npa, hnpa, hpaR pa npa hp hnpa⟩)
  exact ⟨_, hC, run, hrunC, T0, T1, T2, r, o0, o1, o2, o3, hoR, hoC, hh, hl⟩

/-- The right-right case on a well-formed tree. -/
theorem realizes_rr {h : Heap K V} {p0 : Option Nat} {T : Shape K V} (ho : Owns h p0 T)
    (hnd : T.addrs.Nodup) (hpar : Parented h none T) {g p v : Nat} {ng np nv : BinNode K V}
    (hg : g ∈ T.addrs) (hng : h[g]? = some ng) (hnp : h[p]? = some np)
    (hnv : h[v]? = some nv) (hgr : ng.rc = some p) (hpr : np.rc = some v)
    (hv : HeightOK h v) :
    ∃ hR hC, leftRotate h (some g) = .ok (hR, some p) ∧
      connect34 h (some g) (some p) (some v) ng.lc np.lc nv.lc nv.rc = .ok (hC, some p) ∧
      SameSubtree h hR hC g p v g ng np nv ng.lc np.lc nv.lc nv.rc ng.parent := by
  obtain ⟨l, r, o0, orr, q0, pr, hSnd, hpa⟩ := subtree_split ho hnd hpar hg hng
  obtain ⟨T1, rr, rfl, o1, orr2, -, -, prr⟩ := child_split orr pr hgr hnp
  obtain ⟨T2, T3, rfl, o2, o3, hvp, q2, q3⟩ := child_split orr2 prr hpr hnv
  have hadd : (Shape.node (.node l g ng.key ng.value T1) p np.key np.value
      (.node T2 v nv.key nv.value T3)).addrs
      = (Shape.node l g ng.key ng.value (.node T1 p np.key np.value
        (.node T2 v nv.key nv.value T3))).addrs := by
    simp [Shape.addrs]
  obtain ⟨nv1, hnv1, hvh⟩ := hv
  rw [hnv] at hnv1
  cases hnv1
  have hnd1 := hSnd
  rw [← hadd] at hnd1
  obtain ⟨run, jR, hpaR⟩ := joined_single_rr hng hnp hnv hgr hpr hvp o0 o1 o2 o3 q0 q2 q3 hnd1
    (fun pa hp => ⟨by rw [hadd]; exact (hpa pa hp).1, (hpa pa hp).2.1⟩) hvh
  obtain ⟨hC, hrunC, hl, hoC, hoR, hh⟩ := realizes_of_joined hng hnp hnv o0 o1 o2 o3 hnd1 jR
    (fun pa hp => by
      obtain ⟨e1, -, npa, hnpa⟩ := hpa pa hp
      exact ⟨by rw [hadd]; exact e1, npa, hnpa, hpaR pa npa hp hnpa⟩)
  exact ⟨_, hC, run, hrunC, l, T1, T2, T3, o0, o1, o2, o3, hoR, hoC, hh, hl⟩

/-- The left-right case on a well-formed tree. -/
theorem realizes_lr {h : Heap K V} {p0 : Option Nat} {T : Shape K V} (ho : Owns h p0 T)
    (hnd : T.addrs.Nodup) (hpar : Parented h none T) {g p v : Nat} {ng np nv : BinNode K V}
    (hg : g ∈ T.addrs) (hng : h[g]? = some ng) (hnp : h[p]? = some np)
    (hnv : h[v]? = some nv) (hgl : ng.lc = some p) (hpr : np.rc = some v) :
    ∃ h1 hR hC, leftRotate h (some p) = .ok (h1, some v) ∧
      rightRotate h1 (some g) = .ok (hR, some v) ∧
      connect34 h (some p) (some v) (some g) np.lc nv.lc nv.rc ng.rc = .ok (hC, some v) ∧
      SameSubtree h hR hC p v g g np nv ng np.lc nv.lc nv.rc ng.rc ng.parent := by
  obtain ⟨l, r, ol, o3, pl, q3, hSnd, hpa⟩ := subtree_split ho hnd hpar hg hng
  obtain ⟨T0, lr, rfl, o0, olr, hpp, q0, plr⟩ := child_split ol pl hgl hnp
  obtain ⟨T1, T2, rfl, o1, o2, -, -, -⟩ := child_split olr plr hpr hnv
  have hadd : (Shape.node (.node T0 p np.key np.value T1) v nv.key nv.value
      (.node T2 g ng.key ng.value r)).addrs
      = (Shape.node (.node T0 p np.key np.value (.node T1 v nv.key nv.value T2))
        g ng.key ng.value r).addrs := by
    simp [Shape.addrs]
  have hnd1 := hSnd
  rw [← hadd] at hnd1
  obtain ⟨h1, hR, run1, run2, jR, hpaR⟩ := joined_double_lr hng hnp hnv hgl hpr hpp
    o0 o1 o2 o3 q0 q3 hnd1
    (fun pa hp => ⟨by rw [hadd]; exact (hpa pa hp).1, (hpa pa hp).2.1⟩)
  obtain ⟨hC, hrunC, hl, hoC, hoR, hh⟩ := realizes_of_joined hnp hnv hng o0 o1 o2 o3 hnd1 jR
    (fun pa hp => by
      obtain ⟨e1, -, npa, hnpa⟩ := hpa pa hp
      exact ⟨by rw [hadd]; exact e1, npa, hnpa, hpaR pa npa hp hnpa⟩)
  exact ⟨h1, hR, hC, run1, run2, hrunC, T0, T1, T2, r, o0, o1, o2, o3, hoR, hoC, hh, hl⟩

/-- The right-left case on a well-formed tree. -/
theorem realizes_rl {h : Heap K V} {p0 : Option Nat} {T : Shape K V} (ho : Owns h p0 T)
    (hnd : T.addrs.Nodup) (hpar : Parented h none T) {g p v : Nat} {ng np nv : BinNode K V}
    (hg : g ∈ T.addrs) (hng : h[g]? = some ng) (hnp : h[p]? = some np)
    (hnv : h[v]? = some nv) (hgr : ng.rc = some p) (hpl : np.lc = some v) :
    ∃ h1 hR hC, rightRotate h (some p) = .ok (h1, some v) ∧
      leftRotate h1 (some g) = .ok (hR, some v) ∧
      connect34 h (some g) (some v) (some p) ng.lc nv.lc nv.rc np.rc = .ok (hC, some v) ∧
      SameSubtree h hR hC g v p g ng nv np ng.lc nv.lc nv.rc np.rc ng.parent := by
  obtain ⟨l, r, o0, orr, q0, pr, hSnd, hpa⟩ := subtree_split ho hnd hpar hg hng
  obtain ⟨rl, T3, rfl, orl, o3, hpp, prl, q3⟩ := child_split orr pr hgr hnp
  obtain ⟨T1, T2, rfl, o1, o2, -, -, -⟩ := child_split orl prl hpl hnv
  have hadd : (Shape.node (.node l g ng.key ng.value T1) v nv.key nv.value
      (.node T2 p np.key np.value T3)).addrs
      = (Shape.node l g ng.key ng.value (.node (.node T1 v nv.key nv.value T2)
        p np.key np.value T3)).addrs := by
    simp [Shape.addrs]
  have hnd1 := hSnd
  rw [← hadd] at hnd1
  obtain ⟨h1, hR, run1, run2, jR, hpaR⟩ := joined_double_rl hng hnp hnv hgr hpl hpp
    o0 o1 o2 o3 q0 q3 hnd1
    (fun pa hp => ⟨by rw [hadd]; exact (hpa pa hp).1, (hpa pa hp).2.1⟩)
  obtain ⟨hC, hrunC, hl, hoC, hoR, hh⟩ := realizes_of_joined hng hnv hnp o0 o1 o2 o3 hnd1 jR
    (fun pa hp => by
      obtain ⟨e1, -, npa, hnpa⟩ := hpa pa hp
      exact ⟨by rw [hadd]; exact e1, npa, hnpa, hpaR pa npa hp hnpa⟩)
  exact ⟨h1, hR, hC, run1, run2, hrunC, l, T1, T2, T3, o0, o1, o2, o3, hoR, hoC, hh, hl⟩

theorem kneeHeap_owns : Owns kneeHeap (some 0) kneeShape := by
  simp [Owns, kneeHeap, kneeShape, blackNode]

theorem kneeHeap_parented : Parented kneeHeap none kneeShape := by
  simp [Parented, kneeHeap, kneeShape, blackNode]

theorem elbowHeap_owns : Owns elbowHeap (some 0) elbowShape := by
  simp [Owns, elbowHeap, elbowShape, blackNode]

theorem elbowHeap_parented : Parented elbowHeap none elbowShape := by
  simp [Parented, elbowHeap, elbowShape, blackNode]

/-- Claim C21: in a tree held by the heap, with consistent parent links and no node
occurring twice, let `g`, `p`, `v` be nodes with the records `ng`, `np`, `nv`. If `p` is the
left child of `g` and `v` the left child of `p`, and the cached height of `v` satisfies the
height formula, then `rightRotate(g)` and `connect34(v, p, g, v.lc, v.rc, p.rc, g.rc)` both
return `p`; if `v` is the right child of `p`, then `leftRotate(p)` followed by
`rightRotate(g)`, and `connect34(p, v, g, p.lc, v.lc, v.rc, g.rc)`, both return `v`; the
mirrored cases are `leftRotate(g)` against `connect34(g, p, v, g.lc, p.lc, v.lc, v.rc)`
and `rightRotate(p)` followed by `leftRotate(g)` against
`connect34(g, v, p, g.lc, v.lc, v.rc, p.rc)`. In each case the two resulting heaps hold the
same subtree at the returned node, with the same keys, values and cached heights, and
differ only in that after the rotations the returned node is linked to the former parent
of `g`, in both directions. -/
theorem connect34_realizes_rotations (h : Heap K V) (p0 : Option Nat) (T : Shape K V)
    (ho : Owns h p0 T) (hnd : T.addrs.Nodup) (hpar : Parented h none T) (g p v : Nat)
    (ng np nv : BinNode K V) (hg : g ∈ T.addrs) (hng : h[g]? = some ng)
    (hnp : h[p]? = some np) (hnv : h[v]? = some nv) :
    (ng.lc = some p → np.lc = some v → HeightOK h v →
      ∃ hR hC, rightRotate h (some g) = .ok (hR, some p) ∧
        connect34 h (some v) (some p) (some g) nv.lc nv.rc np.rc ng.rc = .ok (hC, some p) ∧
        SameSubtree h hR hC v p g g nv np ng nv.lc nv.rc np.rc ng.rc ng.parent) ∧
    (ng.lc = some p → np.rc = some v →
      ∃ h1 hR hC, leftRotate h (some p) = .ok (h1, some v) ∧
        rightRotate h1 (some g) = .ok (hR, some v) ∧
        connect34 h (some p) (some v) (some g) np.lc nv.lc nv.rc ng.rc = .ok (hC, some v) ∧
        SameSubtree h hR hC p v g g np nv ng np.lc nv.lc nv.rc ng.rc ng.parent) ∧
    (ng.rc = some p → np.rc = some v → HeightOK h v →
      ∃ hR hC, leftRotate h (some g) = .ok (hR, some p) ∧
        connect34 h (some g) (some p) (some v) ng.lc np.lc nv.lc nv.rc = .ok (hC, some p) ∧
        SameSubtree h hR hC g p v g ng np nv ng.lc np.lc nv.lc nv.rc ng.parent) ∧
    (ng.rc = some p → np.lc = some v →
      ∃ h1 hR hC, rightRotate h (some p) = .ok (h1, some v) ∧
        leftRotate h1 (some g) = .ok (hR, some v) ∧
        connect34 h (some g) (some v) (some p) ng.lc nv.lc nv.rc np.rc = .ok (hC, some v) ∧
        SameSubtree h hR hC g v p g ng nv np ng.lc nv.lc nv.rc np.rc ng.parent) :=
  ⟨fun hgl hpl hv => realizes_ll ho hnd hpar hg hng hnp hnv hgl hpl hv,
    fun hgl hpr => realizes_lr ho hnd hpar hg hng hnp hnv hgl hpr,
    fun hgr hpr hv => realizes_rr ho hnd hpar hg hng hnp hnv hgr hpr hv,
    fun hgr hpl => realizes_rl ho hnd hpar hg hng hnp hnv hgr hpl⟩

/-- Claim C21 applies to `kneeHeap`, where node 1 has the parent 0 and the left child 2,
whose children are 3 and 4, and to its mirror image `elbowHeap`: the left-left case with
`v` node 3, the left-right case with `v` node 4, and the two mirrored cases. Evaluated on
the left-left case, the two heaps differ in the parent link of node 2 and the left link of
the root only. -/
theorem connect34_realizes_rotations_witness :
    (Owns kneeHeap (some 0) kneeShape ∧ kneeShape.addrs.Nodup ∧
      Parented kneeHeap none kneeShape ∧ 1 ∈ kneeShape.addrs ∧
      kneeHeap[1]? = some (blackNode 30 2 (some 0) (some 2) none) ∧
      kneeHeap[2]? = some (blackNode 10 1 (some 1) (some 3) (some 4)) ∧
      kneeHeap[3]? = some (blackNode 5 0 (some 2) none none) ∧
      kneeHeap[4]? = some (blackNode 20 0 (some 2) none none) ∧ HeightOK kneeHeap 3 ∧
      Owns elbowHeap (some 0) elbowShape ∧ elbowShape.addrs.Nodup ∧
      Parented elbowHeap none elbowShape ∧ 1 ∈ elbowShape.addrs ∧ HeightOK elbowHeap 3) ∧
    (∃ hR hC, rightRotate kneeHeap (some 1) = .ok (hR, some 2) ∧
      connect34 kneeHeap (some 3) (some 2) (some 1) none none (some 4) none
        = .ok (hC, some 2) ∧
      SameSubtree kneeHeap hR hC 3 2 1 1 (blackNode 5 0 (some 2) none none)
        (blackNode 10 1 (some 1) (some 3) (some 4)) (blackNode 30 2 (some 0) (some 2) none)
        none none (some 4) none (some 0)) ∧
    (∃ h1 hR hC, leftRotate kneeHeap (some 2) = .ok (h1, some 4) ∧
      rightRotate h1 (some 1) = .ok (hR, some 4) ∧
      connect34 kneeHeap (some 2) (some 4) (some 1) (some 3) none none none
        = .ok (hC, some 4) ∧
      SameSubtree kneeHeap hR hC 2 4 1 1 (blackNode 10 1 (some 1) (some 3) (some 4))
        (blackNode 20 0 (some 2) none none) (blackNode 30 2 (some 0) (some 2) none)
        (some 3) none none none (some 0)) ∧
    (∃ hR hC, leftRotate elbowHeap (some 1) = .ok (hR, some 2) ∧
      connect34 elbowHeap (some 1) (some 2) (some 3) none (some 4) none none
        = .ok (hC, some 2) ∧
      SameSubtree elbowHeap hR hC 1 2 3 1 (blackNode 30 2 (some 0) none (some 2))
        (blackNode 50 1 (some 1) (some 4) (some 3)) (blackNode 60 0 (some 2) none none)
        none (some 4) none none (some 0)) ∧
    (∃ h1 hR hC, rightRotate elbowHeap (some 2) = .ok (h1, some 4) ∧
      leftRotate h1 (some 1) = .ok (hR, some 4) ∧
      connect34 elbowHeap (some 1) (some 4) (some 2) none none none (some 3)
        = .ok (hC, some 4) ∧
      SameSubtree elbowHeap hR hC 1 4 2 1 (blackNode 30 2 (some 0) none (some 2))
        (blackNode 40 0 (some 2) none none) (blackNode 50 1 (some 1) (some 4) (some 3))
        none none none (some 3) (some 0)) ∧
    rightRotate kneeHeap (some 1) = .ok
      ([blackNode 50 3 none (some 2) none, blackNode 30 1 (some 2) (some 4) none,
        blackNode 10 2 (some 0) (some 3) (some 1), blackNode 5 0 (some 2) none none,
        blackNode 20 0 (some 1) none none], some 2) ∧
    connect34 kneeHeap (some 3) (some 2) (some 1) none none (some 4) none = .ok
      ([blackNode 50 3 none (some 1) none, blackNode 30 1 (some 2) (some 4) none,
        blackNode 10 2 (some 1) (some 3) (some 1), blackNode 5 0 (some 2) none none,
        blackNode 20 0 (some 1) none none], some 2) :=
  ⟨⟨kneeHeap_owns, by decide, kneeHeap_parented, by decide, rfl, rfl, rfl, rfl,
      ⟨_, rfl, by decide⟩, elbowHeap_owns, by decide, elbowHeap_parented, by decide,
      ⟨_, rfl, by decide⟩⟩,
    (connect34_realizes_rotations kneeHeap (some 0) kneeShape kneeHeap_owns (by decide)
      kneeHeap_parented 1 2 3 _ _ _ (by decide) rfl rfl rfl).1 rfl rfl ⟨_, rfl, by decide⟩,
    (connect34_realizes_rotations kneeHeap (some 0) kneeShape kneeHeap_owns (by decide)
      kneeHeap_parented 1 2 4 _ _ _ (by decide) rfl rfl rfl).2.1 rfl rfl,
    (connect34_realizes_rotations elbowHeap (some 0) elbowShape elbowHeap_owns (by decide)
      elbowHeap_parented 1 2 3 _ _ _ (by decide) rfl rfl rfl).2.2.1 rfl rfl
      ⟨_, rfl, by decide⟩,
    (connect34_realizes_rotations elbowHeap (some 0) elbowShape elbowHeap_owns (by decide)
      elbowHeap_parented 1 2 4 _ _ _ (by decide) rfl rfl rfl).2.2.2 rfl rfl,
    by rfl, by rfl⟩

end tree
